import Mathlib

/-!
# jlcompress: a shallow embedding of the codec pipeline

The C sources (`dataBlocks.c`, `flipper.c`, `runLengthCompressor.c`,
`huffmanCompressor.c`, `huffmanTree.c`, `header.c`, `compression.c`) are
rendered as Lean functions over an explicit `BlockDescriptor` value.

Conventions of the embedding

* A byte is a `Nat`; every store into an `unsigned char` reduces modulo 256.
* `address` is the memory seen from the block's base pointer, as a map from
  offsets to bytes.  Offsets below `allocatedSize` are the buffer; offsets at or
  above it are whatever lies behind the buffer.  The C code reads such a cell
  in one place (`runLengthCompress`), so the map is total.
* `malloc` hands out memory with indeterminate contents: every function that
  allocates takes the prior contents of the fresh region as a `heap` argument.
  `realloc` keeps the bytes already there; the cells it adds keep the value the
  region had before.
* `size_t` quantities are unbounded naturals (a block never holds 2^64 bytes);
  narrower C types (`unsigned char`, `unsigned`) are reduced modulo 2^8, 2^32
  where the source can overflow them.
* `error(...)` terminates the process: a call is rendered as `Except.error`
  with a `Failure` naming the message.  Dereferencing `NULL` is rendered as
  `Failure.nullDereference`.
* `displayStatistics` only prints, and is left out.
-/

set_option maxRecDepth 100000

namespace JLCompress

/-- Reasons for which a run stops without a result.  Each constructor but the
last three stands for one `error(...)` call of the C sources. -/
inductive Failure where
  /-- "attempt to read past end of data block" (`dataBlocks.c`). -/
  | readPastEnd
  /-- "File already has bit order flipped" (`flipper.c`). -/
  | alreadyFlipped
  /-- "File already run length encoded" (`runLengthCompressor.c`). -/
  | alreadyRunLengthEncoded
  /-- "Damaged input file - ends with escape symbol". -/
  | endsWithEscapeSymbol
  /-- "Damaged input file - ends with repeat symbol". -/
  | endsWithRepeatSymbol
  /-- "Damaged input file - ends with repeat count". -/
  | endsWithRepeatCount
  /-- "File already Huffman encoded" (`huffmanCompressor.c`). -/
  | alreadyHuffmanEncoded
  /-- "Frequency table out of order" (`writeFrequencyTableToBlock`). -/
  | frequencyTableOutOfOrder
  /-- "Not all characters in file have patterns" (`huffmanCompress`). -/
  | notAllCharactersHavePatterns
  /-- "Unused characters in file have patterns" (`huffmanCompress`). -/
  | unusedCharactersHavePatterns
  /-- "Frequency table bad order" (`walkHuffmanTree`). -/
  | frequencyTableBadOrder
  /-- "Been here already" (`walkHuffmanTree`). -/
  | beenHereAlready
  /-- "Huffman bit count field overflow" (`walkHuffmanTree`). -/
  | huffmanBitCountOverflow
  /-- "Popping from empty queue" (`pqueuePop`). -/
  | poppingFromEmptyQueue
  /-- "Looks like a compressed file, but cannot understand encoding". -/
  | cannotUnderstandEncoding
  /-- "File too small to be a compressed file" (`mapCompressedFile`). -/
  | fileTooSmall
  /-- A `NULL` pointer is dereferenced; the process crashes. -/
  | nullDereference
  /-- An `int` is shifted left by 32 bits or more, which C leaves undefined. -/
  | undefinedShift
  /-- The loop budget of the embedding ran out (never the case for the budgets
  the callers pass; the C loop has no such budget). -/
  | outOfFuel
  deriving DecidableEq, Repr

/-! ## `compression.h`: the block descriptor -/

/-- The anonymous `enum` of the `type` field of a block descriptor. -/
inductive BlockType where
  | UNDEFINED_TYPE
  | MEMORY_TYPE
  | COMPRESSED_FILE_TYPE
  | UNCOMPRESSED_FILE_TYPE
  deriving DecidableEq, Repr

/-- The C `BlockDescriptor` struct; `fileDescriptor` (used only to unmap and
close a mapped file) is left out. -/
structure BlockDescriptor where
  address : Nat → Nat
  allocatedSize : Nat
  nextFreeByte : Nat
  nextFreeBit : Nat
  nextByteToRead : Nat
  nextBitToRead : Nat
  usedSize : Nat
  type : BlockType
  encoding : Nat

/-- The C `struct CompressionFlags`: which stages `compress` applies. -/
structure CompressionFlags where
  flip : Bool
  rle : Bool
  huffman : Bool
  deriving DecidableEq, Repr

/-- The logical content of a block: its first `usedSize` bytes (what
`createFile` writes out with `fwrite`). -/
def contents (block : BlockDescriptor) : List Nat :=
  (List.range block.usedSize).map block.address

/-- Memory after the assignment `base[index] = value` to an `unsigned char`
cell. -/
def store (memory : Nat → Nat) (index value : Nat) : Nat → Nat :=
  fun offset => if offset = index then value % 256 else memory offset

/-! ## `header.h` / `header.c`: encoding flags -/

def ENCODING_RUN_LENGTH : Nat := 0x1

def ENCODING_FLIPPED : Nat := 0x2

def ENCODING_HUFFMAN : Nat := 0x4

def HEADER_SIZE : Nat := 5

def getHeaderSize : Nat := HEADER_SIZE

/-- C truth of an integer expression used as a condition. -/
def truthy (value : Nat) : Bool := value != 0

/-- The C expression `e & ~flag` on an `unsigned char` encoding `e`, stored
back into an `unsigned char`. -/
def clearFlag (encoding flag : Nat) : Nat := encoding % 256 &&& (255 - flag)

def isFlipped (blockDescriptor : BlockDescriptor) : Bool :=
  truthy (blockDescriptor.encoding &&& ENCODING_FLIPPED)

def isRleCompressed (blockDescriptor : BlockDescriptor) : Bool :=
  truthy (blockDescriptor.encoding &&& ENCODING_RUN_LENGTH)

def isHuffmanCompressed (blockDescriptor : BlockDescriptor) : Bool :=
  truthy (blockDescriptor.encoding &&& ENCODING_HUFFMAN)

/-! ## `dataBlocks.c` -/

/-- Counterpart of `makeBlockDescriptor`; `address` is `NULL` in C and is set by
every caller, so it is taken as an argument here. -/
def makeBlockDescriptor (address : Nat → Nat) : BlockDescriptor :=
  { address := address
    allocatedSize := 0
    usedSize := 0
    nextFreeByte := 0
    nextFreeBit := 0
    nextByteToRead := 0
    nextBitToRead := 0
    type := BlockType.UNDEFINED_TYPE
    encoding := 0 }

/-- Counterpart of `makeMemoryBlock(size)`; `heap` is the indeterminate content
of the region `malloc` returns. -/
def makeMemoryBlock (heap : Nat → Nat) (size : Nat) : BlockDescriptor :=
  { makeBlockDescriptor heap with
    allocatedSize := size
    type := BlockType.MEMORY_TYPE
    encoding := 0 }

/-- Counterpart of `getBit`: `mask = 1 << bitNumber` as an `unsigned char`. -/
def getBit (bitNumber byte : Nat) : Bool :=
  let mask := (1 <<< bitNumber) % 256
  truthy (byte &&& mask)

/-- Counterpart of `setBit`, returning the new value of the byte. -/
def setBit (bitNumber byte : Nat) (value : Bool) : Nat :=
  let mask := (1 <<< bitNumber) % 256
  if value then (byte ||| mask) % 256 else (byte % 256) &&& (255 - mask)

/-- The capacity `writeToBlock` and `writeBitToBlock` pass to `realloc`. -/
def grownSize (allocatedSize : Nat) : Nat :=
  allocatedSize + ((allocatedSize + 1) / 2)

/-- Counterpart of `writeToBlock`: the block afterwards and the returned
offset. -/
def writeToBlock (blockDescriptor : BlockDescriptor) (character : Nat) :
    BlockDescriptor × Nat :=
  let grown : BlockDescriptor :=
    if blockDescriptor.nextFreeByte ≥ blockDescriptor.allocatedSize then
      { blockDescriptor with allocatedSize := grownSize blockDescriptor.allocatedSize }
    else blockDescriptor
  let returnIndex := grown.nextFreeByte
  ({ grown with
      address := store grown.address grown.nextFreeByte character
      nextFreeByte := grown.nextFreeByte + 1
      usedSize := grown.nextFreeByte + 1 }, returnIndex)

/-- Counterpart of `writeBitToBlock`; `nextFreeBit` is an `unsigned char`. -/
def writeBitToBlock (blockDescriptor : BlockDescriptor) (value : Bool) : BlockDescriptor :=
  let grown : BlockDescriptor :=
    if blockDescriptor.nextFreeBit = 0 then
      let used := { blockDescriptor with usedSize := blockDescriptor.nextFreeByte + 1 }
      if used.nextFreeByte ≥ used.allocatedSize then
        { used with allocatedSize := grownSize used.allocatedSize }
      else used
    else blockDescriptor
  let written : BlockDescriptor :=
    { grown with
      address := store grown.address grown.nextFreeByte
        (setBit grown.nextFreeBit (grown.address grown.nextFreeByte) value) }
  if (written.nextFreeBit + 1) % 256 > 7 then
    { written with nextFreeBit := 0, nextFreeByte := written.nextFreeByte + 1 }
  else
    { written with nextFreeBit := (written.nextFreeBit + 1) % 256 }

/-- Counterpart of `readBitFromBlock`: the bit and the block with its read
cursor advanced; `nextBitToRead` is an `unsigned char`. -/
def readBitFromBlock (inputBlock : BlockDescriptor) : Except Failure (Bool × BlockDescriptor) :=
  if inputBlock.nextByteToRead ≥ inputBlock.allocatedSize then
    .error .readPastEnd
  else
    let value := getBit inputBlock.nextBitToRead (inputBlock.address inputBlock.nextByteToRead)
    if (inputBlock.nextBitToRead + 1) % 256 > 7 then
      .ok (value, { inputBlock with
                    nextBitToRead := 0
                    nextByteToRead := inputBlock.nextByteToRead + 1 })
    else
      .ok (value, { inputBlock with nextBitToRead := (inputBlock.nextBitToRead + 1) % 256 })

/-- Counterpart of `readFromBlock`: the byte and the block with its read cursor
advanced. -/
def readFromBlock (inputBlock : BlockDescriptor) : Except Failure (Nat × BlockDescriptor) :=
  if inputBlock.nextByteToRead ≥ inputBlock.allocatedSize then
    .error .readPastEnd
  else
    .ok (inputBlock.address inputBlock.nextByteToRead,
         { inputBlock with nextByteToRead := inputBlock.nextByteToRead + 1 })

/-! ## `flipper.c` -/

/-- The `for (offset ...)` loop of `flipBlock` for one value of `bitNumber`. -/
def flipBlockRow (inputBlock : BlockDescriptor) (bitNumber : Nat)
    (outputBlock : BlockDescriptor) : BlockDescriptor :=
  (List.range inputBlock.usedSize).foldl
    (fun out offset => writeBitToBlock out (getBit bitNumber (inputBlock.address offset)))
    outputBlock

/-- The `while (bitNumber-- != 0)` loop of `flipBlock`, entered with the value
of `bitNumber` before the test. -/
def flipBlockLoop (inputBlock : BlockDescriptor) : Nat → BlockDescriptor → BlockDescriptor
  | 0, outputBlock => outputBlock
  | bitNumber + 1, outputBlock =>
      flipBlockLoop inputBlock bitNumber (flipBlockRow inputBlock bitNumber outputBlock)

/-- Counterpart of `flipBlock`: the input block as the function leaves it (its
`usedSize` is overwritten) and the output block. -/
def flipBlock (heap : Nat → Nat) (inputBlock : BlockDescriptor) :
    BlockDescriptor × BlockDescriptor :=
  let outputBlock := flipBlockLoop inputBlock 8 (makeMemoryBlock heap inputBlock.usedSize)
  ({ inputBlock with usedSize := outputBlock.usedSize }, outputBlock)

/-- One pass of the body of the inner loop of `unflipBlock`. -/
def unflipBlockStep (bitNumber : Nat) (blocks : BlockDescriptor × BlockDescriptor)
    (offset : Nat) : Except Failure (BlockDescriptor × BlockDescriptor) := do
  let (bit, inputBlock) ← readBitFromBlock blocks.1
  let outputBlock := blocks.2
  pure (inputBlock,
        { outputBlock with
          address := store outputBlock.address offset
            (setBit bitNumber (outputBlock.address offset) bit) })

/-- The `for (offset ...)` loop of `unflipBlock` for one value of `bitNumber`;
the state is the pair of input block and output block. -/
def unflipBlockRow (usedSize bitNumber : Nat) (blocks : BlockDescriptor × BlockDescriptor) :
    Except Failure (BlockDescriptor × BlockDescriptor) :=
  (List.range usedSize).foldlM (unflipBlockStep bitNumber) blocks

/-- The `while (bitNumber-- != 0)` loop of `unflipBlock`. -/
def unflipBlockLoop (usedSize : Nat) :
    Nat → BlockDescriptor × BlockDescriptor → Except Failure (BlockDescriptor × BlockDescriptor)
  | 0, blocks => pure blocks
  | bitNumber + 1, blocks => do
      let next ← unflipBlockRow usedSize bitNumber blocks
      unflipBlockLoop usedSize bitNumber next

/-- Counterpart of `unflipBlock`: the input block with its read cursor advanced,
and the output block. -/
def unflipBlock (heap : Nat → Nat) (inputBlock : BlockDescriptor) :
    Except Failure (BlockDescriptor × BlockDescriptor) := do
  let (input, output) ←
    unflipBlockLoop inputBlock.usedSize 8
      (inputBlock, makeMemoryBlock heap inputBlock.usedSize)
  pure (input, { output with usedSize := input.usedSize })

/-- Counterpart of `flipBitOrder`; the result is the output block. -/
def flipBitOrder (heap : Nat → Nat) (inputBlock : BlockDescriptor) :
    Except Failure BlockDescriptor :=
  if isFlipped inputBlock then .error .alreadyFlipped
  else
    let (input, outputBlock) := flipBlock heap inputBlock
    .ok { outputBlock with encoding := (input.encoding ||| ENCODING_FLIPPED) % 256 }

/-- Counterpart of `unflipBitOrder`; `none` is the `NULL` returned for a block
that is not flipped. -/
def unflipBitOrder (heap : Nat → Nat) (inputBlock : BlockDescriptor) :
    Except Failure (Option BlockDescriptor) :=
  if !isFlipped inputBlock then .ok none
  else do
    let (input, outputBlock) ← unflipBlock heap inputBlock
    pure (some { outputBlock with encoding := clearFlag input.encoding ENCODING_FLIPPED })

/-! ## `runLengthCompressor.c` -/

def REPEAT_SYMBOL : Nat := 235

def ESCAPE_SYMBOL : Nat := 236

/-- Conversion of an `int` to `unsigned char`. -/
def toUnsignedChar (value : Int) : Nat := (value % 256).toNat

/-- Counterpart of `writeByte`. -/
def writeByte (outputBlock : BlockDescriptor) (character : Nat) : BlockDescriptor :=
  let escaped :=
    if character = REPEAT_SYMBOL ∨ character = ESCAPE_SYMBOL then
      (writeToBlock outputBlock ESCAPE_SYMBOL).1
    else outputBlock
  (writeToBlock escaped character).1

/-- The loop `while (repeatCount-- != 0) writeByte(outputBlock, character);` of
`writeRepeat`, entered with the value of `repeatCount` before the test. -/
def writeRepeatLoop (character : Nat) : Nat → BlockDescriptor → BlockDescriptor
  | 0, outputBlock => outputBlock
  | repeatCount + 1, outputBlock =>
      writeRepeatLoop character repeatCount (writeByte outputBlock character)

/-- Counterpart of `writeRepeat`; `repeatCount` is an `unsigned`, `character` an
`unsigned char`. -/
def writeRepeat (outputBlock : BlockDescriptor) (repeatCount character : Nat) :
    BlockDescriptor :=
  if repeatCount < 3 ∧ character ≠ ESCAPE_SYMBOL ∧ character ≠ REPEAT_SYMBOL then
    writeRepeatLoop character repeatCount (writeByte outputBlock character)
  else
    let first := (writeToBlock outputBlock REPEAT_SYMBOL).1
    let second := (writeToBlock first repeatCount).1
    (writeToBlock second character).1

/-- The local variables of `runLengthCompress` that its loop updates.
`lastCharacter` is an `int` (-1 before the first byte), `repeatCount` an
`unsigned char`, `charPointer` the offset of the C pointer from
`inputBlock->address`. -/
structure RunLengthState where
  outputBlock : BlockDescriptor
  charPointer : Nat
  lastCharacter : Int
  repeatCount : Nat

/-- One pass of the body of the `for` loop of `runLengthCompress`. -/
def runLengthCompressStep (inputBlock : BlockDescriptor) (state : RunLengthState) :
    RunLengthState :=
  let current : Int := (inputBlock.address state.charPointer : Nat)
  let branched : RunLengthState :=
    if current = state.lastCharacter then
      let repeatCount := (state.repeatCount + 1) % 256
      if repeatCount = 0 then
        { state with
          outputBlock := writeRepeat state.outputBlock 256 (toUnsignedChar state.lastCharacter)
          repeatCount := 0
          lastCharacter := -1 }
      else { state with repeatCount := repeatCount }
    else if state.repeatCount ≠ 0 then
      { state with
        outputBlock :=
          writeRepeat state.outputBlock state.repeatCount (toUnsignedChar state.lastCharacter)
        repeatCount := 0
        lastCharacter := -1 }
    else if state.lastCharacter ≠ -1 then
      { state with outputBlock := writeByte state.outputBlock (toUnsignedChar state.lastCharacter) }
    else state
  { branched with lastCharacter := current, charPointer := branched.charPointer + 1 }

/-- The statements of `runLengthCompress` after its loop ("Handle last character
in file"); `*charPointer` is then the cell at offset `allocatedSize`. -/
def runLengthCompressFinish (inputBlock : BlockDescriptor) (state : RunLengthState) :
    BlockDescriptor :=
  let current : Int := (inputBlock.address state.charPointer : Nat)
  if current = state.lastCharacter then
    writeRepeat state.outputBlock state.repeatCount (toUnsignedChar state.lastCharacter)
  else if state.repeatCount ≠ 0 then
    writeRepeat state.outputBlock state.repeatCount (toUnsignedChar state.lastCharacter)
  else if state.lastCharacter ≠ -1 then
    writeByte state.outputBlock (toUnsignedChar state.lastCharacter)
  else state.outputBlock

/-- Counterpart of `runLengthCompress`. -/
def runLengthCompress (heap : Nat → Nat) (inputBlock : BlockDescriptor) :
    Except Failure BlockDescriptor :=
  let outputBlock := makeMemoryBlock heap inputBlock.allocatedSize
  if isRleCompressed inputBlock then .error .alreadyRunLengthEncoded
  else
    let flagged : BlockDescriptor :=
      { outputBlock with encoding := (inputBlock.encoding ||| ENCODING_RUN_LENGTH) % 256 }
    let start : RunLengthState :=
      { outputBlock := flagged, charPointer := 0, lastCharacter := -1, repeatCount := 0 }
    let final := (List.range inputBlock.allocatedSize).foldl
      (fun state _ => runLengthCompressStep inputBlock state) start
    .ok (runLengthCompressFinish inputBlock final)

/-- The loop `for (count = 0; count <= numberOfCharsToOutput; count++)` of
`runLengthDecompress`: `numberOfCharsToOutput + 1` writes. -/
def writeCopies (character : Nat) : Nat → BlockDescriptor → BlockDescriptor
  | 0, outputBlock => outputBlock
  | count + 1, outputBlock => writeCopies character count (writeToBlock outputBlock character).1

/-- The `while (offset < inputBlock->usedSize)` loop of `runLengthDecompress`.
Every pass advances `offset`, so `fuel = usedSize` passes are enough. -/
def runLengthDecompressLoop (inputBlock : BlockDescriptor) :
    Nat → Nat → BlockDescriptor → Except Failure BlockDescriptor
  | fuel, offset, outputBlock =>
    if offset < inputBlock.usedSize then
      match fuel with
      | 0 => .error .outOfFuel
      | fuel + 1 =>
        if inputBlock.address offset = ESCAPE_SYMBOL then
          if offset + 1 ≥ inputBlock.usedSize then .error .endsWithEscapeSymbol
          else
            runLengthDecompressLoop inputBlock fuel (offset + 1 + 1)
              (writeToBlock outputBlock (inputBlock.address (offset + 1))).1
        else if inputBlock.address offset = REPEAT_SYMBOL then
          if offset + 1 ≥ inputBlock.usedSize then .error .endsWithRepeatSymbol
          else
            let repeatCount := inputBlock.address (offset + 1) % 256
            let numberOfCharsToOutput := if repeatCount = 0 then 255 else repeatCount
            if offset + 2 ≥ inputBlock.usedSize then .error .endsWithRepeatCount
            else
              runLengthDecompressLoop inputBlock fuel (offset + 2 + 1)
                (writeCopies (inputBlock.address (offset + 2)) (numberOfCharsToOutput + 1)
                  outputBlock)
        else
          runLengthDecompressLoop inputBlock fuel (offset + 1)
            (writeToBlock outputBlock (inputBlock.address offset)).1
    else .ok outputBlock

/-- Counterpart of `runLengthDecompress`; `none` is the `NULL` returned for a
block that is not run-length encoded. -/
def runLengthDecompress (heap : Nat → Nat) (inputBlock : BlockDescriptor) :
    Except Failure (Option BlockDescriptor) :=
  let outputBlock := makeMemoryBlock heap inputBlock.usedSize
  if !isRleCompressed inputBlock then .ok none
  else do
    let flagged : BlockDescriptor :=
      { outputBlock with encoding := clearFlag inputBlock.encoding ENCODING_RUN_LENGTH }
    let final ← runLengthDecompressLoop inputBlock inputBlock.usedSize 0 flagged
    pure (some final)

/-! ## `header.c`: the file header -/

/-- The C operator `!` on an integer. -/
def logicalNot (value : Nat) : Nat := if value = 0 then 1 else 0

/-- Counterpart of `writeHeader`: the `HEADER_SIZE` bytes handed to `fwrite`,
that is 'J', 'L', 'C', 'M' and the encoding. -/
def writeHeader (blockDescriptor : BlockDescriptor) : List Nat :=
  [74, 76, 67, 77, blockDescriptor.encoding % 256]

/-- Counterpart of `describeCompressionFlags` (which prints, and returns its
argument). -/
def describeCompressionFlags (flags : Nat) : Nat := flags

/-- Counterpart of `getCompressionFlags`, on the content of the file that
`fopen` opened: `fread` fills `buffer` with up to `HEADER_SIZE` bytes. -/
def getCompressionFlags (file : List Nat) (outputDescription : Bool) : Except Failure Nat :=
  let buffer := file.take HEADER_SIZE
  let bytesRead := buffer.length
  if bytesRead < HEADER_SIZE then .ok 0
  else if buffer.take 4 ≠ [74, 76, 67, 77] then .ok 0
  else if truthy (buffer.getD (HEADER_SIZE - 1) 0 &&& logicalNot ENCODING_RUN_LENGTH) then
    .error .cannotUnderstandEncoding
  else
    .ok (if outputDescription then describeCompressionFlags (buffer.getD (HEADER_SIZE - 1) 0) % 256
         else buffer.getD (HEADER_SIZE - 1) 0)

/-- Counterpart of `createFile`: the bytes of the file written. -/
def createFile (blockDescriptor : BlockDescriptor) (outputHeader : Bool) : List Nat :=
  (if outputHeader then writeHeader blockDescriptor else []) ++ contents blockDescriptor

/-- Memory of a mapped file: its bytes, followed by whatever lies `behind`. -/
def mappedMemory (file : List Nat) (behind : Nat → Nat) : Nat → Nat :=
  fun offset => if offset < file.length then file.getD offset 0 else behind (offset - file.length)

/-- Counterpart of `getFileSize`, on the content of the file: the size in bytes,
returned as an `unsigned`. -/
def getFileSize (file : List Nat) : Nat := file.length % 2 ^ 32

/-- Counterpart of `mapUncompressedFile`, on the content of the file; the size
of the block is what `getFileSize` returns. -/
def mapUncompressedFile (file : List Nat) (behind : Nat → Nat) : BlockDescriptor :=
  { makeBlockDescriptor (mappedMemory file behind) with
    allocatedSize := getFileSize file
    usedSize := getFileSize file
    type := BlockType.UNCOMPRESSED_FILE_TYPE }

/-- Counterpart of `mapCompressedFile`, on the content of the file: the header
is hidden from the users of the block. -/
def mapCompressedFile (file : List Nat) (behind : Nat → Nat) : Except Failure BlockDescriptor :=
  if getFileSize file < getHeaderSize then .error .fileTooSmall
  else do
    let encoding ← getCompressionFlags file false
    pure { makeBlockDescriptor (fun offset => mappedMemory file behind (offset + getHeaderSize)) with
           encoding := encoding
           type := BlockType.COMPRESSED_FILE_TYPE
           allocatedSize := getFileSize file - getHeaderSize
           usedSize := getFileSize file - getHeaderSize }

/-! ## `huffmanCompressor.h` / `huffmanTree.c` -/

/-- The C `HuffmanNode`: a node whose `left` is `NULL` is a leaf (both children
are then `NULL`), any other node has two children and an unset `symbol`.
`frequency` is an `unsigned`. -/
inductive HuffmanNode where
  | leaf (symbol : Nat) (frequency : Nat)
  | node (left right : HuffmanNode) (frequency : Nat)
  deriving DecidableEq, Repr

/-- The `frequency` field of a node. -/
def HuffmanNode.frequency : HuffmanNode → Nat
  | .leaf _ frequency => frequency
  | .node _ _ frequency => frequency

/-- The C `FrequencyTableEntry`. -/
structure FrequencyTableEntry where
  symbol : Nat
  frequency : Nat
  huffmanBits : Nat
  huffmanBitCount : Nat
  deriving DecidableEq, Repr

def FREQUENCY_TABLE_SIZE : Nat := 256

/-- The C `FrequencyTable`, an array of `FREQUENCY_TABLE_SIZE` entries, as a map
from index to entry; only indices below `FREQUENCY_TABLE_SIZE` are consulted. -/
abbrev FrequencyTable := Nat → FrequencyTableEntry

/-- The table after the assignment `frequencyTable[index] = entry`. -/
def setEntry (frequencyTable : FrequencyTable) (index : Nat) (entry : FrequencyTableEntry) :
    FrequencyTable :=
  fun position => if position = index then entry else frequencyTable position

/-- Counterpart of `pqueueAdd` on the queue held in the static `head`: the node
goes in front of the first entry whose frequency is not below its own. -/
def pqueueAdd (node : HuffmanNode) : List HuffmanNode → List HuffmanNode
  | [] => [node]
  | entry :: rest =>
      if entry.frequency < node.frequency then entry :: pqueueAdd node rest
      else node :: entry :: rest

/-- Counterpart of `pqueuePop`: the node popped and the remaining queue. -/
def pqueuePop : List HuffmanNode → Except Failure (HuffmanNode × List HuffmanNode)
  | [] => .error .poppingFromEmptyQueue
  | node :: rest => .ok (node, rest)

/-- The first loop of `buildHuffmanTree`: one leaf per table entry with a
nonzero frequency, added in index order. -/
def buildHuffmanQueue (frequencyTable : FrequencyTable) : List HuffmanNode :=
  (List.range FREQUENCY_TABLE_SIZE).foldl
    (fun head index =>
      if (frequencyTable index).frequency ≠ 0 then
        pqueueAdd (.leaf (frequencyTable index).symbol ((frequencyTable index).frequency % 2 ^ 32))
          head
      else head)
    []

/-- The loop `while (head->next != NULL)` of `buildHuffmanTree` and the
statements after it.  Every pass shortens the queue by one, so a `fuel` of the
queue length is enough.  On an empty queue `head->next` dereferences `NULL`. -/
def buildHuffmanLoop : Nat → List HuffmanNode → Except Failure HuffmanNode
  | _, [] => .error .nullDereference
  | _, [node] => .ok node
  | 0, _ :: _ :: _ => .error .outOfFuel
  | fuel + 1, first :: second :: rest => do
      let (right, afterRight) ← pqueuePop (first :: second :: rest)
      let (left, afterLeft) ← pqueuePop afterRight
      let newNode := HuffmanNode.node left right ((left.frequency + right.frequency) % 2 ^ 32)
      buildHuffmanLoop fuel (pqueueAdd newNode afterLeft)

/-- Counterpart of `buildHuffmanTree`.  The static `head` is `NULL` on entry (its
initial value, and the value every completed call leaves). -/
def buildHuffmanTree (frequencyTable : FrequencyTable) : Except Failure HuffmanNode :=
  let head := buildHuffmanQueue frequencyTable
  buildHuffmanLoop head.length head

/-- Counterpart of `walkHuffmanTree`; `pattern` and `patternLength` are
`unsigned`, `huffmanBitCount` an `unsigned char`. -/
def walkHuffmanTree : HuffmanNode → FrequencyTable → Nat → Nat → Except Failure FrequencyTable
  | .leaf nodeSymbol _, frequencyTable, pattern, patternLength =>
      let symbol := nodeSymbol % 256
      if (frequencyTable symbol).symbol ≠ symbol then .error .frequencyTableBadOrder
      else if (frequencyTable symbol).huffmanBits ≠ 0 ∨
          (frequencyTable symbol).huffmanBitCount ≠ 0 then .error .beenHereAlready
      else if 8 < (frequencyTable symbol).huffmanBitCount then .error .huffmanBitCountOverflow
      else
        .ok (setEntry frequencyTable symbol
          { frequencyTable symbol with
            huffmanBits := pattern
            huffmanBitCount := patternLength % 256 })
  | .node left right _, frequencyTable, pattern, patternLength => do
      let afterLeft ←
        walkHuffmanTree left frequencyTable ((pattern <<< 1 ||| 0) % 2 ^ 32)
          ((patternLength + 1) % 2 ^ 32)
      walkHuffmanTree right afterLeft ((pattern <<< 1 ||| 1) % 2 ^ 32)
        ((patternLength + 1) % 2 ^ 32)

/-- Counterpart of `getHuffmanChar`.  The static `state` is passed in and
returned (`none` is `NULL`); the second component is the character when the
C function returns `True`. -/
def getHuffmanChar (state : Option HuffmanNode) (bitRead : Bool) (rootNode : HuffmanNode) :
    Except Failure (Option HuffmanNode × Option Nat) :=
  let current := match state with
    | none => rootNode
    | some node => node
  match current with
  | .leaf _ _ => .error .nullDereference
  | .node left right _ =>
      match (if bitRead then right else left) with
      | .leaf symbol _ => .ok (none, some symbol)
      | .node nextLeft nextRight frequency => .ok (some (.node nextLeft nextRight frequency), none)

/-! ## `huffmanCompressor.c` -/

/-- Counterpart of `initFrequencyTable`. -/
def initFrequencyTable : FrequencyTable :=
  fun symbol => { symbol := symbol, frequency := 0, huffmanBits := 0, huffmanBitCount := 0 }

/-- Counterpart of `populateFrequencyTable`. -/
def populateFrequencyTable (inputBlock : BlockDescriptor) : FrequencyTable :=
  (List.range inputBlock.usedSize).foldl
    (fun frequencyTable offset =>
      let symbol := inputBlock.address offset % 256
      setEntry frequencyTable symbol
        { frequencyTable symbol with frequency := (frequencyTable symbol).frequency + 1 })
    initFrequencyTable

/-- The value of `readFromBlock(inputBlock) << (byteNumber * 8)` once it is
or-ed into a `size_t`: the byte is promoted to a 32-bit `int`, a result with bit
31 set is negative and is sign-extended, a shift by 32 or more is undefined. -/
def shiftedFrequencyByte (byte byteNumber : Nat) : Except Failure Nat :=
  if byteNumber * 8 ≥ 32 then .error .undefinedShift
  else
    let shifted := byte <<< (byteNumber * 8)
    .ok (if shifted ≥ 2 ^ 31 then shifted + (2 ^ 64 - 2 ^ 32) else shifted)

/-- The loop over `byteNumber` of `readFrequencyTableFromBlock`: the frequency
read so far and the input block. -/
def readFrequencyBytes (byteCount : Nat) (start : Nat × BlockDescriptor) :
    Except Failure (Nat × BlockDescriptor) :=
  (List.range byteCount).foldlM
    (fun (state : Nat × BlockDescriptor) byteNumber => do
      let (byte, inputBlock) ← readFromBlock state.2
      let shifted ← shiftedFrequencyByte byte byteNumber
      pure (state.1 ||| shifted, inputBlock))
    start

/-- Counterpart of `readFrequencyTableFromBlock`: the table and the input block
with its read cursor advanced. -/
def readFrequencyTableFromBlock (inputBlock : BlockDescriptor) :
    Except Failure (FrequencyTable × BlockDescriptor) := do
  let (countByte, afterCount) ← readFromBlock inputBlock
  let symbolCount := countByte + 1
  (List.range symbolCount).foldlM
    (fun (state : FrequencyTable × BlockDescriptor) index => do
      let (symbol, afterSymbol) ← readFromBlock state.2
      let (byteCount, afterByteCount) ← readFromBlock afterSymbol
      let (frequency, afterFrequency) ← readFrequencyBytes byteCount (0, afterByteCount)
      pure (setEntry state.1 index
              { state.1 index with symbol := symbol % 256, frequency := frequency },
            afterFrequency))
    (initFrequencyTable, afterCount)

/-- The loop `while (frequency) { byteCount++; frequency = frequency >> 8; }` of
`writeFrequencyTableToBlock`; an `unsigned long` is zero after 8 passes. -/
def frequencyByteCount : Nat → Nat → Nat
  | 0, _ => 0
  | fuel + 1, frequency =>
      if frequency ≠ 0 then 1 + frequencyByteCount fuel (frequency >>> 8) else 0

/-- The loop over `byteIndex` of `writeFrequencyTableToBlock`. -/
def writeFrequencyBytes : Nat → Nat → BlockDescriptor → BlockDescriptor
  | 0, _, outputBlock => outputBlock
  | byteCount + 1, frequency, outputBlock =>
      writeFrequencyBytes byteCount (frequency >>> 8)
        (writeToBlock outputBlock (frequency &&& 0xff)).1

/-- Counterpart of `writeFrequencyTableToBlock`. -/
def writeFrequencyTableToBlock (frequencyTable : FrequencyTable)
    (outputBlock : BlockDescriptor) : Except Failure BlockDescriptor := do
  let (reserved, symbolCountOffset) := writeToBlock outputBlock 0x0
  let (written, numberOfEntries) ←
    (List.range FREQUENCY_TABLE_SIZE).foldlM
      (fun (state : BlockDescriptor × Nat) index =>
        let frequency := (frequencyTable index).frequency % 2 ^ 64
        if frequency ≠ 0 then
          if (frequencyTable index).symbol ≠ index then
            (.error .frequencyTableOutOfOrder : Except Failure (BlockDescriptor × Nat))
          else
            let afterSymbol := (writeToBlock state.1 index).1
            let byteCount := frequencyByteCount 8 frequency
            let afterByteCount := (writeToBlock afterSymbol byteCount).1
            .ok (writeFrequencyBytes byteCount frequency afterByteCount, state.2 + 1)
        else .ok state)
      (reserved, 0)
  let stored := (numberOfEntries + 2 ^ 32 - 1) % 2 ^ 32
  pure { written with address := store written.address symbolCountOffset stored }

/-- The value of `(1 << (patternLength-1))` once it meets the `unsigned long`
pattern in `&`: an `int`, sign-extended when bit 31 is set, undefined for a
shift by 32 or more. -/
def patternMask (shift : Nat) : Except Failure Nat :=
  if shift ≥ 32 then .error .undefinedShift
  else if shift = 31 then .ok (2 ^ 64 - 2 ^ 31)
  else .ok (1 <<< shift)

/-- The loop `while (patternLength)` of `huffmanCompress`, which writes the bits
of one pattern, most significant first. -/
def writePattern (huffmanBits : Nat) : Nat → BlockDescriptor → Except Failure BlockDescriptor
  | 0, outputBlock => .ok outputBlock
  | patternLength + 1, outputBlock => do
      let mask ← patternMask patternLength
      writePattern huffmanBits patternLength
        (writeBitToBlock outputBlock (truthy (mask &&& huffmanBits)))

/-- The check of `huffmanCompress` that the frequency table is filled in
properly. -/
def checkFrequencyTable (frequencyTable : FrequencyTable) : Except Failure Unit :=
  (List.range FREQUENCY_TABLE_SIZE).foldlM
    (fun (_ : Unit) offset =>
      if (frequencyTable offset).frequency ≠ 0 then
        if (frequencyTable offset).huffmanBitCount = 0 then
          (.error .notAllCharactersHavePatterns : Except Failure Unit)
        else .ok ()
      else if (frequencyTable offset).huffmanBitCount ≠ 0 then
        .error .unusedCharactersHavePatterns
      else .ok ())
    ()

/-- Byte `offset` of the `unsigned long` (8 bytes, least significant first)
that the union `bytesInFile` holds. -/
def bytesInFileByte (bytesInFile offset : Nat) : Nat :=
  (bytesInFile >>> (8 * offset)) % 256

/-- Counterpart of `huffmanCompress`. -/
def huffmanCompress (heap : Nat → Nat) (inputBlock : BlockDescriptor) :
    Except Failure BlockDescriptor := do
  let outputBlock := makeMemoryBlock heap inputBlock.usedSize
  if isHuffmanCompressed inputBlock then throw Failure.alreadyHuffmanEncoded
  let populated := populateFrequencyTable inputBlock
  let huffmanNode ← buildHuffmanTree populated
  let frequencyTable ← walkHuffmanTree huffmanNode populated 0 0
  checkFrequencyTable frequencyTable
  let spaced := (List.range 8).foldl
    (fun (block : BlockDescriptor) _ => (writeToBlock block 0).1) outputBlock
  let tabled ← writeFrequencyTableToBlock frequencyTable spaced
  let encoded ← (List.range inputBlock.usedSize).foldlM
    (fun (block : BlockDescriptor) offset =>
      let symbol := inputBlock.address offset % 256
      writePattern (frequencyTable symbol).huffmanBits (frequencyTable symbol).huffmanBitCount
        block)
    tabled
  let sized := (List.range 8).foldl
    (fun (memory : Nat → Nat) offset =>
      store memory offset (bytesInFileByte inputBlock.usedSize offset))
    encoded.address
  pure { encoded with
         address := sized
         encoding := (inputBlock.encoding ||| ENCODING_HUFFMAN) % 256 }

/-- The loop `while (bytesInFile.bytesInFile)` of `huffmanDecompress`.  Every
pass reads one bit, and a block of `allocatedSize` bytes yields at most
`8 * allocatedSize` bits before `readBitFromBlock` fails. -/
def huffmanDecodeLoop (huffmanNode : HuffmanNode) :
    Nat → Nat → Option HuffmanNode → BlockDescriptor → BlockDescriptor →
      Except Failure (Option HuffmanNode × BlockDescriptor × BlockDescriptor)
  | _, 0, state, inputBlock, outputBlock => .ok (state, inputBlock, outputBlock)
  | 0, _ + 1, _, _, _ => .error .outOfFuel
  | fuel + 1, bytesInFile + 1, state, inputBlock, outputBlock => do
      let (bitRead, afterRead) ← readBitFromBlock inputBlock
      let (nextState, character) ← getHuffmanChar state bitRead huffmanNode
      match character with
      | some symbol =>
          huffmanDecodeLoop huffmanNode fuel bytesInFile nextState afterRead
            (writeToBlock outputBlock symbol).1
      | none =>
          huffmanDecodeLoop huffmanNode fuel (bytesInFile + 1) nextState afterRead outputBlock

/-- The first loop of `huffmanDecompress`: 8 bytes read into the union
`bytesInFile`, least significant first. -/
def readBytesInFile (inputBlock : BlockDescriptor) : Except Failure (Nat × BlockDescriptor) :=
  (List.range 8).foldlM
    (fun (state : Nat × BlockDescriptor) offset => do
      let (byte, afterRead) ← readFromBlock state.2
      pure (state.1 + (byte % 256) <<< (8 * offset), afterRead))
    (0, inputBlock)

/-- Counterpart of `huffmanDecompress`.  `state` is the static variable of
`getHuffmanChar` on entry; the result is the output block (`none` is the `NULL`
returned for a block that is not Huffman encoded) and that variable on
return. -/
def huffmanDecompress (state : Option HuffmanNode) (heap : Nat → Nat)
    (inputBlock : BlockDescriptor) :
    Except Failure (Option BlockDescriptor × Option HuffmanNode) :=
  if !isHuffmanCompressed inputBlock then .ok (none, state)
  else do
    let (bytesInFile, afterSize) ← readBytesInFile inputBlock
    let outputBlock := makeMemoryBlock heap bytesInFile
    let (frequencyTable, afterTable) ← readFrequencyTableFromBlock afterSize
    let huffmanNode ← buildHuffmanTree frequencyTable
    let (finalState, afterDecode, decoded) ←
      huffmanDecodeLoop huffmanNode (8 * afterTable.allocatedSize + 1) bytesInFile state
        afterTable outputBlock
    pure (some { decoded with encoding := clearFlag afterDecode.encoding ENCODING_HUFFMAN },
          finalState)

/-! ## `compression.c`: the stage chains -/

/-- The memory `malloc` returns to each of the three stages. -/
structure StageHeaps where
  flip : Nat → Nat
  rle : Nat → Nat
  huffman : Nat → Nat

/-- Counterpart of `compress` between `mapUncompressedFile` and `createFile`:
the block handed to `createFile`. -/
def compress (flags : CompressionFlags) (heaps : StageHeaps) (inputBlock : BlockDescriptor) :
    Except Failure BlockDescriptor := do
  let afterFlip ← if flags.flip then flipBitOrder heaps.flip inputBlock else pure inputBlock
  let afterRle ← if flags.rle then runLengthCompress heaps.rle afterFlip else pure afterFlip
  if flags.huffman then huffmanCompress heaps.huffman afterRle else pure afterRle

/-- Counterpart of `decompress` between `mapCompressedFile` and `createFile`:
the block handed to `createFile`.  The static `state` of `getHuffmanChar` has its
initial value `NULL`. -/
def decompress (heaps : StageHeaps) (inputBlock : BlockDescriptor) :
    Except Failure BlockDescriptor := do
  let (huffmanOutput, _) ← huffmanDecompress none heaps.huffman inputBlock
  let afterHuffman := match huffmanOutput with
    | some outputBlock => outputBlock
    | none => inputBlock
  let rleOutput ← runLengthDecompress heaps.rle afterHuffman
  let afterRle := match rleOutput with
    | some outputBlock => outputBlock
    | none => afterHuffman
  let flipOutput ← unflipBitOrder heaps.flip afterRle
  pure (match flipOutput with
    | some outputBlock => outputBlock
    | none => afterRle)

/-- Counterpart of `compress` on the content of the input file: the content of
the output file. -/
def compressFile (flags : CompressionFlags) (heaps : StageHeaps) (behind : Nat → Nat)
    (file : List Nat) : Except Failure (List Nat) := do
  let outputBlock ← compress flags heaps (mapUncompressedFile file behind)
  pure (createFile outputBlock true)

/-- Counterpart of `decompress` on the content of the input file: the content
of the output file. -/
def decompressFile (heaps : StageHeaps) (behind : Nat → Nat) (file : List Nat) :
    Except Failure (List Nat) := do
  let inputBlock ← mapCompressedFile file behind
  let outputBlock ← decompress heaps inputBlock
  pure (createFile outputBlock false)

/-! ## Definitions used to state the theorems

The stream of bits `flipBlock` writes, the loop invariants of the two
transforms, and the concrete blocks on which the theorems are instantiated. -/

/-- A one-byte file holding 0x80, mapped for compression. -/
def sampleBlock : BlockDescriptor := mapUncompressedFile [0x80] (fun _ => 0)

/-- An empty file, mapped for compression. -/
def emptyBlock : BlockDescriptor := mapUncompressedFile [] (fun _ => 0)

/-- A block holding the byte 0x01 (the flipped form of 0x80) with the flipped
flag set. -/
def sampleFlippedBlock : BlockDescriptor :=
  { mapUncompressedFile [0x01] (fun _ => 0) with encoding := ENCODING_FLIPPED }

/-- A two-byte file holding 0x41, 0x42, mapped for compression. -/
def sampleTwoSymbolBlock : BlockDescriptor := mapUncompressedFile [0x41, 0x42] (fun _ => 0)

/-- The block a stage returned, or `fallback` when it stopped with an error. -/
def resultOr (fallback : BlockDescriptor) : Except Failure BlockDescriptor → BlockDescriptor
  | .ok block => block
  | .error _ => fallback

/-- A heap block of capacity 1 into which the byte 235 (REPEAT_SYMBOL) was
written with `writeToBlock`, in a heap region whose cells all held 235
beforehand; the cell after the one-byte buffer therefore holds 235. -/
def trailingRepeatBlock : BlockDescriptor :=
  (writeToBlock (makeMemoryBlock (fun _ => 235) 1) 235).1

/-- A one-byte file holding 0x41, mapped for compression. -/
def singleSymbolBlock : BlockDescriptor := mapUncompressedFile [0x41] (fun _ => 0)

/-- The default configuration of `jlcompress` (`defaultCompressionFlags` in
`main`): run-length and Huffman, no flip. -/
def defaultCompressionFlags : CompressionFlags := { flip := false, rle := true, huffman := true }

/-- Fresh memory that holds zeros, for each stage. -/
def zeroHeaps : StageHeaps := { flip := fun _ => 0, rle := fun _ => 0, huffman := fun _ => 0 }

/-- Fresh memory whose cells hold 235 for the flip stage, zeros for the
others. -/
def staleHeaps : StageHeaps := { flip := fun _ => 235, rle := fun _ => 0, huffman := fun _ => 0 }

/-- The bit that `flipBlock` writes at position `position` of its output: the
planes of bit 7, bit 6, ..., bit 0 of the input bytes, one after the other. -/
def flipStream (inputBlock : BlockDescriptor) (position : Nat) : Bool :=
  getBit (7 - position / inputBlock.usedSize)
    (inputBlock.address (position % inputBlock.usedSize))

/-- State of a block created by `makeMemoryBlock heap size` after the first
`count` bits of `stream` went through `writeBitToBlock`. -/
structure WrittenBits (size : Nat) (stream : Nat → Bool) (count : Nat)
    (block : BlockDescriptor) : Prop where
  allocated : block.allocatedSize = size
  freeByte : block.nextFreeByte = count / 8
  freeBit : block.nextFreeBit = count % 8
  used : block.usedSize = (count + 7) / 8
  readByte : block.nextByteToRead = 0
  readBit : block.nextBitToRead = 0
  encoding : block.encoding = 0
  bits : ∀ position, position < count →
    (block.address (position / 8)).testBit (position % 8) = stream position
  small : ∀ offset, offset < (count + 7) / 8 → block.address offset < 256

/-- State of the pair (input block, output block) of `unflipBlock` after `count`
bits of `source` were read and placed. -/
structure UnflipProgress (source : BlockDescriptor) (count : Nat)
    (blocks : BlockDescriptor × BlockDescriptor) : Prop where
  address : blocks.1.address = source.address
  allocated : blocks.1.allocatedSize = source.allocatedSize
  used : blocks.1.usedSize = source.usedSize
  encoding : blocks.1.encoding = source.encoding
  readByte : blocks.1.nextByteToRead = count / 8
  readBit : blocks.1.nextBitToRead = count % 8
  outAllocated : blocks.2.allocatedSize = source.usedSize
  outFreeByte : blocks.2.nextFreeByte = 0
  outFreeBit : blocks.2.nextFreeBit = 0
  outReadByte : blocks.2.nextByteToRead = 0
  outReadBit : blocks.2.nextBitToRead = 0
  bits : ∀ bitNumber offset, bitNumber ≤ 7 → offset < source.usedSize →
    (7 - bitNumber) * source.usedSize + offset < count →
    (blocks.2.address offset).testBit bitNumber =
      (source.address (((7 - bitNumber) * source.usedSize + offset) / 8)).testBit
        (((7 - bitNumber) * source.usedSize + offset) % 8)
  small : ∀ offset, offset < source.usedSize → offset < count → blocks.2.address offset < 256

/-- The block a decode stage returned, or `fallback` when it stopped with an
error or returned `NULL`. -/
def decodedOr (fallback : BlockDescriptor) :
    Except Failure (Option BlockDescriptor) → BlockDescriptor
  | .ok (some block) => block
  | _ => fallback

/-- A block holding the byte 0x41 with the run-length flag set. -/
def sampleRunLengthBlock : BlockDescriptor :=
  { mapUncompressedFile [0x41] (fun _ => 0) with encoding := ENCODING_RUN_LENGTH }

/-- A block holding the Huffman encoding of the two bytes 0x41, 0x42 with the
Huffman flag set. -/
def sampleHuffmanBlock : BlockDescriptor :=
  { mapUncompressedFile [2, 0, 0, 0, 0, 0, 0, 0, 1, 0x41, 1, 1, 0x42, 1, 1, 2] (fun _ => 0) with
    encoding := ENCODING_HUFFMAN }

/-- The write cursor of a block stands at the end of its content, which is the
case for a block that only `writeToBlock` has written to. -/
def Appending (block : BlockDescriptor) : Prop :=
  block.nextFreeByte = block.usedSize ∧ block.nextFreeBit = 0

/-- The bytes `writeByte` appends for a character. -/
def writeByteBytes (character : Nat) : List Nat :=
  if character = REPEAT_SYMBOL ∨ character = ESCAPE_SYMBOL then [ESCAPE_SYMBOL, character]
  else [character]

/-- The bytes `writeRepeat` appends for a repeat count and a character. -/
def writeRepeatBytes (repeatCount character : Nat) : List Nat :=
  if repeatCount < 3 ∧ character ≠ ESCAPE_SYMBOL ∧ character ≠ REPEAT_SYMBOL then
    List.replicate (repeatCount + 1) character
  else [REPEAT_SYMBOL, repeatCount % 256, character]

/-- The groups REPEAT, 0, `character` that `runLengthCompress` has written after
its repeat count overflowed `groups` times. -/
def overflowGroups (character groups : Nat) : List Nat :=
  (List.replicate groups [REPEAT_SYMBOL, 0, character]).flatten

/-- What `runLengthCompress` writes when a run ends inside the input with
`repeatCount` pending repeats of `character`. -/
def runTail (character repeatCount : Nat) : List Nat :=
  if repeatCount ≠ 0 then writeRepeatBytes repeatCount character else writeByteBytes character

/-- What `runLengthCompress` writes, in all, for a run of `length` copies of
`character` that ends inside the input. -/
def runGroup (character length : Nat) : List Nat :=
  overflowGroups character ((length - 1) / 256) ++ runTail character ((length - 1) % 256)

/-- What `runLengthCompress` writes, in all, for the run that ends the input,
`beyond` being the content of the cell behind the buffer. -/
def lastRunGroup (beyond character length : Nat) : List Nat :=
  overflowGroups character ((length - 1) / 256) ++
    (if beyond = character then writeRepeatBytes ((length - 1) % 256) character
     else runTail character ((length - 1) % 256))

/-- State of the loop of `runLengthCompress` when `consumed` bytes are read, the
last `seen` of them being a run of `character` that may go on, and `output`
being what was written for the bytes before that run. -/
structure RunProgress (output : List Nat) (character seen consumed : Nat)
    (state : RunLengthState) : Prop where
  pointer : state.charPointer = consumed
  last : state.lastCharacter = (character : Int)
  count : state.repeatCount = (seen - 1) % 256
  appending : Appending state.outputBlock
  written : contents state.outputBlock
    = output ++ overflowGroups character ((seen - 1) / 256)

/-- The byte sequence made of the runs `(character, length)` in order. -/
def expandRuns (runs : List (Nat × Nat)) : List Nat :=
  runs.flatMap (fun run => List.replicate run.2 run.1)

/-- Neighbouring runs differ in their character. -/
def distinctNeighbours : List (Nat × Nat) → Bool
  | [] => true
  | [_] => true
  | first :: second :: rest => first.1 != second.1 && distinctNeighbours (second :: rest)

/-- The runs are the maximal runs of a byte sequence: neighbours differ in
their character, every length is positive and every character is a byte. -/
def MaximalRuns (runs : List (Nat × Nat)) : Prop :=
  distinctNeighbours runs = true ∧ ∀ run ∈ runs, 0 < run.2 ∧ run.1 < 256

instance decidableMaximalRuns (runs : List (Nat × Nat)) : Decidable (MaximalRuns runs) :=
  inferInstanceAs (Decidable (distinctNeighbours runs = true ∧
    ∀ run ∈ runs, 0 < run.2 ∧ run.1 < 256))

/-- What `runLengthCompress` writes for the maximal runs of its input, `beyond`
being the content of the cell behind the buffer. -/
def encodeRuns (beyond : Nat) : List (Nat × Nat) → List Nat
  | [] => []
  | [run] => lastRunGroup beyond run.1 run.2
  | run :: next :: rest => runGroup run.1 run.2 ++ encodeRuns beyond (next :: rest)

/-- The cells of the block from offset `start` on hold `bytes`. -/
def HoldsAt (inputBlock : BlockDescriptor) (start : Nat) (bytes : List Nat) : Prop :=
  ∀ index (h : index < bytes.length), inputBlock.address (start + index) = bytes[index]

/-- The group the run-length rule prescribes for a run of `length` copies of an
ordinary byte: the copies themselves below 4, otherwise REPEAT, `length - 1`,
the byte. -/
def ordinaryGroup (character length : Nat) : List Nat :=
  if length < 4 then List.replicate length character
  else [REPEAT_SYMBOL, length - 1, character]

/-- Size of the output of `runLengthCompress` while its loop runs: nothing is
written before the first byte is read, and after `consumed` bytes (one at
least) the output is 3 bytes or more below 3 * `consumed`. -/
def SizeProgress (consumed : Nat) (state : RunLengthState) : Prop :=
  Appending state.outputBlock ∧
    ((consumed = 0 ∧ state.lastCharacter = -1 ∧ state.repeatCount = 0 ∧
        state.outputBlock.usedSize = 0) ∨
      (0 < consumed ∧ state.outputBlock.usedSize + 3 ≤ 3 * consumed))

/-- The decoding loop of `runLengthDecompress` on the list of the bytes left to
read: the bytes it writes, or the failure it reports. The cases are the input
ending after one byte, after two bytes, and later. -/
def decodeBytes : List Nat → Except Failure (List Nat)
  | [] => .ok []
  | [first] =>
    if first = ESCAPE_SYMBOL then .error .endsWithEscapeSymbol
    else if first = REPEAT_SYMBOL then .error .endsWithRepeatSymbol
    else .ok [first]
  | [first, second] =>
    if first = ESCAPE_SYMBOL then .ok [second]
    else if first = REPEAT_SYMBOL then .error .endsWithRepeatCount
    else (decodeBytes [second]).map (fun tail => first :: tail)
  | first :: second :: third :: rest =>
    if first = ESCAPE_SYMBOL then
      (decodeBytes (third :: rest)).map (fun tail => second :: tail)
    else if first = REPEAT_SYMBOL then
      (decodeBytes rest).map (fun tail =>
        List.replicate ((if second = 0 then 255 else second) + 1) third ++ tail)
    else (decodeBytes (second :: third :: rest)).map (fun tail => first :: tail)

/-- A token of a run-length encoded stream, in the words of the specification:
an escaped byte `[236, x]`, a repeat `[235, n, x]`, or any other single
byte. -/
inductive RunLengthToken
  | escaped (character : Nat)
  | repeated (repeatCount character : Nat)
  | plain (character : Nat)
  deriving DecidableEq, Repr

/-- The bytes of a token in the encoded stream. -/
def tokenBytes : RunLengthToken → List Nat
  | .escaped character => [ESCAPE_SYMBOL, character]
  | .repeated repeatCount character => [REPEAT_SYMBOL, repeatCount, character]
  | .plain character => [character]

/-- The expansion of a token, in the words of the specification: `[236, x]`
expands to `[x]`, `[235, n, x]` to n + 1 copies of x, or 256 copies for n = 0,
and any other byte to itself. -/
def tokenExpansion : RunLengthToken → List Nat
  | .escaped character => [character]
  | .repeated repeatCount character =>
    if repeatCount = 0 then List.replicate 256 character
    else List.replicate (repeatCount + 1) character
  | .plain character => [character]

/-- A single byte is a token of its own when it is neither of the two reserved
symbols. -/
def validToken : RunLengthToken → Bool
  | .plain character => character ≠ ESCAPE_SYMBOL && character ≠ REPEAT_SYMBOL
  | _ => true

/-- The stream ends inside a token, in the words of the specification: after
whole tokens an ESCAPE has no following byte, or a REPEAT has fewer than two
following bytes. -/
def TruncatedStream (bytes : List Nat) : Prop :=
  ∃ tokens : List RunLengthToken, (∀ token ∈ tokens, validToken token = true) ∧
    (bytes = tokens.flatMap tokenBytes ++ [ESCAPE_SYMBOL] ∨
     bytes = tokens.flatMap tokenBytes ++ [REPEAT_SYMBOL] ∨
     ∃ repeatCount, bytes = tokens.flatMap tokenBytes ++ [REPEAT_SYMBOL, repeatCount])

/-- A failure that reports a damaged run-length stream. -/
def isCorruptionError (failure : Failure) : Prop :=
  failure = .endsWithEscapeSymbol ∨ failure = .endsWithRepeatSymbol ∨
    failure = .endsWithRepeatCount

/-- The block after the bytes of `bytes` went through `writeToBlock`, one after
the other. -/
def writeBytes (block : BlockDescriptor) (bytes : List Nat) : BlockDescriptor :=
  bytes.foldl (fun written character => (writeToBlock written character).1) block

/-- The frequency table that counts the bytes of `bytes`, with no patterns
filled in: what `populateFrequencyTable` leaves for a block holding `bytes`. -/
def countTable (bytes : List Nat) : FrequencyTable :=
  fun symbol =>
    { symbol := symbol, frequency := bytes.count symbol, huffmanBits := 0, huffmanBitCount := 0 }

/-- The leaves `buildHuffmanTree` adds to its queue, in the order of the first
loop: one per table entry with a nonzero frequency. -/
def leafList (frequencyTable : FrequencyTable) : List HuffmanNode :=
  ((List.range FREQUENCY_TABLE_SIZE).filter
      (fun index => decide ((frequencyTable index).frequency ≠ 0))).map
    (fun index =>
      HuffmanNode.leaf (frequencyTable index).symbol ((frequencyTable index).frequency % 2 ^ 32))

/-- The queue after the nodes of `nodes` went through `pqueueAdd`, one after
the other. -/
def queueOf (nodes : List HuffmanNode) : List HuffmanNode :=
  nodes.foldl (fun head node => pqueueAdd node head) []

/-- The symbols at the leaves of a tree, from left to right. -/
def leafSymbols : HuffmanNode → List Nat
  | .leaf symbol _ => [symbol]
  | .node left right _ => leafSymbols left ++ leafSymbols right

/-- The leaves of a tree with the path from the root to each: `false` for a
step to the left, `true` for a step to the right. -/
def treePaths : HuffmanNode → List (Nat × List Bool)
  | .leaf symbol _ => [(symbol, [])]
  | .node left right _ =>
    (treePaths left).map (fun entry => (entry.1, false :: entry.2)) ++
      (treePaths right).map (fun entry => (entry.1, true :: entry.2))

/-- A node with two children, as opposed to a leaf. -/
def isInternal : HuffmanNode → Bool
  | .leaf _ _ => false
  | .node _ _ _ => true

/-- The indices of the table entries with a nonzero frequency, in ascending
order. -/
def presentSymbols (frequencyTable : FrequencyTable) : List Nat :=
  (List.range FREQUENCY_TABLE_SIZE).filter
    (fun index => decide ((frequencyTable index).frequency ≠ 0))

/-- The assignments `walkHuffmanTree` makes, in the order it makes them: the
index of the entry, the pattern and the pattern length stored. -/
def treeCodes : HuffmanNode → Nat → Nat → List (Nat × Nat × Nat)
  | .leaf symbol _, pattern, patternLength => [(symbol % 256, pattern, patternLength % 256)]
  | .node left right _, pattern, patternLength =>
    treeCodes left ((pattern <<< 1 ||| 0) % 2 ^ 32) ((patternLength + 1) % 2 ^ 32) ++
      treeCodes right ((pattern <<< 1 ||| 1) % 2 ^ 32) ((patternLength + 1) % 2 ^ 32)

/-- The table after the assignments of `codes` to the pattern fields. -/
def applyCodes (frequencyTable : FrequencyTable) (codes : List (Nat × Nat × Nat)) :
    FrequencyTable :=
  codes.foldl
    (fun table code =>
      setEntry table code.1
        { table code.1 with huffmanBits := code.2.1, huffmanBitCount := code.2.2 })
    frequencyTable

/-- The pattern `walkHuffmanTree` holds after the steps of `path` from a node
where it held `pattern`; the pattern is an `unsigned`. -/
def extendPattern (pattern : Nat) (path : List Bool) : Nat :=
  path.foldl (fun value bit => (value <<< 1 ||| (if bit then 1 else 0)) % 2 ^ 32) pattern

/-- The bits of a pattern of length `patternLength`, most significant first:
what the loop `while (patternLength)` of `huffmanCompress` writes. -/
def patternBits (huffmanBits : Nat) : Nat → List Bool
  | 0 => []
  | patternLength + 1 => huffmanBits.testBit patternLength :: patternBits huffmanBits patternLength

/-- The output block of `huffmanCompress` after the loop that makes space for
the number of bytes: 8 zero bytes written to a fresh block. -/
def sizeSpace (heap : Nat → Nat) (inputBlock : BlockDescriptor) : BlockDescriptor :=
  (List.range 8).foldl (fun (block : BlockDescriptor) _ => (writeToBlock block 0).1)
    (makeMemoryBlock heap inputBlock.usedSize)

/-- The loop "Encode" of `huffmanCompress`: the pattern of every byte of the
input, written to the block that holds the frequency table. -/
def encodeSymbols (inputBlock : BlockDescriptor) (frequencyTable : FrequencyTable)
    (tabled : BlockDescriptor) : Except Failure BlockDescriptor :=
  (List.range inputBlock.usedSize).foldlM
    (fun (block : BlockDescriptor) offset =>
      let symbol := inputBlock.address offset % 256
      writePattern (frequencyTable symbol).huffmanBits (frequencyTable symbol).huffmanBitCount
        block)
    tabled

/-- The last statements of `huffmanCompress`: the number of bytes of the input
stored in the first 8 bytes, and the encoding set. -/
def storeSize (inputBlock encoded : BlockDescriptor) : BlockDescriptor :=
  { encoded with
    address := (List.range 8).foldl
      (fun (memory : Nat → Nat) offset =>
        store memory offset (bytesInFileByte inputBlock.usedSize offset))
      encoded.address
    encoding := (inputBlock.encoding ||| ENCODING_HUFFMAN) % 256 }

/-- A block that was never read and whose content fits its capacity, which is
at least 1. -/
def Unread (block : BlockDescriptor) : Prop :=
  block.usedSize ≤ block.allocatedSize ∧ 1 ≤ block.allocatedSize ∧
    block.nextByteToRead = 0 ∧ block.nextBitToRead = 0

/-- The bytes of a frequency in the table that `writeFrequencyTableToBlock`
writes: as many as the loop `while (frequency)` counts, least significant
first. -/
def frequencyBytes (frequency : Nat) : List Nat :=
  (List.range (frequencyByteCount 8 frequency)).map
    (fun byteIndex => (frequency >>> (8 * byteIndex)) % 256)

/-- The bytes of one entry of the table that `writeFrequencyTableToBlock`
writes: the symbol, the number of bytes of the frequency, and these bytes. -/
def entryBytes (symbol frequency : Nat) : List Nat :=
  [symbol, frequencyByteCount 8 frequency] ++ frequencyBytes frequency

/-- The bytes of the entries that `writeFrequencyTableToBlock` writes after the
number of entries. -/
def tableBytes (frequencyTable : FrequencyTable) : List Nat :=
  (presentSymbols frequencyTable).flatMap
    (fun symbol => entryBytes symbol (frequencyTable symbol).frequency)

/-- State of a block that holds `start` bytes, those of `original`, followed by
the bits of `bits` written with `writeBitToBlock`; the block was never read and
its content fits its capacity. -/
structure PackedBits (start : Nat) (original : Nat → Nat) (bits : List Bool)
    (block : BlockDescriptor) : Prop where
  freeByte : block.nextFreeByte = start + bits.length / 8
  freeBit : block.nextFreeBit = bits.length % 8
  used : block.usedSize = start + (bits.length + 7) / 8
  capacity : block.usedSize ≤ block.allocatedSize
  room : 1 ≤ block.allocatedSize
  readByte : block.nextByteToRead = 0
  readBit : block.nextBitToRead = 0
  kept : ∀ offset, offset < start → block.address offset = original offset
  payload : ∀ position, position < bits.length →
    bits[position]? = some ((block.address (start + position / 8)).testBit (position % 8))

/-- The bits that the loop "Encode" of `huffmanCompress` writes for the bytes of
`symbols`: the pattern of each one, most significant bit first. -/
def codeBits (frequencyTable : FrequencyTable) (symbols : List Nat) : List Bool :=
  symbols.flatMap
    (fun symbol =>
      patternBits (frequencyTable symbol).huffmanBits (frequencyTable symbol).huffmanBitCount)

/-- The 8 bytes of the `unsigned long` that holds `bytesInFile`, least
significant first. -/
def sizeBytes (bytesInFile : Nat) : List Nat :=
  (List.range 8).map (bytesInFileByte bytesInFile)

/-- The bytes at the start of the output of `huffmanCompress`: the number of
bytes of the input, the number of table entries less one, and the entries. -/
def headerBytes (frequencyTable : FrequencyTable) (bytesInFile : Nat) : List Nat :=
  sizeBytes bytesInFile ++ [(presentSymbols frequencyTable).length - 1] ++
    tableBytes frequencyTable

/-- What `huffmanCompress` leaves in the block it returns, in terms of the
frequency table it encoded with: the header bytes, the bits of the patterns of
the input bytes packed after them from bit 0 of each byte upwards, the sizes
and the cursors. -/
structure CompressedLayout (inputBlock : BlockDescriptor) (frequencyTable : FrequencyTable)
    (outputBlock : BlockDescriptor) : Prop where
  header : ∀ offset, offset < (headerBytes frequencyTable inputBlock.usedSize).length →
    outputBlock.address offset = (headerBytes frequencyTable inputBlock.usedSize).getD offset 0
  payload : ∀ position, position < (codeBits frequencyTable (contents inputBlock)).length →
    (codeBits frequencyTable (contents inputBlock))[position]?
      = some ((outputBlock.address
          ((headerBytes frequencyTable inputBlock.usedSize).length + position / 8)).testBit
            (position % 8))
  used : outputBlock.usedSize
    = (headerBytes frequencyTable inputBlock.usedSize).length
      + ((codeBits frequencyTable (contents inputBlock)).length + 7) / 8
  freeByte : outputBlock.nextFreeByte
    = (headerBytes frequencyTable inputBlock.usedSize).length
      + (codeBits frequencyTable (contents inputBlock)).length / 8
  freeBit : outputBlock.nextFreeBit = (codeBits frequencyTable (contents inputBlock)).length % 8
  capacity : outputBlock.usedSize ≤ outputBlock.allocatedSize
  readByte : outputBlock.nextByteToRead = 0
  readBit : outputBlock.nextBitToRead = 0
  encoding : outputBlock.encoding = (inputBlock.encoding ||| ENCODING_HUFFMAN) % 256

/-- The sum over all 256 symbols of pattern length times frequency. -/
def payloadBitCount (frequencyTable : FrequencyTable) : Nat :=
  ((List.range FREQUENCY_TABLE_SIZE).map
    (fun symbol =>
      (frequencyTable symbol).huffmanBitCount * (frequencyTable symbol).frequency)).sum

/-- The number of bytes before the payload bits in the output of
`huffmanCompress`: 8 for the number of bytes of the input, 1 for the number of
entries, and for each entry in use the symbol, the byte count and the bytes of
the frequency. -/
def headerByteCount (frequencyTable : FrequencyTable) : Nat :=
  8 + 1 + ((presentSymbols frequencyTable).map
    (fun symbol => 2 + frequencyByteCount 8 (frequencyTable symbol).frequency)).sum

/-- In the words of the specification: the `count` low bytes of `value`, least
significant byte first. -/
def littleEndian (value count : Nat) : List Nat :=
  (List.range count).map (fun byteIndex => value / 256 ^ byteIndex % 256)

/-- In the words of the specification: the minimal number of bytes that hold
`value`. -/
def minimalByteCount (value : Nat) : Nat :=
  if value = 0 then 0 else Nat.log 256 value + 1

/-- The distinct byte values of `bytes`, in ascending order. -/
def distinctValues (bytes : List Nat) : List Nat :=
  (List.range 256).filter (fun symbol => decide (symbol ∈ bytes))

/-- In the words of the specification: the bytes of the output of
`huffmanCompress` before the codes, for the input `bytes`. The length of the
input in 8 bytes, the number of distinct byte values less one, and for each of
these values in ascending order the value, a byte k and the k bytes of its
number of occurrences. -/
def payloadHeader (bytes : List Nat) : List Nat :=
  littleEndian bytes.length 8 ++ [(distinctValues bytes).length - 1] ++
    (distinctValues bytes).flatMap
      (fun symbol =>
        [symbol, minimalByteCount (bytes.count symbol)] ++
          littleEndian (bytes.count symbol) (minimalByteCount (bytes.count symbol)))

/-- The block with its read cursor `count` bytes further on. -/
def advanceBytes (block : BlockDescriptor) (count : Nat) : BlockDescriptor :=
  { block with nextByteToRead := block.nextByteToRead + count }

/-- The cells of the block from offset `start` on hold `bytes`. -/
def Holds (block : BlockDescriptor) (start : Nat) (bytes : List Nat) : Prop :=
  ∀ index, index < bytes.length → block.address (start + index) = bytes.getD index 0

/-- The value that the loop over `byteNumber` of `readFrequencyTableFromBlock`
accumulates from the first `count` bytes at `cursor`; each byte is shifted as an
`int` and sign-extended. -/
def accumulatedFrequency (memory : Nat → Nat) (cursor : Nat) : Nat → Nat
  | 0 => 0
  | count + 1 =>
    accumulatedFrequency memory cursor count |||
      (if memory (cursor + count) <<< (count * 8) ≥ 2 ^ 31 then
        memory (cursor + count) <<< (count * 8) + (2 ^ 64 - 2 ^ 32)
      else memory (cursor + count) <<< (count * 8))

/-- The bytes of the entries of a serialized frequency table, given as pairs of
symbol and frequency. -/
def entriesBytes (entries : List (Nat × Nat)) : List Nat :=
  entries.flatMap (fun entry => entryBytes entry.1 entry.2)

/-- One pass of the loop over `index` of `readFrequencyTableFromBlock`. -/
def readEntry (state : FrequencyTable × BlockDescriptor) (index : Nat) :
    Except Failure (FrequencyTable × BlockDescriptor) := do
  let (symbol, afterSymbol) ← readFromBlock state.2
  let (byteCount, afterByteCount) ← readFromBlock afterSymbol
  let (frequency, afterFrequency) ← readFrequencyBytes byteCount (0, afterByteCount)
  pure (setEntry state.1 index
          { state.1 index with symbol := symbol % 256, frequency := frequency },
        afterFrequency)

/-- The entries in use of a frequency table as pairs of symbol and frequency, in
ascending order of the symbol. -/
def tableEntries (frequencyTable : FrequencyTable) : List (Nat × Nat) :=
  (presentSymbols frequencyTable).map (fun symbol => (symbol, (frequencyTable symbol).frequency))

/-- The read cursor of `block` stands `position` bits after the start of byte
`start` of `source`, whose cells, capacity and encoding `block` shares. -/
structure ReadingAt (source : BlockDescriptor) (start position : Nat)
    (block : BlockDescriptor) : Prop where
  address : block.address = source.address
  capacity : block.allocatedSize = source.allocatedSize
  encoding : block.encoding = source.encoding
  readByte : block.nextByteToRead = start + position / 8
  readBit : block.nextBitToRead = position % 8

/-- The node at which `getHuffmanChar` continues: the static `state`, or the
root when `state` is `NULL`. -/
def currentNode (state : Option HuffmanNode) (rootNode : HuffmanNode) : HuffmanNode :=
  state.getD rootNode

/-- The value that the first loop of `huffmanDecompress` assembles from the
`count` bytes at `cursor`. -/
def assembledSize (memory : Nat → Nat) (cursor : Nat) : Nat → Nat
  | 0 => 0
  | count + 1 =>
    assembledSize memory cursor count + (memory (cursor + count) % 256) <<< (8 * count)

/-- The block after the bits of `bits` went through `writeBitToBlock`, one after
the other. -/
def writeBits (block : BlockDescriptor) (bits : List Bool) : BlockDescriptor :=
  bits.foldl writeBitToBlock block

/-- The outcome of `count` calls of `readBitFromBlock` one after the other: the
bits read, in order, and the block afterwards. -/
def readBits : Nat → BlockDescriptor → Except Failure (List Bool × BlockDescriptor)
  | 0, block => .ok ([], block)
  | count + 1, block => do
      let (bit, afterRead) ← readBitFromBlock block
      let (rest, final) ← readBits count afterRead
      pure (bit :: rest, final)

/-- A block holding the flipped form of the two bytes 0x41, 0x42 with the
flipped flag set. -/
def sampleFlippedPair : BlockDescriptor :=
  { mapUncompressedFile [12, 96] (fun _ => 0) with encoding := ENCODING_FLIPPED }

/-- A one-byte file holding 235 (REPEAT_SYMBOL), mapped so that the cell after
the buffer holds `beyond`. -/
def reservedByteBlock (beyond : Nat) : BlockDescriptor :=
  mapUncompressedFile [235] (fun _ => beyond)

/-- A block of capacity 2 holding 0x41, 0x42 of which only the first byte is in
use. -/
def partlyUsedBlock : BlockDescriptor :=
  { mapUncompressedFile [0x41, 0x42] (fun _ => 0) with usedSize := 1 }

/-- A block of capacity 1 holding 0x41, followed in memory by a cell holding
0x42. -/
def fullyUsedBlock : BlockDescriptor :=
  mapUncompressedFile [0x41] (fun offset => if offset = 0 then 0x42 else 0)

/-- The queue of `buildHuffmanTree` is in ascending order of frequency. -/
def AscendingQueue (queue : List HuffmanNode) : Prop :=
  queue.Pairwise (fun earlier later => earlier.frequency ≤ later.frequency)

/-- Every internal node of the tree has the sum of the frequencies of its two
children, reduced to the 32 bits of the `unsigned` field, as frequency, and its
right child, the node popped first, has the lower frequency of the two. -/
def mergedBySum : HuffmanNode → Bool
  | .leaf _ _ => true
  | .node left right frequency =>
    decide (frequency = (left.frequency + right.frequency) % 2 ^ 32) &&
      decide (right.frequency ≤ left.frequency) && mergedBySum left && mergedBySum right

/-- The Fibonacci numbers 1, 1, 2, 3, 5, ... up to the 34th. -/
def fibonacciFrequencies : List Nat :=
  [1, 1, 2, 3, 5, 8, 13, 21, 34, 55, 89, 144, 233, 377, 610, 987, 1597, 2584, 4181, 6765, 10946,
    17711, 28657, 46368, 75025, 121393, 196418, 317811, 514229, 832040, 1346269, 2178309,
    3524578, 5702887]

/-- A table with no patterns yet in which the symbols 0 to 33 have the Fibonacci
numbers 1, 1, 2, 3, 5, ... as frequencies and every other symbol the frequency
0. -/
def fibonacciTable : FrequencyTable :=
  fun symbol =>
    { symbol := symbol
      frequency := fibonacciFrequencies.getD symbol 0
      huffmanBits := 0
      huffmanBitCount := 0 }

/-- A table with no patterns yet in which the symbols 0 to 32 have the Fibonacci
numbers 1, 1, 2, 3, 5, ... as frequencies, the symbol 33 has the frequency
2^24, which is more than all the others together, and every other symbol has
the frequency 0. -/
def skewedTable : FrequencyTable :=
  fun symbol =>
    { symbol := symbol
      frequency := if symbol = 33 then 2 ^ 24 else (fibonacciFrequencies.take 33).getD symbol 0
      huffmanBits := 0
      huffmanBitCount := 0 }

/-- The calls of `getHuffmanChar` for the bits of a list, one after the other:
the characters it returned, in order, and the static `state` it is left in. -/
def followBits (rootNode : HuffmanNode) :
    Option HuffmanNode → List Bool → Except Failure (List Nat × Option HuffmanNode)
  | state, [] => .ok ([], state)
  | state, bit :: rest => do
      let (nextState, character) ← getHuffmanChar state bit rootNode
      let (characters, final) ← followBits rootNode nextState rest
      pure (character.toList ++ characters, final)

/-- A file of `pairs` times the two bytes 235 (REPEAT_SYMBOL), 236
(ESCAPE_SYMBOL). -/
def reservedPairsFile (pairs : Nat) : List Nat :=
  (List.replicate pairs [235, 236]).flatten

/-- The maximal runs of `reservedPairsFile`: every byte is a run of its own. -/
def reservedPairsRuns (pairs : Nat) : List (Nat × Nat) :=
  (List.replicate pairs [(235, 1), (236, 1)]).flatten

/-- The file `reservedPairsFile`, mapped for compression, the cell behind the
mapping holding 0. -/
def reservedPairsBlock (pairs : Nat) : BlockDescriptor :=
  mapUncompressedFile (reservedPairsFile pairs) (fun _ => 0)

/-- The bytes of `reservedPairsFile`, each behind an ESCAPE_SYMBOL: what
`runLengthCompress` writes for that file. -/
def escapedPairs (pairs : Nat) : List Nat :=
  (List.replicate pairs [236, 235, 236, 236]).flatten

/-- The frequency table of the bytes `escapedPairs`: `pairs` for 235 and
3 * `pairs` for 236. -/
def escapedPairsTable (pairs : Nat) : FrequencyTable :=
  fun symbol =>
    { symbol := symbol
      frequency := (if symbol = 235 then pairs else 0) + (if symbol = 236 then 3 * pairs else 0)
      huffmanBits := 0
      huffmanBitCount := 0 }

/-! ## Theorems -/

theorem mask_eq_two_pow {bitNumber : Nat} (h : bitNumber < 8) :
    (1 <<< bitNumber) % 256 = 2 ^ bitNumber := by
  interval_cases bitNumber <;> rfl

theorem getBit_eq_testBit {bitNumber : Nat} (h : bitNumber < 8) (byte : Nat) :
    getBit bitNumber byte = byte.testBit bitNumber := by
  unfold getBit truthy
  simp only [mask_eq_two_pow h, Nat.and_two_pow]
  cases hb : byte.testBit bitNumber <;> simp

theorem testBit_of_lt_256 {byte position : Nat} (h : byte < 256) (hp : 8 ≤ position) :
    byte.testBit position = false := by
  apply Nat.testBit_lt_two_pow
  calc byte < 2 ^ 8 := h
    _ ≤ 2 ^ position := Nat.pow_le_pow_right (by norm_num) hp

theorem eq_of_low_bits {x y : Nat} (hx : x < 256) (hy : y < 256)
    (h : ∀ position, position < 8 → x.testBit position = y.testBit position) : x = y := by
  apply Nat.eq_of_testBit_eq
  intro position
  by_cases hp : position < 8
  · exact h position hp
  · rw [testBit_of_lt_256 hx (by omega), testBit_of_lt_256 hy (by omega)]

theorem setBit_lt (bitNumber byte : Nat) (value : Bool) : setBit bitNumber byte value < 256 := by
  unfold setBit
  split
  · exact Nat.mod_lt _ (by norm_num)
  · exact lt_of_le_of_lt Nat.and_le_left (Nat.mod_lt _ (by norm_num))

theorem testBit_clearMask {bitNumber position : Nat} (hb : bitNumber < 8) (hp : position < 8) :
    (255 - 2 ^ bitNumber).testBit position = decide (position ≠ bitNumber) := by
  interval_cases bitNumber <;> interval_cases position <;> rfl

theorem testBit_setBit {bitNumber position : Nat} (hb : bitNumber < 8) (hp : position < 8)
    (byte : Nat) (value : Bool) :
    (setBit bitNumber byte value).testBit position =
      if position = bitNumber then value else byte.testBit position := by
  unfold setBit
  simp only [mask_eq_two_pow hb]
  have h256 : (256 : Nat) = 2 ^ 8 := by norm_num
  cases value
  · simp only [Bool.false_eq_true, if_false, Nat.testBit_and, testBit_clearMask hb hp, h256,
      Nat.testBit_mod_two_pow, hp, decide_True, Bool.true_and]
    by_cases h : position = bitNumber <;> simp [h]
  · simp only [if_true, h256, Nat.testBit_mod_two_pow, hp, decide_True, Bool.true_and,
      Nat.testBit_or, Nat.testBit_two_pow]
    by_cases h : position = bitNumber
    · simp [h]
    · have h2 : ¬ bitNumber = position := fun e => h e.symm
      simp [h, h2]

theorem writtenBits_makeMemoryBlock (heap : Nat → Nat) (size : Nat) (stream : Nat → Bool) :
    WrittenBits size stream 0 (makeMemoryBlock heap size) := by
  constructor <;> simp [makeMemoryBlock, makeBlockDescriptor]

theorem writtenBits_writeBitToBlock {size : Nat} {stream : Nat → Bool} {count : Nat}
    {block : BlockDescriptor} (h : WrittenBits size stream count block)
    (hroom : count < 8 * size) :
    WrittenBits size stream (count + 1) (writeBitToBlock block (stream count)) := by
  obtain ⟨hal, hfb, hfbit, hused, hrb, hrbit, henc, hbits, hsmall⟩ := h
  have hbit8 : count % 8 < 8 := Nat.mod_lt _ (by norm_num)
  have hstore : ∀ (grown : BlockDescriptor), grown.address = block.address →
      ∀ position, position < count + 1 →
      (store grown.address (count / 8)
        (setBit (count % 8) (grown.address (count / 8)) (stream count)) (position / 8)).testBit
          (position % 8) = stream position := by
    intro grown hg position hp
    have hp8 : position % 8 < 8 := Nat.mod_lt _ (by norm_num)
    unfold store
    by_cases hsame : position / 8 = count / 8
    · rw [if_pos hsame, Nat.mod_eq_of_lt (setBit_lt _ _ _), testBit_setBit hbit8 hp8]
      by_cases hpc : position % 8 = count % 8
      · have : position = count := by omega
        rw [if_pos hpc, this]
      · rw [if_neg hpc, hg, ← hsame]
        exact hbits position (by omega)
    · rw [if_neg hsame, hg]
      exact hbits position (by omega)
  have hstoreSmall : ∀ (grown : BlockDescriptor), grown.address = block.address →
      ∀ offset, offset < (count + 1 + 7) / 8 →
      store grown.address (count / 8)
        (setBit (count % 8) (grown.address (count / 8)) (stream count)) offset < 256 := by
    intro grown hg offset ho
    unfold store
    by_cases hsame : offset = count / 8
    · rw [if_pos hsame]; exact Nat.mod_lt _ (by norm_num)
    · rw [if_neg hsame, hg]; exact hsmall offset (by omega)
  unfold writeBitToBlock
  by_cases hzero : count % 8 = 0
  · have hnogrow : ¬ (count / 8 ≥ size) := by omega
    simp only [hfbit, hzero, if_true, hfb, hal, hnogrow, if_false]
    have hnowrap : ¬ ((0 + 1) % 256 > 7) := by norm_num
    simp only [hnowrap, if_false]
    constructor <;> simp only [hal, hrb, hrbit, henc] <;> first
      | omega
      | (intro position hp; have := hstore block rfl position hp; simpa [hzero] using this)
      | (intro offset ho; have := hstoreSmall block rfl offset ho; simpa [hzero] using this)
  · simp only [hfbit, hzero, if_false, hfb]
    by_cases hwrap : (count % 8 + 1) % 256 > 7
    · simp only [hwrap, if_true]
      constructor <;> simp only [hal, hrb, hrbit, henc, hused] <;> first
        | omega
        | (intro position hp; exact hstore block rfl position hp)
        | (intro offset ho; exact hstoreSmall block rfl offset ho)
    · simp only [hwrap, if_false]
      constructor <;> simp only [hal, hrb, hrbit, henc, hused] <;> first
        | omega
        | (intro position hp; exact hstore block rfl position hp)
        | (intro offset ho; exact hstoreSmall block rfl offset ho)

theorem flipStream_plane (inputBlock : BlockDescriptor) {bitNumber offset : Nat}
    (hb : bitNumber ≤ 7) (ho : offset < inputBlock.usedSize) :
    flipStream inputBlock ((7 - bitNumber) * inputBlock.usedSize + offset) =
      getBit bitNumber (inputBlock.address offset) := by
  unfold flipStream
  have hpos : 0 < inputBlock.usedSize := by omega
  have hdiv : ((7 - bitNumber) * inputBlock.usedSize + offset) / inputBlock.usedSize
      = 7 - bitNumber := by
    rw [Nat.add_comm, Nat.add_mul_div_right _ _ hpos, Nat.div_eq_of_lt ho, Nat.zero_add]
  have hmod : ((7 - bitNumber) * inputBlock.usedSize + offset) % inputBlock.usedSize
      = offset := by
    rw [Nat.add_comm, Nat.add_mul_mod_self_right, Nat.mod_eq_of_lt ho]
  rw [hdiv, hmod]
  congr 1
  omega

theorem writtenBits_foldl (inputBlock : BlockDescriptor) (bitNumber size : Nat)
    (stream : Nat → Bool) (count : Nat) :
    ∀ (done : Nat) (outputBlock : BlockDescriptor),
      WrittenBits size stream count outputBlock →
      count + done ≤ 8 * size →
      (∀ offset, offset < done →
        stream (count + offset) = getBit bitNumber (inputBlock.address offset)) →
      WrittenBits size stream (count + done)
        ((List.range done).foldl
          (fun out offset => writeBitToBlock out (getBit bitNumber (inputBlock.address offset)))
          outputBlock) := by
  intro done
  induction done with
  | zero => intro outputBlock h _ _; simpa using h
  | succ done ih =>
    intro outputBlock h hroom hstream
    rw [List.range_succ, List.foldl_append]
    have hprev := ih outputBlock h (by omega) (fun offset ho => hstream offset (by omega))
    have hstep := writtenBits_writeBitToBlock hprev (by omega)
    rw [hstream done (by omega)] at hstep
    simpa [Nat.add_assoc] using hstep

theorem writtenBits_flipBlockRow (inputBlock : BlockDescriptor) {bitNumber : Nat}
    (hb : bitNumber ≤ 7) {outputBlock : BlockDescriptor}
    (h : WrittenBits inputBlock.usedSize (flipStream inputBlock)
      ((7 - bitNumber) * inputBlock.usedSize) outputBlock) :
    WrittenBits inputBlock.usedSize (flipStream inputBlock)
      ((7 - bitNumber) * inputBlock.usedSize + inputBlock.usedSize)
      (flipBlockRow inputBlock bitNumber outputBlock) := by
  unfold flipBlockRow
  apply writtenBits_foldl inputBlock bitNumber _ _ _ _ _ h
  · have : (7 - bitNumber) * inputBlock.usedSize + inputBlock.usedSize
        = (7 - bitNumber + 1) * inputBlock.usedSize := by ring
    rw [this]
    exact Nat.mul_le_mul_right _ (by omega)
  · intro offset ho
    exact flipStream_plane inputBlock hb ho

theorem writtenBits_flipBlockLoop (inputBlock : BlockDescriptor) :
    ∀ (bitNumber : Nat) (outputBlock : BlockDescriptor), bitNumber ≤ 8 →
      WrittenBits inputBlock.usedSize (flipStream inputBlock)
        ((8 - bitNumber) * inputBlock.usedSize) outputBlock →
      WrittenBits inputBlock.usedSize (flipStream inputBlock) (8 * inputBlock.usedSize)
        (flipBlockLoop inputBlock bitNumber outputBlock) := by
  intro bitNumber
  induction bitNumber with
  | zero => intro outputBlock _ h; simpa [flipBlockLoop] using h
  | succ bitNumber ih =>
    intro outputBlock hb h
    rw [flipBlockLoop]
    apply ih _ (by omega)
    have h1 : 8 - (bitNumber + 1) = 7 - bitNumber := by omega
    have h2 : (8 - bitNumber) * inputBlock.usedSize
        = (7 - bitNumber) * inputBlock.usedSize + inputBlock.usedSize := by
      have : 8 - bitNumber = (7 - bitNumber) + 1 := by omega
      rw [this]; ring
    rw [h1] at h
    rw [h2]
    exact writtenBits_flipBlockRow inputBlock (by omega) h

theorem writtenBits_flipBlock (heap : Nat → Nat) (inputBlock : BlockDescriptor) :
    WrittenBits inputBlock.usedSize (flipStream inputBlock) (8 * inputBlock.usedSize)
      (flipBlock heap inputBlock).2 := by
  unfold flipBlock
  apply writtenBits_flipBlockLoop inputBlock 8 _ (le_refl _)
  simpa using writtenBits_makeMemoryBlock heap inputBlock.usedSize (flipStream inputBlock)

theorem flipBlock_input (heap : Nat → Nat) (inputBlock : BlockDescriptor) :
    (flipBlock heap inputBlock).1 = inputBlock := by
  have h := (writtenBits_flipBlock heap inputBlock).used
  unfold flipBlock at h ⊢
  simp only at h ⊢
  rw [h]
  have : (8 * inputBlock.usedSize + 7) / 8 = inputBlock.usedSize := by omega
  rw [this]

/-- Outcome of `flipBitOrder` on a block that is not flipped. -/
theorem flipBitOrder_ok (heap : Nat → Nat) (inputBlock : BlockDescriptor)
    (h : isFlipped inputBlock = false) :
    flipBitOrder heap inputBlock =
      .ok { (flipBlock heap inputBlock).2 with
            encoding := (inputBlock.encoding ||| ENCODING_FLIPPED) % 256 } := by
  unfold flipBitOrder
  simp only [h, Bool.false_eq_true, if_false]
  rw [← flipBlock_input heap inputBlock]
  simp [flipBlock]

theorem plane_position_inj {size b1 o1 b2 o2 : Nat} (hb1 : b1 ≤ 7) (hb2 : b2 ≤ 7)
    (ho1 : o1 < size) (ho2 : o2 < size)
    (h : (7 - b1) * size + o1 = (7 - b2) * size + o2) : b1 = b2 ∧ o1 = o2 := by
  have hpos : 0 < size := by omega
  have hd1 : ((7 - b1) * size + o1) / size = 7 - b1 := by
    rw [Nat.add_comm, Nat.add_mul_div_right _ _ hpos, Nat.div_eq_of_lt ho1, Nat.zero_add]
  have hd2 : ((7 - b2) * size + o2) / size = 7 - b2 := by
    rw [Nat.add_comm, Nat.add_mul_div_right _ _ hpos, Nat.div_eq_of_lt ho2, Nat.zero_add]
  have hm1 : ((7 - b1) * size + o1) % size = o1 := by
    rw [Nat.add_comm, Nat.add_mul_mod_self_right, Nat.mod_eq_of_lt ho1]
  have hm2 : ((7 - b2) * size + o2) % size = o2 := by
    rw [Nat.add_comm, Nat.add_mul_mod_self_right, Nat.mod_eq_of_lt ho2]
  rw [h] at hd1 hm1
  constructor
  · omega
  · omega

theorem plane_position_lt {size bitNumber offset : Nat} (hb : bitNumber ≤ 7)
    (ho : offset < size) : (7 - bitNumber) * size + offset < 8 * size := by
  have : (7 - bitNumber) * size ≤ 7 * size := Nat.mul_le_mul_right _ (by omega)
  omega

theorem unflipProgress_step (source : BlockDescriptor) {bitNumber offset : Nat}
    (hb : bitNumber ≤ 7) (ho : offset < source.usedSize)
    (hsize : source.usedSize ≤ source.allocatedSize)
    {blocks : BlockDescriptor × BlockDescriptor}
    (h : UnflipProgress source ((7 - bitNumber) * source.usedSize + offset) blocks) :
    ∃ next, unflipBlockStep bitNumber blocks offset = .ok next ∧
      UnflipProgress source ((7 - bitNumber) * source.usedSize + offset + 1) next := by
  obtain ⟨had, hal, hus, hen, hrb, hrbit, hoa, hofb, hofbit, horb, horbit, hbits, hsmall⟩ := h
  have hlt := plane_position_lt hb ho
  have hmul : (7 - bitNumber) * source.usedSize = 0 ∨
      source.usedSize ≤ (7 - bitNumber) * source.usedSize := by
    rcases Nat.eq_zero_or_pos (7 - bitNumber) with h0 | h0
    · left; rw [h0, Nat.zero_mul]
    · right; exact Nat.le_mul_of_pos_left _ h0
  generalize hc : (7 - bitNumber) * source.usedSize + offset = count at *
  have hbit8 : count % 8 < 8 := Nat.mod_lt _ (by norm_num)
  have hread : ¬ (count / 8 ≥ source.allocatedSize) := by omega
  have hbn : bitNumber < 8 := by omega
  have hgb : getBit (count % 8) (source.address (count / 8))
      = (source.address (count / 8)).testBit (count % 8) := getBit_eq_testBit hbit8 _
  have key : ∀ b o, b ≤ 7 → o < source.usedSize → (7 - b) * source.usedSize + o < count + 1 →
      (store blocks.2.address offset
        (setBit bitNumber (blocks.2.address offset)
          (getBit (count % 8) (source.address (count / 8)))) o).testBit b =
      (source.address (((7 - b) * source.usedSize + o) / 8)).testBit
        (((7 - b) * source.usedSize + o) % 8) := by
    intro b o hb' ho' hlt'
    have hb8 : b < 8 := by omega
    unfold store
    by_cases hoo : o = offset
    · rw [if_pos hoo, Nat.mod_eq_of_lt (setBit_lt _ _ _), testBit_setBit hbn hb8]
      by_cases hbb : b = bitNumber
      · rw [if_pos hbb, hgb, hbb, hoo, hc]
      · rw [if_neg hbb]
        have hne : (7 - b) * source.usedSize + o ≠ count := by
          intro heq
          rw [← hc] at heq
          exact hbb (plane_position_inj hb' hb ho' ho heq).1
        rw [← hoo]
        exact hbits b o hb' ho' (by omega)
    · rw [if_neg hoo]
      have hne : (7 - b) * source.usedSize + o ≠ count := by
        intro heq
        rw [← hc] at heq
        exact hoo (plane_position_inj hb' hb ho' ho heq).2
      exact hbits b o hb' ho' (by omega)
  have keySmall : ∀ o, o < source.usedSize → o < count + 1 →
      store blocks.2.address offset
        (setBit bitNumber (blocks.2.address offset)
          (getBit (count % 8) (source.address (count / 8)))) o < 256 := by
    intro o ho' hlt'
    unfold store
    by_cases hoo : o = offset
    · rw [if_pos hoo]; exact Nat.mod_lt _ (by norm_num)
    · rw [if_neg hoo]
      apply hsmall o ho'
      omega
  unfold unflipBlockStep readBitFromBlock
  simp only [hrb, hal, hread, if_false, hrbit, had]
  by_cases hwrap : (count % 8 + 1) % 256 > 7
  · simp only [hwrap, if_true]
    refine ⟨_, rfl, ?_⟩
    constructor <;> simp only [had, hal, hus, hen, hoa, hofb, hofbit, horb, horbit] <;> first
      | omega
      | exact key
      | exact keySmall
  · simp only [hwrap, if_false]
    refine ⟨_, rfl, ?_⟩
    constructor <;> simp only [had, hal, hus, hen, hoa, hofb, hofbit, horb, horbit] <;> first
      | omega
      | exact key
      | exact keySmall

theorem unflipProgress_foldlM (source : BlockDescriptor) {bitNumber : Nat} (hb : bitNumber ≤ 7)
    (hsize : source.usedSize ≤ source.allocatedSize) :
    ∀ (done : Nat) (blocks : BlockDescriptor × BlockDescriptor), done ≤ source.usedSize →
      UnflipProgress source ((7 - bitNumber) * source.usedSize) blocks →
      ∃ next, (List.range done).foldlM (unflipBlockStep bitNumber) blocks = .ok next ∧
        UnflipProgress source ((7 - bitNumber) * source.usedSize + done) next := by
  intro done
  induction done with
  | zero => intro blocks _ h; exact ⟨blocks, rfl, by simpa using h⟩
  | succ done ih =>
    intro blocks hd h
    obtain ⟨middle, hfold, hmiddle⟩ := ih blocks (by omega) h
    obtain ⟨next, hstep, hnext⟩ := unflipProgress_step source hb (by omega) hsize hmiddle
    refine ⟨next, ?_, by simpa [Nat.add_assoc] using hnext⟩
    rw [List.range_succ, List.foldlM_append, hfold]
    simp only [List.foldlM_cons, List.foldlM_nil, bind, Except.bind, hstep, pure, Except.pure]

theorem unflipProgress_loop (source : BlockDescriptor)
    (hsize : source.usedSize ≤ source.allocatedSize) :
    ∀ (bitNumber : Nat) (blocks : BlockDescriptor × BlockDescriptor), bitNumber ≤ 8 →
      UnflipProgress source ((8 - bitNumber) * source.usedSize) blocks →
      ∃ final, unflipBlockLoop source.usedSize bitNumber blocks = .ok final ∧
        UnflipProgress source (8 * source.usedSize) final := by
  intro bitNumber
  induction bitNumber with
  | zero => intro blocks _ h; exact ⟨blocks, rfl, by simpa using h⟩
  | succ bitNumber ih =>
    intro blocks hb h
    have h1 : 8 - (bitNumber + 1) = 7 - bitNumber := by omega
    rw [h1] at h
    obtain ⟨next, hrow, hnext⟩ :=
      unflipProgress_foldlM source (show bitNumber ≤ 7 by omega) hsize source.usedSize blocks
        (le_refl _) h
    have h2 : (7 - bitNumber) * source.usedSize + source.usedSize
        = (8 - bitNumber) * source.usedSize := by
      have : 8 - bitNumber = (7 - bitNumber) + 1 := by omega
      rw [this]; ring
    rw [h2] at hnext
    obtain ⟨final, hloop, hfinal⟩ := ih next (by omega) hnext
    refine ⟨final, ?_, hfinal⟩
    rw [unflipBlockLoop]
    unfold unflipBlockRow
    simp only [bind, Except.bind, hrow, hloop]

theorem unflipProgress_start (heap : Nat → Nat) (source : BlockDescriptor)
    (hbyte : source.nextByteToRead = 0) (hbit : source.nextBitToRead = 0) :
    UnflipProgress source 0 (source, makeMemoryBlock heap source.usedSize) := by
  constructor <;> simp [makeMemoryBlock, makeBlockDescriptor, hbyte, hbit]

/-- Outcome of `unflipBitOrder` on a flipped block whose read cursor is at its
start: it returns a block of the same size whose bit `bitNumber` of byte `offset`
is the bit read at position `(7 - bitNumber) * usedSize + offset`. -/
theorem unflipBitOrder_ok (heap : Nat → Nat) (source : BlockDescriptor)
    (hflipped : isFlipped source = true)
    (hsize : source.usedSize ≤ source.allocatedSize)
    (hbyte : source.nextByteToRead = 0) (hbit : source.nextBitToRead = 0) :
    ∃ outputBlock, unflipBitOrder heap source = .ok (some outputBlock) ∧
      outputBlock.usedSize = source.usedSize ∧
      outputBlock.encoding = clearFlag source.encoding ENCODING_FLIPPED ∧
      outputBlock.nextFreeByte = 0 ∧ outputBlock.nextFreeBit = 0 ∧
      outputBlock.nextByteToRead = 0 ∧ outputBlock.nextBitToRead = 0 ∧
      outputBlock.allocatedSize = source.usedSize ∧
      (∀ offset, offset < source.usedSize → outputBlock.address offset < 256) ∧
      ∀ bitNumber offset, bitNumber ≤ 7 → offset < source.usedSize →
        (outputBlock.address offset).testBit bitNumber =
          (source.address (((7 - bitNumber) * source.usedSize + offset) / 8)).testBit
            (((7 - bitNumber) * source.usedSize + offset) % 8) := by
  obtain ⟨final, hloop, hfinal⟩ :=
    unflipProgress_loop source hsize 8 _ (le_refl _)
      (by simpa using unflipProgress_start heap source hbyte hbit)
  obtain ⟨had, hal, hus, hen, hrb, hrbit, hoa, hofb, hofbit, horb, horbit, hbits, hsmall⟩ := hfinal
  refine ⟨{ final.2 with usedSize := final.1.usedSize,
                         encoding := clearFlag final.1.encoding ENCODING_FLIPPED }, ?_, ?_⟩
  · unfold unflipBitOrder unflipBlock
    simp only [hflipped, Bool.not_true, Bool.false_eq_true, if_false, bind, Except.bind, hloop,
      pure, Except.pure]
  · refine ⟨hus, by simp only [hen], hofb, hofbit, horb, horbit, hoa, ?_, ?_⟩
    · intro offset ho
      apply hsmall offset ho
      omega
    · intro bitNumber offset hb ho
      exact hbits bitNumber offset hb ho (plane_position_lt hb ho)

theorem truthy_and_two_pow (value bitNumber : Nat) :
    truthy (value &&& 2 ^ bitNumber) = value.testBit bitNumber := by
  unfold truthy
  rw [Nat.and_two_pow]
  cases value.testBit bitNumber <;> simp

theorem isFlipped_eq_testBit (block : BlockDescriptor) :
    isFlipped block = block.encoding.testBit 1 := by
  unfold isFlipped ENCODING_FLIPPED
  exact truthy_and_two_pow block.encoding 1

theorem isRleCompressed_eq_testBit (block : BlockDescriptor) :
    isRleCompressed block = block.encoding.testBit 0 := by
  unfold isRleCompressed ENCODING_RUN_LENGTH
  exact truthy_and_two_pow block.encoding 0

theorem isHuffmanCompressed_eq_testBit (block : BlockDescriptor) :
    isHuffmanCompressed block = block.encoding.testBit 2 := by
  unfold isHuffmanCompressed ENCODING_HUFFMAN
  exact truthy_and_two_pow block.encoding 2

/-- Bit `bitNumber` of `(encoding | 2 ^ flagBit) % 256`. -/
theorem testBit_setFlag (encoding flagBit bitNumber : Nat) (hb : bitNumber < 8) :
    ((encoding ||| 2 ^ flagBit) % 256).testBit bitNumber =
      (encoding.testBit bitNumber || decide (flagBit = bitNumber)) := by
  have h256 : (256 : Nat) = 2 ^ 8 := by norm_num
  rw [h256, Nat.testBit_mod_two_pow, Nat.testBit_or, Nat.testBit_two_pow]
  simp [hb]

theorem contents_length (block : BlockDescriptor) : (contents block).length = block.usedSize := by
  simp [contents]

theorem contents_getElem (block : BlockDescriptor) (offset : Nat)
    (h : offset < (contents block).length) : (contents block)[offset] = block.address offset := by
  simp [contents]

theorem contents_eq_of_agree {first second : BlockDescriptor}
    (hsize : first.usedSize = second.usedSize)
    (h : ∀ offset, offset < second.usedSize → first.address offset = second.address offset) :
    contents first = contents second := by
  unfold contents
  rw [hsize]
  apply List.map_congr_left
  intro offset hmem
  exact h offset (List.mem_range.mp hmem)

theorem address_lt_of_contents {block : BlockDescriptor} {bytes : List Nat}
    (hheld : contents block = bytes) (hbytes : ∀ byte ∈ bytes, byte < 256) :
    ∀ offset, offset < block.usedSize → block.address offset < 256 := by
  intro offset ho
  apply hbytes
  rw [← hheld]
  unfold contents
  exact List.mem_map.mpr ⟨offset, List.mem_range.mpr ho, rfl⟩

/-- What `flipBitOrder` returns on a block that is not flipped. -/
theorem flipBitOrder_spec (heap : Nat → Nat) (inputBlock : BlockDescriptor)
    (hclear : isFlipped inputBlock = false) :
    ∃ flipped, flipBitOrder heap inputBlock = .ok flipped ∧
      flipped.usedSize = inputBlock.usedSize ∧
      flipped.allocatedSize = inputBlock.usedSize ∧
      flipped.nextByteToRead = 0 ∧ flipped.nextBitToRead = 0 ∧
      flipped.encoding = (inputBlock.encoding ||| ENCODING_FLIPPED) % 256 ∧
      ∀ position, position < 8 * inputBlock.usedSize →
        (flipped.address (position / 8)).testBit (position % 8) =
          flipStream inputBlock position := by
  have hw := writtenBits_flipBlock heap inputBlock
  refine ⟨_, flipBitOrder_ok heap inputBlock hclear, ?_, hw.allocated, hw.readByte, hw.readBit,
    rfl, hw.bits⟩
  have := hw.used
  simp only
  omega

/-- C1. Flip round trip: for every byte sequence `bytes` held in a block whose
flipped flag is clear, `flipBitOrder` succeeds, `unflipBitOrder` of its result
succeeds, and the block it returns has `usedSize = bytes.length` and holds
exactly `bytes` (whatever the fresh memory of the two output blocks held). -/
theorem flip_round_trip (heapFlip heapUnflip : Nat → Nat) (inputBlock : BlockDescriptor)
    (bytes : List Nat) (hheld : contents inputBlock = bytes)
    (hbytes : ∀ byte ∈ bytes, byte < 256) (hclear : isFlipped inputBlock = false) :
    ∃ flipped restored,
      flipBitOrder heapFlip inputBlock = .ok flipped ∧
      unflipBitOrder heapUnflip flipped = .ok (some restored) ∧
      restored.usedSize = bytes.length ∧ contents restored = bytes := by
  obtain ⟨flipped, hflip, hused, halloc, hrb, hrbit, henc, hbits⟩ :=
    flipBitOrder_spec heapFlip inputBlock hclear
  have hflagged : isFlipped flipped = true := by
    rw [isFlipped_eq_testBit, henc]
    have := testBit_setFlag inputBlock.encoding 1 1 (by norm_num)
    simpa [ENCODING_FLIPPED] using this
  obtain ⟨restored, hunflip, hsize, _, _, _, _, _, _, hsmall, hplaced⟩ :=
    unflipBitOrder_ok heapUnflip flipped hflagged (by omega) hrb hrbit
  have hlt := address_lt_of_contents hheld hbytes
  have hagree : ∀ offset, offset < inputBlock.usedSize →
      restored.address offset = inputBlock.address offset := by
    intro offset ho
    apply eq_of_low_bits (hsmall offset (by omega)) (hlt offset ho)
    intro bitNumber hb
    rw [hplaced bitNumber offset (by omega) (by omega), hused,
      hbits _ (plane_position_lt (by omega) ho),
      flipStream_plane inputBlock (by omega) ho, getBit_eq_testBit hb]
  refine ⟨flipped, restored, hflip, hunflip, ?_, ?_⟩
  · rw [hsize, hused, ← hheld, contents_length]
  · rw [← hheld]
    exact contents_eq_of_agree (by omega) hagree

theorem flip_round_trip_witness :
    contents sampleBlock = [0x80] ∧ (∀ byte ∈ [0x80], byte < 256) ∧
    isFlipped sampleBlock = false ∧
    ∃ flipped restored,
      flipBitOrder (fun _ => 0) sampleBlock = .ok flipped ∧
      unflipBitOrder (fun _ => 0) flipped = .ok (some restored) ∧
      restored.usedSize = [0x80].length ∧ contents restored = [0x80] :=
  ⟨rfl, by decide, rfl,
    flip_round_trip (fun _ => 0) (fun _ => 0) sampleBlock [0x80] rfl (by decide) rfl⟩

theorem readBitFromBlock_usedSize {block next : BlockDescriptor} {value : Bool}
    (h : readBitFromBlock block = .ok (value, next)) : next.usedSize = block.usedSize := by
  unfold readBitFromBlock at h
  split at h
  · cases h
  · split at h <;> · cases h; rfl

theorem unflipBlockStep_usedSize {bitNumber offset : Nat}
    {blocks next : BlockDescriptor × BlockDescriptor}
    (h : unflipBlockStep bitNumber blocks offset = .ok next) :
    next.1.usedSize = blocks.1.usedSize := by
  unfold unflipBlockStep at h
  cases hread : readBitFromBlock blocks.1 with
  | error e => simp [hread, bind, Except.bind] at h
  | ok result =>
    obtain ⟨value, after⟩ := result
    simp only [hread, bind, Except.bind, pure, Except.pure, Except.ok.injEq] at h
    rw [← h]
    exact readBitFromBlock_usedSize hread

theorem unflipBlockRow_usedSize (bitNumber : Nat) :
    ∀ (offsets : List Nat) (blocks next : BlockDescriptor × BlockDescriptor),
      offsets.foldlM (unflipBlockStep bitNumber) blocks = .ok next →
      next.1.usedSize = blocks.1.usedSize := by
  intro offsets
  induction offsets with
  | nil =>
    intro blocks next h
    simp only [List.foldlM_nil, pure, Except.pure, Except.ok.injEq] at h
    rw [h]
  | cons offset rest ih =>
    intro blocks next h
    rw [List.foldlM_cons] at h
    cases hstep : unflipBlockStep bitNumber blocks offset with
    | error e => simp [hstep, bind, Except.bind] at h
    | ok middle =>
      simp only [hstep, bind, Except.bind] at h
      rw [ih middle next h, unflipBlockStep_usedSize hstep]

theorem unflipBlockLoop_usedSize (usedSize : Nat) :
    ∀ (bitNumber : Nat) (blocks final : BlockDescriptor × BlockDescriptor),
      unflipBlockLoop usedSize bitNumber blocks = .ok final →
      final.1.usedSize = blocks.1.usedSize := by
  intro bitNumber
  induction bitNumber with
  | zero =>
    intro blocks final h
    simp only [unflipBlockLoop, pure, Except.pure, Except.ok.injEq] at h
    rw [h]
  | succ bitNumber ih =>
    intro blocks final h
    rw [unflipBlockLoop] at h
    cases hrow : unflipBlockRow usedSize bitNumber blocks with
    | error e => simp [hrow, bind, Except.bind] at h
    | ok middle =>
      simp only [hrow, bind, Except.bind] at h
      rw [ih middle final h]
      exact unflipBlockRow_usedSize bitNumber _ _ _ hrow

/-- Whenever `unflipBitOrder` returns a block, it has the size of the input. -/
theorem unflipBitOrder_usedSize {heap : Nat → Nat} {inputBlock outputBlock : BlockDescriptor}
    (h : unflipBitOrder heap inputBlock = .ok (some outputBlock)) :
    outputBlock.usedSize = inputBlock.usedSize := by
  unfold unflipBitOrder at h
  split at h
  · cases h
  · unfold unflipBlock at h
    cases hloop : unflipBlockLoop inputBlock.usedSize 8
        (inputBlock, makeMemoryBlock heap inputBlock.usedSize) with
    | error e => simp [hloop, bind, Except.bind] at h
    | ok final =>
      simp only [hloop, bind, Except.bind, pure, Except.pure, Except.ok.injEq,
        Option.some.injEq] at h
      rw [← h]
      exact unflipBlockLoop_usedSize _ _ _ _ hloop

/-- C7. Flip size invariant: on a block of `usedSize` n that is not flipped
(n = 0 included), `flipBitOrder` returns a block of `usedSize` n; on a flipped
block of `usedSize` n held in its buffer with the read cursor at its start,
`unflipBitOrder` returns a block of `usedSize` n; and any block that
`unflipBitOrder` returns, on any input, has the `usedSize` of that input. -/
theorem flip_size_invariant (heap : Nat → Nat) (inputBlock flippedBlock : BlockDescriptor)
    (hclear : isFlipped inputBlock = false) (hset : isFlipped flippedBlock = true)
    (hsize : flippedBlock.usedSize ≤ flippedBlock.allocatedSize)
    (hbyte : flippedBlock.nextByteToRead = 0) (hbit : flippedBlock.nextBitToRead = 0) :
    (∃ outputBlock, flipBitOrder heap inputBlock = .ok outputBlock ∧
      outputBlock.usedSize = inputBlock.usedSize) ∧
    (∃ outputBlock, unflipBitOrder heap flippedBlock = .ok (some outputBlock) ∧
      outputBlock.usedSize = flippedBlock.usedSize) ∧
    (∀ (anyHeap : Nat → Nat) (anyBlock outputBlock : BlockDescriptor),
      unflipBitOrder anyHeap anyBlock = .ok (some outputBlock) →
      outputBlock.usedSize = anyBlock.usedSize) := by
  refine ⟨?_, ?_, fun _ _ _ h => unflipBitOrder_usedSize h⟩
  · obtain ⟨flipped, hflip, hused, _⟩ := flipBitOrder_spec heap inputBlock hclear
    exact ⟨flipped, hflip, hused⟩
  · obtain ⟨outputBlock, hunflip, hused, _⟩ :=
      unflipBitOrder_ok heap flippedBlock hset hsize hbyte hbit
    exact ⟨outputBlock, hunflip, hused⟩

theorem flip_size_invariant_witness :
    isFlipped emptyBlock = false ∧ isFlipped sampleFlippedBlock = true ∧
    sampleFlippedBlock.usedSize ≤ sampleFlippedBlock.allocatedSize ∧
    sampleFlippedBlock.nextByteToRead = 0 ∧ sampleFlippedBlock.nextBitToRead = 0 ∧
    ((∃ outputBlock, flipBitOrder (fun _ => 0) emptyBlock = .ok outputBlock ∧
      outputBlock.usedSize = emptyBlock.usedSize) ∧
    (∃ outputBlock, unflipBitOrder (fun _ => 0) sampleFlippedBlock = .ok (some outputBlock) ∧
      outputBlock.usedSize = sampleFlippedBlock.usedSize) ∧
    (∀ (anyHeap : Nat → Nat) (anyBlock outputBlock : BlockDescriptor),
      unflipBitOrder anyHeap anyBlock = .ok (some outputBlock) →
      outputBlock.usedSize = anyBlock.usedSize)) :=
  ⟨rfl, rfl, by decide, rfl, rfl,
    flip_size_invariant (fun _ => 0) emptyBlock sampleFlippedBlock rfl rfl (by decide) rfl rfl⟩

/-- C8. Flip layout: for an input of n bytes that is not flipped, every byte
index `offset < n` and every bit position `bitNumber` in 0..7, with
k = (7 - bitNumber) * n + offset, bit (k mod 8) of byte (k div 8) of the block
that `flipBitOrder` returns is bit `bitNumber` of input byte `offset`. -/
theorem flip_layout (heap : Nat → Nat) (inputBlock : BlockDescriptor) (offset bitNumber : Nat)
    (hclear : isFlipped inputBlock = false) (ho : offset < inputBlock.usedSize)
    (hb : bitNumber ≤ 7) :
    ∃ flipped, flipBitOrder heap inputBlock = .ok flipped ∧
      (flipped.address (((7 - bitNumber) * inputBlock.usedSize + offset) / 8)).testBit
          (((7 - bitNumber) * inputBlock.usedSize + offset) % 8) =
        (inputBlock.address offset).testBit bitNumber := by
  obtain ⟨flipped, hflip, _, _, _, _, _, hbits⟩ := flipBitOrder_spec heap inputBlock hclear
  refine ⟨flipped, hflip, ?_⟩
  rw [hbits _ (plane_position_lt hb ho), flipStream_plane inputBlock hb ho,
    getBit_eq_testBit (by omega)]

theorem flip_layout_witness :
    isFlipped sampleBlock = false ∧ 0 < sampleBlock.usedSize ∧ 7 ≤ 7 ∧
    (∃ flipped, flipBitOrder (fun _ => 0) sampleBlock = .ok flipped ∧
      (flipped.address (((7 - 7) * sampleBlock.usedSize + 0) / 8)).testBit
          (((7 - 7) * sampleBlock.usedSize + 0) % 8) =
        (sampleBlock.address 0).testBit 7) ∧
    (flipBitOrder (fun _ => 0) sampleBlock).map contents = .ok [0x01] :=
  ⟨rfl, by decide, by decide, flip_layout (fun _ => 0) sampleBlock 0 7 rfl (by decide) (by decide),
    rfl⟩

/-- C9. Scenario C: on every block whose encoding has the flipped bit (bit 1)
set, whatever its contents and other flag bits, `flipBitOrder` stops with the
error "File already has bit order flipped" and returns no block. -/
theorem flip_rejects_flipped (heap : Nat → Nat) (inputBlock : BlockDescriptor)
    (hset : inputBlock.encoding.testBit 1 = true) :
    flipBitOrder heap inputBlock = .error .alreadyFlipped := by
  unfold flipBitOrder
  rw [isFlipped_eq_testBit, hset]
  rfl

theorem flip_rejects_flipped_witness :
    sampleFlippedBlock.encoding.testBit 1 = true ∧
    flipBitOrder (fun _ => 0) sampleFlippedBlock = .error .alreadyFlipped :=
  ⟨by decide, flip_rejects_flipped (fun _ => 0) sampleFlippedBlock (by decide)⟩

theorem writeToBlock_encoding (block : BlockDescriptor) (character : Nat) :
    (writeToBlock block character).1.encoding = block.encoding := by
  unfold writeToBlock
  simp only
  split <;> rfl

theorem writeByte_encoding (block : BlockDescriptor) (character : Nat) :
    (writeByte block character).encoding = block.encoding := by
  unfold writeByte
  simp only
  split <;> simp [writeToBlock_encoding]

theorem writeRepeatLoop_encoding (character : Nat) :
    ∀ (repeatCount : Nat) (block : BlockDescriptor),
      (writeRepeatLoop character repeatCount block).encoding = block.encoding := by
  intro repeatCount
  induction repeatCount with
  | zero => intro block; rfl
  | succ repeatCount ih => intro block; rw [writeRepeatLoop, ih, writeByte_encoding]

theorem writeRepeat_encoding (block : BlockDescriptor) (repeatCount character : Nat) :
    (writeRepeat block repeatCount character).encoding = block.encoding := by
  unfold writeRepeat
  split
  · rw [writeRepeatLoop_encoding, writeByte_encoding]
  · simp [writeToBlock_encoding]

theorem runLengthCompressStep_encoding (inputBlock : BlockDescriptor) (state : RunLengthState) :
    (runLengthCompressStep inputBlock state).outputBlock.encoding
      = state.outputBlock.encoding := by
  unfold runLengthCompressStep
  simp only
  split
  · split <;> simp [writeRepeat_encoding]
  · split
    · simp [writeRepeat_encoding]
    · split <;> simp [writeByte_encoding]

theorem runLengthCompressFinish_encoding (inputBlock : BlockDescriptor) (state : RunLengthState) :
    (runLengthCompressFinish inputBlock state).encoding = state.outputBlock.encoding := by
  unfold runLengthCompressFinish
  simp only
  split
  · exact writeRepeat_encoding _ _ _
  · split
    · exact writeRepeat_encoding _ _ _
    · split
      · exact writeByte_encoding _ _
      · rfl

theorem runLengthCompress_loop_encoding (inputBlock : BlockDescriptor) :
    ∀ (offsets : List Nat) (state : RunLengthState),
      (offsets.foldl (fun state _ => runLengthCompressStep inputBlock state)
        state).outputBlock.encoding = state.outputBlock.encoding := by
  intro offsets
  induction offsets with
  | nil => intro state; rfl
  | cons offset rest ih =>
    intro state
    rw [List.foldl_cons, ih, runLengthCompressStep_encoding]

/-- The encoding of the block that `runLengthCompress` returns. -/
theorem runLengthCompress_encoding {heap : Nat → Nat} {inputBlock outputBlock : BlockDescriptor}
    (h : runLengthCompress heap inputBlock = .ok outputBlock) :
    outputBlock.encoding = (inputBlock.encoding ||| ENCODING_RUN_LENGTH) % 256 := by
  unfold runLengthCompress at h
  simp only at h
  split at h
  · cases h
  · simp only [Except.ok.injEq] at h
    rw [← h, runLengthCompressFinish_encoding, runLengthCompress_loop_encoding]

/-- The encoding of the block that `huffmanCompress` returns. -/
theorem huffmanCompress_encoding {heap : Nat → Nat} {inputBlock outputBlock : BlockDescriptor}
    (h : huffmanCompress heap inputBlock = .ok outputBlock) :
    outputBlock.encoding = (inputBlock.encoding ||| ENCODING_HUFFMAN) % 256 := by
  unfold huffmanCompress at h
  simp only [bind, Except.bind, pure, Except.pure] at h
  repeat' split at h
  all_goals (cases h; try rfl)

/-- C10. Double application rejected: on every block whose encoding has the
run-length bit (bit 0) set `runLengthCompress` stops with an error, on every
block whose encoding has the Huffman bit (bit 2) set `huffmanCompress` stops
with an error, and whenever one of the two stages returns a block, the same
stage applied to that block stops with the error. -/
theorem double_application_rejected (heap heapAgain : Nat → Nat)
    (rleFlagged huffmanFlagged rleInput rleOutput huffmanInput huffmanOutput : BlockDescriptor)
    (hrle : rleFlagged.encoding.testBit 0 = true)
    (hhuffman : huffmanFlagged.encoding.testBit 2 = true)
    (hrleOutput : runLengthCompress heap rleInput = .ok rleOutput)
    (hhuffmanOutput : huffmanCompress heap huffmanInput = .ok huffmanOutput) :
    runLengthCompress heapAgain rleFlagged = .error .alreadyRunLengthEncoded ∧
    huffmanCompress heapAgain huffmanFlagged = .error .alreadyHuffmanEncoded ∧
    runLengthCompress heapAgain rleOutput = .error .alreadyRunLengthEncoded ∧
    huffmanCompress heapAgain huffmanOutput = .error .alreadyHuffmanEncoded := by
  have rle : ∀ block : BlockDescriptor, block.encoding.testBit 0 = true →
      runLengthCompress heapAgain block = .error .alreadyRunLengthEncoded := by
    intro block hset
    unfold runLengthCompress
    simp only [isRleCompressed_eq_testBit, hset, if_true]
  have huffman : ∀ block : BlockDescriptor, block.encoding.testBit 2 = true →
      huffmanCompress heapAgain block = .error .alreadyHuffmanEncoded := by
    intro block hset
    unfold huffmanCompress
    simp only [isHuffmanCompressed_eq_testBit, hset, if_true]
    rfl
  refine ⟨rle _ hrle, huffman _ hhuffman, rle _ ?_, huffman _ ?_⟩
  · rw [runLengthCompress_encoding hrleOutput]
    have := testBit_setFlag rleInput.encoding 0 0 (by norm_num)
    simpa [ENCODING_RUN_LENGTH] using this
  · rw [huffmanCompress_encoding hhuffmanOutput]
    have := testBit_setFlag huffmanInput.encoding 2 2 (by norm_num)
    simpa [ENCODING_HUFFMAN] using this

theorem double_application_rejected_witness :
    ({ sampleBlock with encoding := 1 } : BlockDescriptor).encoding.testBit 0 = true ∧
    ({ sampleBlock with encoding := 4 } : BlockDescriptor).encoding.testBit 2 = true ∧
    (runLengthCompress (fun _ => 0) sampleTwoSymbolBlock).map contents = .ok [0x41, 0x42] ∧
    (huffmanCompress (fun _ => 0) sampleTwoSymbolBlock).map contents
      = .ok [2, 0, 0, 0, 0, 0, 0, 0, 1, 0x41, 1, 1, 0x42, 1, 1, 2] ∧
    runLengthCompress (fun _ => 0) { sampleBlock with encoding := 1 }
      = .error .alreadyRunLengthEncoded ∧
    huffmanCompress (fun _ => 0) { sampleBlock with encoding := 4 }
      = .error .alreadyHuffmanEncoded ∧
    runLengthCompress (fun _ => 0)
        (resultOr sampleBlock (runLengthCompress (fun _ => 0) sampleTwoSymbolBlock))
      = .error .alreadyRunLengthEncoded ∧
    huffmanCompress (fun _ => 0)
        (resultOr sampleBlock (huffmanCompress (fun _ => 0) sampleTwoSymbolBlock))
      = .error .alreadyHuffmanEncoded :=
  ⟨by decide, by decide, rfl, rfl,
    double_application_rejected (fun _ => 0) (fun _ => 0)
      { sampleBlock with encoding := 1 } { sampleBlock with encoding := 4 }
      sampleTwoSymbolBlock
      (resultOr sampleBlock (runLengthCompress (fun _ => 0) sampleTwoSymbolBlock))
      sampleTwoSymbolBlock
      (resultOr sampleBlock (huffmanCompress (fun _ => 0) sampleTwoSymbolBlock))
      (by decide) (by decide) rfl rfl⟩

/-- C5. Flag reader on a file that is not compressed: if the file has fewer
than 5 bytes, or its first four bytes are not 'J', 'L', 'C', 'M', then
`getCompressionFlags` returns 0 and raises no error. -/
theorem flags_of_uncompressed_file (file : List Nat) (outputDescription : Bool)
    (h : file.length < 5 ∨ file.take 4 ≠ [74, 76, 67, 77]) :
    getCompressionFlags file outputDescription = .ok 0 := by
  unfold getCompressionFlags
  simp only [HEADER_SIZE]
  by_cases hshort : file.length < 5
  · have : (List.take 5 file).length < 5 := by
      rw [List.length_take]; omega
    simp only [this, if_true]
  · have hlen : ¬ (List.take 5 file).length < 5 := by
      rw [List.length_take]; omega
    have hmagic : List.take 4 (List.take 5 file) ≠ [74, 76, 67, 77] := by
      rw [List.take_take]
      rcases h with h | h
      · exact absurd h hshort
      · simpa using h
    simp only [hlen, if_false, hmagic, ne_eq, not_false_eq_true, if_true]

theorem flags_of_uncompressed_file_witness :
    (([74, 76, 67] : List Nat).length < 5 ∨ ([74, 76, 67] : List Nat).take 4 ≠ [74, 76, 67, 77]) ∧
    (([1, 2, 3, 4, 5, 6] : List Nat).length < 5 ∨
      ([1, 2, 3, 4, 5, 6] : List Nat).take 4 ≠ [74, 76, 67, 77]) ∧
    getCompressionFlags [74, 76, 67] true = .ok 0 ∧
    getCompressionFlags [1, 2, 3, 4, 5, 6] false = .ok 0 :=
  ⟨by decide, by decide, flags_of_uncompressed_file [74, 76, 67] true (by decide),
    flags_of_uncompressed_file [1, 2, 3, 4, 5, 6] false (by decide)⟩

/-- C6. Header round trip: for every encoding byte `encoding` (all 256 values)
and every payload, the header `writeHeader` writes is the 5 bytes 'J', 'L', 'C',
'M', `encoding`, and `getCompressionFlags` on header ++ payload returns exactly
`encoding` without error; the stage bits are run-length = bit 0 (0x1), flipped =
bit 1 (0x2), Huffman = bit 2 (0x4), as `isRleCompressed`, `isFlipped` and
`isHuffmanCompressed` test them. -/
theorem header_round_trip (blockDescriptor : BlockDescriptor) (payload : List Nat)
    (outputDescription : Bool) (hbyte : blockDescriptor.encoding < 256) :
    writeHeader blockDescriptor = [74, 76, 67, 77, blockDescriptor.encoding] ∧
    getCompressionFlags (writeHeader blockDescriptor ++ payload) outputDescription
      = .ok blockDescriptor.encoding ∧
    (ENCODING_RUN_LENGTH = 0x1 ∧ ENCODING_FLIPPED = 0x2 ∧ ENCODING_HUFFMAN = 0x4) ∧
    isRleCompressed blockDescriptor = blockDescriptor.encoding.testBit 0 ∧
    isFlipped blockDescriptor = blockDescriptor.encoding.testBit 1 ∧
    isHuffmanCompressed blockDescriptor = blockDescriptor.encoding.testBit 2 := by
  have hmod : blockDescriptor.encoding % 256 = blockDescriptor.encoding := Nat.mod_eq_of_lt hbyte
  refine ⟨by simp [writeHeader, hmod], ?_, ⟨rfl, rfl, rfl⟩, isRleCompressed_eq_testBit _,
    isFlipped_eq_testBit _, isHuffmanCompressed_eq_testBit _⟩
  unfold getCompressionFlags writeHeader
  simp [HEADER_SIZE, hmod, logicalNot, ENCODING_RUN_LENGTH, truthy, describeCompressionFlags]

theorem header_round_trip_witness :
    ({ sampleBlock with encoding := 255 } : BlockDescriptor).encoding < 256 ∧
    (writeHeader { sampleBlock with encoding := 255 } = [74, 76, 67, 77, 255] ∧
    getCompressionFlags (writeHeader { sampleBlock with encoding := 255 } ++ [1, 2, 3]) true
      = .ok 255 ∧
    (ENCODING_RUN_LENGTH = 0x1 ∧ ENCODING_FLIPPED = 0x2 ∧ ENCODING_HUFFMAN = 0x4) ∧
    isRleCompressed { sampleBlock with encoding := 255 } = (255 : Nat).testBit 0 ∧
    isFlipped { sampleBlock with encoding := 255 } = (255 : Nat).testBit 1 ∧
    isHuffmanCompressed { sampleBlock with encoding := 255 } = (255 : Nat).testBit 2) :=
  ⟨by decide, header_round_trip { sampleBlock with encoding := 255 } [1, 2, 3] true (by decide)⟩

/-- C2 (the code breaks the claim). `runLengthCompress` reads the cell one past
the buffer ("Handle last character in file"): on a block holding the single byte
235 with `usedSize = allocatedSize = 1` and the run-length flag clear, followed
in memory by a cell holding 235, it writes REPEAT, 0, 235, which
`runLengthDecompress` expands to 256 bytes instead of the one byte put in. -/
theorem runLength_round_trip_fails :
    contents trailingRepeatBlock = [235] ∧
    trailingRepeatBlock.usedSize = 1 ∧ trailingRepeatBlock.allocatedSize = 1 ∧
    isRleCompressed trailingRepeatBlock = false ∧
    trailingRepeatBlock.address 1 = 235 ∧
    (runLengthCompress (fun _ => 0) trailingRepeatBlock).map contents = .ok [235, 0, 235] ∧
    (runLengthCompress (fun _ => 0) trailingRepeatBlock >>= runLengthDecompress (fun _ => 0)).map
      (Option.map contents) = .ok (some (List.replicate 256 235)) :=
  ⟨rfl, rfl, rfl, rfl, rfl, rfl, rfl⟩

/-- C3 (the code breaks the claim). On the one-byte input [0x41] the tree is a
single leaf, `walkHuffmanTree` gives it a pattern of length 0, and
`huffmanCompress` stops with "Not all characters in file have patterns"; on the
empty input `buildHuffmanTree` dereferences the `NULL` queue head.  Neither run
returns a block that `huffmanDecompress` could turn back into the input. -/
theorem huffman_round_trip_fails (heap : Nat → Nat) :
    contents singleSymbolBlock = [0x41] ∧
    isHuffmanCompressed singleSymbolBlock = false ∧
    huffmanCompress heap singleSymbolBlock = .error .notAllCharactersHavePatterns ∧
    contents emptyBlock = [] ∧
    huffmanCompress heap emptyBlock = .error .nullDereference := by
  have hflag : isHuffmanCompressed singleSymbolBlock = false := rfl
  have hbuild : buildHuffmanTree (populateFrequencyTable singleSymbolBlock)
      = .ok (.leaf 0x41 1) := rfl
  have hcheck : (walkHuffmanTree (.leaf 0x41 1) (populateFrequencyTable singleSymbolBlock) 0 0
      >>= checkFrequencyTable) = .error .notAllCharactersHavePatterns := rfl
  have hflagEmpty : isHuffmanCompressed emptyBlock = false := rfl
  have hbuildEmpty : buildHuffmanTree (populateFrequencyTable emptyBlock)
      = .error .nullDereference := rfl
  refine ⟨rfl, rfl, ?_, rfl, ?_⟩
  · unfold huffmanCompress
    simp only [bind, Except.bind, hflag, hbuild, Bool.false_eq_true, if_false, pure,
      Except.pure] at hcheck ⊢
    split at hcheck
    · cases hcheck; rfl
    · simp only [hcheck]
  · unfold huffmanCompress
    simp only [bind, Except.bind, hflagEmpty, hbuildEmpty, Bool.false_eq_true, if_false, pure,
      Except.pure]

/-- C4 (the code breaks the claim). With the default configuration (run-length,
then Huffman) the stage chain of `compress` on the one-byte input [0x41] stops
with "Not all characters in file have patterns", so there is nothing to
decompress.  With flip and run-length enabled, the one-byte input [215] flips to
[235] in a heap block; when the cell after that block holds 235, `compress`
yields REPEAT, 0, 235 and `decompress` returns 256 bytes. -/
theorem pipeline_round_trip_fails :
    contents singleSymbolBlock = [0x41] ∧
    compress defaultCompressionFlags zeroHeaps singleSymbolBlock
      = .error .notAllCharactersHavePatterns ∧
    compressFile defaultCompressionFlags zeroHeaps (fun _ => 0) [0x41]
      = .error .notAllCharactersHavePatterns ∧
    (compress { flip := true, rle := true, huffman := false } staleHeaps
      (mapUncompressedFile [215] (fun _ => 0))).map contents = .ok [235, 0, 235] ∧
    (compress { flip := true, rle := true, huffman := false } staleHeaps
        (mapUncompressedFile [215] (fun _ => 0)) >>= decompress zeroHeaps).map
      BlockDescriptor.usedSize = .ok 256 :=
  ⟨rfl, rfl, rfl, rfl, rfl⟩

/-- C11. Decode no-op on clear flag: on a block whose encoding lacks the Huffman
bit (bit 2) `huffmanDecompress` returns `NULL`, on one that lacks the run-length
bit (bit 0) `runLengthDecompress` returns `NULL`, on one that lacks the flipped
bit (bit 1) `unflipBitOrder` returns `NULL`, each without an error and whatever
the bytes of the block are; and `decompress` on a block with encoding 0 hands
the input block itself, unchanged, to `createFile`. -/
theorem decode_noop_on_clear_flag (state : Option HuffmanNode) (heap : Nat → Nat)
    (heaps : StageHeaps) (huffmanInput rleInput flipInput plainInput : BlockDescriptor)
    (hhuffman : huffmanInput.encoding.testBit 2 = false)
    (hrle : rleInput.encoding.testBit 0 = false)
    (hflip : flipInput.encoding.testBit 1 = false)
    (hplain : plainInput.encoding = 0) :
    huffmanDecompress state heap huffmanInput = .ok (none, state) ∧
    runLengthDecompress heap rleInput = .ok none ∧
    unflipBitOrder heap flipInput = .ok none ∧
    decompress heaps plainInput = .ok plainInput ∧
    (decompress heaps plainInput).map contents = .ok (contents plainInput) := by
  have huffman : ∀ (anyState : Option HuffmanNode) (anyHeap : Nat → Nat) (block : BlockDescriptor),
      block.encoding.testBit 2 = false →
      huffmanDecompress anyState anyHeap block = .ok (none, anyState) := by
    intro anyState anyHeap block h
    unfold huffmanDecompress
    simp only [isHuffmanCompressed_eq_testBit, h, Bool.not_false, if_true]
  have rle : ∀ (anyHeap : Nat → Nat) (block : BlockDescriptor),
      block.encoding.testBit 0 = false → runLengthDecompress anyHeap block = .ok none := by
    intro anyHeap block h
    unfold runLengthDecompress
    simp only [isRleCompressed_eq_testBit, h, Bool.not_false, if_true]
  have flip : ∀ (anyHeap : Nat → Nat) (block : BlockDescriptor),
      block.encoding.testBit 1 = false → unflipBitOrder anyHeap block = .ok none := by
    intro anyHeap block h
    unfold unflipBitOrder
    simp only [isFlipped_eq_testBit, h, Bool.not_false, if_true]
  have hwhole : decompress heaps plainInput = .ok plainInput := by
    unfold decompress
    simp only [huffman none heaps.huffman plainInput (by rw [hplain]; rfl),
      rle heaps.rle plainInput (by rw [hplain]; rfl),
      flip heaps.flip plainInput (by rw [hplain]; rfl), bind, Except.bind, pure, Except.pure]
  refine ⟨huffman _ _ _ hhuffman, rle _ _ hrle, flip _ _ hflip, hwhole, ?_⟩
  rw [hwhole]
  rfl

theorem decode_noop_on_clear_flag_witness :
    sampleBlock.encoding.testBit 2 = false ∧ sampleBlock.encoding.testBit 0 = false ∧
    sampleBlock.encoding.testBit 1 = false ∧ sampleBlock.encoding = 0 ∧
    (huffmanDecompress none (fun _ => 0) sampleBlock = .ok (none, none) ∧
    runLengthDecompress (fun _ => 0) sampleBlock = .ok none ∧
    unflipBitOrder (fun _ => 0) sampleBlock = .ok none ∧
    decompress zeroHeaps sampleBlock = .ok sampleBlock ∧
    (decompress zeroHeaps sampleBlock).map contents = .ok (contents sampleBlock)) :=
  ⟨by decide, by decide, by decide, rfl,
    decode_noop_on_clear_flag none (fun _ => 0) zeroHeaps sampleBlock sampleBlock sampleBlock
      sampleBlock (by decide) (by decide) (by decide) rfl⟩

theorem readBitFromBlock_encoding {block next : BlockDescriptor} {value : Bool}
    (h : readBitFromBlock block = .ok (value, next)) : next.encoding = block.encoding := by
  unfold readBitFromBlock at h
  split at h
  · cases h
  · split at h <;> · cases h; rfl

theorem readFromBlock_encoding {block next : BlockDescriptor} {value : Nat}
    (h : readFromBlock block = .ok (value, next)) : next.encoding = block.encoding := by
  unfold readFromBlock at h
  split at h
  · cases h
  · cases h; rfl

/-- A loop in `Except` keeps a quantity that each of its passes keeps. -/
theorem foldlM_preserves {σ β : Type} (measure : σ → Nat) (step : σ → β → Except Failure σ)
    (hstep : ∀ state item next, step state item = .ok next → measure next = measure state) :
    ∀ (items : List β) (state final : σ),
      items.foldlM step state = .ok final → measure final = measure state := by
  intro items
  induction items with
  | nil =>
    intro state final h
    simp only [List.foldlM_nil, pure, Except.pure, Except.ok.injEq] at h
    rw [h]
  | cons item rest ih =>
    intro state final h
    rw [List.foldlM_cons] at h
    cases hfirst : step state item with
    | error e => simp [hfirst, bind, Except.bind] at h
    | ok middle =>
      simp only [hfirst, bind, Except.bind] at h
      rw [ih middle final h, hstep state item middle hfirst]

theorem unflipBlockStep_encoding {bitNumber offset : Nat}
    {blocks next : BlockDescriptor × BlockDescriptor}
    (h : unflipBlockStep bitNumber blocks offset = .ok next) :
    next.1.encoding = blocks.1.encoding := by
  unfold unflipBlockStep at h
  cases hread : readBitFromBlock blocks.1 with
  | error e => simp [hread, bind, Except.bind] at h
  | ok result =>
    obtain ⟨value, after⟩ := result
    simp only [hread, bind, Except.bind, pure, Except.pure, Except.ok.injEq] at h
    rw [← h]
    exact readBitFromBlock_encoding hread

theorem unflipBlockLoop_encoding (usedSize : Nat) :
    ∀ (bitNumber : Nat) (blocks final : BlockDescriptor × BlockDescriptor),
      unflipBlockLoop usedSize bitNumber blocks = .ok final →
      final.1.encoding = blocks.1.encoding := by
  intro bitNumber
  induction bitNumber with
  | zero =>
    intro blocks final h
    simp only [unflipBlockLoop, pure, Except.pure, Except.ok.injEq] at h
    rw [h]
  | succ bitNumber ih =>
    intro blocks final h
    rw [unflipBlockLoop] at h
    cases hrow : unflipBlockRow usedSize bitNumber blocks with
    | error e => simp [hrow, bind, Except.bind] at h
    | ok middle =>
      simp only [hrow, bind, Except.bind] at h
      rw [ih middle final h]
      exact foldlM_preserves (fun blocks => blocks.1.encoding) (unflipBlockStep bitNumber)
        (fun _ _ _ hstep => unflipBlockStep_encoding hstep) _ _ _ hrow

/-- The encoding of the block that `flipBitOrder` returns. -/
theorem flipBitOrder_encoding {heap : Nat → Nat} {inputBlock outputBlock : BlockDescriptor}
    (h : flipBitOrder heap inputBlock = .ok outputBlock) :
    outputBlock.encoding = (inputBlock.encoding ||| ENCODING_FLIPPED) % 256 := by
  unfold flipBitOrder at h
  split at h
  · cases h
  · cases h; rfl

/-- The encoding of the block that `unflipBitOrder` returns. -/
theorem unflipBitOrder_encoding {heap : Nat → Nat} {inputBlock outputBlock : BlockDescriptor}
    (h : unflipBitOrder heap inputBlock = .ok (some outputBlock)) :
    outputBlock.encoding = clearFlag inputBlock.encoding ENCODING_FLIPPED := by
  unfold unflipBitOrder at h
  split at h
  · cases h
  · unfold unflipBlock at h
    cases hloop : unflipBlockLoop inputBlock.usedSize 8
        (inputBlock, makeMemoryBlock heap inputBlock.usedSize) with
    | error e => simp [hloop, bind, Except.bind] at h
    | ok final =>
      simp only [hloop, bind, Except.bind, pure, Except.pure, Except.ok.injEq,
        Option.some.injEq] at h
      rw [← h]
      simp only
      rw [unflipBlockLoop_encoding _ _ _ _ hloop]

theorem writeCopies_encoding (character : Nat) :
    ∀ (count : Nat) (block : BlockDescriptor),
      (writeCopies character count block).encoding = block.encoding := by
  intro count
  induction count with
  | zero => intro block; rfl
  | succ count ih => intro block; rw [writeCopies, ih, writeToBlock_encoding]

theorem runLengthDecompressLoop_encoding (inputBlock : BlockDescriptor) :
    ∀ (fuel offset : Nat) (outputBlock final : BlockDescriptor),
      runLengthDecompressLoop inputBlock fuel offset outputBlock = .ok final →
      final.encoding = outputBlock.encoding := by
  intro fuel
  induction fuel with
  | zero =>
    intro offset outputBlock final h
    unfold runLengthDecompressLoop at h
    split at h
    · cases h
    · cases h; rfl
  | succ fuel ih =>
    intro offset outputBlock final h
    unfold runLengthDecompressLoop at h
    simp only at h
    repeat' split at h
    all_goals first
      | (rw [ih _ _ _ h]; simp only [writeToBlock_encoding, writeCopies_encoding])
      | (cases h; done)
      | (cases h; rfl)

/-- The encoding of the block that `runLengthDecompress` returns. -/
theorem runLengthDecompress_encoding {heap : Nat → Nat} {inputBlock outputBlock : BlockDescriptor}
    (h : runLengthDecompress heap inputBlock = .ok (some outputBlock)) :
    outputBlock.encoding = clearFlag inputBlock.encoding ENCODING_RUN_LENGTH := by
  unfold runLengthDecompress at h
  simp only at h
  split at h
  · cases h
  · cases hloop : runLengthDecompressLoop inputBlock inputBlock.usedSize 0
        { makeMemoryBlock heap inputBlock.usedSize with
          encoding := clearFlag inputBlock.encoding ENCODING_RUN_LENGTH } with
    | error e => simp [hloop, bind, Except.bind] at h
    | ok final =>
      simp only [hloop, bind, Except.bind, pure, Except.pure, Except.ok.injEq,
        Option.some.injEq] at h
      rw [← h, runLengthDecompressLoop_encoding _ _ _ _ _ hloop]

theorem readFrequencyBytes_encoding {byteCount : Nat} {start final : Nat × BlockDescriptor}
    (h : readFrequencyBytes byteCount start = .ok final) :
    final.2.encoding = start.2.encoding := by
  unfold readFrequencyBytes at h
  refine foldlM_preserves (fun state : Nat × BlockDescriptor => state.2.encoding) _ ?_ _ _ _ h
  intro state byteNumber next hstep
  cases hread : readFromBlock state.2 with
  | error e => simp [hread, bind, Except.bind] at hstep
  | ok result =>
    obtain ⟨byte, after⟩ := result
    simp only [hread, bind, Except.bind] at hstep
    cases hshift : shiftedFrequencyByte byte byteNumber with
    | error e => simp [hshift] at hstep
    | ok shifted =>
      simp only [hshift, pure, Except.pure, Except.ok.injEq] at hstep
      rw [← hstep]
      exact readFromBlock_encoding hread

theorem readFrequencyTableFromBlock_encoding {inputBlock : BlockDescriptor}
    {final : FrequencyTable × BlockDescriptor}
    (h : readFrequencyTableFromBlock inputBlock = .ok final) :
    final.2.encoding = inputBlock.encoding := by
  unfold readFrequencyTableFromBlock at h
  cases hcount : readFromBlock inputBlock with
  | error e => simp [hcount, bind, Except.bind] at h
  | ok result =>
    obtain ⟨countByte, afterCount⟩ := result
    simp only [hcount, bind, Except.bind] at h
    rw [← readFromBlock_encoding hcount]
    refine foldlM_preserves (fun state : FrequencyTable × BlockDescriptor => state.2.encoding)
      _ ?_ _ _ _ h
    intro state index next hstep
    cases hsymbol : readFromBlock state.2 with
    | error e => simp [hsymbol] at hstep
    | ok symbolResult =>
      obtain ⟨symbol, afterSymbol⟩ := symbolResult
      simp only [hsymbol] at hstep
      cases hbytes : readFromBlock afterSymbol with
      | error e => simp [hbytes] at hstep
      | ok bytesResult =>
        obtain ⟨byteCount, afterByteCount⟩ := bytesResult
        simp only [hbytes] at hstep
        cases hfrequency : readFrequencyBytes byteCount (0, afterByteCount) with
        | error e => simp [hfrequency] at hstep
        | ok frequencyResult =>
          obtain ⟨frequency, afterFrequency⟩ := frequencyResult
          simp only [hfrequency, pure, Except.pure, Except.ok.injEq] at hstep
          rw [← hstep]
          have h3 := readFrequencyBytes_encoding hfrequency
          simp only at h3 ⊢
          rw [h3, readFromBlock_encoding hbytes, readFromBlock_encoding hsymbol]

theorem readBytesInFile_encoding {inputBlock : BlockDescriptor} {final : Nat × BlockDescriptor}
    (h : readBytesInFile inputBlock = .ok final) : final.2.encoding = inputBlock.encoding := by
  unfold readBytesInFile at h
  refine foldlM_preserves (fun state : Nat × BlockDescriptor => state.2.encoding) _ ?_ _ _ _ h
  intro state offset next hstep
  cases hread : readFromBlock state.2 with
  | error e => simp [hread, bind, Except.bind] at hstep
  | ok result =>
    obtain ⟨byte, after⟩ := result
    simp only [hread, bind, Except.bind, pure, Except.pure, Except.ok.injEq] at hstep
    rw [← hstep]
    exact readFromBlock_encoding hread

theorem huffmanDecodeLoop_encoding (huffmanNode : HuffmanNode) :
    ∀ (fuel bytesInFile : Nat) (state : Option HuffmanNode)
      (inputBlock outputBlock : BlockDescriptor)
      (final : Option HuffmanNode × BlockDescriptor × BlockDescriptor),
      huffmanDecodeLoop huffmanNode fuel bytesInFile state inputBlock outputBlock = .ok final →
      final.2.1.encoding = inputBlock.encoding := by
  intro fuel
  induction fuel with
  | zero =>
    intro bytesInFile state inputBlock outputBlock final h
    cases bytesInFile with
    | zero => simp only [huffmanDecodeLoop, Except.ok.injEq] at h; rw [← h]
    | succ bytesInFile => simp [huffmanDecodeLoop] at h
  | succ fuel ih =>
    intro bytesInFile state inputBlock outputBlock final h
    cases bytesInFile with
    | zero => simp only [huffmanDecodeLoop, Except.ok.injEq] at h; rw [← h]
    | succ bytesInFile =>
      rw [huffmanDecodeLoop] at h
      cases hread : readBitFromBlock inputBlock with
      | error e => simp [hread, bind, Except.bind] at h
      | ok result =>
        obtain ⟨bitRead, afterRead⟩ := result
        simp only [hread, bind, Except.bind] at h
        cases hchar : getHuffmanChar state bitRead huffmanNode with
        | error e => simp [hchar] at h
        | ok charResult =>
          obtain ⟨nextState, character⟩ := charResult
          simp only [hchar] at h
          cases character with
          | none =>
            simp only at h
            rw [ih _ _ _ _ _ h, readBitFromBlock_encoding hread]
          | some symbol =>
            simp only at h
            rw [ih _ _ _ _ _ h, readBitFromBlock_encoding hread]

/-- The encoding of the block that `huffmanDecompress` returns. -/
theorem huffmanDecompress_encoding {state finalState : Option HuffmanNode} {heap : Nat → Nat}
    {inputBlock outputBlock : BlockDescriptor}
    (h : huffmanDecompress state heap inputBlock = .ok (some outputBlock, finalState)) :
    outputBlock.encoding = clearFlag inputBlock.encoding ENCODING_HUFFMAN := by
  unfold huffmanDecompress at h
  split at h
  · cases h
  · cases hsize : readBytesInFile inputBlock with
    | error e => simp [hsize, bind, Except.bind] at h
    | ok sizeResult =>
      obtain ⟨bytesInFile, afterSize⟩ := sizeResult
      simp only [hsize, bind, Except.bind] at h
      cases htable : readFrequencyTableFromBlock afterSize with
      | error e => simp [htable] at h
      | ok tableResult =>
        obtain ⟨frequencyTable, afterTable⟩ := tableResult
        simp only [htable] at h
        cases htree : buildHuffmanTree frequencyTable with
        | error e => simp [htree] at h
        | ok huffmanNode =>
          simp only [htree] at h
          cases hloop : huffmanDecodeLoop huffmanNode (8 * afterTable.allocatedSize + 1)
              bytesInFile state afterTable (makeMemoryBlock heap bytesInFile) with
          | error e => simp [hloop] at h
          | ok loopResult =>
            obtain ⟨last, afterDecode, decoded⟩ := loopResult
            simp only [hloop, pure, Except.pure, Except.ok.injEq, Prod.mk.injEq,
              Option.some.injEq] at h
            rw [← h.1]
            have h1 := huffmanDecodeLoop_encoding _ _ _ _ _ _ _ hloop
            have h2 := readFrequencyTableFromBlock_encoding htable
            have h3 := readBytesInFile_encoding hsize
            simp only at h1 h2 h3 ⊢
            rw [h1, h2, h3]

theorem setFlag_of_byte {encoding : Nat} (flagBit : Nat) (he : encoding < 256)
    (hf : flagBit < 8) :
    (encoding ||| 2 ^ flagBit) % 256 = encoding ||| 2 ^ flagBit := by
  apply Nat.mod_eq_of_lt
  have h256 : (256 : Nat) = 2 ^ 8 := by norm_num
  rw [h256] at he ⊢
  exact Nat.or_lt_two_pow he (Nat.pow_lt_pow_right (by norm_num) hf)

theorem testBit_clearFlag {encoding : Nat} (flagBit : Nat) (he : encoding < 256) (hf : flagBit < 8)
    (position : Nat) :
    (clearFlag encoding (2 ^ flagBit)).testBit position =
      (encoding.testBit position && decide (position ≠ flagBit)) := by
  unfold clearFlag
  rw [Nat.mod_eq_of_lt he, Nat.testBit_and]
  by_cases hp : position < 8
  · rw [testBit_clearMask hf hp]
  · rw [testBit_of_lt_256 he (by omega)]
    simp

/-- C12. Each stage changes only its own flag bit: whenever an encode stage
returns a block, on an input whose encoding byte is e, the output's encoding is
e OR the stage's bit (flip 0x2, run-length 0x1, Huffman 0x4); whenever a decode
stage returns a block, the output's encoding has the stage's bit clear and
every other bit equal to that of e. -/
theorem stage_changes_only_its_flag (heap : Nat → Nat) (state finalState : Option HuffmanNode)
    (flipInput flipOutput rleInput rleOutput huffmanInput huffmanOutput : BlockDescriptor)
    (unflipInput unflipOutput unrleInput unrleOutput unhuffmanInput unhuffmanOutput :
      BlockDescriptor)
    (hflipByte : flipInput.encoding < 256) (hrleByte : rleInput.encoding < 256)
    (hhuffmanByte : huffmanInput.encoding < 256) (hunflipByte : unflipInput.encoding < 256)
    (hunrleByte : unrleInput.encoding < 256) (hunhuffmanByte : unhuffmanInput.encoding < 256)
    (hflip : flipBitOrder heap flipInput = .ok flipOutput)
    (hrle : runLengthCompress heap rleInput = .ok rleOutput)
    (hhuffman : huffmanCompress heap huffmanInput = .ok huffmanOutput)
    (hunflip : unflipBitOrder heap unflipInput = .ok (some unflipOutput))
    (hunrle : runLengthDecompress heap unrleInput = .ok (some unrleOutput))
    (hunhuffman : huffmanDecompress state heap unhuffmanInput
      = .ok (some unhuffmanOutput, finalState)) :
    flipOutput.encoding = flipInput.encoding ||| 0x2 ∧
    rleOutput.encoding = rleInput.encoding ||| 0x1 ∧
    huffmanOutput.encoding = huffmanInput.encoding ||| 0x4 ∧
    (∀ position, unflipOutput.encoding.testBit position =
      (unflipInput.encoding.testBit position && decide (position ≠ 1))) ∧
    (∀ position, unrleOutput.encoding.testBit position =
      (unrleInput.encoding.testBit position && decide (position ≠ 0))) ∧
    (∀ position, unhuffmanOutput.encoding.testBit position =
      (unhuffmanInput.encoding.testBit position && decide (position ≠ 2))) := by
  refine ⟨?_, ?_, ?_, ?_, ?_, ?_⟩
  · rw [flipBitOrder_encoding hflip]
    exact setFlag_of_byte 1 hflipByte (by norm_num)
  · rw [runLengthCompress_encoding hrle]
    exact setFlag_of_byte 0 hrleByte (by norm_num)
  · rw [huffmanCompress_encoding hhuffman]
    exact setFlag_of_byte 2 hhuffmanByte (by norm_num)
  · intro position
    rw [unflipBitOrder_encoding hunflip]
    exact testBit_clearFlag 1 hunflipByte (by norm_num) position
  · intro position
    rw [runLengthDecompress_encoding hunrle]
    exact testBit_clearFlag 0 hunrleByte (by norm_num) position
  · intro position
    rw [huffmanDecompress_encoding hunhuffman]
    exact testBit_clearFlag 2 hunhuffmanByte (by norm_num) position

theorem stage_changes_only_its_flag_witness :
    sampleBlock.encoding < 256 ∧ sampleTwoSymbolBlock.encoding < 256 ∧
    sampleFlippedBlock.encoding < 256 ∧ sampleRunLengthBlock.encoding < 256 ∧
    sampleHuffmanBlock.encoding < 256 ∧
    (huffmanDecompress none (fun _ => 0) sampleHuffmanBlock).map
      (fun result => (result.1.map contents, result.2)) = .ok (some [0x41, 0x42], none) ∧
    ((resultOr sampleBlock (flipBitOrder (fun _ => 0) sampleBlock)).encoding
      = sampleBlock.encoding ||| 0x2 ∧
    (resultOr sampleBlock (runLengthCompress (fun _ => 0) sampleTwoSymbolBlock)).encoding
      = sampleTwoSymbolBlock.encoding ||| 0x1 ∧
    (resultOr sampleBlock (huffmanCompress (fun _ => 0) sampleTwoSymbolBlock)).encoding
      = sampleTwoSymbolBlock.encoding ||| 0x4 ∧
    (∀ position,
      (decodedOr sampleBlock (unflipBitOrder (fun _ => 0) sampleFlippedBlock)).encoding.testBit
        position = (sampleFlippedBlock.encoding.testBit position && decide (position ≠ 1))) ∧
    (∀ position,
      (decodedOr sampleBlock
        (runLengthDecompress (fun _ => 0) sampleRunLengthBlock)).encoding.testBit position
        = (sampleRunLengthBlock.encoding.testBit position && decide (position ≠ 0))) ∧
    (∀ position,
      (decodedOr sampleBlock
        ((huffmanDecompress none (fun _ => 0) sampleHuffmanBlock).map
          Prod.fst)).encoding.testBit position
        = (sampleHuffmanBlock.encoding.testBit position && decide (position ≠ 2)))) :=
  ⟨by decide, by decide, by decide, by decide, by decide, rfl,
    stage_changes_only_its_flag (fun _ => 0) none none
      sampleBlock (resultOr sampleBlock (flipBitOrder (fun _ => 0) sampleBlock))
      sampleTwoSymbolBlock
      (resultOr sampleBlock (runLengthCompress (fun _ => 0) sampleTwoSymbolBlock))
      sampleTwoSymbolBlock
      (resultOr sampleBlock (huffmanCompress (fun _ => 0) sampleTwoSymbolBlock))
      sampleFlippedBlock (decodedOr sampleBlock (unflipBitOrder (fun _ => 0) sampleFlippedBlock))
      sampleRunLengthBlock
      (decodedOr sampleBlock (runLengthDecompress (fun _ => 0) sampleRunLengthBlock))
      sampleHuffmanBlock
      (decodedOr sampleBlock
        ((huffmanDecompress none (fun _ => 0) sampleHuffmanBlock).map Prod.fst))
      (by decide) (by decide) (by decide) (by decide) (by decide) (by decide)
      rfl rfl rfl rfl rfl rfl⟩

theorem huffmanDecompress_isSome {state finalState : Option HuffmanNode} {heap : Nat → Nat}
    {inputBlock : BlockDescriptor} {output : Option BlockDescriptor}
    (h : huffmanDecompress state heap inputBlock = .ok (output, finalState)) :
    output.isSome = inputBlock.encoding.testBit 2 := by
  unfold huffmanDecompress at h
  rw [isHuffmanCompressed_eq_testBit] at h
  cases hbit : inputBlock.encoding.testBit 2
  · simp only [hbit, Bool.not_false, if_true, Except.ok.injEq, Prod.mk.injEq] at h
    rw [← h.1]; rfl
  · simp only [hbit, Bool.not_true, Bool.false_eq_true, if_false, bind, Except.bind, pure,
      Except.pure] at h
    repeat' split at h
    all_goals (cases h; try rfl)

theorem runLengthDecompress_isSome {heap : Nat → Nat} {inputBlock : BlockDescriptor}
    {output : Option BlockDescriptor} (h : runLengthDecompress heap inputBlock = .ok output) :
    output.isSome = inputBlock.encoding.testBit 0 := by
  unfold runLengthDecompress at h
  rw [isRleCompressed_eq_testBit] at h
  cases hbit : inputBlock.encoding.testBit 0
  · simp only [hbit, Bool.not_false, if_true, Except.ok.injEq] at h
    rw [← h]; rfl
  · simp only [hbit, Bool.not_true, Bool.false_eq_true, if_false, bind, Except.bind, pure,
      Except.pure] at h
    repeat' split at h
    all_goals (cases h; try rfl)

theorem unflipBitOrder_isSome {heap : Nat → Nat} {inputBlock : BlockDescriptor}
    {output : Option BlockDescriptor} (h : unflipBitOrder heap inputBlock = .ok output) :
    output.isSome = inputBlock.encoding.testBit 1 := by
  unfold unflipBitOrder at h
  rw [isFlipped_eq_testBit] at h
  cases hbit : inputBlock.encoding.testBit 1
  · simp only [hbit, Bool.not_false, if_true, Except.ok.injEq] at h
    rw [← h]; rfl
  · simp only [hbit, Bool.not_true, Bool.false_eq_true, if_false, bind, Except.bind, pure,
      Except.pure] at h
    repeat' split at h
    all_goals (cases h; try rfl)

theorem bind_eq_ok {α β : Type} {first : Except Failure α} {next : α → Except Failure β}
    {result : β} (h : (first >>= next) = .ok result) :
    ∃ middle, first = .ok middle ∧ next middle = .ok result := by
  cases first with
  | error e => simp [bind, Except.bind] at h
  | ok middle => exact ⟨middle, rfl, h⟩

theorem compress_eq_chain (flags : CompressionFlags) (heaps : StageHeaps)
    (inputBlock : BlockDescriptor) :
    compress flags heaps inputBlock =
      ((if flags.flip then flipBitOrder heaps.flip inputBlock else pure inputBlock) >>=
        fun flipped =>
          (if flags.rle then runLengthCompress heaps.rle flipped else pure flipped) >>=
            fun encoded =>
              if flags.huffman then huffmanCompress heaps.huffman encoded else pure encoded) := by
  obtain ⟨doFlip, doRle, doHuffman⟩ := flags
  cases doFlip <;> cases doRle <;> cases doHuffman <;> rfl

theorem compress_stages {flags : CompressionFlags} {heaps : StageHeaps}
    {inputBlock compressed : BlockDescriptor}
    (h : compress flags heaps inputBlock = .ok compressed) :
    ∃ flipped encoded,
      (if flags.flip then flipBitOrder heaps.flip inputBlock else pure inputBlock)
        = .ok flipped ∧
      (if flags.rle then runLengthCompress heaps.rle flipped else pure flipped) = .ok encoded ∧
      (if flags.huffman then huffmanCompress heaps.huffman encoded else pure encoded)
        = .ok compressed := by
  rw [compress_eq_chain] at h
  obtain ⟨flipped, h1, h⟩ := bind_eq_ok h
  obtain ⟨encoded, h2, h⟩ := bind_eq_ok h
  exact ⟨flipped, encoded, h1, h2, h⟩

theorem decompress_stages {heaps : StageHeaps} {stored restored : BlockDescriptor}
    (h : decompress heaps stored = .ok restored) :
    ∃ (huffmanOutput rleOutput flipOutput : Option BlockDescriptor)
        (finalState : Option HuffmanNode),
      huffmanDecompress none heaps.huffman stored = .ok (huffmanOutput, finalState) ∧
      runLengthDecompress heaps.rle (huffmanOutput.getD stored) = .ok rleOutput ∧
      unflipBitOrder heaps.flip (rleOutput.getD (huffmanOutput.getD stored)) = .ok flipOutput ∧
      restored = flipOutput.getD (rleOutput.getD (huffmanOutput.getD stored)) := by
  unfold decompress at h
  obtain ⟨⟨huffmanOutput, finalState⟩, h1, h⟩ := bind_eq_ok h
  cases huffmanOutput <;> simp only at h <;> obtain ⟨rleOutput, h2, h⟩ := bind_eq_ok h <;>
    cases rleOutput <;> simp only at h <;> obtain ⟨flipOutput, h3, h⟩ := bind_eq_ok h <;>
    cases flipOutput <;>
    simp only [pure, Except.pure, Except.ok.injEq] at h <;>
    exact ⟨_, _, _, _, h1, h2, h3, h.symm⟩

/-- C13. Compression order and recorded flags: when `compress` returns a block
on an input with encoding 0, that block is Huffman?(RLE?(flip?(input))): flip
first, run-length on its result, Huffman last, a disabled stage leaving the
block as it is, and its encoding is the OR of the bits of the enabled stages;
when `decompress` returns a block, it applied `huffmanDecompress` first,
`runLengthDecompress` on its result and `unflipBitOrder` last, each stage
producing a block exactly when its bit was set in the block it was given. -/
theorem compression_order_and_flags (flags : CompressionFlags) (heaps : StageHeaps)
    (inputBlock compressed stored restored : BlockDescriptor)
    (hzero : inputBlock.encoding = 0)
    (hcompress : compress flags heaps inputBlock = .ok compressed)
    (hdecompress : decompress heaps stored = .ok restored) :
    (∃ flipped encoded,
      (if flags.flip then flipBitOrder heaps.flip inputBlock = .ok flipped
        else flipped = inputBlock) ∧
      (if flags.rle then runLengthCompress heaps.rle flipped = .ok encoded
        else encoded = flipped) ∧
      (if flags.huffman then huffmanCompress heaps.huffman encoded = .ok compressed
        else compressed = encoded) ∧
      compressed.encoding =
        ((if flags.flip then 0x2 else 0) ||| (if flags.rle then 0x1 else 0) |||
          (if flags.huffman then 0x4 else 0))) ∧
    (∃ (huffmanOutput rleOutput flipOutput : Option BlockDescriptor)
        (finalState : Option HuffmanNode),
      huffmanDecompress none heaps.huffman stored = .ok (huffmanOutput, finalState) ∧
      huffmanOutput.isSome = stored.encoding.testBit 2 ∧
      runLengthDecompress heaps.rle (huffmanOutput.getD stored) = .ok rleOutput ∧
      rleOutput.isSome = (huffmanOutput.getD stored).encoding.testBit 0 ∧
      unflipBitOrder heaps.flip (rleOutput.getD (huffmanOutput.getD stored)) = .ok flipOutput ∧
      flipOutput.isSome = (rleOutput.getD (huffmanOutput.getD stored)).encoding.testBit 1 ∧
      restored = flipOutput.getD (rleOutput.getD (huffmanOutput.getD stored))) := by
  constructor
  · obtain ⟨flipped, encoded, h1, h2, h3⟩ := compress_stages hcompress
    obtain ⟨doFlip, doRle, doHuffman⟩ := flags
    simp only at h1 h2 h3 ⊢
    have hflippedEncoding : flipped.encoding = if doFlip = true then 0x2 else 0 := by
      cases doFlip
      · simp only [Bool.false_eq_true, if_false, pure, Except.pure, Except.ok.injEq] at h1 ⊢
        rw [← h1, hzero]
      · simp only [if_true] at h1 ⊢
        rw [flipBitOrder_encoding h1, hzero]; rfl
    have hencodedEncoding : encoded.encoding =
        ((if doFlip = true then 0x2 else 0) ||| (if doRle = true then 0x1 else 0)) := by
      cases doRle
      · simp only [Bool.false_eq_true, if_false, pure, Except.pure, Except.ok.injEq] at h2 ⊢
        rw [← h2, hflippedEncoding]; simp
      · simp only [if_true] at h2 ⊢
        rw [runLengthCompress_encoding h2, hflippedEncoding]
        cases doFlip <;> rfl
    refine ⟨flipped, encoded, ?_, ?_, ?_, ?_⟩
    · cases doFlip
      · simpa [pure, Except.pure] using h1.symm
      · simpa using h1
    · cases doRle
      · simpa [pure, Except.pure] using h2.symm
      · simpa using h2
    · cases doHuffman
      · simpa [pure, Except.pure] using h3.symm
      · simpa using h3
    · cases doHuffman
      · simp only [Bool.false_eq_true, if_false, pure, Except.pure, Except.ok.injEq] at h3 ⊢
        rw [← h3, hencodedEncoding]; simp
      · simp only [if_true] at h3 ⊢
        rw [huffmanCompress_encoding h3, hencodedEncoding]
        cases doFlip <;> cases doRle <;> rfl
  · obtain ⟨huffmanOutput, rleOutput, flipOutput, finalState, h1, h2, h3, h4⟩ :=
      decompress_stages hdecompress
    exact ⟨huffmanOutput, rleOutput, flipOutput, finalState, h1, huffmanDecompress_isSome h1, h2,
      runLengthDecompress_isSome h2, h3, unflipBitOrder_isSome h3, h4⟩

theorem compression_order_and_flags_witness :
    sampleTwoSymbolBlock.encoding = 0 ∧
    compress defaultCompressionFlags zeroHeaps sampleTwoSymbolBlock
      = .ok (resultOr sampleBlock
          (compress defaultCompressionFlags zeroHeaps sampleTwoSymbolBlock)) ∧
    decompress zeroHeaps sampleHuffmanBlock
      = .ok (resultOr sampleBlock (decompress zeroHeaps sampleHuffmanBlock)) ∧
    contents (resultOr sampleBlock (decompress zeroHeaps sampleHuffmanBlock)) = [0x41, 0x42] ∧
    ((∃ flipped encoded,
      (if defaultCompressionFlags.flip then flipBitOrder zeroHeaps.flip sampleTwoSymbolBlock
          = .ok flipped
        else flipped = sampleTwoSymbolBlock) ∧
      (if defaultCompressionFlags.rle then runLengthCompress zeroHeaps.rle flipped = .ok encoded
        else encoded = flipped) ∧
      (if defaultCompressionFlags.huffman then huffmanCompress zeroHeaps.huffman encoded
          = .ok (resultOr sampleBlock
              (compress defaultCompressionFlags zeroHeaps sampleTwoSymbolBlock))
        else resultOr sampleBlock
          (compress defaultCompressionFlags zeroHeaps sampleTwoSymbolBlock) = encoded) ∧
      (resultOr sampleBlock
          (compress defaultCompressionFlags zeroHeaps sampleTwoSymbolBlock)).encoding =
        ((if defaultCompressionFlags.flip then 0x2 else 0) |||
          (if defaultCompressionFlags.rle then 0x1 else 0) |||
          (if defaultCompressionFlags.huffman then 0x4 else 0))) ∧
    (∃ (huffmanOutput rleOutput flipOutput : Option BlockDescriptor)
        (finalState : Option HuffmanNode),
      huffmanDecompress none zeroHeaps.huffman sampleHuffmanBlock
        = .ok (huffmanOutput, finalState) ∧
      huffmanOutput.isSome = sampleHuffmanBlock.encoding.testBit 2 ∧
      runLengthDecompress zeroHeaps.rle (huffmanOutput.getD sampleHuffmanBlock)
        = .ok rleOutput ∧
      rleOutput.isSome = (huffmanOutput.getD sampleHuffmanBlock).encoding.testBit 0 ∧
      unflipBitOrder zeroHeaps.flip (rleOutput.getD (huffmanOutput.getD sampleHuffmanBlock))
        = .ok flipOutput ∧
      flipOutput.isSome
        = (rleOutput.getD (huffmanOutput.getD sampleHuffmanBlock)).encoding.testBit 1 ∧
      resultOr sampleBlock (decompress zeroHeaps sampleHuffmanBlock)
        = flipOutput.getD (rleOutput.getD (huffmanOutput.getD sampleHuffmanBlock)))) :=
  ⟨rfl, rfl, rfl, rfl,
    compression_order_and_flags defaultCompressionFlags zeroHeaps sampleTwoSymbolBlock
      (resultOr sampleBlock (compress defaultCompressionFlags zeroHeaps sampleTwoSymbolBlock))
      sampleHuffmanBlock (resultOr sampleBlock (decompress zeroHeaps sampleHuffmanBlock))
      rfl rfl rfl⟩

theorem appending_makeMemoryBlock (heap : Nat → Nat) (size encoding : Nat) :
    Appending { makeMemoryBlock heap size with encoding := encoding } ∧
    contents { makeMemoryBlock heap size with encoding := encoding } = [] := by
  constructor
  · exact ⟨rfl, rfl⟩
  · rfl

theorem writeToBlock_contents {block : BlockDescriptor} (h : Appending block) (character : Nat) :
    Appending (writeToBlock block character).1 ∧
    contents (writeToBlock block character).1 = contents block ++ [character % 256] := by
  obtain ⟨hfree, hbit⟩ := h
  unfold writeToBlock
  have key : ∀ grown : BlockDescriptor, grown.nextFreeByte = block.nextFreeByte →
      grown.address = block.address → grown.nextFreeBit = block.nextFreeBit →
      Appending
        { grown with
          address := store grown.address grown.nextFreeByte character
          nextFreeByte := grown.nextFreeByte + 1
          usedSize := grown.nextFreeByte + 1 } ∧
      contents
        { grown with
          address := store grown.address grown.nextFreeByte character
          nextFreeByte := grown.nextFreeByte + 1
          usedSize := grown.nextFreeByte + 1 } = contents block ++ [character % 256] := by
    intro grown hn ha hb
    refine ⟨⟨rfl, by simp only [hb, hbit]⟩, ?_⟩
    unfold contents
    simp only [hn, ha, hfree, List.range_succ, List.map_append, List.map_cons, List.map_nil]
    congr 1
    · apply List.map_congr_left
      intro offset hmem
      have : offset ≠ block.usedSize := by
        have := List.mem_range.mp hmem
        omega
      simp [store, this]
    · simp [store]
  simp only
  split
  · exact key _ rfl rfl rfl
  · exact key _ rfl rfl rfl

theorem writeByte_contents {block : BlockDescriptor} (h : Appending block) {character : Nat}
    (hc : character < 256) :
    Appending (writeByte block character) ∧
    contents (writeByte block character) = contents block ++ writeByteBytes character := by
  unfold writeByte writeByteBytes
  simp only
  split
  · obtain ⟨h1, e1⟩ := writeToBlock_contents h ESCAPE_SYMBOL
    obtain ⟨h2, e2⟩ := writeToBlock_contents h1 character
    refine ⟨h2, ?_⟩
    rw [e2, e1, Nat.mod_eq_of_lt hc]
    simp [ESCAPE_SYMBOL]
  · obtain ⟨h2, e2⟩ := writeToBlock_contents h character
    refine ⟨h2, ?_⟩
    rw [e2, Nat.mod_eq_of_lt hc]

theorem writeRepeatLoop_contents {character : Nat} (hc : character < 256)
    (hplain : ¬ (character = REPEAT_SYMBOL ∨ character = ESCAPE_SYMBOL)) :
    ∀ (repeatCount : Nat) (block : BlockDescriptor), Appending block →
      Appending (writeRepeatLoop character repeatCount block) ∧
      contents (writeRepeatLoop character repeatCount block)
        = contents block ++ List.replicate repeatCount character := by
  intro repeatCount
  induction repeatCount with
  | zero => intro block h; exact ⟨h, by simp [writeRepeatLoop]⟩
  | succ repeatCount ih =>
    intro block h
    obtain ⟨h1, e1⟩ := writeByte_contents h hc
    obtain ⟨h2, e2⟩ := ih _ h1
    rw [writeRepeatLoop]
    refine ⟨h2, ?_⟩
    rw [e2, e1]
    simp only [writeByteBytes, hplain, if_false, List.append_assoc, List.singleton_append]
    rw [List.replicate_succ]

theorem writeRepeat_contents {block : BlockDescriptor} (h : Appending block)
    (repeatCount : Nat) {character : Nat} (hc : character < 256) :
    Appending (writeRepeat block repeatCount character) ∧
    contents (writeRepeat block repeatCount character)
      = contents block ++ writeRepeatBytes repeatCount character := by
  unfold writeRepeat writeRepeatBytes
  split
  · rename_i hcond
    have hplain : ¬ (character = REPEAT_SYMBOL ∨ character = ESCAPE_SYMBOL) := by
      intro hor
      rcases hor with hr | he
      · exact hcond.2.2 hr
      · exact hcond.2.1 he
    obtain ⟨h1, e1⟩ := writeByte_contents h hc
    obtain ⟨h2, e2⟩ := writeRepeatLoop_contents hc hplain repeatCount _ h1
    refine ⟨h2, ?_⟩
    rw [e2, e1]
    simp only [writeByteBytes, hplain, if_false, List.append_assoc, List.singleton_append]
    rw [List.replicate_succ]
  · simp only
    obtain ⟨h1, e1⟩ := writeToBlock_contents h REPEAT_SYMBOL
    obtain ⟨h2, e2⟩ := writeToBlock_contents h1 repeatCount
    obtain ⟨h3, e3⟩ := writeToBlock_contents h2 character
    refine ⟨h3, ?_⟩
    rw [e3, e2, e1, Nat.mod_eq_of_lt hc]
    simp [REPEAT_SYMBOL]

theorem toUnsignedChar_byte {character : Nat} (h : character < 256) :
    toUnsignedChar (character : Int) = character := by
  unfold toUnsignedChar
  omega

theorem overflowGroups_succ (character groups : Nat) :
    overflowGroups character (groups + 1)
      = overflowGroups character groups ++ [REPEAT_SYMBOL, 0, character] := by
  unfold overflowGroups
  rw [List.replicate_succ', List.flatten_append]
  simp

theorem runProgress_same (inputBlock : BlockDescriptor) {output : List Nat}
    {character seen consumed : Nat} {state : RunLengthState}
    (h : RunProgress output character seen consumed state) (hseen : 0 < seen)
    (hc : character < 256) (hcurrent : inputBlock.address consumed = character) :
    RunProgress output character (seen + 1) (consumed + 1)
      (runLengthCompressStep inputBlock state) := by
  obtain ⟨hp, hl, hcount, happ, hw⟩ := h
  unfold runLengthCompressStep
  simp only [hp, hcurrent, hl, if_true]
  by_cases hover : ((seen - 1) % 256 + 1) % 256 = 0
  · simp only [hcount, hover, if_true]
    obtain ⟨h1, e1⟩ := writeRepeat_contents happ 256 (toUnsignedChar_byte hc ▸ hc)
    rw [toUnsignedChar_byte hc] at h1 e1 ⊢
    constructor
    · simp only [hp]
    · rfl
    · simp only; omega
    · exact h1
    · simp only
      rw [e1, hw]
      have hq : (seen + 1 - 1) / 256 = (seen - 1) / 256 + 1 := by omega
      rw [hq, overflowGroups_succ]
      simp [writeRepeatBytes, List.append_assoc]
  · simp only [hcount, hover, if_false]
    constructor
    · simp only [hp]
    · rfl
    · simp only; omega
    · exact happ
    · simp only
      rw [hw]
      have hq : (seen + 1 - 1) / 256 = (seen - 1) / 256 := by omega
      rw [hq]

theorem runProgress_change (inputBlock : BlockDescriptor) {output : List Nat}
    {character seen consumed next : Nat} {state : RunLengthState}
    (h : RunProgress output character seen consumed state)
    (hc : character < 256) (hcurrent : inputBlock.address consumed = next)
    (hne : next ≠ character) :
    RunProgress (output ++ runGroup character seen) next 1 (consumed + 1)
      (runLengthCompressStep inputBlock state) := by
  obtain ⟨hp, hl, hcount, happ, hw⟩ := h
  unfold runLengthCompressStep
  have hdiff : ¬ ((next : Int) = (character : Int)) := by omega
  have hlast : ¬ ((character : Int) = -1) := by omega
  simp only [hp, hcurrent, hl, hdiff, if_false]
  by_cases hzero : (seen - 1) % 256 = 0
  · simp only [hcount, hzero, ne_eq, not_true_eq_false, if_false, hlast, not_false_eq_true,
      if_true]
    obtain ⟨h1, e1⟩ := writeByte_contents happ hc
    rw [toUnsignedChar_byte hc]
    constructor
    · simp only [hp]
    · rfl
    · rfl
    · exact h1
    · simp only
      rw [e1, hw]
      simp [runGroup, runTail, hzero, overflowGroups]
  · simp only [hcount, hzero, ne_eq, not_false_eq_true, if_true]
    obtain ⟨h1, e1⟩ := writeRepeat_contents happ ((seen - 1) % 256) hc
    rw [toUnsignedChar_byte hc]
    constructor
    · simp only [hp]
    · rfl
    · rfl
    · exact h1
    · simp only
      rw [e1, hw]
      simp [runGroup, runTail, hzero, overflowGroups]

theorem runProgress_first (inputBlock : BlockDescriptor) (state : RunLengthState)
    (hpointer : state.charPointer = 0) (hlast : state.lastCharacter = -1)
    (hcount : state.repeatCount = 0) (happ : Appending state.outputBlock)
    (hempty : contents state.outputBlock = []) :
    RunProgress [] (inputBlock.address 0) 1 1 (runLengthCompressStep inputBlock state) := by
  unfold runLengthCompressStep
  have hdiff : ¬ (((inputBlock.address 0 : Nat) : Int) = -1) := by omega
  simp only [hpointer, hlast, hdiff, if_false, hcount, ne_eq, not_true_eq_false]
  constructor
  · simp only [hpointer]
  · rfl
  · rfl
  · exact happ
  · simp only
    rw [hempty]
    simp [overflowGroups]

theorem runProgress_finish (inputBlock : BlockDescriptor) {output : List Nat}
    {character seen consumed : Nat} {state : RunLengthState}
    (h : RunProgress output character seen consumed state) (hc : character < 256) :
    contents (runLengthCompressFinish inputBlock state)
      = output ++ lastRunGroup (inputBlock.address consumed) character seen := by
  obtain ⟨hp, hl, hcount, happ, hw⟩ := h
  unfold runLengthCompressFinish lastRunGroup
  have hlast : ¬ ((character : Int) = -1) := by omega
  simp only [hp, hl, hcount, toUnsignedChar_byte hc]
  by_cases hsame : inputBlock.address consumed = character
  · have hint : ((inputBlock.address consumed : Nat) : Int) = (character : Int) := by omega
    simp only [hint, hsame, if_true]
    rw [(writeRepeat_contents happ _ hc).2, hw, List.append_assoc]
  · have hint : ¬ (((inputBlock.address consumed : Nat) : Int) = (character : Int)) := by omega
    simp only [hint, hsame, if_false]
    unfold runTail
    by_cases hzero : (seen - 1) % 256 = 0
    · simp only [hzero, ne_eq, not_true_eq_false, if_false, hlast, not_false_eq_true, if_true]
      rw [(writeByte_contents happ hc).2, hw, List.append_assoc]
    · simp only [hzero, ne_eq, not_false_eq_true, if_true]
      rw [(writeRepeat_contents happ _ hc).2, hw, List.append_assoc]

theorem foldl_range_ignore {σ : Type} (step : σ → σ) (start : σ) (count : Nat) :
    (List.range count).foldl (fun state _ => step state) start = step^[count] start := by
  induction count with
  | zero => rfl
  | succ count ih =>
    rw [List.range_succ, List.foldl_append, ih, Function.iterate_succ_apply']
    rfl

theorem holdsAt_append {inputBlock : BlockDescriptor} {start : Nat} {first second : List Nat}
    (h : HoldsAt inputBlock start (first ++ second)) :
    HoldsAt inputBlock start first ∧ HoldsAt inputBlock (start + first.length) second := by
  constructor
  · intro index hi
    have := h index (by rw [List.length_append]; omega)
    rw [this, List.getElem_append_left hi]
  · intro index hi
    have := h (first.length + index) (by rw [List.length_append]; omega)
    rw [Nat.add_assoc, this, List.getElem_append_right (by omega)]
    simp

theorem holdsAt_replicate {inputBlock : BlockDescriptor} {start count character : Nat}
    (h : HoldsAt inputBlock start (List.replicate count character)) :
    ∀ index, index < count → inputBlock.address (start + index) = character := by
  intro index hi
  have := h index (by simpa using hi)
  rw [this]
  simp

theorem runProgress_run (inputBlock : BlockDescriptor) {output : List Nat}
    {character : Nat} (hc : character < 256) :
    ∀ (more seen consumed : Nat) (state : RunLengthState),
      RunProgress output character seen consumed state → 0 < seen →
      (∀ index, index < more → inputBlock.address (consumed + index) = character) →
      RunProgress output character (seen + more) (consumed + more)
        ((runLengthCompressStep inputBlock)^[more] state) := by
  intro more
  induction more with
  | zero => intro seen consumed state h _ _; simpa using h
  | succ more ih =>
    intro seen consumed state h hseen hsame
    have hprev := ih seen consumed state h hseen (fun index hi => hsame index (by omega))
    have hstep := runProgress_same inputBlock hprev (by omega) hc (hsame more (by omega))
    rw [Function.iterate_succ_apply']
    simpa [Nat.add_assoc] using hstep

theorem encodeRuns_progress (inputBlock : BlockDescriptor) :
    ∀ (rest : List (Nat × Nat)) (character length : Nat) (output : List Nat) (consumed : Nat)
      (state : RunLengthState),
      RunProgress output character length consumed state →
      MaximalRuns ((character, length) :: rest) →
      HoldsAt inputBlock consumed (expandRuns rest) →
      contents (runLengthCompressFinish inputBlock
        ((runLengthCompressStep inputBlock)^[(expandRuns rest).length] state))
        = output ++ encodeRuns (inputBlock.address (consumed + (expandRuns rest).length))
            ((character, length) :: rest) := by
  intro rest
  induction rest with
  | nil =>
    intro character length output consumed state h hmax _
    have hc : character < 256 := (hmax.2 (character, length) (by simp)).2
    simpa [expandRuns, encodeRuns] using runProgress_finish inputBlock h hc
  | cons next rest ih =>
    intro character length output consumed state h hmax hheld
    obtain ⟨nextCharacter, nextLength⟩ := next
    have hc : character < 256 := (hmax.2 (character, length) (by simp)).2
    have hnext := hmax.2 (nextCharacter, nextLength) (by simp)
    have hchain : character ≠ nextCharacter ∧
        distinctNeighbours ((nextCharacter, nextLength) :: rest) = true := by
      simpa [distinctNeighbours] using hmax.1
    have hne : nextCharacter ≠ character := fun e => hchain.1 e.symm
    have hrestMax : MaximalRuns ((nextCharacter, nextLength) :: rest) :=
      ⟨hchain.2, fun run hmem => hmax.2 run (List.mem_cons_of_mem _ hmem)⟩
    have hexpand : expandRuns ((nextCharacter, nextLength) :: rest)
        = List.replicate nextLength nextCharacter ++ expandRuns rest := by
      simp [expandRuns]
    rw [hexpand] at hheld ⊢
    obtain ⟨hrun, hafter⟩ := holdsAt_append hheld
    have hcells := holdsAt_replicate hrun
    have hfirst : inputBlock.address consumed = nextCharacter := by
      simpa using hcells 0 hnext.1
    have hchange := runProgress_change inputBlock h hc hfirst hne
    have hwhole := runProgress_run inputBlock hnext.2 (nextLength - 1) 1 (consumed + 1) _
      hchange (by norm_num)
      (fun index hi => by
        have := hcells (1 + index) (by omega)
        rw [← this]; congr 1; omega)
    have hlen : 1 + (nextLength - 1) = nextLength := by omega
    have hcons : consumed + 1 + (nextLength - 1) = consumed + nextLength := by omega
    rw [hlen, hcons, ← Function.iterate_succ_apply] at hwhole
    have hsucc : (nextLength - 1).succ = nextLength := by omega
    rw [hsucc] at hwhole
    simp only [List.length_replicate] at hafter
    have hrec := ih nextCharacter nextLength _ _ _ hwhole hrestMax hafter
    rw [List.length_append, List.length_replicate, Nat.add_comm nextLength,
      Function.iterate_add_apply, hrec]
    have hindex : consumed + ((expandRuns rest).length + nextLength)
        = consumed + nextLength + (expandRuns rest).length := by omega
    rw [hindex]
    simp only [encodeRuns, List.append_assoc]

theorem holdsAt_of_contents {inputBlock : BlockDescriptor} {bytes : List Nat}
    (hheld : contents inputBlock = bytes) : HoldsAt inputBlock 0 bytes := by
  intro index hi
  subst hheld
  rw [contents_getElem inputBlock index hi, Nat.zero_add]

/-- What `runLengthCompress` writes, run by run: on a block whose buffer is
exactly its content, the maximal runs of which are `runs`, it returns a block
holding `encodeRuns` of the runs. -/
theorem runLengthCompress_runs (heap : Nat → Nat) (inputBlock : BlockDescriptor)
    (runs : List (Nat × Nat)) (hmax : MaximalRuns runs)
    (hheld : contents inputBlock = expandRuns runs)
    (hsize : inputBlock.allocatedSize = inputBlock.usedSize)
    (hclear : isRleCompressed inputBlock = false) :
    ∃ outputBlock, runLengthCompress heap inputBlock = .ok outputBlock ∧
      contents outputBlock
        = encodeRuns (inputBlock.address inputBlock.allocatedSize) runs := by
  have hlength : inputBlock.allocatedSize = (expandRuns runs).length := by
    rw [hsize, ← hheld, contents_length]
  have hcells := holdsAt_of_contents hheld
  unfold runLengthCompress
  simp only [hclear, Bool.false_eq_true, if_false]
  refine ⟨_, rfl, ?_⟩
  rw [foldl_range_ignore]
  obtain ⟨happ, hempty⟩ := appending_makeMemoryBlock heap inputBlock.allocatedSize
    ((inputBlock.encoding ||| ENCODING_RUN_LENGTH) % 256)
  cases runs with
  | nil =>
    have hzero : inputBlock.allocatedSize = 0 := by simpa [expandRuns] using hlength
    rw [hzero]
    simp only [Function.iterate_zero, id_eq, encodeRuns]
    unfold runLengthCompressFinish
    have hdiff : ¬ (((inputBlock.address 0 : Nat) : Int) = -1) := by omega
    simp only [hdiff, if_false, ne_eq, not_true_eq_false]
    exact hempty
  | cons run rest =>
    obtain ⟨character, length⟩ := run
    have hrun := hmax.2 (character, length) (by simp)
    have hexpand : expandRuns ((character, length) :: rest)
        = List.replicate length character ++ expandRuns rest := by
      simp [expandRuns]
    rw [hexpand] at hcells hlength
    obtain ⟨hfirstRun, hafter⟩ := holdsAt_append hcells
    have hsame := holdsAt_replicate hfirstRun
    simp only [Nat.zero_add, List.length_replicate] at hsame hafter
    obtain ⟨start, hstart⟩ : ∃ start : RunLengthState, start =
        { outputBlock :=
            { makeMemoryBlock heap inputBlock.allocatedSize with
              encoding := (inputBlock.encoding ||| ENCODING_RUN_LENGTH) % 256 }
          charPointer := 0
          lastCharacter := -1
          repeatCount := 0 } := ⟨_, rfl⟩
    rw [← hstart]
    have hfirst := runProgress_first inputBlock start (by rw [hstart]) (by rw [hstart])
      (by rw [hstart]) (by rw [hstart]; exact happ) (by rw [hstart]; exact hempty)
    rw [hsame 0 hrun.1] at hfirst
    have hwhole := runProgress_run inputBlock hrun.2 (length - 1) 1 1 _ hfirst (by norm_num)
      (fun index hi => hsame (1 + index) (by omega))
    have hlen : 1 + (length - 1) = length := by omega
    rw [hlen] at hwhole
    have hrec := encodeRuns_progress inputBlock rest character length [] length _ hwhole hmax
      hafter
    have hcount : inputBlock.allocatedSize = (expandRuns rest).length + ((length - 1) + 1) := by
      rw [hlength, List.length_append, List.length_replicate]; omega
    have hiterate : (runLengthCompressStep inputBlock)^[inputBlock.allocatedSize] start
        = (runLengthCompressStep inputBlock)^[(expandRuns rest).length]
            ((runLengthCompressStep inputBlock)^[length - 1]
              (runLengthCompressStep inputBlock start)) := by
      rw [hcount, Function.iterate_add_apply, Function.iterate_succ_apply]
    have hindex : length + (expandRuns rest).length = inputBlock.allocatedSize := by omega
    rw [hiterate, hrec, hindex]
    simp

theorem overflowGroups_zero (character : Nat) : overflowGroups character 0 = [] := rfl

theorem writeRepeatBytes_ordinary {character : Nat} (h235 : character ≠ 235)
    (h236 : character ≠ 236) {length : Nat} (hpos : 0 < length) (hmax : length ≤ 256) :
    writeRepeatBytes (length - 1) character = ordinaryGroup character length := by
  unfold writeRepeatBytes ordinaryGroup
  by_cases hshort : length < 4
  · have h1 : length - 1 < 3 := by omega
    have h2 : length - 1 + 1 = length := by omega
    simp [hshort, h1, h2, ESCAPE_SYMBOL, REPEAT_SYMBOL, h235, h236]
  · have h1 : ¬ (length - 1 < 3) := by omega
    have h2 : (length - 1) % 256 = length - 1 := Nat.mod_eq_of_lt (by omega)
    simp [hshort, h1, h2]

theorem runTail_ordinary {character : Nat} (h235 : character ≠ 235)
    (h236 : character ≠ 236) {length : Nat} (hpos : 0 < length) (hmax : length ≤ 256) :
    runTail character (length - 1) = ordinaryGroup character length := by
  unfold runTail
  by_cases hone : length - 1 = 0
  · have h1 : length = 1 := by omega
    subst h1
    simp [writeByteBytes, ordinaryGroup, ESCAPE_SYMBOL, REPEAT_SYMBOL, h235, h236]
  · simp only [hone, ne_eq, not_false_eq_true, if_true]
    exact writeRepeatBytes_ordinary h235 h236 hpos hmax

theorem runGroup_ordinary {character : Nat} (h235 : character ≠ 235)
    (h236 : character ≠ 236) {length : Nat} (hpos : 0 < length) (hmax : length ≤ 256) :
    runGroup character length = ordinaryGroup character length := by
  unfold runGroup
  have hq : (length - 1) / 256 = 0 := by omega
  have hr : (length - 1) % 256 = length - 1 := by omega
  rw [hq, hr, overflowGroups_zero, List.nil_append]
  exact runTail_ordinary h235 h236 hpos hmax

theorem lastRunGroup_ordinary (beyond : Nat) {character : Nat} (h235 : character ≠ 235)
    (h236 : character ≠ 236) {length : Nat} (hpos : 0 < length) (hmax : length ≤ 256) :
    lastRunGroup beyond character length = ordinaryGroup character length := by
  unfold lastRunGroup
  have hq : (length - 1) / 256 = 0 := by omega
  have hr : (length - 1) % 256 = length - 1 := by omega
  rw [hq, hr, overflowGroups_zero, List.nil_append]
  split
  · exact writeRepeatBytes_ordinary h235 h236 hpos hmax
  · exact runTail_ordinary h235 h236 hpos hmax

theorem encodeRuns_ordinary (beyond : Nat) :
    ∀ runs : List (Nat × Nat),
      (∀ run ∈ runs, 0 < run.2 ∧ run.1 ≠ 235 ∧ run.1 ≠ 236 ∧ run.2 ≤ 256) →
      encodeRuns beyond runs = runs.flatMap (fun run => ordinaryGroup run.1 run.2) := by
  intro runs
  induction runs with
  | nil => intro _; rfl
  | cons run rest ih =>
    intro h
    obtain ⟨hpos, h235, h236, hmax⟩ := h run (by simp)
    have hrest := ih (fun other hmem => h other (List.mem_cons_of_mem _ hmem))
    cases rest with
    | nil =>
      simp only [encodeRuns, List.flatMap_cons, List.flatMap_nil, List.append_nil]
      exact lastRunGroup_ordinary beyond h235 h236 hpos hmax
    | cons next rest =>
      simp only [encodeRuns, List.flatMap_cons] at hrest ⊢
      rw [hrest, runGroup_ordinary h235 h236 hpos hmax]

/-- C14. Run-length encoding rule for ordinary bytes: when the maximal runs of
the input are runs of bytes other than 235 and 236, each of length at most 256,
`runLengthCompress` returns a block that holds, in input order, one group per
run: the `length` copies of the byte when `length < 4`, and the three bytes
235 (REPEAT), `length - 1`, byte when `4 ≤ length ≤ 256`.  (The input is held in
a block whose buffer is exactly its content, with the run-length flag clear.) -/
theorem runLength_ordinary_runs (heap : Nat → Nat) (inputBlock : BlockDescriptor)
    (runs : List (Nat × Nat)) (hmaximal : MaximalRuns runs)
    (hordinary : ∀ run ∈ runs, run.1 ≠ 235 ∧ run.1 ≠ 236 ∧ run.2 ≤ 256)
    (hheld : contents inputBlock = expandRuns runs)
    (hsize : inputBlock.allocatedSize = inputBlock.usedSize)
    (hclear : isRleCompressed inputBlock = false) :
    ∃ outputBlock, runLengthCompress heap inputBlock = .ok outputBlock ∧
      contents outputBlock = runs.flatMap (fun run => ordinaryGroup run.1 run.2) := by
  obtain ⟨outputBlock, hok, hcontents⟩ :=
    runLengthCompress_runs heap inputBlock runs hmaximal hheld hsize hclear
  refine ⟨outputBlock, hok, ?_⟩
  rw [hcontents]
  apply encodeRuns_ordinary
  intro run hmem
  obtain ⟨h235, h236, hmax⟩ := hordinary run hmem
  exact ⟨(hmaximal.2 run hmem).1, h235, h236, hmax⟩

theorem runLength_ordinary_runs_witness :
    MaximalRuns [(1, 1), (2, 2), (3, 3), (4, 4), (5, 5), (1, 1)] ∧
    (∀ run ∈ [(1, 1), (2, 2), (3, 3), (4, 4), (5, 5), (1, 1)],
      run.1 ≠ 235 ∧ run.1 ≠ 236 ∧ run.2 ≤ 256) ∧
    contents (mapUncompressedFile [1, 2, 2, 3, 3, 3, 4, 4, 4, 4, 5, 5, 5, 5, 5, 1] (fun _ => 1))
      = expandRuns [(1, 1), (2, 2), (3, 3), (4, 4), (5, 5), (1, 1)] ∧
    ([(1, 1), (2, 2), (3, 3), (4, 4), (5, 5), (1, 1)] : List (Nat × Nat)).flatMap
        (fun run => ordinaryGroup run.1 run.2)
      = [1, 2, 2, 3, 3, 3, 235, 3, 4, 235, 4, 5, 1] ∧
    ∃ outputBlock,
      runLengthCompress (fun _ => 0)
        (mapUncompressedFile [1, 2, 2, 3, 3, 3, 4, 4, 4, 4, 5, 5, 5, 5, 5, 1] (fun _ => 1))
        = .ok outputBlock ∧
      contents outputBlock
        = ([(1, 1), (2, 2), (3, 3), (4, 4), (5, 5), (1, 1)] : List (Nat × Nat)).flatMap
            (fun run => ordinaryGroup run.1 run.2) :=
  ⟨by decide, by decide, by decide, by decide,
    runLength_ordinary_runs (fun _ => 0)
      (mapUncompressedFile [1, 2, 2, 3, 3, 3, 4, 4, 4, 4, 5, 5, 5, 5, 5, 1] (fun _ => 1))
      [(1, 1), (2, 2), (3, 3), (4, 4), (5, 5), (1, 1)]
      (by decide) (by decide) (by decide) rfl rfl⟩

theorem maximalRuns_single {character length : Nat} (hpos : 0 < length)
    (hbyte : character < 256) : MaximalRuns [(character, length)] := by
  refine ⟨rfl, ?_⟩
  intro run hmem
  simp only [List.mem_singleton] at hmem
  subst hmem
  exact ⟨hpos, hbyte⟩

theorem expandRuns_single (character length : Nat) :
    expandRuns [(character, length)] = List.replicate length character := by
  simp [expandRuns]

/-- What `runLengthCompress` writes for an input that is one run. -/
theorem runLengthCompress_single_run (heap : Nat → Nat) (inputBlock : BlockDescriptor)
    (character length : Nat) (hpos : 0 < length) (hbyte : character < 256)
    (hheld : contents inputBlock = List.replicate length character)
    (hsize : inputBlock.allocatedSize = inputBlock.usedSize)
    (hclear : isRleCompressed inputBlock = false) :
    ∃ outputBlock, runLengthCompress heap inputBlock = .ok outputBlock ∧
      contents outputBlock
        = lastRunGroup (inputBlock.address inputBlock.allocatedSize) character length := by
  have := runLengthCompress_runs heap inputBlock [(character, length)]
    (maximalRuns_single hpos hbyte) (by rw [expandRuns_single]; exact hheld) hsize hclear
  simpa [encodeRuns] using this

/-- C17. Run-length overflow boundary: for every byte `character` other than
235 and 236 and every n = 256 * `groups` + `remainder` with
1 ≤ `remainder` ≤ 256, `runLengthCompress` of n copies of the byte returns
`groups` copies of the group 235, 0, byte followed by the encoding of a run of
`remainder` copies (the copies themselves below 4, otherwise
235, `remainder - 1`, byte); so 256 copies give 235, 255, byte, 257 copies give
235, 0, byte, byte, and a count of 0 stands only for a full group of 256. -/
theorem runLength_overflow_boundary (heap : Nat → Nat) (inputBlock : BlockDescriptor)
    (character groups remainder : Nat)
    (hbyte : character < 256) (h235 : character ≠ 235) (h236 : character ≠ 236)
    (hlow : 1 ≤ remainder) (hhigh : remainder ≤ 256)
    (hheld : contents inputBlock = List.replicate (256 * groups + remainder) character)
    (hsize : inputBlock.allocatedSize = inputBlock.usedSize)
    (hclear : isRleCompressed inputBlock = false) :
    ∃ outputBlock, runLengthCompress heap inputBlock = .ok outputBlock ∧
      contents outputBlock
        = (List.replicate groups [235, 0, character]).flatten ++
            ordinaryGroup character remainder := by
  obtain ⟨outputBlock, hok, hcontents⟩ :=
    runLengthCompress_single_run heap inputBlock character (256 * groups + remainder)
      (by omega) hbyte hheld hsize hclear
  refine ⟨outputBlock, hok, ?_⟩
  rw [hcontents]
  unfold lastRunGroup
  have hq : (256 * groups + remainder - 1) / 256 = groups := by omega
  have hr : (256 * groups + remainder - 1) % 256 = remainder - 1 := by omega
  rw [hq, hr]
  congr 1
  split
  · exact writeRepeatBytes_ordinary h235 h236 hlow hhigh
  · exact runTail_ordinary h235 h236 hlow hhigh

theorem runLength_overflow_boundary_witness :
    (7 : Nat) < 256 ∧ (7 : Nat) ≠ 235 ∧ (7 : Nat) ≠ 236 ∧ 1 ≤ 1 ∧ 1 ≤ 256 ∧
    contents (mapUncompressedFile (List.replicate 257 7) (fun _ => 7))
      = List.replicate (256 * 1 + 1) 7 ∧
    (List.replicate 1 [235, 0, 7]).flatten ++ ordinaryGroup 7 1 = [235, 0, 7, 7] ∧
    (List.replicate 0 [235, 0, 7]).flatten ++ ordinaryGroup 7 256 = [235, 255, 7] ∧
    ∃ outputBlock,
      runLengthCompress (fun _ => 0) (mapUncompressedFile (List.replicate 257 7) (fun _ => 7))
        = .ok outputBlock ∧
      contents outputBlock = (List.replicate 1 [235, 0, 7]).flatten ++ ordinaryGroup 7 1 :=
  ⟨by decide, by decide, by decide, by decide, by decide, by decide, by decide, by decide,
    runLength_overflow_boundary (fun _ => 0)
      (mapUncompressedFile (List.replicate 257 7) (fun _ => 7)) 7 1 1
      (by decide) (by decide) (by decide) (by decide) (by decide) (by decide) rfl rfl⟩

/-- C15, as the claim states it, fails: on the five bytes 0x41 `runLengthCompress`
does not return 235, 3, 0x41. -/
theorem scenario_A_as_stated_fails :
    (runLengthCompress (fun _ => 0)
      (mapUncompressedFile [0x41, 0x41, 0x41, 0x41, 0x41] (fun _ => 0))).map contents
      ≠ .ok [235, 3, 0x41] := by
  have h : (runLengthCompress (fun _ => 0)
      (mapUncompressedFile [0x41, 0x41, 0x41, 0x41, 0x41] (fun _ => 0))).map contents
      = .ok [235, 4, 0x41] := rfl
  rw [h]
  intro hsame
  have hlists := Except.ok.inj hsame
  revert hlists
  decide

/-- C15, amended. Scenario A: on the five bytes 0x41, held in a block whose
buffer is exactly its content with the run-length flag clear, `runLengthCompress`
returns exactly the three bytes 235 (REPEAT), 4, 0x41: the count is the number
of occurrences less one. -/
theorem scenario_A (heap : Nat → Nat) (inputBlock : BlockDescriptor)
    (hheld : contents inputBlock = [0x41, 0x41, 0x41, 0x41, 0x41])
    (hsize : inputBlock.allocatedSize = inputBlock.usedSize)
    (hclear : isRleCompressed inputBlock = false) :
    ∃ outputBlock, runLengthCompress heap inputBlock = .ok outputBlock ∧
      contents outputBlock = [235, 4, 0x41] := by
  obtain ⟨outputBlock, hok, hcontents⟩ :=
    runLengthCompress_single_run heap inputBlock 0x41 5 (by norm_num) (by norm_num) hheld hsize
      hclear
  refine ⟨outputBlock, hok, ?_⟩
  rw [hcontents]
  unfold lastRunGroup
  split <;> rfl

theorem scenario_A_witness :
    contents (mapUncompressedFile [0x41, 0x41, 0x41, 0x41, 0x41] (fun _ => 0x41))
      = [0x41, 0x41, 0x41, 0x41, 0x41] ∧
    (mapUncompressedFile [0x41, 0x41, 0x41, 0x41, 0x41] (fun _ => 0x41)).allocatedSize
      = (mapUncompressedFile [0x41, 0x41, 0x41, 0x41, 0x41] (fun _ => 0x41)).usedSize ∧
    isRleCompressed (mapUncompressedFile [0x41, 0x41, 0x41, 0x41, 0x41] (fun _ => 0x41))
      = false ∧
    ∃ outputBlock,
      runLengthCompress (fun _ => 0)
        (mapUncompressedFile [0x41, 0x41, 0x41, 0x41, 0x41] (fun _ => 0x41)) = .ok outputBlock ∧
      contents outputBlock = [235, 4, 0x41] :=
  ⟨rfl, rfl, rfl,
    scenario_A (fun _ => 0) (mapUncompressedFile [0x41, 0x41, 0x41, 0x41, 0x41] (fun _ => 0x41))
      rfl rfl rfl⟩

/-- C16, as the claim states it, fails: on the two bytes 235, 235
`runLengthCompress` does not return the escaped form 236, 235, 236, 235. -/
theorem scenario_B_as_stated_fails :
    (runLengthCompress (fun _ => 0) (mapUncompressedFile [235, 235] (fun _ => 0))).map contents
      ≠ .ok [236, 235, 236, 235] := by
  have h : (runLengthCompress (fun _ => 0)
      (mapUncompressedFile [235, 235] (fun _ => 0))).map contents = .ok [235, 1, 235] := rfl
  rw [h]
  intro hsame
  have hlists := Except.ok.inj hsame
  revert hlists
  decide

/-- C16, amended. Scenario B: on the two bytes 235, 235, held in a block whose
buffer is exactly its content with the run-length flag clear, `runLengthCompress`
returns exactly the three bytes 235 (REPEAT), 1, 235, the repeat form with the
number of occurrences less one as count, and not the escaped form. -/
theorem scenario_B (heap : Nat → Nat) (inputBlock : BlockDescriptor)
    (hheld : contents inputBlock = [235, 235])
    (hsize : inputBlock.allocatedSize = inputBlock.usedSize)
    (hclear : isRleCompressed inputBlock = false) :
    ∃ outputBlock, runLengthCompress heap inputBlock = .ok outputBlock ∧
      contents outputBlock = [235, 1, 235] := by
  obtain ⟨outputBlock, hok, hcontents⟩ :=
    runLengthCompress_single_run heap inputBlock 235 2 (by norm_num) (by norm_num) hheld hsize
      hclear
  refine ⟨outputBlock, hok, ?_⟩
  rw [hcontents]
  unfold lastRunGroup
  split <;> rfl

theorem scenario_B_witness :
    contents (mapUncompressedFile [235, 235] (fun _ => 235)) = [235, 235] ∧
    (mapUncompressedFile [235, 235] (fun _ => 235)).allocatedSize
      = (mapUncompressedFile [235, 235] (fun _ => 235)).usedSize ∧
    isRleCompressed (mapUncompressedFile [235, 235] (fun _ => 235)) = false ∧
    ∃ outputBlock,
      runLengthCompress (fun _ => 0) (mapUncompressedFile [235, 235] (fun _ => 235))
        = .ok outputBlock ∧
      contents outputBlock = [235, 1, 235] :=
  ⟨rfl, rfl, rfl,
    scenario_B (fun _ => 0) (mapUncompressedFile [235, 235] (fun _ => 235)) rfl rfl rfl⟩

theorem writeToBlock_usedSize {block : BlockDescriptor} (h : Appending block) (character : Nat) :
    Appending (writeToBlock block character).1 ∧
    (writeToBlock block character).1.usedSize = block.usedSize + 1 := by
  obtain ⟨happ, hcontents⟩ := writeToBlock_contents h character
  refine ⟨happ, ?_⟩
  have := congrArg List.length hcontents
  simpa [contents_length] using this

theorem writeByte_usedSize {block : BlockDescriptor} (h : Appending block) (character : Nat) :
    Appending (writeByte block character) ∧
    (writeByte block character).usedSize ≤ block.usedSize + 2 ∧
    (¬ (character = REPEAT_SYMBOL ∨ character = ESCAPE_SYMBOL) →
      (writeByte block character).usedSize = block.usedSize + 1) := by
  unfold writeByte
  simp only
  split
  · rename_i hreserved
    obtain ⟨h1, e1⟩ := writeToBlock_usedSize h ESCAPE_SYMBOL
    obtain ⟨h2, e2⟩ := writeToBlock_usedSize h1 character
    exact ⟨h2, by omega, fun hplain => absurd hreserved hplain⟩
  · obtain ⟨h2, e2⟩ := writeToBlock_usedSize h character
    exact ⟨h2, by omega, fun _ => e2⟩

theorem writeRepeatLoop_usedSize {character : Nat}
    (hplain : ¬ (character = REPEAT_SYMBOL ∨ character = ESCAPE_SYMBOL)) :
    ∀ (repeatCount : Nat) (block : BlockDescriptor), Appending block →
      Appending (writeRepeatLoop character repeatCount block) ∧
      (writeRepeatLoop character repeatCount block).usedSize = block.usedSize + repeatCount := by
  intro repeatCount
  induction repeatCount with
  | zero => intro block h; exact ⟨h, rfl⟩
  | succ repeatCount ih =>
    intro block h
    obtain ⟨h1, _, e1⟩ := writeByte_usedSize h character
    obtain ⟨h2, e2⟩ := ih _ h1
    rw [writeRepeatLoop]
    exact ⟨h2, by rw [e2, e1 hplain]; omega⟩

theorem writeRepeat_usedSize {block : BlockDescriptor} (h : Appending block)
    (repeatCount character : Nat) :
    Appending (writeRepeat block repeatCount character) ∧
    (writeRepeat block repeatCount character).usedSize ≤ block.usedSize + 3 := by
  unfold writeRepeat
  split
  · rename_i hcond
    have hplain : ¬ (character = REPEAT_SYMBOL ∨ character = ESCAPE_SYMBOL) := by
      intro hor
      rcases hor with hr | he
      · exact hcond.2.2 hr
      · exact hcond.2.1 he
    obtain ⟨h1, _, e1⟩ := writeByte_usedSize h character
    obtain ⟨h2, e2⟩ := writeRepeatLoop_usedSize hplain repeatCount _ h1
    refine ⟨h2, ?_⟩
    rw [e2, e1 hplain]
    omega
  · simp only
    obtain ⟨h1, e1⟩ := writeToBlock_usedSize h REPEAT_SYMBOL
    obtain ⟨h2, e2⟩ := writeToBlock_usedSize h1 repeatCount
    obtain ⟨h3, e3⟩ := writeToBlock_usedSize h2 character
    exact ⟨h3, by omega⟩

theorem sizeProgress_step (inputBlock : BlockDescriptor) {consumed : Nat}
    {state : RunLengthState} (h : SizeProgress consumed state) :
    SizeProgress (consumed + 1) (runLengthCompressStep inputBlock state) := by
  obtain ⟨happ, hcases⟩ := h
  unfold runLengthCompressStep SizeProgress
  simp only
  rcases hcases with ⟨hzero, hlast, hcount, hused⟩ | ⟨hpos, hbound⟩
  · have hdiff : ¬ (((inputBlock.address state.charPointer : Nat) : Int) = -1) := by omega
    simp only [hlast, hdiff, if_false, hcount, ne_eq, not_true_eq_false]
    exact ⟨happ, Or.inr ⟨by omega, by omega⟩⟩
  · split
    · split
      · obtain ⟨h1, e1⟩ := writeRepeat_usedSize happ 256 (toUnsignedChar state.lastCharacter)
        exact ⟨h1, Or.inr ⟨by omega, (by first | omega | (simp only; omega))⟩⟩
      · exact ⟨happ, Or.inr ⟨by omega, (by first | omega | (simp only; omega))⟩⟩
    · split
      · obtain ⟨h1, e1⟩ := writeRepeat_usedSize happ state.repeatCount
          (toUnsignedChar state.lastCharacter)
        exact ⟨h1, Or.inr ⟨by omega, (by first | omega | (simp only; omega))⟩⟩
      · split
        · obtain ⟨h1, e1, _⟩ := writeByte_usedSize happ (toUnsignedChar state.lastCharacter)
          exact ⟨h1, Or.inr ⟨by omega, (by first | omega | (simp only; omega))⟩⟩
        · exact ⟨happ, Or.inr ⟨by omega, by omega⟩⟩

theorem sizeProgress_iterate (inputBlock : BlockDescriptor) :
    ∀ (count : Nat) (state : RunLengthState), SizeProgress 0 state →
      SizeProgress count ((runLengthCompressStep inputBlock)^[count] state) := by
  intro count
  induction count with
  | zero => intro state h; exact h
  | succ count ih =>
    intro state h
    rw [Function.iterate_succ_apply']
    exact sizeProgress_step inputBlock (ih state h)

theorem sizeProgress_finish (inputBlock : BlockDescriptor) {consumed : Nat}
    {state : RunLengthState} (h : SizeProgress consumed state) :
    (runLengthCompressFinish inputBlock state).usedSize ≤ 3 * consumed := by
  obtain ⟨happ, hcases⟩ := h
  unfold runLengthCompressFinish
  simp only
  rcases hcases with ⟨hzero, hlast, hcount, hused⟩ | ⟨hpos, hbound⟩
  · have hdiff : ¬ (((inputBlock.address state.charPointer : Nat) : Int) = -1) := by omega
    simp only [hlast, hdiff, if_false, hcount, ne_eq, not_true_eq_false]
    omega
  · split
    · have := (writeRepeat_usedSize happ state.repeatCount
        (toUnsignedChar state.lastCharacter)).2
      omega
    · split
      · have := (writeRepeat_usedSize happ state.repeatCount
          (toUnsignedChar state.lastCharacter)).2
        omega
      · split
        · have := (writeByte_usedSize happ (toUnsignedChar state.lastCharacter)).2.1
          omega
        · omega

/-- The output of `runLengthCompress` is at most 3 bytes per byte of the input
buffer. -/
theorem runLengthCompress_size (heap : Nat → Nat) (inputBlock : BlockDescriptor)
    (hclear : isRleCompressed inputBlock = false) :
    ∃ outputBlock, runLengthCompress heap inputBlock = .ok outputBlock ∧
      outputBlock.usedSize ≤ 3 * inputBlock.allocatedSize := by
  unfold runLengthCompress
  simp only [hclear, Bool.false_eq_true, if_false]
  refine ⟨_, rfl, ?_⟩
  rw [foldl_range_ignore]
  apply sizeProgress_finish
  apply sizeProgress_iterate
  exact ⟨(appending_makeMemoryBlock heap _ _).1, Or.inl ⟨rfl, rfl, rfl, rfl⟩⟩

theorem overflowGroups_length (character groups : Nat) :
    (overflowGroups character groups).length = 3 * groups := by
  induction groups with
  | zero => rfl
  | succ groups ih =>
    rw [overflowGroups_succ, List.length_append, ih]
    simp
    omega

theorem lastRunGroup_length (beyond character length : Nat) (hlong : 4 ≤ length) :
    (lastRunGroup beyond character length).length < length := by
  unfold lastRunGroup
  rw [List.length_append, overflowGroups_length]
  have hrepeat : ∀ repeatCount, (writeRepeatBytes repeatCount character).length ≤ 3 ∧
      (3 ≤ repeatCount → (writeRepeatBytes repeatCount character).length = 3) := by
    intro repeatCount
    unfold writeRepeatBytes
    split
    · rename_i hcond
      simp only [List.length_replicate]
      exact ⟨by omega, fun h3 => by omega⟩
    · simp
  have hbyte : (writeByteBytes character).length ≤ 2 := by
    unfold writeByteBytes
    split <;> simp
  have htail : (if beyond = character then
        writeRepeatBytes ((length - 1) % 256) character
      else runTail character ((length - 1) % 256)).length ≤ 3 := by
    unfold runTail
    split
    · exact (hrepeat _).1
    · split
      · exact (hrepeat _).1
      · omega
  omega

/-- C20. Run-length size bound: for every input (held in a block whose buffer
is exactly its content, with the run-length flag clear) the output of
`runLengthCompress` has at most 3 times as many bytes as the input; and for an
input that is a single run of `length` ≥ 4 copies of one byte the output has
fewer bytes than the input. -/
theorem runLength_size_bound (heap : Nat → Nat) (inputBlock runBlock : BlockDescriptor)
    (character length : Nat)
    (hsize : inputBlock.allocatedSize = inputBlock.usedSize)
    (hclear : isRleCompressed inputBlock = false)
    (hbyte : character < 256) (hlong : 4 ≤ length)
    (hrun : contents runBlock = List.replicate length character)
    (hrunSize : runBlock.allocatedSize = runBlock.usedSize)
    (hrunClear : isRleCompressed runBlock = false) :
    (∃ outputBlock, runLengthCompress heap inputBlock = .ok outputBlock ∧
      (contents outputBlock).length ≤ 3 * (contents inputBlock).length) ∧
    (∃ outputBlock, runLengthCompress heap runBlock = .ok outputBlock ∧
      (contents outputBlock).length < (contents runBlock).length) := by
  constructor
  · obtain ⟨outputBlock, hok, hbound⟩ := runLengthCompress_size heap inputBlock hclear
    refine ⟨outputBlock, hok, ?_⟩
    rw [contents_length, contents_length, ← hsize]
    exact hbound
  · obtain ⟨outputBlock, hok, hcontents⟩ :=
      runLengthCompress_single_run heap runBlock character length (by omega) hbyte hrun
        hrunSize hrunClear
    refine ⟨outputBlock, hok, ?_⟩
    rw [hcontents, hrun, List.length_replicate]
    exact lastRunGroup_length _ _ _ hlong

theorem runLength_size_bound_witness :
    (mapUncompressedFile [235, 236, 235] (fun _ => 235)).allocatedSize
      = (mapUncompressedFile [235, 236, 235] (fun _ => 235)).usedSize ∧
    isRleCompressed (mapUncompressedFile [235, 236, 235] (fun _ => 235)) = false ∧
    (236 : Nat) < 256 ∧ 4 ≤ 4 ∧
    contents (mapUncompressedFile [236, 236, 236, 236] (fun _ => 0)) = List.replicate 4 236 ∧
    (mapUncompressedFile [236, 236, 236, 236] (fun _ => 0)).allocatedSize
      = (mapUncompressedFile [236, 236, 236, 236] (fun _ => 0)).usedSize ∧
    isRleCompressed (mapUncompressedFile [236, 236, 236, 236] (fun _ => 0)) = false ∧
    (runLengthCompress (fun _ => 0) (mapUncompressedFile [235, 236, 235] (fun _ => 235))).map
      contents = .ok [236, 235, 236, 236, 235, 0, 235] ∧
    ((∃ outputBlock,
      runLengthCompress (fun _ => 0) (mapUncompressedFile [235, 236, 235] (fun _ => 235))
        = .ok outputBlock ∧
      (contents outputBlock).length
        ≤ 3 * (contents (mapUncompressedFile [235, 236, 235] (fun _ => 235))).length) ∧
    (∃ outputBlock,
      runLengthCompress (fun _ => 0) (mapUncompressedFile [236, 236, 236, 236] (fun _ => 0))
        = .ok outputBlock ∧
      (contents outputBlock).length
        < (contents (mapUncompressedFile [236, 236, 236, 236] (fun _ => 0))).length)) :=
  ⟨rfl, rfl, by decide, by decide, rfl, rfl, rfl, rfl,
    runLength_size_bound (fun _ => 0) (mapUncompressedFile [235, 236, 235] (fun _ => 235))
      (mapUncompressedFile [236, 236, 236, 236] (fun _ => 0)) 236 4
      rfl rfl (by decide) (by decide) rfl rfl rfl⟩

theorem decodeBytes_plain (first : Nat) (rest : List Nat) (hescape : first ≠ ESCAPE_SYMBOL)
    (hrepeat : first ≠ REPEAT_SYMBOL) :
    decodeBytes (first :: rest) = (decodeBytes rest).map (fun tail => first :: tail) := by
  match rest with
  | [] => simp [decodeBytes, hescape, hrepeat, Except.map]
  | [_] => simp [decodeBytes, hescape, hrepeat, Except.map]
  | _ :: _ :: _ => simp only [decodeBytes, hescape, hrepeat, if_false]

theorem decodeBytes_repeat (repeatCount character : Nat) (rest : List Nat) :
    decodeBytes (REPEAT_SYMBOL :: repeatCount :: character :: rest)
      = (decodeBytes rest).map (fun tail =>
          List.replicate ((if repeatCount = 0 then 255 else repeatCount) + 1) character
            ++ tail) := by
  rw [decodeBytes]; rfl

theorem decodeBytes_escape (character : Nat) (rest : List Nat) :
    decodeBytes (ESCAPE_SYMBOL :: character :: rest)
      = (decodeBytes rest).map (fun tail => character :: tail) := by
  match rest with
  | [] => rfl
  | _ :: _ => rw [decodeBytes]; rfl

theorem contents_drop (block : BlockDescriptor) (offset : Nat) (h : offset < block.usedSize) :
    (contents block).drop offset = block.address offset :: (contents block).drop (offset + 1) := by
  have hlen : offset < (contents block).length := by rw [contents_length]; exact h
  rw [List.drop_eq_getElem_cons hlen, contents_getElem]

theorem contents_drop_nil (block : BlockDescriptor) (offset : Nat) (h : block.usedSize ≤ offset) :
    (contents block).drop offset = [] := by
  apply List.drop_eq_nil_of_le
  rw [contents_length]
  exact h

theorem writeCopies_contents (character : Nat) :
    ∀ (count : Nat) (block : BlockDescriptor), Appending block →
      Appending (writeCopies character count block) ∧
      contents (writeCopies character count block)
        = contents block ++ List.replicate count (character % 256) := by
  intro count
  induction count with
  | zero => intro block h; exact ⟨h, by simp [writeCopies]⟩
  | succ count ih =>
    intro block h
    obtain ⟨h1, e1⟩ := writeToBlock_contents h character
    obtain ⟨h2, e2⟩ := ih _ h1
    rw [writeCopies]
    refine ⟨h2, ?_⟩
    rw [e2, e1, List.replicate_succ, List.append_assoc, List.singleton_append]

theorem map_map_append (front middle : List Nat) (result : Except Failure (List Nat)) :
    (result.map (fun tail => middle ++ tail)).map (fun tail => front ++ tail)
      = result.map (fun tail => (front ++ middle) ++ tail) := by
  cases result with
  | error e => rfl
  | ok tail => simp [Except.map]

theorem map_map_cons (front : List Nat) (character : Nat) (result : Except Failure (List Nat)) :
    (result.map (fun tail => character :: tail)).map (fun tail => front ++ tail)
      = result.map (fun tail => (front ++ [character]) ++ tail) := by
  cases result with
  | error e => rfl
  | ok tail => simp [Except.map]

/-- The loop of `runLengthDecompress` appends what `decodeBytes` gives for the
bytes from `offset` on, and fails as `decodeBytes` does; `fuel` passes are
enough when they cover the bytes left. -/
theorem runLengthDecompressLoop_contents (inputBlock : BlockDescriptor)
    (hbytes : ∀ offset, offset < inputBlock.usedSize → inputBlock.address offset < 256) :
    ∀ (fuel offset : Nat) (outputBlock : BlockDescriptor),
      inputBlock.usedSize ≤ offset + fuel → Appending outputBlock →
      (runLengthDecompressLoop inputBlock fuel offset outputBlock).map contents
        = (decodeBytes ((contents inputBlock).drop offset)).map
            (fun tail => contents outputBlock ++ tail) := by
  intro fuel
  induction fuel with
  | zero =>
    intro offset outputBlock hfuel happ
    have hdone : ¬ offset < inputBlock.usedSize := by omega
    rw [contents_drop_nil _ _ (by omega)]
    unfold runLengthDecompressLoop
    simp [hdone, decodeBytes, Except.map]
  | succ fuel ih =>
    intro offset outputBlock hfuel happ
    by_cases hlt : offset < inputBlock.usedSize
    · rw [contents_drop _ _ hlt]
      unfold runLengthDecompressLoop
      simp only [hlt, if_true]
      by_cases hescape : inputBlock.address offset = ESCAPE_SYMBOL
      · simp only [hescape, if_true]
        by_cases hnext : offset + 1 < inputBlock.usedSize
        · have hge : ¬ offset + 1 ≥ inputBlock.usedSize := by omega
          obtain ⟨h1, e1⟩ := writeToBlock_contents happ (inputBlock.address (offset + 1))
          rw [contents_drop _ _ hnext, decodeBytes_escape]
          simp only [hge, if_false]
          rw [ih _ _ (by omega) h1, e1, Nat.mod_eq_of_lt (hbytes _ hnext)]
          exact (map_map_cons _ _ _).symm
        · have hge : offset + 1 ≥ inputBlock.usedSize := by omega
          rw [contents_drop_nil _ _ (by omega)]
          simp [hge, decodeBytes, Except.map]
      · have hne : REPEAT_SYMBOL ≠ ESCAPE_SYMBOL := by decide
        simp only [hescape, if_false]
        by_cases hrepeat : inputBlock.address offset = REPEAT_SYMBOL
        · simp only [hrepeat, if_true]
          by_cases hnext : offset + 1 < inputBlock.usedSize
          · have hge : ¬ offset + 1 ≥ inputBlock.usedSize := by omega
            rw [contents_drop _ _ hnext]
            by_cases hlast : offset + 2 < inputBlock.usedSize
            · have hge2 : ¬ offset + 2 ≥ inputBlock.usedSize := by omega
              obtain ⟨h1, e1⟩ := writeCopies_contents (inputBlock.address (offset + 2))
                ((if inputBlock.address (offset + 1) % 256 = 0 then 255
                  else inputBlock.address (offset + 1) % 256) + 1) outputBlock happ
              rw [contents_drop _ _ hlast, decodeBytes_repeat]
              simp only [hge, hge2, if_false]
              rw [ih _ _ (by omega) h1, e1, Nat.mod_eq_of_lt (hbytes _ hlast),
                Nat.mod_eq_of_lt (hbytes _ hnext)]
              exact (map_map_append _ _ _).symm
            · have hge2 : offset + 2 ≥ inputBlock.usedSize := by omega
              rw [contents_drop_nil _ _ (by omega : inputBlock.usedSize ≤ offset + 1 + 1)]
              simp [hge, hge2, decodeBytes, hne, Except.map]
          · have hge : offset + 1 ≥ inputBlock.usedSize := by omega
            rw [contents_drop_nil _ _ (by omega)]
            simp [hge, decodeBytes, hne, Except.map]
        · obtain ⟨h1, e1⟩ := writeToBlock_contents happ (inputBlock.address offset)
          simp only [hrepeat, if_false]
          rw [decodeBytes_plain _ _ hescape hrepeat, ih _ _ (by omega) h1, e1,
            Nat.mod_eq_of_lt (hbytes _ hlt)]
          exact (map_map_cons _ _ _).symm
    · have hdone : ¬ offset < inputBlock.usedSize := hlt
      rw [contents_drop_nil _ _ (by omega)]
      unfold runLengthDecompressLoop
      simp [hdone, decodeBytes, Except.map]

theorem address_lt_of_bytes (inputBlock : BlockDescriptor)
    (hbytes : ∀ byte ∈ contents inputBlock, byte < 256) :
    ∀ offset, offset < inputBlock.usedSize → inputBlock.address offset < 256 := by
  intro offset hlt
  apply hbytes
  unfold contents
  exact List.mem_map.mpr ⟨offset, List.mem_range.mpr hlt, rfl⟩

/-- On a block with the run-length flag set `runLengthDecompress` returns a
block holding what `decodeBytes` gives for the content, and fails as
`decodeBytes` does. -/
theorem runLengthDecompress_contents (heap : Nat → Nat) (inputBlock : BlockDescriptor)
    (hflag : isRleCompressed inputBlock = true)
    (hbytes : ∀ byte ∈ contents inputBlock, byte < 256) :
    (∀ bytes, decodeBytes (contents inputBlock) = .ok bytes →
      ∃ outputBlock, runLengthDecompress heap inputBlock = .ok (some outputBlock) ∧
        contents outputBlock = bytes) ∧
    (∀ failure, decodeBytes (contents inputBlock) = .error failure ↔
      runLengthDecompress heap inputBlock = .error failure) := by
  have hloop := runLengthDecompressLoop_contents inputBlock
    (address_lt_of_bytes inputBlock hbytes) inputBlock.usedSize 0
    { makeMemoryBlock heap inputBlock.usedSize with
      encoding := clearFlag inputBlock.encoding ENCODING_RUN_LENGTH } (by omega)
    (appending_makeMemoryBlock heap _ _).1
  rw [(appending_makeMemoryBlock heap _ _).2, List.drop_zero] at hloop
  unfold runLengthDecompress
  simp only [hflag, Bool.not_true, Bool.false_eq_true, if_false, bind, Except.bind, pure,
    Except.pure]
  cases hrun : runLengthDecompressLoop inputBlock inputBlock.usedSize 0
      { makeMemoryBlock heap inputBlock.usedSize with
        encoding := clearFlag inputBlock.encoding ENCODING_RUN_LENGTH } with
  | error e =>
    rw [hrun] at hloop
    cases hdecode : decodeBytes (contents inputBlock) with
    | error e2 =>
      rw [hdecode] at hloop
      simp only [Except.map, Except.error.injEq] at hloop
      subst hloop
      exact ⟨fun bytes h => (by cases h),
        fun failure => ⟨fun h => (by cases h; rfl), fun h => (by cases h; rfl)⟩⟩
    | ok bytes =>
      rw [hdecode] at hloop
      simp [Except.map] at hloop
  | ok final =>
    rw [hrun] at hloop
    cases hdecode : decodeBytes (contents inputBlock) with
    | error e2 =>
      rw [hdecode] at hloop
      simp [Except.map] at hloop
    | ok bytes =>
      rw [hdecode] at hloop
      simp only [Except.map, Except.ok.injEq, List.nil_append] at hloop
      refine ⟨fun bytes2 h => ⟨final, rfl, ?_⟩, fun failure => ⟨fun h => (by cases h), fun h => (by cases h)⟩⟩
      cases h
      exact hloop

theorem decodeBytes_token (token : RunLengthToken) (hvalid : validToken token = true)
    (rest : List Nat) :
    decodeBytes (tokenBytes token ++ rest)
      = (decodeBytes rest).map (fun tail => tokenExpansion token ++ tail) := by
  cases token with
  | escaped character => exact decodeBytes_escape character rest
  | repeated repeatCount character =>
    have h := decodeBytes_repeat repeatCount character rest
    simp only [tokenBytes, tokenExpansion, List.cons_append, List.nil_append]
    rw [h]
    by_cases hzero : repeatCount = 0
    · simp only [hzero, if_true]
    · simp only [hzero, if_false]
  | plain character =>
    simp only [validToken, Bool.and_eq_true, decide_eq_true_eq] at hvalid
    exact decodeBytes_plain character rest hvalid.1 hvalid.2

theorem decodeBytes_tokens :
    ∀ (tokens : List RunLengthToken), (∀ token ∈ tokens, validToken token = true) →
      ∀ rest : List Nat,
        decodeBytes (tokens.flatMap tokenBytes ++ rest)
          = (decodeBytes rest).map (fun tail => tokens.flatMap tokenExpansion ++ tail) := by
  intro tokens
  induction tokens with
  | nil =>
    intro _ rest
    simp only [List.flatMap_nil, List.nil_append]
    cases decodeBytes rest <;> rfl
  | cons token tokens ih =>
    intro hvalid rest
    rw [List.flatMap_cons, List.flatMap_cons, List.append_assoc,
      decodeBytes_token token (hvalid token (List.mem_cons_self _ _)),
      ih (fun other hmem => hvalid other (List.mem_cons_of_mem _ hmem)), map_map_append]

theorem decodeBytes_truncated {bytes : List Nat} (h : TruncatedStream bytes) :
    ∃ failure, isCorruptionError failure ∧ decodeBytes bytes = .error failure := by
  obtain ⟨tokens, hvalid, hform | hform | ⟨repeatCount, hform⟩⟩ := h
  · exact ⟨.endsWithEscapeSymbol, Or.inl rfl, by rw [hform, decodeBytes_tokens tokens hvalid]; rfl⟩
  · exact ⟨.endsWithRepeatSymbol, Or.inr (Or.inl rfl),
      by rw [hform, decodeBytes_tokens tokens hvalid]; rfl⟩
  · exact ⟨.endsWithRepeatCount, Or.inr (Or.inr rfl),
      by rw [hform, decodeBytes_tokens tokens hvalid]; rfl⟩

theorem truncatedStream_token (token : RunLengthToken) (hvalid : validToken token = true)
    {bytes : List Nat} (h : TruncatedStream bytes) :
    TruncatedStream (tokenBytes token ++ bytes) := by
  obtain ⟨tokens, hall, hform⟩ := h
  refine ⟨token :: tokens, ?_, ?_⟩
  · intro other hmem
    rcases List.mem_cons.mp hmem with hsame | hlater
    · rw [hsame]; exact hvalid
    · exact hall other hlater
  · rcases hform with hform | hform | ⟨repeatCount, hform⟩
    · exact Or.inl (by rw [hform, List.flatMap_cons, List.append_assoc])
    · exact Or.inr (Or.inl (by rw [hform, List.flatMap_cons, List.append_assoc]))
    · exact Or.inr (Or.inr ⟨repeatCount, by rw [hform, List.flatMap_cons, List.append_assoc]⟩)

theorem map_eq_error {function : List Nat → List Nat} {result : Except Failure (List Nat)}
    {failure : Failure} (h : result.map function = .error failure) :
    result = .error failure := by
  cases result with
  | error e => exact h
  | ok tail => cases h

/-- When `decodeBytes` fails, the failure is one of the three corruption errors
and the stream ends inside a token. -/
theorem decodeBytes_error :
    ∀ (bound : Nat) (bytes : List Nat), bytes.length ≤ bound →
      ∀ failure, decodeBytes bytes = .error failure →
        isCorruptionError failure ∧ TruncatedStream bytes := by
  intro bound
  induction bound with
  | zero =>
    intro bytes hbound failure h
    have hnil : bytes = [] := List.length_eq_zero.mp (by omega)
    rw [hnil] at h
    cases h
  | succ bound ih =>
    intro bytes hbound failure h
    match bytes, hbound, h with
    | [], _, h => cases h
    | first :: rest, hbound, h =>
      have hlen : rest.length ≤ bound := by
        simp only [List.length_cons] at hbound
        omega
      by_cases hescape : first = ESCAPE_SYMBOL
      · subst hescape
        match rest, hlen, h with
        | [], _, h =>
          have hfailure : Failure.endsWithEscapeSymbol = failure := Except.error.inj h
          exact ⟨Or.inl hfailure.symm, [], fun _ hmem => (by cases hmem), Or.inl rfl⟩
        | character :: rest, hlen, h =>
          rw [decodeBytes_escape] at h
          have hrest := ih rest (by simp only [List.length_cons] at hlen; omega) failure
            (map_eq_error h)
          exact ⟨hrest.1, truncatedStream_token (.escaped character) rfl hrest.2⟩
      · by_cases hrepeat : first = REPEAT_SYMBOL
        · subst hrepeat
          match rest, hlen, h with
          | [], _, h =>
            have hfailure : Failure.endsWithRepeatSymbol = failure := Except.error.inj h
            exact ⟨Or.inr (Or.inl hfailure.symm), [], fun _ hmem => (by cases hmem),
              Or.inr (Or.inl rfl)⟩
          | [repeatCount], _, h =>
            have hfailure : Failure.endsWithRepeatCount = failure := Except.error.inj h
            exact ⟨Or.inr (Or.inr hfailure.symm), [], fun _ hmem => (by cases hmem),
              Or.inr (Or.inr ⟨repeatCount, rfl⟩)⟩
          | repeatCount :: character :: rest, hlen, h =>
            rw [decodeBytes_repeat] at h
            have hrest := ih rest (by simp only [List.length_cons] at hlen; omega) failure
              (map_eq_error h)
            exact ⟨hrest.1, truncatedStream_token (.repeated repeatCount character) rfl hrest.2⟩
        · rw [decodeBytes_plain first rest hescape hrepeat] at h
          have hrest := ih rest hlen failure (map_eq_error h)
          have hvalid : validToken (.plain first) = true := by
            simp only [validToken, Bool.and_eq_true, decide_eq_true_eq]
            exact ⟨hescape, hrepeat⟩
          exact ⟨hrest.1, truncatedStream_token (.plain first) hvalid hrest.2⟩

/-- C18. Run-length decoding semantics: on a block with the run-length flag
set whose content is a sequence of tokens, `runLengthDecompress` returns a
block holding the concatenation of the expansions of the tokens, where
`[236, x]` expands to `[x]`, `[235, n, x]` to n + 1 copies of x for
1 ≤ n ≤ 255 and to 256 copies for n = 0, and any other single byte to
itself. -/
theorem runLength_decoding_semantics (heap : Nat → Nat) (inputBlock : BlockDescriptor)
    (tokens : List RunLengthToken)
    (hflag : isRleCompressed inputBlock = true)
    (hbytes : ∀ byte ∈ contents inputBlock, byte < 256)
    (hvalid : ∀ token ∈ tokens, validToken token = true)
    (hheld : contents inputBlock = tokens.flatMap tokenBytes) :
    ∃ outputBlock, runLengthDecompress heap inputBlock = .ok (some outputBlock) ∧
      contents outputBlock = tokens.flatMap tokenExpansion := by
  apply (runLengthDecompress_contents heap inputBlock hflag hbytes).1
  have h := decodeBytes_tokens tokens hvalid []
  rw [List.append_nil] at h
  rw [hheld, h]
  simp [decodeBytes, Except.map]

theorem runLength_decoding_semantics_witness :
    isRleCompressed
      { mapUncompressedFile [65, 236, 235, 235, 2, 66, 235, 0, 67, 235, 255, 68]
          (fun _ => 0) with encoding := ENCODING_RUN_LENGTH } = true ∧
    (∀ byte ∈ contents
      { mapUncompressedFile [65, 236, 235, 235, 2, 66, 235, 0, 67, 235, 255, 68]
          (fun _ => 0) with encoding := ENCODING_RUN_LENGTH }, byte < 256) ∧
    (∀ token ∈ [RunLengthToken.plain 65, .escaped 235, .repeated 2 66, .repeated 0 67,
      .repeated 255 68], validToken token = true) ∧
    contents
      { mapUncompressedFile [65, 236, 235, 235, 2, 66, 235, 0, 67, 235, 255, 68]
          (fun _ => 0) with encoding := ENCODING_RUN_LENGTH }
      = [RunLengthToken.plain 65, .escaped 235, .repeated 2 66, .repeated 0 67,
          .repeated 255 68].flatMap tokenBytes ∧
    [RunLengthToken.plain 65, .escaped 235, .repeated 2 66, .repeated 0 67,
        .repeated 255 68].flatMap tokenExpansion
      = [65, 235, 66, 66, 66] ++ List.replicate 256 67 ++ List.replicate 256 68 ∧
    ∃ outputBlock,
      runLengthDecompress (fun _ => 0)
        { mapUncompressedFile [65, 236, 235, 235, 2, 66, 235, 0, 67, 235, 255, 68]
            (fun _ => 0) with encoding := ENCODING_RUN_LENGTH } = .ok (some outputBlock) ∧
      contents outputBlock
        = [RunLengthToken.plain 65, .escaped 235, .repeated 2 66, .repeated 0 67,
            .repeated 255 68].flatMap tokenExpansion :=
  ⟨rfl, by decide, by decide, rfl, rfl,
    runLength_decoding_semantics (fun _ => 0)
      { mapUncompressedFile [65, 236, 235, 235, 2, 66, 235, 0, 67, 235, 255, 68]
          (fun _ => 0) with encoding := ENCODING_RUN_LENGTH }
      [.plain 65, .escaped 235, .repeated 2 66, .repeated 0 67, .repeated 255 68]
      rfl (by decide) (by decide) rfl⟩

/-- C19. Run-length corruption detection: on a block with the run-length flag
set, `runLengthDecompress` fails with a corruption error if and only if,
scanning tokens from the start, the content ends with an ESCAPE that has no
following byte or with a REPEAT that has fewer than two following bytes; on
every other input it returns a block. -/
theorem runLength_corruption_detection (heap : Nat → Nat) (inputBlock : BlockDescriptor)
    (hflag : isRleCompressed inputBlock = true)
    (hbytes : ∀ byte ∈ contents inputBlock, byte < 256) :
    ((∃ failure, isCorruptionError failure ∧
        runLengthDecompress heap inputBlock = .error failure)
      ↔ TruncatedStream (contents inputBlock)) ∧
    (¬ TruncatedStream (contents inputBlock) →
      ∃ outputBlock, runLengthDecompress heap inputBlock = .ok (some outputBlock)) := by
  obtain ⟨hok, herror⟩ := runLengthDecompress_contents heap inputBlock hflag hbytes
  refine ⟨⟨?_, ?_⟩, ?_⟩
  · rintro ⟨failure, _, hfails⟩
    exact (decodeBytes_error _ _ (le_refl _) failure ((herror failure).mpr hfails)).2
  · intro htruncated
    obtain ⟨failure, hkind, hfails⟩ := decodeBytes_truncated htruncated
    exact ⟨failure, hkind, (herror failure).mp hfails⟩
  · intro hwhole
    cases hdecode : decodeBytes (contents inputBlock) with
    | error failure =>
      exact absurd (decodeBytes_error _ _ (le_refl _) failure hdecode).2 hwhole
    | ok bytes =>
      obtain ⟨outputBlock, hresult, _⟩ := hok bytes hdecode
      exact ⟨outputBlock, hresult⟩

theorem runLength_corruption_detection_witness :
    isRleCompressed
      { mapUncompressedFile [65, 235, 2] (fun _ => 0) with
        encoding := ENCODING_RUN_LENGTH } = true ∧
    (∀ byte ∈ contents
      { mapUncompressedFile [65, 235, 2] (fun _ => 0) with
        encoding := ENCODING_RUN_LENGTH }, byte < 256) ∧
    runLengthDecompress (fun _ => 0)
      { mapUncompressedFile [65, 235, 2] (fun _ => 0) with
        encoding := ENCODING_RUN_LENGTH } = .error .endsWithRepeatCount ∧
    ((∃ failure, isCorruptionError failure ∧
        runLengthDecompress (fun _ => 0)
          { mapUncompressedFile [65, 235, 2] (fun _ => 0) with
            encoding := ENCODING_RUN_LENGTH } = .error failure)
      ↔ TruncatedStream (contents
          { mapUncompressedFile [65, 235, 2] (fun _ => 0) with
            encoding := ENCODING_RUN_LENGTH })) ∧
    (¬ TruncatedStream (contents
          { mapUncompressedFile [65, 235, 2] (fun _ => 0) with
            encoding := ENCODING_RUN_LENGTH }) →
      ∃ outputBlock,
        runLengthDecompress (fun _ => 0)
          { mapUncompressedFile [65, 235, 2] (fun _ => 0) with
            encoding := ENCODING_RUN_LENGTH } = .ok (some outputBlock)) :=
  ⟨rfl, by decide, rfl,
    runLength_corruption_detection (fun _ => 0)
      { mapUncompressedFile [65, 235, 2] (fun _ => 0) with
        encoding := ENCODING_RUN_LENGTH } rfl (by decide)⟩

/-- C27, as the claim states it, fails: on a fresh `makeMemoryBlock(4)` the read
cursor is at `usedSize` (both are 0), yet `readFromBlock` and
`readBitFromBlock` return the content of the first cell instead of failing. -/
theorem read_bound_as_stated_fails :
    (makeMemoryBlock (fun _ => 0x55) 4).usedSize
      ≤ (makeMemoryBlock (fun _ => 0x55) 4).nextByteToRead ∧
    (readFromBlock (makeMemoryBlock (fun _ => 0x55) 4)).map Prod.fst = .ok 0x55 ∧
    (readBitFromBlock (makeMemoryBlock (fun _ => 0x55) 4)).map Prod.fst = .ok true := by
  refine ⟨by decide, rfl, rfl⟩

/-- C27, amended. Block read bound: for every block, `readFromBlock` and
`readBitFromBlock` fail with the out-of-range error if and only if the byte
index of the read cursor is at or past `allocatedSize` (the capacity, not
`usedSize`); otherwise they return the byte, or the bit, at the cursor and
advance it (a bit read steps to bit 0 of the next byte after bit 7). -/
theorem read_bound (block : BlockDescriptor) (hbit : block.nextBitToRead ≤ 7) :
    (readFromBlock block = .error .readPastEnd ↔ block.allocatedSize ≤ block.nextByteToRead) ∧
    (readBitFromBlock block = .error .readPastEnd ↔
      block.allocatedSize ≤ block.nextByteToRead) ∧
    (block.nextByteToRead < block.allocatedSize →
      readFromBlock block
        = .ok (block.address block.nextByteToRead,
            { block with nextByteToRead := block.nextByteToRead + 1 }) ∧
      readBitFromBlock block
        = .ok (getBit block.nextBitToRead (block.address block.nextByteToRead),
            if block.nextBitToRead < 7 then
              { block with nextBitToRead := block.nextBitToRead + 1 }
            else
              { block with nextBitToRead := 0, nextByteToRead := block.nextByteToRead + 1 })) := by
  have hmod : (block.nextBitToRead + 1) % 256 = block.nextBitToRead + 1 :=
    Nat.mod_eq_of_lt (by omega)
  unfold readFromBlock readBitFromBlock
  by_cases hpast : block.allocatedSize ≤ block.nextByteToRead
  · have hge : block.nextByteToRead ≥ block.allocatedSize := hpast
    simp only [hge, if_true, hpast, true_iff, iff_true, true_and]
    intro hlt
    omega
  · have hge : ¬ block.nextByteToRead ≥ block.allocatedSize := hpast
    simp only [hge, if_false, hpast, iff_false, hmod]
    refine ⟨fun h => (by cases h), ?_, fun _ => ⟨trivial, ?_⟩⟩
    · intro h
      split at h <;> cases h
    · by_cases hlow : block.nextBitToRead < 7
      · have hnot : ¬ (block.nextBitToRead + 1 > 7) := by omega
        simp only [hnot, if_false, hlow, if_true]
      · have hyes : block.nextBitToRead + 1 > 7 := by omega
        simp only [hyes, if_true, hlow, if_false]

theorem read_bound_witness :
    (makeMemoryBlock (fun _ => 0x55) 4).nextBitToRead ≤ 7 ∧
    (readFromBlock (makeMemoryBlock (fun _ => 0x55) 4) = .error .readPastEnd ↔
      (makeMemoryBlock (fun _ => 0x55) 4).allocatedSize
        ≤ (makeMemoryBlock (fun _ => 0x55) 4).nextByteToRead) ∧
    (readBitFromBlock (makeMemoryBlock (fun _ => 0x55) 4) = .error .readPastEnd ↔
      (makeMemoryBlock (fun _ => 0x55) 4).allocatedSize
        ≤ (makeMemoryBlock (fun _ => 0x55) 4).nextByteToRead) ∧
    ((makeMemoryBlock (fun _ => 0x55) 4).nextByteToRead
        < (makeMemoryBlock (fun _ => 0x55) 4).allocatedSize →
      readFromBlock (makeMemoryBlock (fun _ => 0x55) 4)
        = .ok ((makeMemoryBlock (fun _ => 0x55) 4).address
              (makeMemoryBlock (fun _ => 0x55) 4).nextByteToRead,
            { makeMemoryBlock (fun _ => 0x55) 4 with
              nextByteToRead := (makeMemoryBlock (fun _ => 0x55) 4).nextByteToRead + 1 }) ∧
      readBitFromBlock (makeMemoryBlock (fun _ => 0x55) 4)
        = .ok (getBit (makeMemoryBlock (fun _ => 0x55) 4).nextBitToRead
              ((makeMemoryBlock (fun _ => 0x55) 4).address
                (makeMemoryBlock (fun _ => 0x55) 4).nextByteToRead),
            if (makeMemoryBlock (fun _ => 0x55) 4).nextBitToRead < 7 then
              { makeMemoryBlock (fun _ => 0x55) 4 with
                nextBitToRead := (makeMemoryBlock (fun _ => 0x55) 4).nextBitToRead + 1 }
            else
              { makeMemoryBlock (fun _ => 0x55) 4 with
                nextBitToRead := 0
                nextByteToRead := (makeMemoryBlock (fun _ => 0x55) 4).nextByteToRead + 1 })) :=
  ⟨by decide, read_bound (makeMemoryBlock (fun _ => 0x55) 4) (by decide)⟩

/-- C28: the block invariant fails.  One `writeToBlock` on `makeMemoryBlock(0)`
grows the capacity from 0 to 0 + (0 + 1) / 2 = 0, so the byte lands at index
0, which is not below `allocatedSize`, and `usedSize` (1) exceeds
`allocatedSize` (0).  On `makeMemoryBlock(1)`, after `writeBitToBlock` and
`writeToBlock` the write cursor is at bit 1 of byte 1, and the next
`writeBitToBlock` changes the cell at index 1 without growing the capacity,
which stays 1. -/
theorem block_invariant_fails (heap : Nat → Nat) :
    (writeToBlock (makeMemoryBlock heap 0) 0x41).1.allocatedSize = 0 ∧
    (writeToBlock (makeMemoryBlock heap 0) 0x41).2 = 0 ∧
    (writeToBlock (makeMemoryBlock heap 0) 0x41).1.address 0 = 0x41 ∧
    (writeToBlock (makeMemoryBlock heap 0) 0x41).1.usedSize = 1 ∧
    (writeToBlock (writeBitToBlock (makeMemoryBlock heap 1) true) 0x41).1.nextFreeByte = 1 ∧
    (writeToBlock (writeBitToBlock (makeMemoryBlock heap 1) true) 0x41).1.nextFreeBit = 1 ∧
    (writeBitToBlock
      (writeToBlock (writeBitToBlock (makeMemoryBlock heap 1) true) 0x41).1
      true).allocatedSize = 1 ∧
    (writeBitToBlock
      (writeToBlock (writeBitToBlock (makeMemoryBlock heap 1) true) 0x41).1
      true).address 1 = setBit 1 (heap 1) true := by
  have hsmall : setBit 1 (heap 1) true % 256 = setBit 1 (heap 1) true :=
    Nat.mod_eq_of_lt (setBit_lt _ _ _)
  simp [writeToBlock, writeBitToBlock, makeMemoryBlock, makeBlockDescriptor, store, grownSize,
    hsmall]

theorem writeBytes_append (block : BlockDescriptor) (bytes : List Nat) (character : Nat) :
    writeBytes block (bytes ++ [character]) = (writeToBlock (writeBytes block bytes) character).1 := by
  simp [writeBytes, List.foldl_append]

/-- State of a block created by `makeMemoryBlock heap size`, `size` at least 1,
after the bytes of `bytes` went through `writeToBlock`. -/
theorem writeBytes_state (heap : Nat → Nat) (size : Nat) (hsize : 1 ≤ size) :
    ∀ bytes : List Nat,
      (writeBytes (makeMemoryBlock heap size) bytes).nextFreeByte = bytes.length ∧
      (writeBytes (makeMemoryBlock heap size) bytes).usedSize = bytes.length ∧
      bytes.length ≤ (writeBytes (makeMemoryBlock heap size) bytes).allocatedSize ∧
      1 ≤ (writeBytes (makeMemoryBlock heap size) bytes).allocatedSize ∧
      (writeBytes (makeMemoryBlock heap size) bytes).nextFreeBit = 0 ∧
      (writeBytes (makeMemoryBlock heap size) bytes).nextByteToRead = 0 ∧
      (writeBytes (makeMemoryBlock heap size) bytes).nextBitToRead = 0 ∧
      (writeBytes (makeMemoryBlock heap size) bytes).encoding = 0 ∧
      contents (writeBytes (makeMemoryBlock heap size) bytes)
        = bytes.map (fun character => character % 256) := by
  intro bytes
  induction bytes using List.reverseRecOn with
  | nil => exact ⟨rfl, rfl, Nat.zero_le _, hsize, rfl, rfl, rfl, rfl, rfl⟩
  | append_singleton bytes character ih =>
    obtain ⟨hfree, hused, hle, hone, hbit, hread, hreadBit, hencoding, hcontents⟩ := ih
    have happ : Appending (writeBytes (makeMemoryBlock heap size) bytes) :=
      ⟨by rw [hfree, hused], hbit⟩
    obtain ⟨_, hwritten⟩ := writeToBlock_contents happ character
    rw [writeBytes_append]
    refine ⟨?_, ?_, ?_, ?_, ?_, ?_, ?_, ?_, ?_⟩
    · unfold writeToBlock; simp only; split <;> simp [hfree]
    · unfold writeToBlock; simp only; split <;> simp [hfree]
    · unfold writeToBlock grownSize; simp only; split <;> simp only [List.length_append,
        List.length_singleton] <;> omega
    · unfold writeToBlock grownSize; simp only; split <;> (try dsimp only) <;> omega
    · unfold writeToBlock; simp only; split <;> exact hbit
    · unfold writeToBlock; simp only; split <;> exact hread
    · unfold writeToBlock; simp only; split <;> exact hreadBit
    · rw [writeToBlock_encoding]; exact hencoding
    · rw [hwritten, hcontents]; simp

/-- C29. Postcondition of `writeToBlock`: on a block of capacity at least 1 into
which only `writeToBlock` has written, `bytes.length` bytes so far,
`writeToBlock(block, x)` returns `bytes.length`, the offset written, which is
below the capacity afterwards; it leaves the bytes before that offset
unchanged, stores x at it, and sets `nextFreeByte` and `usedSize` to
`bytes.length + 1`; the read cursor and the encoding are unchanged. -/
theorem write_byte_postcondition (heap : Nat → Nat) (size : Nat) (bytes : List Nat)
    (character : Nat) (hsize : 1 ≤ size) (hbyte : character < 256) :
    (writeToBlock (writeBytes (makeMemoryBlock heap size) bytes) character).2 = bytes.length ∧
    (writeToBlock (writeBytes (makeMemoryBlock heap size) bytes) character).2
      < (writeToBlock (writeBytes (makeMemoryBlock heap size) bytes) character).1.allocatedSize ∧
    (∀ offset, offset < bytes.length →
      (writeToBlock (writeBytes (makeMemoryBlock heap size) bytes) character).1.address offset
        = (writeBytes (makeMemoryBlock heap size) bytes).address offset) ∧
    (writeToBlock (writeBytes (makeMemoryBlock heap size) bytes) character).1.address
      bytes.length = character ∧
    (writeToBlock (writeBytes (makeMemoryBlock heap size) bytes) character).1.nextFreeByte
      = bytes.length + 1 ∧
    (writeToBlock (writeBytes (makeMemoryBlock heap size) bytes) character).1.usedSize
      = bytes.length + 1 ∧
    (writeToBlock (writeBytes (makeMemoryBlock heap size) bytes) character).1.nextByteToRead
      = (writeBytes (makeMemoryBlock heap size) bytes).nextByteToRead ∧
    (writeToBlock (writeBytes (makeMemoryBlock heap size) bytes) character).1.nextBitToRead
      = (writeBytes (makeMemoryBlock heap size) bytes).nextBitToRead ∧
    (writeToBlock (writeBytes (makeMemoryBlock heap size) bytes) character).1.encoding
      = (writeBytes (makeMemoryBlock heap size) bytes).encoding := by
  obtain ⟨hfree, hused, hle, hone, hbit, hread, hreadBit, hencoding, hcontents⟩ :=
    writeBytes_state heap size hsize bytes
  generalize writeBytes (makeMemoryBlock heap size) bytes = block at *
  unfold writeToBlock grownSize
  simp only
  split
  · refine ⟨hfree, ?_, ?_, ?_, ?_, ?_, rfl, rfl, rfl⟩
    · simp only [hfree]; omega
    · intro offset hlt
      have hne : offset ≠ block.nextFreeByte := by omega
      simp [store, hne]
    · simp [store, hfree, Nat.mod_eq_of_lt hbyte]
    · simp [hfree]
    · simp [hfree]
  · refine ⟨hfree, ?_, ?_, ?_, ?_, ?_, rfl, rfl, rfl⟩
    · simp only [hfree]; omega
    · intro offset hlt
      have hne : offset ≠ block.nextFreeByte := by omega
      simp [store, hne]
    · simp [store, hfree, Nat.mod_eq_of_lt hbyte]
    · simp [hfree]
    · simp [hfree]

theorem write_byte_postcondition_witness :
    (writeBytes (makeMemoryBlock (fun _ => 7) 1) [0x41]).allocatedSize = 1 ∧
    (writeToBlock (writeBytes (makeMemoryBlock (fun _ => 7) 1) [0x41]) 0x42).1.allocatedSize
      = 2 ∧
    1 ≤ 1 ∧ 0x42 < 256 ∧
    ((writeToBlock (writeBytes (makeMemoryBlock (fun _ => 7) 1) [0x41]) 0x42).2
      = [0x41].length ∧
    (writeToBlock (writeBytes (makeMemoryBlock (fun _ => 7) 1) [0x41]) 0x42).2
      < (writeToBlock (writeBytes (makeMemoryBlock (fun _ => 7) 1) [0x41]) 0x42).1.allocatedSize ∧
    (∀ offset, offset < [0x41].length →
      (writeToBlock (writeBytes (makeMemoryBlock (fun _ => 7) 1) [0x41]) 0x42).1.address offset
        = (writeBytes (makeMemoryBlock (fun _ => 7) 1) [0x41]).address offset) ∧
    (writeToBlock (writeBytes (makeMemoryBlock (fun _ => 7) 1) [0x41]) 0x42).1.address
      [0x41].length = 0x42 ∧
    (writeToBlock (writeBytes (makeMemoryBlock (fun _ => 7) 1) [0x41]) 0x42).1.nextFreeByte
      = [0x41].length + 1 ∧
    (writeToBlock (writeBytes (makeMemoryBlock (fun _ => 7) 1) [0x41]) 0x42).1.usedSize
      = [0x41].length + 1 ∧
    (writeToBlock (writeBytes (makeMemoryBlock (fun _ => 7) 1) [0x41]) 0x42).1.nextByteToRead
      = (writeBytes (makeMemoryBlock (fun _ => 7) 1) [0x41]).nextByteToRead ∧
    (writeToBlock (writeBytes (makeMemoryBlock (fun _ => 7) 1) [0x41]) 0x42).1.nextBitToRead
      = (writeBytes (makeMemoryBlock (fun _ => 7) 1) [0x41]).nextBitToRead ∧
    (writeToBlock (writeBytes (makeMemoryBlock (fun _ => 7) 1) [0x41]) 0x42).1.encoding
      = (writeBytes (makeMemoryBlock (fun _ => 7) 1) [0x41]).encoding) :=
  ⟨rfl, rfl, by decide, by decide,
    write_byte_postcondition (fun _ => 7) 1 [0x41] 0x42 (by decide) (by decide)⟩

theorem countTable_append (bytes : List Nat) (symbol : Nat) :
    setEntry (countTable bytes) symbol
      { countTable bytes symbol with frequency := (countTable bytes symbol).frequency + 1 }
      = countTable (bytes ++ [symbol]) := by
  funext position
  unfold setEntry countTable
  by_cases hsame : position = symbol
  · subst hsame
    simp [List.count_append]
  · have hne : symbol ≠ position := fun h => hsame h.symm
    simp [List.count_append, hsame, List.count_singleton, hne]

theorem populateFrequencyTable_upTo (inputBlock : BlockDescriptor) :
    ∀ count : Nat,
      (List.range count).foldl
        (fun (frequencyTable : FrequencyTable) offset =>
          let symbol := inputBlock.address offset % 256
          setEntry frequencyTable symbol
            { frequencyTable symbol with frequency := (frequencyTable symbol).frequency + 1 })
        initFrequencyTable
      = countTable ((List.range count).map (fun offset => inputBlock.address offset % 256)) := by
  intro count
  induction count with
  | zero => rfl
  | succ count ih =>
    rw [List.range_succ, List.foldl_append, ih, List.map_append]
    exact countTable_append _ _

/-- The table `populateFrequencyTable` leaves counts the bytes of the block. -/
theorem populateFrequencyTable_eq (inputBlock : BlockDescriptor)
    (hbytes : ∀ byte ∈ contents inputBlock, byte < 256) :
    populateFrequencyTable inputBlock = countTable (contents inputBlock) := by
  unfold populateFrequencyTable
  rw [populateFrequencyTable_upTo]
  unfold contents
  apply congrArg countTable
  apply List.map_congr_left
  intro offset hmem
  apply Nat.mod_eq_of_lt
  apply hbytes
  exact List.mem_map.mpr ⟨offset, hmem, rfl⟩

theorem foldl_filter_map {α β γ : Type} (keep : α → Bool) (image : α → β) (step : γ → β → γ) :
    ∀ (items : List α) (start : γ),
      items.foldl (fun state item => if keep item = true then step state (image item) else state)
          start
        = ((items.filter keep).map image).foldl step start := by
  intro items
  induction items with
  | nil => intro start; rfl
  | cons item items ih =>
    intro start
    by_cases hkeep : keep item = true
    · simp only [List.foldl_cons, hkeep, if_true, List.filter_cons_of_pos, List.map_cons]
      exact ih _
    · simp only [List.foldl_cons, hkeep, if_false, List.filter_cons_of_neg, Bool.false_eq_true,
        not_false_eq_true]
      exact ih _

theorem buildHuffmanQueue_eq (frequencyTable : FrequencyTable) :
    buildHuffmanQueue frequencyTable = queueOf (leafList frequencyTable) := by
  unfold buildHuffmanQueue queueOf leafList
  rw [← foldl_filter_map]
  congr 1
  funext head index
  by_cases hzero : (frequencyTable index).frequency = 0
  · simp [hzero]
  · simp [hzero]

theorem pqueueAdd_perm (node : HuffmanNode) :
    ∀ queue : List HuffmanNode, (pqueueAdd node queue).Perm (node :: queue) := by
  intro queue
  induction queue with
  | nil => exact List.Perm.refl _
  | cons entry rest ih =>
    unfold pqueueAdd
    split
    · exact (List.Perm.cons entry ih).trans (List.Perm.swap node entry rest)
    · exact List.Perm.refl _

theorem queueOf_perm : ∀ nodes : List HuffmanNode, (queueOf nodes).Perm nodes := by
  intro nodes
  induction nodes using List.reverseRecOn with
  | nil => exact List.Perm.refl _
  | append_singleton nodes node ih =>
    unfold queueOf at ih ⊢
    rw [List.foldl_append]
    simp only [List.foldl_cons, List.foldl_nil]
    refine (pqueueAdd_perm node _).trans ?_
    refine (List.Perm.cons node ih).trans ?_
    exact (List.perm_append_singleton node nodes).symm

/-- The loop of `buildHuffmanTree` returns a tree when the queue is not empty and
the budget covers it; the leaves of the tree are those of the queue, and the
tree is an internal node unless the queue held that one tree. -/
theorem buildHuffmanLoop_ok :
    ∀ (fuel : Nat) (queue : List HuffmanNode), queue ≠ [] → queue.length ≤ fuel + 1 →
      ∃ tree, buildHuffmanLoop fuel queue = .ok tree ∧
        (leafSymbols tree).Perm (queue.flatMap leafSymbols) ∧
        (queue = [tree] ∨ isInternal tree = true) := by
  intro fuel
  induction fuel with
  | zero =>
    intro queue hne hlen
    match queue, hne, hlen with
    | [node], _, _ => exact ⟨node, rfl, by simp, Or.inl rfl⟩
    | _ :: _ :: _, _, hlen => simp at hlen
  | succ fuel ih =>
    intro queue hne hlen
    match queue, hne, hlen with
    | [node], _, _ => exact ⟨node, rfl, by simp, Or.inl rfl⟩
    | first :: second :: rest, _, hlen =>
      have hperm := pqueueAdd_perm
        (HuffmanNode.node second first ((second.frequency + first.frequency) % 2 ^ 32)) rest
      have hnext : pqueueAdd
          (HuffmanNode.node second first ((second.frequency + first.frequency) % 2 ^ 32)) rest
          ≠ [] := by
        intro hnil
        rw [hnil] at hperm
        exact List.cons_ne_nil _ _ hperm.symm.eq_nil
      have hshort : (pqueueAdd
          (HuffmanNode.node second first ((second.frequency + first.frequency) % 2 ^ 32))
          rest).length ≤ fuel + 1 := by
        rw [hperm.length_eq]
        simp only [List.length_cons] at hlen ⊢
        omega
      obtain ⟨tree, hok, hleaves, hshape⟩ := ih _ hnext hshort
      refine ⟨tree, ?_, ?_, Or.inr ?_⟩
      · exact hok
      · refine hleaves.trans ?_
        refine (List.Perm.flatMap_right leafSymbols hperm).trans ?_
        simp only [List.flatMap_cons, leafSymbols]
        rw [← List.append_assoc]
        exact List.Perm.append_right _ List.perm_append_comm
      · rcases hshape with hsingle | hinternal
        · have hmem : HuffmanNode.node second first
              ((second.frequency + first.frequency) % 2 ^ 32) ∈ [tree] := by
            rw [← hsingle]
            exact hperm.symm.subset (List.mem_cons_self _ _)
          rw [List.mem_singleton] at hmem
          rw [← hmem]
          rfl
        · exact hinternal

theorem leafList_eq (frequencyTable : FrequencyTable) :
    leafList frequencyTable
      = (presentSymbols frequencyTable).map (fun index =>
          HuffmanNode.leaf (frequencyTable index).symbol
            ((frequencyTable index).frequency % 2 ^ 32)) := rfl

theorem leafList_symbols (frequencyTable : FrequencyTable)
    (hindex : ∀ index, (frequencyTable index).symbol = index) :
    (leafList frequencyTable).flatMap leafSymbols = presentSymbols frequencyTable := by
  rw [leafList_eq]
  generalize presentSymbols frequencyTable = present
  induction present with
  | nil => rfl
  | cons index present ih =>
    simp only [hindex] at ih
    simp only [List.map_cons, List.flatMap_cons, leafSymbols, List.singleton_append, hindex, ih]

theorem presentSymbols_nodup (frequencyTable : FrequencyTable) :
    (presentSymbols frequencyTable).Nodup :=
  (List.nodup_range _).filter _

theorem presentSymbols_lt (frequencyTable : FrequencyTable) :
    ∀ symbol ∈ presentSymbols frequencyTable, symbol < 256 := by
  intro symbol hmem
  exact List.mem_range.mp (List.mem_filter.mp hmem).1

theorem mem_presentSymbols (frequencyTable : FrequencyTable) (symbol : Nat) :
    symbol ∈ presentSymbols frequencyTable
      ↔ symbol < 256 ∧ (frequencyTable symbol).frequency ≠ 0 := by
  unfold presentSymbols FREQUENCY_TABLE_SIZE
  simp [List.mem_filter]

/-- Counterpart of the whole of `buildHuffmanTree` on a table with an entry in
use: it returns a tree whose leaves are the entries in use, an internal node
when there are two or more. -/
theorem buildHuffmanTree_ok (frequencyTable : FrequencyTable)
    (hindex : ∀ index, (frequencyTable index).symbol = index)
    (hpresent : presentSymbols frequencyTable ≠ []) :
    ∃ tree, buildHuffmanTree frequencyTable = .ok tree ∧
      (leafSymbols tree).Perm (presentSymbols frequencyTable) ∧
      (2 ≤ (presentSymbols frequencyTable).length → isInternal tree = true) := by
  have hqueue := queueOf_perm (leafList frequencyTable)
  have hlength : (leafList frequencyTable).length = (presentSymbols frequencyTable).length := by
    rw [leafList_eq, List.length_map]
  have hne : queueOf (leafList frequencyTable) ≠ [] := by
    intro hnil
    rw [hnil] at hqueue
    have hempty := hqueue.symm.eq_nil
    have : (presentSymbols frequencyTable).length = 0 := by rw [← hlength, hempty]; rfl
    exact hpresent (List.length_eq_zero.mp this)
  obtain ⟨tree, hok, hleaves, hshape⟩ :=
    buildHuffmanLoop_ok (queueOf (leafList frequencyTable)).length
      (queueOf (leafList frequencyTable)) hne (Nat.le_succ _)
  refine ⟨tree, ?_, ?_, ?_⟩
  · unfold buildHuffmanTree
    rw [buildHuffmanQueue_eq]
    exact hok
  · rw [← leafList_symbols frequencyTable hindex]
    exact hleaves.trans (List.Perm.flatMap_right leafSymbols hqueue)
  · intro htwo
    rcases hshape with hsingle | hinternal
    · have := hqueue.length_eq
      rw [hsingle, hlength] at this
      simp only [List.length_singleton] at this
      omega
    · exact hinternal

theorem applyCodes_append (frequencyTable : FrequencyTable)
    (first second : List (Nat × Nat × Nat)) :
    applyCodes frequencyTable (first ++ second)
      = applyCodes (applyCodes frequencyTable first) second := by
  unfold applyCodes
  rw [List.foldl_append]

theorem applyCodes_other (symbol : Nat) :
    ∀ (codes : List (Nat × Nat × Nat)) (frequencyTable : FrequencyTable),
      symbol ∉ codes.map Prod.fst → applyCodes frequencyTable codes symbol = frequencyTable symbol := by
  intro codes
  induction codes with
  | nil => intro frequencyTable _; rfl
  | cons code codes ih =>
    intro frequencyTable hnot
    simp only [List.map_cons, List.mem_cons, not_or] at hnot
    unfold applyCodes
    rw [List.foldl_cons]
    have hrest := ih (setEntry frequencyTable code.1
      { frequencyTable code.1 with huffmanBits := code.2.1, huffmanBitCount := code.2.2 }) hnot.2
    unfold applyCodes at hrest
    rw [hrest]
    unfold setEntry
    simp [hnot.1]

theorem applyCodes_fields (symbol : Nat) :
    ∀ (codes : List (Nat × Nat × Nat)) (frequencyTable : FrequencyTable),
      (applyCodes frequencyTable codes symbol).symbol = (frequencyTable symbol).symbol ∧
      (applyCodes frequencyTable codes symbol).frequency = (frequencyTable symbol).frequency := by
  intro codes
  induction codes with
  | nil => intro frequencyTable; exact ⟨rfl, rfl⟩
  | cons code codes ih =>
    intro frequencyTable
    unfold applyCodes
    rw [List.foldl_cons]
    have hrest := ih (setEntry frequencyTable code.1
      { frequencyTable code.1 with huffmanBits := code.2.1, huffmanBitCount := code.2.2 })
    unfold applyCodes at hrest
    rw [hrest.1, hrest.2]
    unfold setEntry
    by_cases hsame : symbol = code.1
    · subst hsame
      simp
    · simp [hsame]

theorem treeCodes_symbols :
    ∀ (tree : HuffmanNode) (pattern patternLength : Nat),
      (treeCodes tree pattern patternLength).map Prod.fst
        = (leafSymbols tree).map (fun symbol => symbol % 256) := by
  intro tree
  induction tree with
  | leaf symbol frequency => intro _ _; rfl
  | node left right frequency ihLeft ihRight =>
    intro pattern patternLength
    simp only [treeCodes, leafSymbols, List.map_append, ihLeft, ihRight]

/-- Counterpart of the whole of `walkHuffmanTree`: on a tree whose leaves are
distinct symbols below 256, each the index of an entry that has no pattern yet,
none of the three checks fires and the table returned is the one with the
assignments of `treeCodes`. -/
theorem walkHuffmanTree_ok :
    ∀ (tree : HuffmanNode) (frequencyTable : FrequencyTable) (pattern patternLength : Nat),
      (leafSymbols tree).Nodup →
      (∀ symbol ∈ leafSymbols tree, symbol < 256 ∧ (frequencyTable symbol).symbol = symbol ∧
        (frequencyTable symbol).huffmanBits = 0 ∧ (frequencyTable symbol).huffmanBitCount = 0) →
      walkHuffmanTree tree frequencyTable pattern patternLength
        = .ok (applyCodes frequencyTable (treeCodes tree pattern patternLength)) := by
  intro tree
  induction tree with
  | leaf symbol frequency =>
    intro frequencyTable pattern patternLength _ hfresh
    obtain ⟨hlt, hsymbol, hbits, hcount⟩ := hfresh symbol (List.mem_singleton.mpr rfl)
    have hmod : symbol % 256 = symbol := Nat.mod_eq_of_lt hlt
    unfold walkHuffmanTree
    simp only [hmod, hsymbol, hbits, hcount, ne_eq, not_true_eq_false, if_false, or_self,
      Nat.not_lt_zero, treeCodes, applyCodes, List.foldl_cons, List.foldl_nil]
  | node left right frequency ihLeft ihRight =>
    intro frequencyTable pattern patternLength hnodup hfresh
    simp only [leafSymbols] at hnodup hfresh
    have hparts := List.nodup_append.mp hnodup
    unfold walkHuffmanTree
    rw [ihLeft frequencyTable _ _ hparts.1
      (fun symbol hmem => hfresh symbol (List.mem_append_left _ hmem))]
    simp only [bind, Except.bind]
    rw [ihRight _ _ _ hparts.2.1, treeCodes, applyCodes_append]
    intro symbol hmem
    obtain ⟨hlt, hsymbol, hbits, hcount⟩ := hfresh symbol (List.mem_append_right _ hmem)
    have hother : symbol ∉ (treeCodes left ((pattern <<< 1 ||| 0) % 2 ^ 32)
        ((patternLength + 1) % 2 ^ 32)).map Prod.fst := by
      rw [treeCodes_symbols]
      intro hin
      obtain ⟨other, hotherMem, hsame⟩ := List.mem_map.mp hin
      have hotherLt := (hfresh other (List.mem_append_left _ hotherMem)).1
      rw [Nat.mod_eq_of_lt hotherLt] at hsame
      subst hsame
      exact hparts.2.2 hotherMem hmem
    rw [applyCodes_other symbol _ _ hother]
    exact ⟨hlt, hsymbol, hbits, hcount⟩

theorem treePaths_symbols :
    ∀ tree : HuffmanNode, (treePaths tree).map Prod.fst = leafSymbols tree := by
  intro tree
  induction tree with
  | leaf symbol frequency => rfl
  | node left right frequency ihLeft ihRight =>
    simp only [treePaths, leafSymbols, List.map_append, List.map_map, ← ihLeft, ← ihRight]
    rfl

theorem leafSymbols_length_pos : ∀ tree : HuffmanNode, 1 ≤ (leafSymbols tree).length := by
  intro tree
  induction tree with
  | leaf symbol frequency => simp [leafSymbols]
  | node left right frequency ihLeft _ =>
    simp only [leafSymbols, List.length_append]
    omega

theorem treePaths_length :
    ∀ (tree : HuffmanNode) (entry : Nat × List Bool), entry ∈ treePaths tree →
      entry.2.length + 1 ≤ (leafSymbols tree).length := by
  intro tree
  induction tree with
  | leaf symbol frequency =>
    intro entry hmem
    simp only [treePaths, List.mem_singleton] at hmem
    rw [hmem]
    simp [leafSymbols]
  | node left right frequency ihLeft ihRight =>
    intro entry hmem
    have hleft := leafSymbols_length_pos left
    have hright := leafSymbols_length_pos right
    simp only [treePaths, List.mem_append, List.mem_map] at hmem
    simp only [leafSymbols, List.length_append]
    rcases hmem with ⟨inner, hinner, hentry⟩ | ⟨inner, hinner, hentry⟩
    · have := ihLeft inner hinner
      rw [← hentry]
      simp only [List.length_cons]
      omega
    · have := ihRight inner hinner
      rw [← hentry]
      simp only [List.length_cons]
      omega

theorem treePaths_nonempty {tree : HuffmanNode} (hinternal : isInternal tree = true)
    (entry : Nat × List Bool) (hmem : entry ∈ treePaths tree) : 1 ≤ entry.2.length := by
  cases tree with
  | leaf symbol frequency => cases hinternal
  | node left right frequency =>
    simp only [treePaths, List.mem_append, List.mem_map] at hmem
    rcases hmem with ⟨inner, _, hentry⟩ | ⟨inner, _, hentry⟩ <;>
      (rw [← hentry]; simp)

theorem treeCodes_paths :
    ∀ (tree : HuffmanNode) (pattern patternLength : Nat),
      treeCodes tree pattern patternLength
        = (treePaths tree).map (fun entry =>
            (entry.1 % 256, extendPattern pattern entry.2,
              (patternLength + entry.2.length) % 256)) := by
  intro tree
  induction tree with
  | leaf symbol frequency => intro pattern patternLength; rfl
  | node left right frequency ihLeft ihRight =>
    intro pattern patternLength
    simp only [treeCodes, treePaths, ihLeft, ihRight, List.map_append, List.map_map]
    congr 1
    · apply List.map_congr_left
      intro entry _
      simp only [Function.comp, extendPattern, List.foldl_cons, List.length_cons,
        Bool.false_eq_true, if_false, Prod.mk.injEq, true_and]
      norm_num
      omega
    · apply List.map_congr_left
      intro entry _
      simp only [Function.comp, extendPattern, List.foldl_cons, List.length_cons, if_true,
        Prod.mk.injEq, true_and]
      norm_num
      omega

theorem applyCodes_mem :
    ∀ (codes : List (Nat × Nat × Nat)) (frequencyTable : FrequencyTable)
      (code : Nat × Nat × Nat), (codes.map Prod.fst).Nodup → code ∈ codes →
      applyCodes frequencyTable codes code.1
        = { frequencyTable code.1 with huffmanBits := code.2.1, huffmanBitCount := code.2.2 } := by
  intro codes
  induction codes with
  | nil => intro _ _ _ hmem; cases hmem
  | cons first codes ih =>
    intro frequencyTable code hnodup hmem
    simp only [List.map_cons, List.nodup_cons] at hnodup
    have hunfold : applyCodes frequencyTable (first :: codes)
        = applyCodes (setEntry frequencyTable first.1
            { frequencyTable first.1 with
              huffmanBits := first.2.1, huffmanBitCount := first.2.2 }) codes := rfl
    rw [hunfold]
    rcases List.mem_cons.mp hmem with hsame | hlater
    · subst hsame
      rw [applyCodes_other _ _ _ hnodup.1]
      simp [setEntry]
    · rw [ih _ code hnodup.2 hlater]
      have hne : code.1 ≠ first.1 := by
        intro heq
        apply hnodup.1
        rw [← heq]
        exact List.mem_map.mpr ⟨code, hlater, rfl⟩
      simp [setEntry, hne]

theorem extendPattern_lt (pattern : Nat) (path : List Bool) (hpattern : pattern < 2 ^ 32) :
    extendPattern pattern path < 2 ^ 32 := by
  induction path using List.reverseRecOn with
  | nil => exact hpattern
  | append_singleton path bit _ =>
    unfold extendPattern
    rw [List.foldl_append]
    exact Nat.mod_lt _ (by norm_num)

theorem testBit_extendPattern :
    ∀ (path : List Bool) (pattern position : Nat), path.length + position < 32 →
      (extendPattern pattern path).testBit (path.length + position) = pattern.testBit position := by
  intro path
  induction path with
  | nil => intro pattern position _; simp [extendPattern]
  | cons bit path ih =>
    intro pattern position hshort
    simp only [List.length_cons] at hshort
    have hstep : extendPattern pattern (bit :: path)
        = extendPattern ((pattern <<< 1 ||| (if bit then 1 else 0)) % 2 ^ 32) path := rfl
    have hindex : (bit :: path).length + position = path.length + (position + 1) := by
      simp only [List.length_cons]; omega
    rw [hstep, hindex, ih _ (position + 1) (by omega), Nat.testBit_mod_two_pow]
    have hlt : position + 1 < 32 := by omega
    simp only [hlt, decide_True, Bool.true_and, Nat.testBit_or, Nat.testBit_shiftLeft]
    cases bit <;> simp [Nat.testBit_succ]

theorem testBit_extendPattern_head (path : List Bool) (pattern : Nat) (bit : Bool)
    (hshort : path.length < 32) :
    (extendPattern pattern (bit :: path)).testBit path.length = bit := by
  have hstep : extendPattern pattern (bit :: path)
      = extendPattern ((pattern <<< 1 ||| (if bit then 1 else 0)) % 2 ^ 32) path := rfl
  have h := testBit_extendPattern path
    ((pattern <<< 1 ||| (if bit then 1 else 0)) % 2 ^ 32) 0 (by omega)
  rw [Nat.add_zero] at h
  rw [hstep, h, Nat.testBit_mod_two_pow]
  cases bit <;> simp [Nat.testBit_or, Nat.testBit_shiftLeft]

/-- The bits of the pattern of a leaf, most significant first, are the steps of
the path to it, when the path has at most 32 steps. -/
theorem patternBits_extendPattern :
    ∀ (path : List Bool) (pattern : Nat), path.length ≤ 32 →
      patternBits (extendPattern pattern path) path.length = path := by
  intro path
  induction path with
  | nil => intro _ _; rfl
  | cons bit path ih =>
    intro pattern hshort
    simp only [List.length_cons] at hshort
    have hstep : extendPattern pattern (bit :: path)
        = extendPattern ((pattern <<< 1 ||| (if bit then 1 else 0)) % 2 ^ 32) path := rfl
    simp only [List.length_cons, patternBits]
    rw [testBit_extendPattern_head path pattern bit (by omega), hstep, ih _ (by omega)]

theorem mem_presentSymbols_countTable (bytes : List Nat) (hbytes : ∀ byte ∈ bytes, byte < 256)
    (symbol : Nat) : symbol ∈ presentSymbols (countTable bytes) ↔ symbol ∈ bytes := by
  rw [mem_presentSymbols]
  simp only [countTable, ne_eq, List.count_eq_zero, not_not]
  exact ⟨fun h => h.2, fun h => ⟨hbytes symbol h, h⟩⟩

theorem presentSymbols_length_le (frequencyTable : FrequencyTable) :
    (presentSymbols frequencyTable).length ≤ 256 := by
  unfold presentSymbols
  refine (List.length_filter_le _ _).trans ?_
  simp [FREQUENCY_TABLE_SIZE]

/-- The entries of the table that `walkHuffmanTree` fills in from the root, for
a tree whose leaves are the entries in use of a table with no patterns: the
leaf at the end of `path` gets the pattern of `path` and its length, every entry
keeps its symbol and frequency, and an entry that is no leaf keeps the empty
pattern. -/
theorem applyCodes_treeCodes (frequencyTable : FrequencyTable) (tree : HuffmanNode)
    (hleaves : (leafSymbols tree).Perm (presentSymbols frequencyTable)) :
    (∀ entry ∈ treePaths tree,
      applyCodes frequencyTable (treeCodes tree 0 0) entry.1
        = { frequencyTable entry.1 with
            huffmanBits := extendPattern 0 entry.2
            huffmanBitCount := entry.2.length }) ∧
    (∀ symbol, symbol ∉ leafSymbols tree →
      applyCodes frequencyTable (treeCodes tree 0 0) symbol = frequencyTable symbol) := by
  have hlt : ∀ symbol ∈ leafSymbols tree, symbol < 256 := fun symbol hmem =>
    presentSymbols_lt frequencyTable symbol (hleaves.subset hmem)
  have hnodup : (leafSymbols tree).Nodup :=
    hleaves.nodup_iff.mpr (presentSymbols_nodup frequencyTable)
  have hmods : (leafSymbols tree).map (fun symbol => symbol % 256) = leafSymbols tree := by
    conv => rhs; rw [← List.map_id (leafSymbols tree)]
    apply List.map_congr_left
    intro symbol hmem
    exact Nat.mod_eq_of_lt (hlt symbol hmem)
  constructor
  · intro entry hmem
    have hsymbol : entry.1 ∈ leafSymbols tree := by
      rw [← treePaths_symbols]
      exact List.mem_map.mpr ⟨entry, hmem, rfl⟩
    have hlength := treePaths_length tree entry hmem
    have hcount := hleaves.length_eq
    have hmost := presentSymbols_length_le frequencyTable
    have hcode : (entry.1 % 256, extendPattern 0 entry.2, (0 + entry.2.length) % 256)
        ∈ treeCodes tree 0 0 := by
      rw [treeCodes_paths]
      exact List.mem_map.mpr ⟨entry, hmem, rfl⟩
    have hdistinct : ((treeCodes tree 0 0).map Prod.fst).Nodup := by
      rw [treeCodes_symbols, hmods]
      exact hnodup
    have h := applyCodes_mem (treeCodes tree 0 0) frequencyTable _ hdistinct hcode
    simp only [Nat.mod_eq_of_lt (hlt entry.1 hsymbol), Nat.zero_add] at h
    rw [h, Nat.mod_eq_of_lt (by omega)]
  · intro symbol hnot
    apply applyCodes_other
    rw [treeCodes_symbols, hmods]
    exact hnot

/-- The check of `huffmanCompress` passes exactly when no entry below 256 breaks
one of its two rules. -/
theorem checkFrequencyTable_upTo (frequencyTable : FrequencyTable) :
    ∀ count : Nat,
      (∀ offset, offset < count →
        ((frequencyTable offset).frequency ≠ 0 → (frequencyTable offset).huffmanBitCount ≠ 0) ∧
        ((frequencyTable offset).frequency = 0 → (frequencyTable offset).huffmanBitCount = 0)) →
      (List.range count).foldlM
        (fun (_ : Unit) offset =>
          if (frequencyTable offset).frequency ≠ 0 then
            if (frequencyTable offset).huffmanBitCount = 0 then
              (.error .notAllCharactersHavePatterns : Except Failure Unit)
            else .ok ()
          else if (frequencyTable offset).huffmanBitCount ≠ 0 then
            .error .unusedCharactersHavePatterns
          else .ok ())
        () = .ok () := by
  intro count
  induction count with
  | zero => intro _; rfl
  | succ count ih =>
    intro hfine
    rw [List.range_succ, List.foldlM_append, ih (fun offset hlt => hfine offset (by omega))]
    obtain ⟨hused, hunused⟩ := hfine count (by omega)
    by_cases hzero : (frequencyTable count).frequency = 0
    · simp [hzero, hunused hzero, bind, Except.bind, pure, Except.pure]
    · simp [hzero, hused hzero, bind, Except.bind, pure, Except.pure]

theorem checkFrequencyTable_ok (frequencyTable : FrequencyTable)
    (hfine : ∀ offset, offset < 256 →
      ((frequencyTable offset).frequency ≠ 0 → (frequencyTable offset).huffmanBitCount ≠ 0) ∧
      ((frequencyTable offset).frequency = 0 → (frequencyTable offset).huffmanBitCount = 0)) :
    checkFrequencyTable frequencyTable = .ok () :=
  checkFrequencyTable_upTo frequencyTable 256 hfine

theorem foldlM_error {α : Type} (step : Unit → α → Except Failure Unit) (failure : Failure) :
    ∀ items : List α, (items.foldlM step () >>= fun _ => (.error failure : Except Failure Unit))
      = .error failure ∨ ∃ other, items.foldlM step () = .error other := by
  intro items
  cases items.foldlM step () with
  | error other => exact Or.inr ⟨other, rfl⟩
  | ok _ => exact Or.inl rfl

/-- The check of `huffmanCompress` stops with "Not all characters in file have
patterns" when the first entry that breaks a rule is in use and has no
pattern. -/
theorem checkFrequencyTable_unpatterned (frequencyTable : FrequencyTable) (symbol : Nat)
    (hsymbol : symbol < 256)
    (hbefore : ∀ offset, offset < symbol →
      ((frequencyTable offset).frequency ≠ 0 → (frequencyTable offset).huffmanBitCount ≠ 0) ∧
      ((frequencyTable offset).frequency = 0 → (frequencyTable offset).huffmanBitCount = 0))
    (hused : (frequencyTable symbol).frequency ≠ 0)
    (hcount : (frequencyTable symbol).huffmanBitCount = 0) :
    checkFrequencyTable frequencyTable = .error .notAllCharactersHavePatterns := by
  unfold checkFrequencyTable FREQUENCY_TABLE_SIZE
  have hsplit : List.range 256
      = List.range symbol ++ symbol :: (List.range (255 - symbol)).map (fun k => symbol + 1 + k) := by
    have h1 : 256 = (symbol + 1) + (255 - symbol) := by omega
    conv => lhs; rw [h1, List.range_add, List.range_succ]
    simp
  rw [hsplit, List.foldlM_append, checkFrequencyTable_upTo frequencyTable symbol hbefore]
  simp only [bind, Except.bind, List.foldlM_cons, hused, ne_eq, not_false_eq_true, if_true,
    hcount]

/-- The stages of `huffmanCompress` on a block that is not Huffman encoded. -/
theorem huffmanCompress_eq (heap : Nat → Nat) (inputBlock : BlockDescriptor)
    (hclear : isHuffmanCompressed inputBlock = false) :
    huffmanCompress heap inputBlock
      = (buildHuffmanTree (populateFrequencyTable inputBlock) >>= fun tree =>
          walkHuffmanTree tree (populateFrequencyTable inputBlock) 0 0 >>= fun frequencyTable =>
          checkFrequencyTable frequencyTable >>= fun _ =>
          writeFrequencyTableToBlock frequencyTable (sizeSpace heap inputBlock) >>= fun tabled =>
          encodeSymbols inputBlock frequencyTable tabled >>= fun encoded =>
          pure (storeSize inputBlock encoded)) := by
  unfold huffmanCompress
  simp only [hclear, Bool.false_eq_true, if_false]
  rfl

theorem filter_range_eq (symbol : Nat) :
    ∀ count : Nat, (List.range count).filter (fun index => decide (index = symbol))
      = if symbol < count then [symbol] else [] := by
  intro count
  induction count with
  | zero => rfl
  | succ count ih =>
    rw [List.range_succ, List.filter_append, ih]
    by_cases hlt : symbol < count
    · have hne : ¬ count = symbol := by omega
      have hlt2 : symbol < count + 1 := by omega
      simp [hlt, hne, hlt2]
    · by_cases hsame : count = symbol
      · simp [hsame]
      · have hnot : ¬ symbol < count + 1 := by omega
        simp [hlt, hsame, hnot]

theorem presentSymbols_single (symbol count : Nat) (hsymbol : symbol < 256) (hcount : 0 < count) :
    presentSymbols (countTable (List.replicate count symbol)) = [symbol] := by
  unfold presentSymbols FREQUENCY_TABLE_SIZE
  have hsame : (List.range 256).filter
        (fun index => decide (((countTable (List.replicate count symbol)) index).frequency ≠ 0))
      = (List.range 256).filter (fun index => decide (index = symbol)) := by
    apply List.filter_congr
    intro index _
    simp only [countTable, List.count_replicate, ne_eq, decide_eq_decide]
    by_cases h : symbol = index
    · subst h
      simp
      omega
    · have h2 : ¬ index = symbol := fun e => h e.symm
      simp [h, h2]
  rw [hsame, filter_range_eq, if_pos hsymbol]

theorem length_ge_two_of_mem {items : List Nat} {first second : Nat} (hfirst : first ∈ items)
    (hsecond : second ∈ items) (hdistinct : first ≠ second) : 2 ≤ items.length := by
  match items, hfirst, hsecond with
  | [], hfirst, _ => cases hfirst
  | [only], hfirst, hsecond =>
    rw [List.mem_singleton] at hfirst hsecond
    exact absurd (hfirst.trans hsecond.symm) hdistinct
  | _ :: _ :: _, _, _ => simp

/-- The run of `huffmanCompress` on `count` copies of one byte value: the table,
the single leaf, the pattern of length 0 and the failed check. -/
theorem single_symbol_parts (heap : Nat → Nat) (inputBlock : BlockDescriptor)
    (symbol count : Nat) (hsymbol : symbol < 256) (hcount : 0 < count)
    (hheld : contents inputBlock = List.replicate count symbol)
    (hclear : isHuffmanCompressed inputBlock = false) :
    (∀ index, (populateFrequencyTable inputBlock index).frequency ≠ 0 ↔ index = symbol) ∧
    (populateFrequencyTable inputBlock symbol).frequency = count ∧
    buildHuffmanTree (populateFrequencyTable inputBlock)
      = .ok (.leaf symbol (count % 2 ^ 32)) ∧
    (∃ frequencyTable,
      walkHuffmanTree (.leaf symbol (count % 2 ^ 32)) (populateFrequencyTable inputBlock) 0 0
        = .ok frequencyTable ∧
      (frequencyTable symbol).frequency = count ∧
      (frequencyTable symbol).huffmanBitCount = 0) ∧
    huffmanCompress heap inputBlock = .error .notAllCharactersHavePatterns := by
  have hbytes : ∀ byte ∈ contents inputBlock, byte < 256 := by
    intro byte hmem
    rw [hheld] at hmem
    rw [(List.mem_replicate.mp hmem).2]
    exact hsymbol
  have hpopulate := populateFrequencyTable_eq inputBlock hbytes
  rw [hheld] at hpopulate
  have hbuild : buildHuffmanTree (countTable (List.replicate count symbol))
      = .ok (.leaf symbol (count % 2 ^ 32)) := by
    unfold buildHuffmanTree
    rw [buildHuffmanQueue_eq, leafList_eq, presentSymbols_single symbol count hsymbol hcount]
    simp [countTable, queueOf, pqueueAdd, buildHuffmanLoop]
  have hwalk : walkHuffmanTree (.leaf symbol (count % 2 ^ 32))
      (countTable (List.replicate count symbol)) 0 0
      = .ok (setEntry (countTable (List.replicate count symbol)) symbol
          { countTable (List.replicate count symbol) symbol with
            huffmanBits := 0, huffmanBitCount := 0 }) := by
    unfold walkHuffmanTree
    simp [countTable, Nat.mod_eq_of_lt hsymbol]
  have hcheck : checkFrequencyTable
      (setEntry (countTable (List.replicate count symbol)) symbol
        { countTable (List.replicate count symbol) symbol with
          huffmanBits := 0, huffmanBitCount := 0 })
      = .error .notAllCharactersHavePatterns := by
    apply checkFrequencyTable_unpatterned _ symbol hsymbol
    · intro offset hlt
      have hne : offset ≠ symbol := by omega
      have hne2 : ¬ symbol = offset := fun e => hne e.symm
      simp [setEntry, countTable, hne, hne2, List.count_replicate]
    · simp [setEntry, countTable]
      omega
    · simp [setEntry]
  rw [hpopulate]
  refine ⟨?_, ?_, hbuild, ⟨_, hwalk, ?_, ?_⟩, ?_⟩
  · intro index
    simp only [countTable, List.count_replicate, ne_eq]
    by_cases h : symbol = index
    · subst h
      simp
      omega
    · have h2 : ¬ index = symbol := fun e => h e.symm
      simp [h, h2]
  · simp [countTable]
  · simp [setEntry, countTable]
  · simp [setEntry]
  · rw [huffmanCompress_eq heap inputBlock hclear, hpopulate, hbuild]
    simp only [bind, Except.bind, hwalk, hcheck]

/-- C26. Single-symbol edge case: for a nonempty input that holds `count` copies
of one byte value `symbol` (in a block without the Huffman flag), the frequency
table has exactly one nonzero entry, that of `symbol`; `buildHuffmanTree`
returns the single leaf for `symbol`; `walkHuffmanTree` gives `symbol` a pattern
of length 0; and `huffmanCompress` stops with "Not all characters in file have
patterns" instead of returning a block. -/
theorem single_symbol_edge_case (heap : Nat → Nat) (inputBlock : BlockDescriptor)
    (symbol count : Nat) (hsymbol : symbol < 256) (hcount : 0 < count)
    (hheld : contents inputBlock = List.replicate count symbol)
    (hclear : isHuffmanCompressed inputBlock = false) :
    (∀ index, (populateFrequencyTable inputBlock index).frequency ≠ 0 ↔ index = symbol) ∧
    (populateFrequencyTable inputBlock symbol).frequency = count ∧
    buildHuffmanTree (populateFrequencyTable inputBlock)
      = .ok (.leaf symbol (count % 2 ^ 32)) ∧
    (∃ frequencyTable,
      walkHuffmanTree (.leaf symbol (count % 2 ^ 32)) (populateFrequencyTable inputBlock) 0 0
        = .ok frequencyTable ∧
      (frequencyTable symbol).frequency = count ∧
      (frequencyTable symbol).huffmanBitCount = 0) ∧
    huffmanCompress heap inputBlock = .error .notAllCharactersHavePatterns :=
  single_symbol_parts heap inputBlock symbol count hsymbol hcount hheld hclear

theorem single_symbol_edge_case_witness :
    (0x41 : Nat) < 256 ∧ 0 < 3 ∧
    contents (mapUncompressedFile [0x41, 0x41, 0x41] (fun _ => 0)) = List.replicate 3 0x41 ∧
    isHuffmanCompressed (mapUncompressedFile [0x41, 0x41, 0x41] (fun _ => 0)) = false ∧
    ((∀ index,
      (populateFrequencyTable (mapUncompressedFile [0x41, 0x41, 0x41] (fun _ => 0))
        index).frequency ≠ 0 ↔ index = 0x41) ∧
    (populateFrequencyTable (mapUncompressedFile [0x41, 0x41, 0x41] (fun _ => 0))
      0x41).frequency = 3 ∧
    buildHuffmanTree (populateFrequencyTable (mapUncompressedFile [0x41, 0x41, 0x41] (fun _ => 0)))
      = .ok (.leaf 0x41 (3 % 2 ^ 32)) ∧
    (∃ frequencyTable,
      walkHuffmanTree (.leaf 0x41 (3 % 2 ^ 32))
          (populateFrequencyTable (mapUncompressedFile [0x41, 0x41, 0x41] (fun _ => 0))) 0 0
        = .ok frequencyTable ∧
      (frequencyTable 0x41).frequency = 3 ∧
      (frequencyTable 0x41).huffmanBitCount = 0) ∧
    huffmanCompress (fun _ => 0) (mapUncompressedFile [0x41, 0x41, 0x41] (fun _ => 0))
      = .error .notAllCharactersHavePatterns) :=
  ⟨by decide, by decide, rfl, rfl,
    single_symbol_edge_case (fun _ => 0) (mapUncompressedFile [0x41, 0x41, 0x41] (fun _ => 0))
      0x41 3 (by decide) (by decide) rfl rfl⟩

/-- The table `huffmanCompress` encodes with, for an input with two distinct
byte values or more: the tree, the table that `walkHuffmanTree` returns, and
the pattern of every leaf. -/
theorem huffman_table (inputBlock : BlockDescriptor) (first second : Nat)
    (hbytes : ∀ byte ∈ contents inputBlock, byte < 256)
    (hfirst : first ∈ contents inputBlock) (hsecond : second ∈ contents inputBlock)
    (hdistinct : first ≠ second) :
    ∃ tree frequencyTable,
      buildHuffmanTree (populateFrequencyTable inputBlock) = .ok tree ∧
      walkHuffmanTree tree (populateFrequencyTable inputBlock) 0 0 = .ok frequencyTable ∧
      isInternal tree = true ∧
      (leafSymbols tree).Perm (presentSymbols (countTable (contents inputBlock))) ∧
      (∀ entry ∈ treePaths tree,
        frequencyTable entry.1
          = { countTable (contents inputBlock) entry.1 with
              huffmanBits := extendPattern 0 entry.2
              huffmanBitCount := entry.2.length }) ∧
      (∀ symbol, symbol ∉ leafSymbols tree →
        frequencyTable symbol = countTable (contents inputBlock) symbol) := by
  rw [populateFrequencyTable_eq inputBlock hbytes]
  have hpresentFirst := (mem_presentSymbols_countTable _ hbytes first).mpr hfirst
  have hpresentSecond := (mem_presentSymbols_countTable _ hbytes second).mpr hsecond
  have htwo := length_ge_two_of_mem hpresentFirst hpresentSecond hdistinct
  have hne : presentSymbols (countTable (contents inputBlock)) ≠ [] := by
    intro hnil
    rw [hnil] at htwo
    simp at htwo
  obtain ⟨tree, hbuild, hleaves, hinternal⟩ :=
    buildHuffmanTree_ok (countTable (contents inputBlock)) (fun _ => rfl) hne
  have hwalk := walkHuffmanTree_ok tree (countTable (contents inputBlock)) 0 0
    (hleaves.nodup_iff.mpr (presentSymbols_nodup _))
    (fun symbol hmem =>
      ⟨presentSymbols_lt _ symbol (hleaves.subset hmem), rfl, rfl, rfl⟩)
  obtain ⟨hcodes, hothers⟩ := applyCodes_treeCodes (countTable (contents inputBlock)) tree hleaves
  exact ⟨tree, _, hbuild, hwalk, hinternal htwo, hleaves, hcodes, hothers⟩

/-- The table that `walkHuffmanTree` leaves for an input with two distinct byte
values or more passes the check of `huffmanCompress`. -/
theorem code_length_parts (inputBlock : BlockDescriptor) (first second : Nat)
    (hbytes : ∀ byte ∈ contents inputBlock, byte < 256)
    (hfirst : first ∈ contents inputBlock) (hsecond : second ∈ contents inputBlock)
    (hdistinct : first ≠ second) :
    ∃ tree frequencyTable,
      buildHuffmanTree (populateFrequencyTable inputBlock) = .ok tree ∧
      walkHuffmanTree tree (populateFrequencyTable inputBlock) 0 0 = .ok frequencyTable ∧
      (∀ symbol, symbol < 256 →
        (frequencyTable symbol).frequency = (contents inputBlock).count symbol ∧
        (0 < (frequencyTable symbol).frequency → 0 < (frequencyTable symbol).huffmanBitCount) ∧
        ((frequencyTable symbol).frequency = 0 → (frequencyTable symbol).huffmanBitCount = 0)) ∧
      checkFrequencyTable frequencyTable = .ok () := by
  obtain ⟨tree, frequencyTable, hbuild, hwalk, hinternal, hleaves, hcodes, hothers⟩ :=
    huffman_table inputBlock first second hbytes hfirst hsecond hdistinct
  have hentry : ∀ symbol, symbol < 256 →
      (frequencyTable symbol).frequency = (contents inputBlock).count symbol ∧
      (0 < (frequencyTable symbol).frequency → 0 < (frequencyTable symbol).huffmanBitCount) ∧
      ((frequencyTable symbol).frequency = 0 → (frequencyTable symbol).huffmanBitCount = 0) := by
    intro symbol _
    by_cases hleaf : symbol ∈ leafSymbols tree
    · rw [← treePaths_symbols] at hleaf
      obtain ⟨entry, hmem, hsame⟩ := List.mem_map.mp hleaf
      have hlong := treePaths_nonempty hinternal entry hmem
      have hpresent : entry.1 ∈ presentSymbols (countTable (contents inputBlock)) := by
        apply hleaves.subset
        rw [← treePaths_symbols]
        exact List.mem_map.mpr ⟨entry, hmem, rfl⟩
      have hused := ((mem_presentSymbols _ _).mp hpresent).2
      rw [← hsame, hcodes entry hmem]
      simp only [countTable] at hused ⊢
      refine ⟨?_, ?_, ?_⟩
      · trivial
      · intro _; omega
      · intro hzero; exact absurd hzero hused
    · have hzero : (contents inputBlock).count symbol = 0 := by
        by_contra hused
        apply hleaf
        apply hleaves.symm.subset
        exact (mem_presentSymbols _ _).mpr ⟨by assumption, hused⟩
      rw [hothers symbol hleaf]
      simp only [countTable, hzero]
      refine ⟨?_, ?_, ?_⟩
      · trivial
      · intro hpos; omega
      · intro _; trivial
  refine ⟨tree, frequencyTable, hbuild, hwalk, hentry, ?_⟩
  apply checkFrequencyTable_ok
  intro offset hlt
  obtain ⟨_, hused, hunused⟩ := hentry offset hlt
  exact ⟨fun hne => by have := hused (Nat.pos_of_ne_zero hne); omega, hunused⟩

/-- Code lengths and frequencies agree on the inputs that the single-leaf
defect does not reach: for every input with at least
two distinct byte values, `populateFrequencyTable`, `buildHuffmanTree` and
`walkHuffmanTree` run without an error and leave a table in which every symbol
has its number of occurrences as frequency, every symbol with frequency > 0 has
`huffmanBitCount` > 0 and every symbol with frequency 0 has `huffmanBitCount`
0, so that the check inside `huffmanCompress` passes. -/
theorem code_length_agreement (inputBlock : BlockDescriptor) (first second : Nat)
    (hbytes : ∀ byte ∈ contents inputBlock, byte < 256)
    (hfirst : first ∈ contents inputBlock) (hsecond : second ∈ contents inputBlock)
    (hdistinct : first ≠ second) :
    ∃ tree frequencyTable,
      buildHuffmanTree (populateFrequencyTable inputBlock) = .ok tree ∧
      walkHuffmanTree tree (populateFrequencyTable inputBlock) 0 0 = .ok frequencyTable ∧
      (∀ symbol, symbol < 256 →
        (frequencyTable symbol).frequency = (contents inputBlock).count symbol ∧
        (0 < (frequencyTable symbol).frequency → 0 < (frequencyTable symbol).huffmanBitCount) ∧
        ((frequencyTable symbol).frequency = 0 → (frequencyTable symbol).huffmanBitCount = 0)) ∧
      checkFrequencyTable frequencyTable = .ok () :=
  code_length_parts inputBlock first second hbytes hfirst hsecond hdistinct

theorem code_length_agreement_witness :
    (∀ byte ∈ contents sampleTwoSymbolBlock, byte < 256) ∧
    0x41 ∈ contents sampleTwoSymbolBlock ∧ 0x42 ∈ contents sampleTwoSymbolBlock ∧
    (0x41 : Nat) ≠ 0x42 ∧
    ∃ tree frequencyTable,
      buildHuffmanTree (populateFrequencyTable sampleTwoSymbolBlock) = .ok tree ∧
      walkHuffmanTree tree (populateFrequencyTable sampleTwoSymbolBlock) 0 0
        = .ok frequencyTable ∧
      (∀ symbol, symbol < 256 →
        (frequencyTable symbol).frequency = (contents sampleTwoSymbolBlock).count symbol ∧
        (0 < (frequencyTable symbol).frequency → 0 < (frequencyTable symbol).huffmanBitCount) ∧
        ((frequencyTable symbol).frequency = 0 → (frequencyTable symbol).huffmanBitCount = 0)) ∧
      checkFrequencyTable frequencyTable = .ok () :=
  ⟨by decide, by decide, by decide, by decide,
    code_length_agreement sampleTwoSymbolBlock 0x41 0x42 (by decide) (by decide) (by decide)
      (by decide)⟩

theorem unread_writeToBlock {block : BlockDescriptor} (happ : Appending block)
    (h : Unread block) (character : Nat) : Unread (writeToBlock block character).1 := by
  obtain ⟨hfree, _⟩ := happ
  obtain ⟨hfit, hroom, hread, hreadBit⟩ := h
  unfold writeToBlock grownSize Unread
  simp only
  split <;> (refine ⟨?_, ?_, hread, hreadBit⟩ <;> (try dsimp only) <;> omega)

theorem writeFrequencyBytes_contents :
    ∀ (byteCount frequency : Nat) (block : BlockDescriptor), Appending block → Unread block →
      Appending (writeFrequencyBytes byteCount frequency block) ∧
      Unread (writeFrequencyBytes byteCount frequency block) ∧
      contents (writeFrequencyBytes byteCount frequency block)
        = contents block ++ (List.range byteCount).map
            (fun byteIndex => (frequency >>> (8 * byteIndex)) % 256) := by
  intro byteCount
  induction byteCount with
  | zero => intro frequency block happ hunread; exact ⟨happ, hunread, by simp [writeFrequencyBytes]⟩
  | succ byteCount ih =>
    intro frequency block happ hunread
    obtain ⟨h1, e1⟩ := writeToBlock_contents happ (frequency &&& 0xff)
    have u1 := unread_writeToBlock happ hunread (frequency &&& 0xff)
    obtain ⟨h2, u2, e2⟩ := ih (frequency >>> 8) _ h1 u1
    rw [writeFrequencyBytes]
    refine ⟨h2, u2, ?_⟩
    rw [e2, e1, List.range_succ_eq_map, List.map_cons, List.map_map, List.append_assoc]
    congr 1
    have hlow : (frequency &&& 0xff) % 256 = (frequency >>> (8 * 0)) % 256 := by
      have h255 : (0xff : Nat) = 2 ^ 8 - 1 := by norm_num
      rw [h255, Nat.and_pow_two_sub_one_eq_mod]
      simp
    rw [List.singleton_append, hlow]
    congr 1
    apply List.map_congr_left
    intro byteIndex _
    simp only [Function.comp, Nat.shiftRight_add, Nat.mul_succ]
    rw [← Nat.shiftRight_add, ← Nat.shiftRight_add]
    congr 2
    omega

theorem frequencyByteCount_le : ∀ (fuel frequency : Nat), frequencyByteCount fuel frequency ≤ fuel := by
  intro fuel
  induction fuel with
  | zero => intro _; simp [frequencyByteCount]
  | succ fuel ih =>
    intro frequency
    unfold frequencyByteCount
    split
    · have := ih (frequency >>> 8)
      omega
    · omega

/-- State of `writeFrequencyTableToBlock` after the entries below `count`: the
entries in use so far are written one after the other, and counted. -/
theorem writeFrequencyTable_upTo (frequencyTable : FrequencyTable)
    (hindex : ∀ index, (frequencyTable index).symbol = index)
    (hsmall : ∀ index, (frequencyTable index).frequency < 2 ^ 64)
    (start : BlockDescriptor) (happ : Appending start) (hunread : Unread start) :
    ∀ count : Nat, count ≤ 256 →
      ∃ block,
        (List.range count).foldlM
          (fun (state : BlockDescriptor × Nat) index =>
            let frequency := (frequencyTable index).frequency % 2 ^ 64
            if frequency ≠ 0 then
              if (frequencyTable index).symbol ≠ index then
                (.error .frequencyTableOutOfOrder : Except Failure (BlockDescriptor × Nat))
              else
                let afterSymbol := (writeToBlock state.1 index).1
                let byteCount := frequencyByteCount 8 frequency
                let afterByteCount := (writeToBlock afterSymbol byteCount).1
                .ok (writeFrequencyBytes byteCount frequency afterByteCount, state.2 + 1)
            else .ok state)
          (start, 0)
          = .ok (block, ((List.range count).filter
              (fun index => decide ((frequencyTable index).frequency ≠ 0))).length) ∧
        Appending block ∧ Unread block ∧
        contents block = contents start ++
          ((List.range count).filter
            (fun index => decide ((frequencyTable index).frequency ≠ 0))).flatMap
              (fun symbol => entryBytes symbol (frequencyTable symbol).frequency) := by
  intro count
  induction count with
  | zero => intro _; exact ⟨start, rfl, happ, hunread, by simp⟩
  | succ count ih =>
    intro hcount
    obtain ⟨block, hfold, hblockApp, hblockUnread, hcontents⟩ := ih (by omega)
    rw [List.range_succ, List.foldlM_append, hfold, List.filter_append]
    have hmod : (frequencyTable count).frequency % 2 ^ 64 = (frequencyTable count).frequency :=
      Nat.mod_eq_of_lt (hsmall count)
    by_cases hzero : (frequencyTable count).frequency = 0
    · refine ⟨block, ?_, hblockApp, hblockUnread, ?_⟩
      · simp only [List.foldlM_cons, List.foldlM_nil, hmod, bind, Except.bind, pure, Except.pure,
          ne_eq, hzero, not_true_eq_false, if_false]
        simp [hzero]
      · simp [hzero, hcontents]
    · obtain ⟨h1, e1⟩ := writeToBlock_contents hblockApp count
      have u1 := unread_writeToBlock hblockApp hblockUnread count
      obtain ⟨h2, e2⟩ := writeToBlock_contents h1
        (frequencyByteCount 8 (frequencyTable count).frequency)
      have u2 := unread_writeToBlock h1 u1 (frequencyByteCount 8 (frequencyTable count).frequency)
      obtain ⟨h3, u3, e3⟩ := writeFrequencyBytes_contents
        (frequencyByteCount 8 (frequencyTable count).frequency) (frequencyTable count).frequency
        _ h2 u2
      have hk := frequencyByteCount_le 8 (frequencyTable count).frequency
      refine ⟨_, ?_, h3, u3, ?_⟩
      · simp only [List.foldlM_cons, List.foldlM_nil, hmod, bind, Except.bind, pure, Except.pure,
          ne_eq, hzero, not_false_eq_true, if_true, hindex, not_true_eq_false, if_false]
        simp [hzero]
      · rw [e3, e2, e1, hcontents, Nat.mod_eq_of_lt (by omega : count < 256),
          Nat.mod_eq_of_lt (by omega :
            frequencyByteCount 8 (frequencyTable count).frequency < 256)]
        simp [hzero, entryBytes, frequencyBytes]

/-- Counterpart of the whole of `writeFrequencyTableToBlock` on a table whose
entries are at their index: no error; the block `written` holds a zero byte
and the entries in use, and the number of entries less one is then stored over
the zero byte. -/
theorem writeFrequencyTableToBlock_ok (frequencyTable : FrequencyTable)
    (hindex : ∀ index, (frequencyTable index).symbol = index)
    (hsmall : ∀ index, (frequencyTable index).frequency < 2 ^ 64)
    (outputBlock : BlockDescriptor) (happ : Appending outputBlock)
    (hunread : Unread outputBlock) :
    ∃ written,
      writeFrequencyTableToBlock frequencyTable outputBlock
        = .ok { written with
                address := store written.address outputBlock.usedSize
                  (((presentSymbols frequencyTable).length + 2 ^ 32 - 1) % 2 ^ 32) } ∧
      Appending written ∧ Unread written ∧
      contents written = contents outputBlock ++ [0] ++ tableBytes frequencyTable := by
  obtain ⟨h1, e1⟩ := writeToBlock_contents happ 0
  have u1 := unread_writeToBlock happ hunread 0
  obtain ⟨written, hfold, hwrittenApp, hwrittenUnread, hcontents⟩ :=
    writeFrequencyTable_upTo frequencyTable hindex hsmall _ h1 u1 256 (le_refl _)
  refine ⟨written, ?_, hwrittenApp, hwrittenUnread, ?_⟩
  · unfold writeFrequencyTableToBlock FREQUENCY_TABLE_SIZE
    have hoffset : (writeToBlock outputBlock 0).2 = outputBlock.usedSize := by
      unfold writeToBlock
      simp only
      split <;> exact happ.1
    simp only [bind, Except.bind, pure, Except.pure]
    rw [hfold]
    simp only [hoffset]
    rfl
  · rw [hcontents, e1]
    rfl

theorem packedBits_start {block : BlockDescriptor} (happ : Appending block)
    (hunread : Unread block) : PackedBits block.usedSize block.address [] block := by
  obtain ⟨hfree, hbit⟩ := happ
  obtain ⟨hfit, hroom, hread, hreadBit⟩ := hunread
  exact ⟨by simp [hfree], by simp [hbit], by simp, hfit, hroom, hread, hreadBit,
    fun _ _ => rfl, fun position hlt => by simp at hlt⟩

theorem packedBits_writeBitToBlock {start : Nat} {original : Nat → Nat} {bits : List Bool}
    {block : BlockDescriptor} (h : PackedBits start original bits block) (value : Bool) :
    PackedBits start original (bits ++ [value]) (writeBitToBlock block value) := by
  obtain ⟨hfb, hfbit, hused, hcap, hroom, hrb, hrbit, hkept, hpayload⟩ := h
  have hbit8 : bits.length % 8 < 8 := Nat.mod_lt _ (by norm_num)
  have hstore : ∀ position, position < bits.length + 1 →
      (bits ++ [value])[position]? = some
        ((store block.address (start + bits.length / 8)
          (setBit (bits.length % 8) (block.address (start + bits.length / 8)) value)
          (start + position / 8)).testBit (position % 8)) := by
    intro position hp
    have hp8 : position % 8 < 8 := Nat.mod_lt _ (by norm_num)
    unfold store
    by_cases hsame : position / 8 = bits.length / 8
    · have hcell : start + position / 8 = start + bits.length / 8 := by omega
      rw [if_pos hcell, Nat.mod_eq_of_lt (setBit_lt _ _ _), testBit_setBit hbit8 hp8]
      by_cases hpc : position % 8 = bits.length % 8
      · have : position = bits.length := by omega
        rw [if_pos hpc, this]
        simp
      · have hlt : position < bits.length := by omega
        rw [if_neg hpc, List.getElem?_append_left hlt, hpayload position hlt, hsame]
    · have hcell : ¬ start + position / 8 = start + bits.length / 8 := by omega
      have hlt : position < bits.length := by omega
      rw [if_neg hcell, List.getElem?_append_left hlt, hpayload position hlt]
  have hkeep : ∀ offset, offset < start →
      store block.address (start + bits.length / 8)
        (setBit (bits.length % 8) (block.address (start + bits.length / 8)) value) offset
        = original offset := by
    intro offset hlt
    unfold store
    have hne : ¬ offset = start + bits.length / 8 := by omega
    rw [if_neg hne]
    exact hkept offset hlt
  unfold writeBitToBlock
  by_cases hzero : bits.length % 8 = 0
  · simp only [hfbit, hzero, if_true, hfb]
    have hnowrap : ¬ ((0 + 1) % 256 > 7) := by norm_num
    rw [hzero] at hstore hkeep
    by_cases hgrow : start + bits.length / 8 ≥ block.allocatedSize
    · simp only [hgrow, if_true, hnowrap, if_false]
      constructor <;> simp only [List.length_append, List.length_singleton, grownSize] <;> first
        | omega
        | exact hrb
        | exact hrbit
        | exact hkeep
        | exact hstore
    · simp only [hgrow, if_false, hnowrap]
      constructor <;> simp only [List.length_append, List.length_singleton] <;> first
        | omega
        | exact hrb
        | exact hrbit
        | exact hkeep
        | exact hstore
  · simp only [hfbit, hzero, if_false, hfb]
    by_cases hwrap : (bits.length % 8 + 1) % 256 > 7
    · simp only [hwrap, if_true]
      constructor <;> simp only [List.length_append, List.length_singleton] <;> first
        | omega
        | exact hrb
        | exact hrbit
        | exact hkeep
        | exact hstore
    · simp only [hwrap, if_false]
      constructor <;> simp only [List.length_append, List.length_singleton] <;> first
        | omega
        | exact hrb
        | exact hrbit
        | exact hkeep
        | exact hstore

theorem packedBits_foldl {start : Nat} {original : Nat → Nat} :
    ∀ (added bits : List Bool) (block : BlockDescriptor), PackedBits start original bits block →
      PackedBits start original (bits ++ added) (added.foldl writeBitToBlock block) := by
  intro added
  induction added with
  | nil => intro bits block h; simpa using h
  | cons value added ih =>
    intro bits block h
    have := ih (bits ++ [value]) _ (packedBits_writeBitToBlock h value)
    simpa using this

theorem truthy_patternMask (huffmanBits shift : Nat) (hbits : huffmanBits < 2 ^ 32)
    (hshift : shift < 32) :
    ∃ mask, patternMask shift = .ok mask ∧
      truthy (mask &&& huffmanBits) = huffmanBits.testBit shift := by
  unfold patternMask
  have hnot : ¬ shift ≥ 32 := by omega
  simp only [hnot, if_false]
  by_cases hlast : shift = 31
  · subst hlast
    refine ⟨_, rfl, ?_⟩
    have hmask : (2 ^ 64 - 2 ^ 31 : Nat) = (2 ^ 33 - 1) <<< 31 := by norm_num [Nat.shiftLeft_eq]
    have hzero : ((2 ^ 64 - 2 ^ 31) &&& huffmanBits = 0) ↔ huffmanBits.testBit 31 = false := by
      constructor
      · intro h
        have := congrArg (fun value => value.testBit 31) h
        simp only [Nat.testBit_and, Nat.zero_testBit] at this
        rw [hmask, Nat.testBit_shiftLeft, Nat.testBit_two_pow_sub_one] at this
        simpa using this
      · intro h
        apply Nat.eq_of_testBit_eq
        intro position
        rw [Nat.testBit_and, Nat.zero_testBit, hmask, Nat.testBit_shiftLeft,
          Nat.testBit_two_pow_sub_one]
        by_cases hlow : position < 31
        · have : ¬ position ≥ 31 := by omega
          simp [this]
        · by_cases hsame : position = 31
          · subst hsame
            simp [h]
          · have hhigh : huffmanBits.testBit position = false := by
              apply Nat.testBit_lt_two_pow
              calc huffmanBits < 2 ^ 32 := hbits
                _ ≤ 2 ^ position := Nat.pow_le_pow_right (by norm_num) (by omega)
            simp [hhigh]
    have hnum : (2 ^ 64 - 2 ^ 31 : Nat) = 18446744071562067968 := by norm_num
    unfold truthy
    cases hbit : huffmanBits.testBit 31
    · have := hzero.mpr hbit
      rw [hnum] at this
      simp [this]
    · have : ¬ ((2 ^ 64 - 2 ^ 31) &&& huffmanBits = 0) := by
        intro h
        have := hzero.mp h
        rw [hbit] at this
        cases this
      rw [hnum] at this
      simp [this]
  · simp only [hlast, if_false]
    refine ⟨_, rfl, ?_⟩
    rw [Nat.shiftLeft_eq, Nat.one_mul, Nat.and_comm]
    exact truthy_and_two_pow huffmanBits shift

/-- The loop `while (patternLength)` of `huffmanCompress` writes the bits of the
pattern, most significant first, for a pattern of up to 32 bits; a longer one
makes it shift an `int` by 32 bits or more. -/
theorem writePattern_eq (huffmanBits : Nat) (hbits : huffmanBits < 2 ^ 32) :
    ∀ (patternLength : Nat) (block : BlockDescriptor),
      writePattern huffmanBits patternLength block
        = if patternLength ≤ 32 then
            .ok ((patternBits huffmanBits patternLength).foldl writeBitToBlock block)
          else .error .undefinedShift := by
  intro patternLength
  induction patternLength with
  | zero => intro block; rfl
  | succ patternLength ih =>
    intro block
    unfold writePattern
    by_cases hshort : patternLength + 1 ≤ 32
    · obtain ⟨mask, hmask, hvalue⟩ := truthy_patternMask huffmanBits patternLength hbits
        (by omega)
      have hless : patternLength ≤ 32 := by omega
      simp only [hmask, bind, Except.bind, ih, hless, if_true, hshort, patternBits,
        List.foldl_cons, hvalue]
    · have hlong : patternLength ≥ 32 := by omega
      simp only [patternMask, hlong, if_true, bind, Except.bind, hshort, if_false]

theorem encode_list (frequencyTable : FrequencyTable)
    (hbits : ∀ symbol, (frequencyTable symbol).huffmanBits < 2 ^ 32) :
    ∀ (symbols : List Nat) (block : BlockDescriptor),
      symbols.foldlM
        (fun (written : BlockDescriptor) symbol =>
          writePattern (frequencyTable symbol).huffmanBits
            (frequencyTable symbol).huffmanBitCount written)
        block
      = if ∀ symbol ∈ symbols, (frequencyTable symbol).huffmanBitCount ≤ 32 then
          .ok ((codeBits frequencyTable symbols).foldl writeBitToBlock block)
        else .error .undefinedShift := by
  intro symbols
  induction symbols with
  | nil => intro block; simp [codeBits, pure, Except.pure]
  | cons symbol symbols ih =>
    intro block
    rw [List.foldlM_cons, writePattern_eq _ (hbits symbol)]
    by_cases hshort : (frequencyTable symbol).huffmanBitCount ≤ 32
    · simp only [hshort, if_true, bind, Except.bind, ih]
      by_cases hrest : ∀ other ∈ symbols, (frequencyTable other).huffmanBitCount ≤ 32
      · have hall : ∀ other ∈ symbol :: symbols, (frequencyTable other).huffmanBitCount ≤ 32 := by
          intro other hmem
          rcases List.mem_cons.mp hmem with hsame | hlater
          · rw [hsame]; exact hshort
          · exact hrest other hlater
        rw [if_pos hrest, if_pos hall]
        simp only [codeBits, List.flatMap_cons, List.foldl_append]
      · have hall : ¬ ∀ other ∈ symbol :: symbols, (frequencyTable other).huffmanBitCount ≤ 32 :=
          fun h => hrest (fun other hmem => h other (List.mem_cons_of_mem _ hmem))
        rw [if_neg hrest, if_neg hall]
    · have hall : ¬ ∀ other ∈ symbol :: symbols, (frequencyTable other).huffmanBitCount ≤ 32 :=
        fun h => hshort (h symbol (List.mem_cons_self _ _))
      rw [if_neg hall]
      simp only [hshort, if_false, bind, Except.bind]

theorem encodeSymbols_eq (inputBlock : BlockDescriptor) (frequencyTable : FrequencyTable)
    (tabled : BlockDescriptor)
    (hbytes : ∀ byte ∈ contents inputBlock, byte < 256)
    (hbits : ∀ symbol, (frequencyTable symbol).huffmanBits < 2 ^ 32) :
    encodeSymbols inputBlock frequencyTable tabled
      = if ∀ symbol ∈ contents inputBlock, (frequencyTable symbol).huffmanBitCount ≤ 32 then
          .ok ((codeBits frequencyTable (contents inputBlock)).foldl writeBitToBlock tabled)
        else .error .undefinedShift := by
  have hmap : (List.range inputBlock.usedSize).map (fun offset => inputBlock.address offset % 256)
      = contents inputBlock := by
    unfold contents
    apply List.map_congr_left
    intro offset hmem
    apply Nat.mod_eq_of_lt
    apply hbytes
    exact List.mem_map.mpr ⟨offset, hmem, rfl⟩
  rw [← encode_list frequencyTable hbits, ← hmap, List.foldlM_map]
  rfl

theorem foldl_store_range (value : Nat → Nat) :
    ∀ (count : Nat) (memory : Nat → Nat) (offset : Nat),
      (List.range count).foldl
          (fun (cells : Nat → Nat) index => store cells index (value index)) memory offset
        = if offset < count then value offset % 256 else memory offset := by
  intro count
  induction count with
  | zero => intro memory offset; rfl
  | succ count ih =>
    intro memory offset
    rw [List.range_succ, List.foldl_append]
    simp only [List.foldl_cons, List.foldl_nil, store]
    by_cases hsame : offset = count
    · subst hsame
      simp
    · rw [if_neg hsame, ih]
      by_cases hlt : offset < count
      · have : offset < count + 1 := by omega
        simp [hlt, this]
      · have : ¬ offset < count + 1 := by omega
        simp [hlt, this]

theorem bytesInFileByte_lt (bytesInFile offset : Nat) : bytesInFileByte bytesInFile offset < 256 :=
  Nat.mod_lt _ (by norm_num)

theorem sizeSpace_eq (heap : Nat → Nat) (inputBlock : BlockDescriptor) :
    sizeSpace heap inputBlock
      = writeBytes (makeMemoryBlock heap inputBlock.usedSize) (List.replicate 8 0) := rfl

theorem contents_getD (block : BlockDescriptor) (offset : Nat) (h : offset < block.usedSize) :
    block.address offset = (contents block).getD offset 0 := by
  have hlen : offset < (contents block).length := by rw [contents_length]; exact h
  rw [List.getD_eq_getElem _ _ hlen, contents_getElem]

theorem getD_after_count (front entries : List Nat) (count offset : Nat)
    (hfront : front.length = 8) (hlate : 9 ≤ offset) :
    (front ++ [count] ++ entries).getD offset 0 = entries.getD (offset - 9) 0 := by
  rw [List.getD_append_right _ _ _ _ (by simp [hfront]; omega)]
  congr 1
  simp [hfront]

/-- The stages of `huffmanCompress` after the check, for a table whose entries
are at their index and hold patterns of fewer than 2^32: the block returned
has the layout of `CompressedLayout` when every pattern used has at most 32
bits, and otherwise the encoding loop shifts an `int` too far. -/
theorem huffmanCompress_stages (heap : Nat → Nat) (inputBlock : BlockDescriptor)
    (frequencyTable : FrequencyTable)
    (hbytes : ∀ byte ∈ contents inputBlock, byte < 256)
    (hnonempty : 1 ≤ inputBlock.usedSize)
    (hindex : ∀ index, (frequencyTable index).symbol = index)
    (hsmall : ∀ index, (frequencyTable index).frequency < 2 ^ 64)
    (hbits : ∀ symbol, (frequencyTable symbol).huffmanBits < 2 ^ 32)
    (hpresent : 1 ≤ (presentSymbols frequencyTable).length) :
    ((¬ ∀ symbol ∈ contents inputBlock, (frequencyTable symbol).huffmanBitCount ≤ 32) →
      (writeFrequencyTableToBlock frequencyTable (sizeSpace heap inputBlock) >>= fun tabled =>
        encodeSymbols inputBlock frequencyTable tabled >>= fun encoded =>
        (pure (storeSize inputBlock encoded) : Except Failure BlockDescriptor))
        = .error .undefinedShift) ∧
    ((∀ symbol ∈ contents inputBlock, (frequencyTable symbol).huffmanBitCount ≤ 32) →
      ∃ outputBlock,
        (writeFrequencyTableToBlock frequencyTable (sizeSpace heap inputBlock) >>= fun tabled =>
          encodeSymbols inputBlock frequencyTable tabled >>= fun encoded =>
          (pure (storeSize inputBlock encoded) : Except Failure BlockDescriptor))
          = .ok outputBlock ∧
        CompressedLayout inputBlock frequencyTable outputBlock) := by
  obtain ⟨hfree, hused, hfit, hroom, hbit, hread, hreadBit, _, hspace⟩ :=
    writeBytes_state heap inputBlock.usedSize hnonempty (List.replicate 8 0)
  rw [← sizeSpace_eq] at hfree hused hfit hroom hbit hread hreadBit hspace
  simp only [List.length_replicate] at hfree hused hfit
  have happ : Appending (sizeSpace heap inputBlock) := ⟨by rw [hfree, hused], hbit⟩
  have hunread : Unread (sizeSpace heap inputBlock) := ⟨by omega, hroom, hread, hreadBit⟩
  obtain ⟨written, heq, hwrittenApp, hwrittenUnread, hcontents⟩ :=
    writeFrequencyTableToBlock_ok frequencyTable hindex hsmall _ happ hunread
  rw [heq, hused]
  simp only [bind, Except.bind, pure, Except.pure]
  rw [encodeSymbols_eq inputBlock frequencyTable _ hbytes hbits]
  constructor
  · intro hlong
    rw [if_neg hlong]
  · intro hshort
    rw [if_pos hshort]
    refine ⟨_, rfl, ?_⟩
    have hmany := presentSymbols_length_le frequencyTable
    have hstored : ((presentSymbols frequencyTable).length + 2 ^ 32 - 1) % 2 ^ 32 % 256
        = (presentSymbols frequencyTable).length - 1 := by omega
    have hfront : (contents (sizeSpace heap inputBlock)).length = 8 := by
      rw [contents_length, hused]
    have hsizes : (sizeBytes inputBlock.usedSize).length = 8 := by simp [sizeBytes]
    have hwrittenUsed : written.usedSize = 9 + (tableBytes frequencyTable).length := by
      rw [← contents_length, hcontents]
      simp [hfront]
      omega
    have hheader : (headerBytes frequencyTable inputBlock.usedSize).length
        = 9 + (tableBytes frequencyTable).length := by
      simp [headerBytes, hsizes]
      omega
    have hpacked : PackedBits (9 + (tableBytes frequencyTable).length)
        (store written.address 8
          (((presentSymbols frequencyTable).length + 2 ^ 32 - 1) % 2 ^ 32))
        (codeBits frequencyTable (contents inputBlock))
        ((codeBits frequencyTable (contents inputBlock)).foldl writeBitToBlock
          { written with
            address := store written.address 8
              (((presentSymbols frequencyTable).length + 2 ^ 32 - 1) % 2 ^ 32) }) := by
      have h := packedBits_foldl (codeBits frequencyTable (contents inputBlock)) []
        { written with
          address := store written.address 8
            (((presentSymbols frequencyTable).length + 2 ^ 32 - 1) % 2 ^ 32) }
        (packedBits_start ⟨hwrittenApp.1, hwrittenApp.2⟩
          ⟨hwrittenUnread.1, hwrittenUnread.2.1, hwrittenUnread.2.2.1, hwrittenUnread.2.2.2⟩)
      simp only [List.nil_append] at h
      rw [← hwrittenUsed]
      exact h
    generalize (codeBits frequencyTable (contents inputBlock)).foldl writeBitToBlock
      { written with
        address := store written.address 8
          (((presentSymbols frequencyTable).length + 2 ^ 32 - 1) % 2 ^ 32) } = encoded
      at hpacked ⊢
    obtain ⟨pfb, pfbit, pused, pcap, _, prb, prbit, pkept, ppayload⟩ := hpacked
    constructor
    · intro offset hlt
      rw [hheader] at hlt
      simp only [storeSize]
      rw [foldl_store_range]
      by_cases hlow : offset < 8
      · rw [if_pos hlow, Nat.mod_eq_of_lt (bytesInFileByte_lt _ _)]
        unfold headerBytes
        rw [List.append_assoc, List.getD_append _ _ _ _ (by rw [hsizes]; exact hlow)]
        simp [sizeBytes, List.getD_eq_getElem, hlow]
      · rw [if_neg hlow, pkept offset hlt]
        unfold store
        by_cases hcount : offset = 8
        · rw [if_pos hcount, hstored, hcount]
          unfold headerBytes
          rw [List.getD_append _ _ _ _ (by simp [hsizes]),
            List.getD_append_right _ _ _ _ (by simp [hsizes])]
          simp [hsizes]
        · rw [if_neg hcount, contents_getD written offset (by omega), hcontents]
          unfold headerBytes
          rw [getD_after_count _ _ _ _ hfront (by omega),
            getD_after_count _ _ _ _ hsizes (by omega)]
    · intro position hlt
      rw [ppayload position hlt, hheader]
      simp only [storeSize]
      rw [foldl_store_range]
      have hhigh : ¬ 9 + (tableBytes frequencyTable).length + position / 8 < 8 := by omega
      rw [if_neg hhigh]
    · rw [hheader]; exact pused
    · rw [hheader]; exact pfb
    · exact pfbit
    · exact pcap
    · exact prb
    · exact prbit
    · rfl

theorem presentSymbols_congr (first second : FrequencyTable)
    (h : ∀ index, (first index).frequency = (second index).frequency) :
    presentSymbols first = presentSymbols second := by
  unfold presentSymbols
  apply List.filter_congr
  intro index _
  rw [h index]

theorem values_cases : ∀ bytes : List Nat,
    bytes = [] ∨ (∃ symbol count, 0 < count ∧ bytes = List.replicate count symbol) ∨
      ∃ first second, first ∈ bytes ∧ second ∈ bytes ∧ first ≠ second := by
  intro bytes
  induction bytes with
  | nil => exact Or.inl rfl
  | cons byte bytes ih =>
    right
    rcases ih with hnil | ⟨symbol, count, hcount, hsame⟩ | ⟨first, second, hfirst, hsecond, hne⟩
    · left
      exact ⟨byte, 1, by norm_num, by rw [hnil]; rfl⟩
    · by_cases hbyte : byte = symbol
      · left
        exact ⟨symbol, count + 1, by omega, by rw [hsame, hbyte]; rfl⟩
      · right
        refine ⟨byte, symbol, List.mem_cons_self _ _, List.mem_cons_of_mem _ ?_, hbyte⟩
        rw [hsame]
        exact List.mem_replicate.mpr ⟨by omega, rfl⟩
    · right
      exact ⟨first, second, List.mem_cons_of_mem _ hfirst, List.mem_cons_of_mem _ hsecond, hne⟩

theorem huffmanCompress_empty (heap : Nat → Nat) (inputBlock : BlockDescriptor)
    (hclear : isHuffmanCompressed inputBlock = false) (hempty : contents inputBlock = []) :
    huffmanCompress heap inputBlock = .error .nullDereference := by
  have hbytes : ∀ byte ∈ contents inputBlock, byte < 256 := by
    intro byte hmem
    rw [hempty] at hmem
    cases hmem
  have hpresent : presentSymbols (countTable []) = [] := by
    unfold presentSymbols
    apply List.filter_eq_nil_iff.mpr
    intro index _
    simp [countTable]
  rw [huffmanCompress_eq heap inputBlock hclear, populateFrequencyTable_eq inputBlock hbytes,
    hempty]
  have hbuild : buildHuffmanTree (countTable []) = .error .nullDereference := by
    unfold buildHuffmanTree
    rw [buildHuffmanQueue_eq, leafList_eq, hpresent]
    rfl
  rw [hbuild]
  rfl

/-- Whenever `huffmanCompress` returns a block, the input holds two distinct
byte values. -/
theorem huffmanCompress_distinct {heap : Nat → Nat} {inputBlock outputBlock : BlockDescriptor}
    (hbytes : ∀ byte ∈ contents inputBlock, byte < 256)
    (h : huffmanCompress heap inputBlock = .ok outputBlock) :
    isHuffmanCompressed inputBlock = false ∧
    ∃ first second, first ∈ contents inputBlock ∧ second ∈ contents inputBlock ∧
      first ≠ second := by
  have hclear : isHuffmanCompressed inputBlock = false := by
    cases hflag : isHuffmanCompressed inputBlock
    · rfl
    · unfold huffmanCompress at h
      simp [hflag, bind, Except.bind, throw, throwThe, MonadExceptOf.throw] at h
  refine ⟨hclear, ?_⟩
  rcases values_cases (contents inputBlock) with hnil | ⟨symbol, count, hcount, hsame⟩ | htwo
  · rw [huffmanCompress_empty heap inputBlock hclear hnil] at h
    cases h
  · have hsymbol : symbol < 256 := by
      apply hbytes
      rw [hsame]
      exact List.mem_replicate.mpr ⟨by omega, rfl⟩
    rw [(single_symbol_parts heap inputBlock symbol count hsymbol hcount hsame hclear).2.2.2.2] at h
    cases h
  · exact htwo

theorem count_le_usedSize (inputBlock : BlockDescriptor) (symbol : Nat) :
    (contents inputBlock).count symbol ≤ inputBlock.usedSize := by
  rw [← contents_length]
  exact List.count_le_length _ _

/-- The run of `huffmanCompress` on an input with two distinct byte values or
more, of fewer than 2^64 bytes: the tree and the table are built without an
error, the check passes, and the block returned has the layout of
`CompressedLayout` when every pattern used has at most 32 bits; otherwise the
encoding loop shifts an `int` by 32 bits or more. -/
theorem huffmanCompress_result (heap : Nat → Nat) (inputBlock : BlockDescriptor)
    (first second : Nat)
    (hbytes : ∀ byte ∈ contents inputBlock, byte < 256)
    (hsize : inputBlock.usedSize < 2 ^ 64)
    (hclear : isHuffmanCompressed inputBlock = false)
    (hfirst : first ∈ contents inputBlock) (hsecond : second ∈ contents inputBlock)
    (hdistinct : first ≠ second) :
    ∃ tree frequencyTable,
      buildHuffmanTree (populateFrequencyTable inputBlock) = .ok tree ∧
      walkHuffmanTree tree (populateFrequencyTable inputBlock) 0 0 = .ok frequencyTable ∧
      isInternal tree = true ∧
      (leafSymbols tree).Perm (presentSymbols (countTable (contents inputBlock))) ∧
      (∀ entry ∈ treePaths tree,
        frequencyTable entry.1
          = { countTable (contents inputBlock) entry.1 with
              huffmanBits := extendPattern 0 entry.2
              huffmanBitCount := entry.2.length }) ∧
      (∀ symbol, symbol ∉ leafSymbols tree →
        frequencyTable symbol = countTable (contents inputBlock) symbol) ∧
      (∀ symbol, (frequencyTable symbol).symbol = symbol ∧
        (frequencyTable symbol).frequency = (contents inputBlock).count symbol) ∧
      ((¬ ∀ symbol ∈ contents inputBlock, (frequencyTable symbol).huffmanBitCount ≤ 32) →
        huffmanCompress heap inputBlock = .error .undefinedShift) ∧
      ((∀ symbol ∈ contents inputBlock, (frequencyTable symbol).huffmanBitCount ≤ 32) →
        ∃ outputBlock, huffmanCompress heap inputBlock = .ok outputBlock ∧
          CompressedLayout inputBlock frequencyTable outputBlock) := by
  obtain ⟨tree, frequencyTable, hbuild, hwalk, hinternal, hleaves, hcodes, hothers⟩ :=
    huffman_table inputBlock first second hbytes hfirst hsecond hdistinct
  obtain ⟨_, _, hbuild2, hwalk2, _, hcheck⟩ :=
    code_length_parts inputBlock first second hbytes hfirst hsecond hdistinct
  rw [hbuild] at hbuild2
  cases hbuild2
  rw [hwalk] at hwalk2
  cases hwalk2
  have hentry : ∀ symbol, (frequencyTable symbol).symbol = symbol ∧
      (frequencyTable symbol).frequency = (contents inputBlock).count symbol ∧
      (frequencyTable symbol).huffmanBits < 2 ^ 32 := by
    intro symbol
    by_cases hleaf : symbol ∈ leafSymbols tree
    · rw [← treePaths_symbols] at hleaf
      obtain ⟨entry, hmem, hsame⟩ := List.mem_map.mp hleaf
      rw [← hsame, hcodes entry hmem]
      exact ⟨rfl, rfl, extendPattern_lt 0 entry.2 (by norm_num)⟩
    · rw [hothers symbol hleaf]
      exact ⟨rfl, rfl, by simp [countTable]⟩
  have hpresentEq : presentSymbols frequencyTable
      = presentSymbols (countTable (contents inputBlock)) :=
    presentSymbols_congr _ _ (fun index => (hentry index).2.1)
  have hpresent : 1 ≤ (presentSymbols frequencyTable).length := by
    rw [hpresentEq]
    have := length_ge_two_of_mem
      ((mem_presentSymbols_countTable _ hbytes first).mpr hfirst)
      ((mem_presentSymbols_countTable _ hbytes second).mpr hsecond) hdistinct
    omega
  have hnonempty : 1 ≤ inputBlock.usedSize := by
    rw [← contents_length]
    exact List.length_pos_of_mem hfirst
  have hstages := huffmanCompress_stages heap inputBlock frequencyTable hbytes hnonempty
    (fun index => (hentry index).1)
    (fun index => by
      rw [(hentry index).2.1]
      exact lt_of_le_of_lt (count_le_usedSize inputBlock index) hsize)
    (fun index => (hentry index).2.2) hpresent
  have hchain : huffmanCompress heap inputBlock
      = (writeFrequencyTableToBlock frequencyTable (sizeSpace heap inputBlock) >>= fun tabled =>
          encodeSymbols inputBlock frequencyTable tabled >>= fun encoded =>
          (pure (storeSize inputBlock encoded) : Except Failure BlockDescriptor)) := by
    rw [huffmanCompress_eq heap inputBlock hclear, hbuild]
    simp only [bind, Except.bind, hwalk, hcheck]
  rw [hchain]
  exact ⟨tree, frequencyTable, hbuild, hwalk, hinternal, hleaves, hcodes, hothers,
    fun symbol => ⟨(hentry symbol).1, (hentry symbol).2.1⟩, hstages.1, hstages.2⟩

/-- Whenever `huffmanCompress` returns a block, for an input of fewer than 2^64
bytes: the tree and the table it encoded with, and the layout of the block. -/
theorem huffmanCompress_layout {heap : Nat → Nat} {inputBlock outputBlock : BlockDescriptor}
    (hbytes : ∀ byte ∈ contents inputBlock, byte < 256)
    (hsize : inputBlock.usedSize < 2 ^ 64)
    (h : huffmanCompress heap inputBlock = .ok outputBlock) :
    ∃ tree frequencyTable,
      buildHuffmanTree (populateFrequencyTable inputBlock) = .ok tree ∧
      walkHuffmanTree tree (populateFrequencyTable inputBlock) 0 0 = .ok frequencyTable ∧
      (∀ symbol, (frequencyTable symbol).symbol = symbol ∧
        (frequencyTable symbol).frequency = (contents inputBlock).count symbol) ∧
      (∀ symbol ∈ contents inputBlock, (frequencyTable symbol).huffmanBitCount ≤ 32) ∧
      CompressedLayout inputBlock frequencyTable outputBlock := by
  obtain ⟨hclear, first, second, hfirst, hsecond, hdistinct⟩ := huffmanCompress_distinct hbytes h
  obtain ⟨tree, frequencyTable, hbuild, hwalk, _, _, _, _, hfields, hlong, hshort⟩ :=
    huffmanCompress_result heap inputBlock first second hbytes hsize hclear hfirst hsecond
      hdistinct
  by_cases hall : ∀ symbol ∈ contents inputBlock, (frequencyTable symbol).huffmanBitCount ≤ 32
  · obtain ⟨other, hok, hlayout⟩ := hshort hall
    rw [h] at hok
    cases hok
    exact ⟨tree, frequencyTable, hbuild, hwalk, hfields, hall, hlayout⟩
  · rw [hlong hall] at h
    cases h

theorem patternBits_length (huffmanBits : Nat) :
    ∀ patternLength : Nat, (patternBits huffmanBits patternLength).length = patternLength := by
  intro patternLength
  induction patternLength with
  | zero => rfl
  | succ patternLength ih => simp [patternBits, ih]

theorem sum_indicator (weight : Nat → Nat) (byte : Nat) :
    ∀ count : Nat,
      ((List.range count).map (fun symbol => weight symbol * (if byte = symbol then 1 else 0))).sum
        = if byte < count then weight byte else 0 := by
  intro count
  induction count with
  | zero => rfl
  | succ count ih =>
    rw [List.range_succ, List.map_append, List.sum_append, ih]
    by_cases hlt : byte < count
    · have hne : ¬ byte = count := by omega
      have hlt2 : byte < count + 1 := by omega
      simp [hlt, hne, hlt2]
    · by_cases hsame : byte = count
      · subst hsame
        simp
      · have hnot : ¬ byte < count + 1 := by omega
        simp [hlt, hsame, hnot]

theorem sum_map_count (weight : Nat → Nat) :
    ∀ bytes : List Nat, (∀ byte ∈ bytes, byte < 256) →
      (bytes.map weight).sum
        = ((List.range 256).map (fun symbol => weight symbol * bytes.count symbol)).sum := by
  intro bytes
  induction bytes with
  | nil => intro _; simp
  | cons byte bytes ih =>
    intro hbytes
    have hbyte := hbytes byte (List.mem_cons_self _ _)
    have hsplit : (fun symbol => weight symbol * (byte :: bytes).count symbol)
        = fun symbol => weight symbol * bytes.count symbol
            + weight symbol * (if byte = symbol then 1 else 0) := by
      funext symbol
      rw [List.count_cons, Nat.mul_add]
      simp
    rw [List.map_cons, List.sum_cons, ih (fun other hmem => hbytes other (List.mem_cons_of_mem _ hmem)),
      hsplit, List.sum_map_add, sum_indicator, if_pos hbyte]
    omega

theorem codeBits_length (frequencyTable : FrequencyTable) (bytes : List Nat)
    (hbytes : ∀ byte ∈ bytes, byte < 256)
    (hcount : ∀ symbol, (frequencyTable symbol).frequency = bytes.count symbol) :
    (codeBits frequencyTable bytes).length = payloadBitCount frequencyTable := by
  unfold codeBits payloadBitCount FREQUENCY_TABLE_SIZE
  rw [List.length_flatMap]
  have hlengths : (bytes.map (List.length ∘ fun symbol =>
        patternBits (frequencyTable symbol).huffmanBits
          (frequencyTable symbol).huffmanBitCount))
      = bytes.map (fun symbol => (frequencyTable symbol).huffmanBitCount) := by
    apply List.map_congr_left
    intro symbol _
    exact patternBits_length _ _
  rw [hlengths, sum_map_count _ bytes hbytes]
  congr 1
  apply List.map_congr_left
  intro symbol _
  rw [hcount]

theorem headerBytes_length (frequencyTable : FrequencyTable) (bytesInFile : Nat) :
    (headerBytes frequencyTable bytesInFile).length = headerByteCount frequencyTable := by
  unfold headerBytes headerByteCount tableBytes sizeBytes
  simp only [List.length_append, List.length_map, List.length_range, List.length_singleton,
    List.length_flatMap]
  congr 1
  congr 1
  apply List.map_congr_left
  intro symbol _
  simp [entryBytes, frequencyBytes]
  omega

/-- C22. Encoded bit count: whenever `huffmanCompress` returns a block (for an
input of fewer than 2^64 bytes), the bits written after the frequency table,
counted by the write cursor, number the sum over all 256 symbols of pattern
length times frequency, and `usedSize` of the block is the number of header and
table bytes plus that number of bits divided by 8 and rounded up. -/
theorem encoded_bit_count (heap : Nat → Nat) (inputBlock outputBlock : BlockDescriptor)
    (hbytes : ∀ byte ∈ contents inputBlock, byte < 256)
    (hsize : inputBlock.usedSize < 2 ^ 64)
    (h : huffmanCompress heap inputBlock = .ok outputBlock) :
    ∃ tree frequencyTable,
      buildHuffmanTree (populateFrequencyTable inputBlock) = .ok tree ∧
      walkHuffmanTree tree (populateFrequencyTable inputBlock) 0 0 = .ok frequencyTable ∧
      (∀ symbol, (frequencyTable symbol).frequency = (contents inputBlock).count symbol) ∧
      8 * outputBlock.nextFreeByte + outputBlock.nextFreeBit
        = 8 * headerByteCount frequencyTable + payloadBitCount frequencyTable ∧
      outputBlock.usedSize
        = headerByteCount frequencyTable + (payloadBitCount frequencyTable + 7) / 8 := by
  obtain ⟨tree, frequencyTable, hbuild, hwalk, hfields, _, hlayout⟩ :=
    huffmanCompress_layout hbytes hsize h
  have hbits := codeBits_length frequencyTable (contents inputBlock) hbytes
    (fun symbol => (hfields symbol).2)
  have hheader := headerBytes_length frequencyTable inputBlock.usedSize
  refine ⟨tree, frequencyTable, hbuild, hwalk, fun symbol => (hfields symbol).2, ?_, ?_⟩
  · rw [hlayout.freeByte, hlayout.freeBit, hbits, hheader]
    omega
  · rw [hlayout.used, hbits, hheader]

theorem encoded_bit_count_witness :
    (∀ byte ∈ contents sampleTwoSymbolBlock, byte < 256) ∧
    sampleTwoSymbolBlock.usedSize < 2 ^ 64 ∧
    huffmanCompress (fun _ => 0) sampleTwoSymbolBlock
      = .ok (resultOr sampleTwoSymbolBlock (huffmanCompress (fun _ => 0) sampleTwoSymbolBlock)) ∧
    ∃ tree frequencyTable,
      buildHuffmanTree (populateFrequencyTable sampleTwoSymbolBlock) = .ok tree ∧
      walkHuffmanTree tree (populateFrequencyTable sampleTwoSymbolBlock) 0 0
        = .ok frequencyTable ∧
      (∀ symbol,
        (frequencyTable symbol).frequency = (contents sampleTwoSymbolBlock).count symbol) ∧
      8 * (resultOr sampleTwoSymbolBlock
            (huffmanCompress (fun _ => 0) sampleTwoSymbolBlock)).nextFreeByte
          + (resultOr sampleTwoSymbolBlock
            (huffmanCompress (fun _ => 0) sampleTwoSymbolBlock)).nextFreeBit
        = 8 * headerByteCount frequencyTable + payloadBitCount frequencyTable ∧
      (resultOr sampleTwoSymbolBlock
          (huffmanCompress (fun _ => 0) sampleTwoSymbolBlock)).usedSize
        = headerByteCount frequencyTable + (payloadBitCount frequencyTable + 7) / 8 :=
  ⟨by decide, by decide, rfl,
    encoded_bit_count (fun _ => 0) sampleTwoSymbolBlock
      (resultOr sampleTwoSymbolBlock (huffmanCompress (fun _ => 0) sampleTwoSymbolBlock))
      (by decide) (by decide) rfl⟩

theorem shiftRight_eq_div_256 (value byteIndex : Nat) :
    value >>> (8 * byteIndex) = value / 256 ^ byteIndex := by
  rw [Nat.shiftRight_eq_div_pow, Nat.pow_mul]

theorem minimalByteCount_step (value : Nat) (hvalue : value ≠ 0) :
    minimalByteCount value = 1 + minimalByteCount (value / 256) := by
  unfold minimalByteCount
  rw [if_neg hvalue]
  by_cases hsmall : value < 256
  · have hzero : value / 256 = 0 := Nat.div_eq_of_lt hsmall
    rw [hzero, if_pos rfl, Nat.log_of_lt hsmall]
  · have hne : value / 256 ≠ 0 := by
      intro h
      have := Nat.div_eq_zero_iff (by norm_num : 0 < 256) |>.mp h
      omega
    rw [if_neg hne, Nat.log_of_one_lt_of_le (by norm_num) (by omega)]
    omega

theorem frequencyByteCount_eq :
    ∀ (fuel value : Nat), value < 256 ^ fuel →
      frequencyByteCount fuel value = minimalByteCount value := by
  intro fuel
  induction fuel with
  | zero =>
    intro value hvalue
    have : value = 0 := by simpa using hvalue
    subst this
    rfl
  | succ fuel ih =>
    intro value hvalue
    unfold frequencyByteCount
    by_cases hzero : value = 0
    · subst hzero
      rfl
    · rw [if_pos hzero, minimalByteCount_step value hzero]
      have hshift : value >>> 8 = value / 256 := by
        rw [Nat.shiftRight_eq_div_pow]
      rw [hshift, ih]
      apply Nat.div_lt_of_lt_mul
      rw [Nat.pow_succ] at hvalue
      omega

theorem minimalByteCount_minimal (value : Nat) (hvalue : value ≠ 0) :
    value < 256 ^ minimalByteCount value ∧
    value / 256 ^ (minimalByteCount value - 1) % 256 ≠ 0 := by
  unfold minimalByteCount
  rw [if_neg hvalue]
  have hupper := Nat.lt_pow_succ_log_self (by norm_num : 1 < 256) value
  have hlower := Nat.pow_log_le_self 256 hvalue
  refine ⟨hupper, ?_⟩
  simp only [Nat.add_sub_cancel]
  have hpos : 0 < 256 ^ Nat.log 256 value := pow_pos (by norm_num) _
  have hone : 1 ≤ value / 256 ^ Nat.log 256 value := (Nat.one_le_div_iff hpos).mpr hlower
  have hless : value / 256 ^ Nat.log 256 value < 256 := by
    apply Nat.div_lt_of_lt_mul
    rw [Nat.pow_succ, Nat.mul_comm] at hupper
    rw [Nat.mul_comm]
    exact hupper
  rw [Nat.mod_eq_of_lt hless]
  omega

theorem presentSymbols_eq_distinctValues (frequencyTable : FrequencyTable) (bytes : List Nat)
    (hcount : ∀ symbol, (frequencyTable symbol).frequency = bytes.count symbol) :
    presentSymbols frequencyTable = distinctValues bytes := by
  unfold presentSymbols distinctValues FREQUENCY_TABLE_SIZE
  apply List.filter_congr
  intro symbol _
  rw [hcount]
  simp [List.count_eq_zero]

/-- The header bytes that `huffmanCompress` writes are those the specification
describes. -/
theorem headerBytes_eq (frequencyTable : FrequencyTable) (inputBlock : BlockDescriptor)
    (hsize : inputBlock.usedSize < 2 ^ 64)
    (hcount : ∀ symbol, (frequencyTable symbol).frequency = (contents inputBlock).count symbol) :
    headerBytes frequencyTable inputBlock.usedSize = payloadHeader (contents inputBlock) := by
  have hsizes : sizeBytes inputBlock.usedSize = littleEndian (contents inputBlock).length 8 := by
    unfold sizeBytes littleEndian
    rw [contents_length]
    apply List.map_congr_left
    intro byteIndex _
    unfold bytesInFileByte
    rw [shiftRight_eq_div_256]
  have hpresent := presentSymbols_eq_distinctValues frequencyTable (contents inputBlock) hcount
  unfold headerBytes payloadHeader tableBytes
  rw [hsizes, hpresent]
  congr 1
  apply List.flatMap_congr
  intro symbol _
  have hfits : (contents inputBlock).count symbol < 256 ^ 8 :=
    lt_of_le_of_lt (count_le_usedSize inputBlock symbol) (by norm_num at hsize ⊢; exact hsize)
  unfold entryBytes frequencyBytes littleEndian
  rw [hcount, frequencyByteCount_eq 8 _ hfits]
  congr 2
  funext byteIndex
  rw [shiftRight_eq_div_256]

theorem take_eq_of_address (block : BlockDescriptor) (bytes : List Nat)
    (hfits : bytes.length ≤ block.usedSize)
    (hheld : ∀ offset, offset < bytes.length → block.address offset = bytes.getD offset 0) :
    (contents block).take bytes.length = bytes := by
  apply List.ext_getElem
  · rw [List.length_take, contents_length]
    omega
  · intro offset h1 h2
    rw [List.getElem_take, contents_getElem, hheld offset h2, List.getD_eq_getElem _ _ h2]

/-- C23. Huffman payload format: whenever `huffmanCompress` returns a block (for
an input B of fewer than 2^64 bytes), the block starts with the bytes of
`payloadHeader`: bytes 0..7 hold |B| least significant byte first, byte 8 is
the number m of distinct byte values less one, then for each of these values in
ascending order come the value, a byte k and k bytes of its number of
occurrences, least significant first, where k is minimal (the number is below
256^k and its last byte is not zero); the bits after them, from bit 0 of each
byte upwards, are the patterns of the bytes of B in input order, each pattern
most significant bit first, and they fill the rest of the block. -/
theorem huffman_payload_format (heap : Nat → Nat) (inputBlock outputBlock : BlockDescriptor)
    (hbytes : ∀ byte ∈ contents inputBlock, byte < 256)
    (hsize : inputBlock.usedSize < 2 ^ 64)
    (h : huffmanCompress heap inputBlock = .ok outputBlock) :
    ∃ tree frequencyTable,
      buildHuffmanTree (populateFrequencyTable inputBlock) = .ok tree ∧
      walkHuffmanTree tree (populateFrequencyTable inputBlock) 0 0 = .ok frequencyTable ∧
      (contents outputBlock).take (payloadHeader (contents inputBlock)).length
        = payloadHeader (contents inputBlock) ∧
      (∀ symbol ∈ distinctValues (contents inputBlock),
        (contents inputBlock).count symbol
          < 256 ^ minimalByteCount ((contents inputBlock).count symbol) ∧
        (contents inputBlock).count symbol
          / 256 ^ (minimalByteCount ((contents inputBlock).count symbol) - 1) % 256 ≠ 0) ∧
      (∀ position, position < (codeBits frequencyTable (contents inputBlock)).length →
        (codeBits frequencyTable (contents inputBlock))[position]?
          = some ((outputBlock.address
              ((payloadHeader (contents inputBlock)).length + position / 8)).testBit
                (position % 8))) ∧
      outputBlock.usedSize
        = (payloadHeader (contents inputBlock)).length
          + ((codeBits frequencyTable (contents inputBlock)).length + 7) / 8 := by
  obtain ⟨tree, frequencyTable, hbuild, hwalk, hfields, _, hlayout⟩ :=
    huffmanCompress_layout hbytes hsize h
  have hheader := headerBytes_eq frequencyTable inputBlock hsize (fun symbol => (hfields symbol).2)
  obtain ⟨lheader, lpayload, lused, _, _, _, _, _, _⟩ := hlayout
  rw [hheader] at lheader lpayload lused
  refine ⟨tree, frequencyTable, hbuild, hwalk, ?_, ?_, lpayload, lused⟩
  · exact take_eq_of_address outputBlock _ (by omega) lheader
  · intro symbol hmem
    apply minimalByteCount_minimal
    have := (List.mem_filter.mp hmem).2
    simp only [decide_eq_true_eq] at this
    exact fun hzero => (List.count_eq_zero.mp hzero) this

theorem huffman_payload_format_witness :
    (∀ byte ∈ contents sampleTwoSymbolBlock, byte < 256) ∧
    sampleTwoSymbolBlock.usedSize < 2 ^ 64 ∧
    huffmanCompress (fun _ => 0) sampleTwoSymbolBlock
      = .ok (resultOr sampleTwoSymbolBlock (huffmanCompress (fun _ => 0) sampleTwoSymbolBlock)) ∧
    payloadHeader (contents sampleTwoSymbolBlock)
      = [2, 0, 0, 0, 0, 0, 0, 0, 1, 0x41, 1, 1, 0x42, 1, 1] ∧
    contents (resultOr sampleTwoSymbolBlock (huffmanCompress (fun _ => 0) sampleTwoSymbolBlock))
      = [2, 0, 0, 0, 0, 0, 0, 0, 1, 0x41, 1, 1, 0x42, 1, 1, 2] ∧
    ∃ tree frequencyTable,
      buildHuffmanTree (populateFrequencyTable sampleTwoSymbolBlock) = .ok tree ∧
      walkHuffmanTree tree (populateFrequencyTable sampleTwoSymbolBlock) 0 0
        = .ok frequencyTable ∧
      (contents (resultOr sampleTwoSymbolBlock
          (huffmanCompress (fun _ => 0) sampleTwoSymbolBlock))).take
          (payloadHeader (contents sampleTwoSymbolBlock)).length
        = payloadHeader (contents sampleTwoSymbolBlock) ∧
      (∀ symbol ∈ distinctValues (contents sampleTwoSymbolBlock),
        (contents sampleTwoSymbolBlock).count symbol
          < 256 ^ minimalByteCount ((contents sampleTwoSymbolBlock).count symbol) ∧
        (contents sampleTwoSymbolBlock).count symbol
          / 256 ^ (minimalByteCount ((contents sampleTwoSymbolBlock).count symbol) - 1) % 256
            ≠ 0) ∧
      (∀ position, position < (codeBits frequencyTable (contents sampleTwoSymbolBlock)).length →
        (codeBits frequencyTable (contents sampleTwoSymbolBlock))[position]?
          = some (((resultOr sampleTwoSymbolBlock
              (huffmanCompress (fun _ => 0) sampleTwoSymbolBlock)).address
              ((payloadHeader (contents sampleTwoSymbolBlock)).length + position / 8)).testBit
                (position % 8))) ∧
      (resultOr sampleTwoSymbolBlock (huffmanCompress (fun _ => 0) sampleTwoSymbolBlock)).usedSize
        = (payloadHeader (contents sampleTwoSymbolBlock)).length
          + ((codeBits frequencyTable (contents sampleTwoSymbolBlock)).length + 7) / 8 :=
  ⟨by decide, by decide, rfl,
    (by
      have hvalues : distinctValues [0x41, 0x42] = [0x41, 0x42] := by decide
      have hone : minimalByteCount 1 = 1 := by simp [minimalByteCount]
      show payloadHeader [0x41, 0x42] = _
      unfold payloadHeader
      rw [hvalues]
      simp [hone, littleEndian, List.range_succ]), rfl,
    huffman_payload_format (fun _ => 0) sampleTwoSymbolBlock
      (resultOr sampleTwoSymbolBlock (huffmanCompress (fun _ => 0) sampleTwoSymbolBlock))
      (by decide) (by decide) rfl⟩

theorem holds_append (block : BlockDescriptor) (start : Nat) (first second : List Nat) :
    Holds block start (first ++ second)
      ↔ Holds block start first ∧ Holds block (start + first.length) second := by
  unfold Holds
  constructor
  · intro h
    constructor
    · intro index hlt
      rw [h index (by rw [List.length_append]; omega), List.getD_append _ _ _ _ hlt]
    · intro index hlt
      rw [Nat.add_assoc, h (first.length + index) (by rw [List.length_append]; omega),
        List.getD_append_right _ _ _ _ (by omega)]
      congr 1
      omega
  · rintro ⟨hfirst, hsecond⟩ index hlt
    rw [List.length_append] at hlt
    by_cases hlow : index < first.length
    · rw [hfirst index hlow, List.getD_append _ _ _ _ hlow]
    · have hrest := hsecond (index - first.length) (by omega)
      rw [List.getD_append_right _ _ _ _ (by omega), ← hrest]
      congr 1
      omega

theorem holds_advance (block : BlockDescriptor) (count start : Nat) (bytes : List Nat) :
    Holds (advanceBytes block count) start bytes ↔ Holds block start bytes := Iff.rfl

theorem readFromBlock_ok (block : BlockDescriptor)
    (hroom : block.nextByteToRead < block.allocatedSize) :
    readFromBlock block = .ok (block.address block.nextByteToRead, advanceBytes block 1) := by
  unfold readFromBlock
  have hnot : ¬ block.nextByteToRead ≥ block.allocatedSize := by omega
  rw [if_neg hnot]
  rfl

/-- The loop over `byteNumber` of `readFrequencyTableFromBlock` for up to 4
bytes that lie within the capacity: no error, and the value accumulated. -/
theorem readFrequencyBytes_upTo (block : BlockDescriptor) :
    ∀ count : Nat, count ≤ 4 → block.nextByteToRead + count ≤ block.allocatedSize →
      (List.range count).foldlM
        (fun (state : Nat × BlockDescriptor) byteNumber => do
          let (byte, inputBlock) ← readFromBlock state.2
          let shifted ← shiftedFrequencyByte byte byteNumber
          pure (state.1 ||| shifted, inputBlock))
        (0, block)
      = .ok (accumulatedFrequency block.address block.nextByteToRead count,
          advanceBytes block count) := by
  intro count
  induction count with
  | zero => intro _ _; rfl
  | succ count ih =>
    intro hcount hroom
    rw [List.range_succ, List.foldlM_append, ih (by omega) (by omega)]
    have hread := readFromBlock_ok (advanceBytes block count)
      (by simp only [advanceBytes]; omega)
    have hshift : ¬ count * 8 ≥ 32 := by omega
    simp only [bind, Except.bind, List.foldlM_cons, List.foldlM_nil, hread, shiftedFrequencyByte,
      hshift, if_false, pure, Except.pure]
    rfl

/-- The loop over `byteNumber` of `readFrequencyTableFromBlock` for 5 bytes or
more, the first 5 within the capacity: the fifth byte is shifted by 32 bits. -/
theorem readFrequencyBytes_long (block : BlockDescriptor) (byteCount : Nat)
    (hcount : 5 ≤ byteCount) (hroom : block.nextByteToRead + 5 ≤ block.allocatedSize) :
    readFrequencyBytes byteCount (0, block) = .error .undefinedShift := by
  unfold readFrequencyBytes
  have hsplit : List.range byteCount
      = List.range 4 ++ 4 :: (List.range (byteCount - 5)).map (fun k => 5 + k) := by
    have h1 : byteCount = 5 + (byteCount - 5) := by omega
    conv => lhs; rw [h1, List.range_add, List.range_succ]
    simp
  rw [hsplit, List.foldlM_append, readFrequencyBytes_upTo block 4 (le_refl _) (by omega)]
  have hread := readFromBlock_ok (advanceBytes block 4) (by simp only [advanceBytes]; omega)
  simp only [bind, Except.bind, List.foldlM_cons, hread, shiftedFrequencyByte]
  rfl

theorem readFrequencyBytes_short (block : BlockDescriptor) (byteCount : Nat)
    (hcount : byteCount ≤ 4)
    (hroom : block.nextByteToRead + byteCount ≤ block.allocatedSize) :
    readFrequencyBytes byteCount (0, block)
      = .ok (accumulatedFrequency block.address block.nextByteToRead byteCount,
          advanceBytes block byteCount) :=
  readFrequencyBytes_upTo block byteCount hcount hroom

theorem or_mod_two_pow (first second power : Nat) :
    (first ||| second) % 2 ^ power = first % 2 ^ power ||| second % 2 ^ power := by
  apply Nat.eq_of_testBit_eq
  intro position
  simp only [Nat.testBit_mod_two_pow, Nat.testBit_or]
  cases decide (position < power) <;> simp

/-- The low 32 bits of the value accumulated from the `count` low bytes of
`frequency`, least significant first, are these bytes of `frequency`. -/
theorem accumulatedFrequency_mod (memory : Nat → Nat) (cursor frequency : Nat) :
    ∀ count : Nat, count ≤ 4 →
      (∀ index, index < count → memory (cursor + index) = frequency / 256 ^ index % 256) →
      accumulatedFrequency memory cursor count % 2 ^ 32 = frequency % 256 ^ count := by
  intro count
  induction count with
  | zero => intro _ _; simp [accumulatedFrequency, Nat.mod_one]
  | succ count ih =>
    intro hcount hheld
    have hbyte : memory (cursor + count) < 256 := by
      rw [hheld count (by omega)]
      exact Nat.mod_lt _ (by norm_num)
    have hshifted : memory (cursor + count) <<< (count * 8) < 2 ^ 32 := by
      rw [Nat.shiftLeft_eq]
      have hpow : 2 ^ (count * 8) ≤ 2 ^ 24 := Nat.pow_le_pow_right (by norm_num) (by omega)
      calc memory (cursor + count) * 2 ^ (count * 8)
          ≤ 255 * 2 ^ 24 := Nat.mul_le_mul (by omega) hpow
        _ < 2 ^ 32 := by norm_num
    have hlow : (if memory (cursor + count) <<< (count * 8) ≥ 2 ^ 31 then
          memory (cursor + count) <<< (count * 8) + (2 ^ 64 - 2 ^ 32)
        else memory (cursor + count) <<< (count * 8)) % 2 ^ 32
        = memory (cursor + count) <<< (count * 8) := by
      split
      · have hmultiple : (2 ^ 64 - 2 ^ 32 : Nat) = 2 ^ 32 * (2 ^ 32 - 1) := by norm_num
        rw [hmultiple, Nat.add_mul_mod_self_left, Nat.mod_eq_of_lt hshifted]
      · exact Nat.mod_eq_of_lt hshifted
    have hprevious := ih (by omega) (fun index hlt => hheld index (by omega))
    have hsmall : frequency % 256 ^ count < 2 ^ (count * 8) := by
      have : (256 : Nat) ^ count = 2 ^ (count * 8) := by
        rw [Nat.mul_comm, Nat.pow_mul]
      rw [← this]
      exact Nat.mod_lt _ (pow_pos (by norm_num) _)
    have hpower : (256 : Nat) ^ count = 2 ^ (count * 8) := by
      rw [Nat.mul_comm, Nat.pow_mul]
    rw [accumulatedFrequency, or_mod_two_pow, hlow, hprevious, Nat.or_comm, Nat.shiftLeft_eq,
      Nat.mul_comm (memory (cursor + count)) _, ← Nat.mul_add_lt_is_or hsmall,
      hheld count (by omega), Nat.mod_pow_succ, hpower]
    exact Nat.add_comm _ _

theorem frequencyByteCount_le_four (frequency : Nat) (hsmall : frequency < 2 ^ 32) :
    frequencyByteCount 8 frequency ≤ 4 := by
  have h8 := frequencyByteCount_eq 8 frequency
    (lt_of_lt_of_le hsmall (by norm_num))
  have h4 := frequencyByteCount_eq 4 frequency (by norm_num at hsmall ⊢; exact hsmall)
  rw [h8, ← h4]
  exact frequencyByteCount_le 4 frequency

theorem frequency_lt_pow (frequency : Nat) (hsmall : frequency < 2 ^ 32) :
    frequency < 256 ^ frequencyByteCount 8 frequency := by
  rw [frequencyByteCount_eq 8 frequency (lt_of_lt_of_le hsmall (by norm_num))]
  by_cases hzero : frequency = 0
  · subst hzero
    simp [minimalByteCount]
  · exact (minimalByteCount_minimal frequency hzero).1

theorem entryBytes_length (symbol frequency : Nat) :
    (entryBytes symbol frequency).length = 2 + frequencyByteCount 8 frequency := by
  simp [entryBytes, frequencyBytes]
  omega

theorem readFrequencyTableFromBlock_eq (inputBlock : BlockDescriptor) :
    readFrequencyTableFromBlock inputBlock
      = (readFromBlock inputBlock >>= fun counted =>
          (List.range (counted.1 + 1)).foldlM readEntry (initFrequencyTable, counted.2)) := rfl

/-- One pass of the loop over `index` on the bytes of an entry whose frequency
is below 2^32: the entry is stored at `index`, with a frequency that has the
frequency written in its low 32 bits. -/
theorem readEntry_ok (frequencyTable : FrequencyTable) (block : BlockDescriptor)
    (index symbol frequency : Nat) (hsymbol : symbol < 256) (hsmall : frequency < 2 ^ 32)
    (hheld : Holds block block.nextByteToRead (entryBytes symbol frequency))
    (hroom : block.nextByteToRead + (entryBytes symbol frequency).length ≤ block.allocatedSize) :
    ∃ value, value % 2 ^ 32 = frequency ∧
      readEntry (frequencyTable, block) index
        = .ok (setEntry frequencyTable index
            { frequencyTable index with symbol := symbol, frequency := value },
          advanceBytes block (entryBytes symbol frequency).length) := by
  rw [entryBytes_length] at hroom
  have hfour := frequencyByteCount_le_four frequency hsmall
  have hfirst : block.address block.nextByteToRead = symbol := by
    have := hheld 0 (by rw [entryBytes_length]; omega)
    simpa [entryBytes] using this
  have hsecond : block.address (block.nextByteToRead + 1) = frequencyByteCount 8 frequency := by
    have := hheld 1 (by rw [entryBytes_length]; omega)
    simpa [entryBytes] using this
  have hbytes : ∀ position, position < frequencyByteCount 8 frequency →
      block.address (block.nextByteToRead + 1 + 1 + position)
        = frequency / 256 ^ position % 256 := by
    intro position hlt
    have := hheld (2 + position) (by rw [entryBytes_length]; omega)
    rw [show block.nextByteToRead + 1 + 1 + position = block.nextByteToRead + (2 + position) by
      omega, this]
    simp only [entryBytes, frequencyBytes]
    rw [List.getD_append_right _ _ _ _ (by simp)]
    simp only [List.length_cons, List.length_nil, Nat.add_sub_cancel_left]
    rw [List.getD_eq_getElem _ _ (by simpa using hlt)]
    simp [shiftRight_eq_div_256]
  have hread1 := readFromBlock_ok block (by omega)
  have hread2 := readFromBlock_ok (advanceBytes block 1) (by simp only [advanceBytes]; omega)
  have hread3 := readFrequencyBytes_short (advanceBytes (advanceBytes block 1) 1)
    (frequencyByteCount 8 frequency) hfour (by simp only [advanceBytes]; omega)
  have hvalue := accumulatedFrequency_mod block.address (block.nextByteToRead + 1 + 1) frequency
    (frequencyByteCount 8 frequency) hfour hbytes
  rw [Nat.mod_eq_of_lt (frequency_lt_pow frequency hsmall)] at hvalue
  refine ⟨_, hvalue, ?_⟩
  unfold readEntry
  simp only [bind, Except.bind, hread1, hfirst]
  have hsecond2 : (advanceBytes block 1).address (advanceBytes block 1).nextByteToRead
      = frequencyByteCount 8 frequency := hsecond
  simp only [hread2, hsecond2, hread3, pure, Except.pure, Nat.mod_eq_of_lt hsymbol,
    entryBytes_length]
  congr 2
  simp only [advanceBytes]
  congr 1
  omega

/-- One pass of the loop over `index` on the bytes of an entry with a byte
count of 5 or more: the fifth byte of the frequency is shifted by 32 bits. -/
theorem readEntry_long (frequencyTable : FrequencyTable) (block : BlockDescriptor)
    (index : Nat) (hcount : 5 ≤ block.address (block.nextByteToRead + 1))
    (hroom : block.nextByteToRead + 7 ≤ block.allocatedSize) :
    readEntry (frequencyTable, block) index = .error .undefinedShift := by
  have hread1 := readFromBlock_ok block (by omega)
  have hread2 := readFromBlock_ok (advanceBytes block 1) (by simp only [advanceBytes]; omega)
  have hread3 := readFrequencyBytes_long (advanceBytes (advanceBytes block 1) 1)
    (block.address (block.nextByteToRead + 1)) hcount (by simp only [advanceBytes]; omega)
  have hsecond : (advanceBytes block 1).address (advanceBytes block 1).nextByteToRead
      = block.address (block.nextByteToRead + 1) := rfl
  unfold readEntry
  simp only [bind, Except.bind, hread1, hread2, hsecond, hread3]

/-- The loop over `index` of `readFrequencyTableFromBlock` on the bytes of
entries with frequencies below 2^32: the entries are stored at the indices 0,
1, 2, ... in the order read, each with the symbol read and a frequency that has
the frequency written in its low 32 bits; the other indices keep their initial
entry. -/
theorem readEntries_ok :
    ∀ (entries : List (Nat × Nat)) (block : BlockDescriptor),
      (∀ entry ∈ entries, entry.1 < 256 ∧ entry.2 < 2 ^ 32) →
      Holds block block.nextByteToRead (entriesBytes entries) →
      block.nextByteToRead + (entriesBytes entries).length ≤ block.allocatedSize →
      ∃ frequencyTable,
        (List.range entries.length).foldlM readEntry (initFrequencyTable, block)
          = .ok (frequencyTable, advanceBytes block (entriesBytes entries).length) ∧
        (∀ index, index < entries.length →
          (frequencyTable index).symbol = (entries.getD index (0, 0)).1 ∧
          (frequencyTable index).frequency % 2 ^ 32 = (entries.getD index (0, 0)).2) ∧
        (∀ index, entries.length ≤ index →
          frequencyTable index = initFrequencyTable index) := by
  intro entries
  induction entries using List.reverseRecOn with
  | nil =>
    intro block _ _ _
    exact ⟨initFrequencyTable, rfl, fun index hlt => by simp at hlt, fun _ _ => rfl⟩
  | append_singleton entries entry ih =>
    intro block hvalid hheld hroom
    have hbytes : entriesBytes (entries ++ [entry])
        = entriesBytes entries ++ entryBytes entry.1 entry.2 := by
      simp [entriesBytes]
    rw [hbytes] at hheld hroom ⊢
    rw [List.length_append] at hroom
    obtain ⟨hfront, hback⟩ := (holds_append _ _ _ _).mp hheld
    obtain ⟨frequencyTable, hfold, hread, hrest⟩ := ih block
      (fun other hmem => hvalid other (List.mem_append_left _ hmem)) hfront (by omega)
    obtain ⟨hsymbol, hsmall⟩ := hvalid entry (List.mem_append_right _ (List.mem_singleton.mpr rfl))
    obtain ⟨value, hvalue, hentry⟩ := readEntry_ok frequencyTable
      (advanceBytes block (entriesBytes entries).length) entries.length entry.1 entry.2
      hsymbol hsmall hback (by simp only [advanceBytes]; omega)
    refine ⟨setEntry frequencyTable entries.length
      { frequencyTable entries.length with symbol := entry.1, frequency := value }, ?_, ?_, ?_⟩
    · rw [List.length_append, List.length_singleton, List.range_succ, List.foldlM_append, hfold]
      simp only [bind, Except.bind, List.foldlM_cons, List.foldlM_nil, hentry, pure, Except.pure]
      congr 2
      simp only [advanceBytes, List.length_append]
      congr 1
      omega
    · intro index hlt
      rw [List.length_append, List.length_singleton] at hlt
      unfold setEntry
      by_cases hlast : index = entries.length
      · rw [if_pos hlast, hlast, List.getD_append_right _ _ _ _ (le_refl _)]
        simp only [Nat.sub_self, List.getD_cons_zero]
        exact ⟨trivial, hvalue⟩
      · rw [if_neg hlast, List.getD_append _ _ _ _ (by omega)]
        exact hread index (by omega)
    · intro index hge
      rw [List.length_append, List.length_singleton] at hge
      unfold setEntry
      have hne : ¬ index = entries.length := by omega
      rw [if_neg hne]
      exact hrest index (by omega)

theorem tableBytes_eq (frequencyTable : FrequencyTable) :
    tableBytes frequencyTable = entriesBytes (tableEntries frequencyTable) := by
  unfold tableBytes entriesBytes tableEntries
  rw [List.flatMap_map]

theorem filter_range_lt (bound : Nat) :
    ∀ count : Nat, bound ≤ count →
      (List.range count).filter (fun index => decide (index < bound)) = List.range bound := by
  intro count
  induction count with
  | zero =>
    intro hle
    have : bound = 0 := by omega
    subst this
    rfl
  | succ count ih =>
    intro hle
    rw [List.range_succ, List.filter_append]
    by_cases hsame : bound = count + 1
    · subst hsame
      have hall : (List.range count).filter (fun index => decide (index < count + 1))
          = List.range count := by
        apply List.filter_eq_self.mpr
        intro index hmem
        have := List.mem_range.mp hmem
        simp
        omega
      rw [hall, List.range_succ]
      simp
    · rw [ih (by omega)]
      have hnot : ¬ count < bound := by omega
      simp [hnot]

theorem map_getD_range {α : Type} (items : List (Nat × Nat)) (image : Nat × Nat → α) :
    (List.range items.length).map (fun index => image (items.getD index (0, 0)))
      = items.map image := by
  apply List.ext_getElem
  · simp
  · intro index h1 h2
    have hlt : index < items.length := by simpa using h2
    rw [List.getElem_map, List.getElem_map, List.getElem_range, List.getD_eq_getElem _ _ hlt]

/-- The leaves that `buildHuffmanTree` makes from a table read back by
`readFrequencyTableFromBlock` are those of the entries read, in the order
read. -/
theorem leafList_packed (frequencyTable : FrequencyTable) (entries : List (Nat × Nat))
    (hlength : entries.length ≤ 256)
    (hvalid : ∀ entry ∈ entries, entry.2 ≠ 0 ∧ entry.2 < 2 ^ 32)
    (hread : ∀ index, index < entries.length →
      (frequencyTable index).symbol = (entries.getD index (0, 0)).1 ∧
      (frequencyTable index).frequency % 2 ^ 32 = (entries.getD index (0, 0)).2)
    (hrest : ∀ index, entries.length ≤ index →
      frequencyTable index = initFrequencyTable index) :
    leafList frequencyTable = entries.map (fun entry => HuffmanNode.leaf entry.1 entry.2) := by
  have hpresent : presentSymbols frequencyTable = List.range entries.length := by
    unfold presentSymbols FREQUENCY_TABLE_SIZE
    rw [← filter_range_lt entries.length 256 hlength]
    apply List.filter_congr
    intro index _
    by_cases hlt : index < entries.length
    · have hmem : entries.getD index (0, 0) ∈ entries := by
        rw [List.getD_eq_getElem _ _ hlt]
        exact List.getElem_mem _
      have hnonzero := (hvalid _ hmem).1
      have hlow := (hread index hlt).2
      have : (frequencyTable index).frequency ≠ 0 := by
        intro hzero
        rw [hzero] at hlow
        exact hnonzero hlow.symm
      simp [hlt, this]
    · rw [hrest index (by omega)]
      simp [hlt, initFrequencyTable]
  rw [leafList_eq, hpresent, ← map_getD_range entries]
  apply List.map_congr_left
  intro index hmem
  have hlt := List.mem_range.mp hmem
  rw [(hread index hlt).1, (hread index hlt).2]

theorem leafList_tableEntries (frequencyTable : FrequencyTable)
    (hindex : ∀ index, (frequencyTable index).symbol = index)
    (hsmall : ∀ index, (frequencyTable index).frequency < 2 ^ 32) :
    leafList frequencyTable
      = (tableEntries frequencyTable).map (fun entry => HuffmanNode.leaf entry.1 entry.2) := by
  rw [leafList_eq, tableEntries, List.map_map]
  apply List.map_congr_left
  intro symbol _
  simp only [Function.comp, hindex, Nat.mod_eq_of_lt (hsmall symbol)]

theorem buildHuffmanTree_congr (first second : FrequencyTable)
    (h : leafList first = leafList second) :
    buildHuffmanTree first = buildHuffmanTree second := by
  unfold buildHuffmanTree
  rw [buildHuffmanQueue_eq, buildHuffmanQueue_eq, h]

/-- Counterpart of the whole of `readFrequencyTableFromBlock` on a block that
holds, from the read cursor on, the number of entries less one and the entries
of a table whose frequencies are all below 2^32: no error, the cursor ends after
the entries, and `buildHuffmanTree` builds from the table read what it builds
from the table written. -/
theorem readFrequencyTableFromBlock_ok (frequencyTable : FrequencyTable)
    (block : BlockDescriptor)
    (hindex : ∀ index, (frequencyTable index).symbol = index)
    (hsmall : ∀ index, (frequencyTable index).frequency < 2 ^ 32)
    (hpresent : 1 ≤ (presentSymbols frequencyTable).length)
    (hheld : Holds block block.nextByteToRead
      ([(presentSymbols frequencyTable).length - 1] ++ tableBytes frequencyTable))
    (hroom : block.nextByteToRead + (1 + (tableBytes frequencyTable).length)
      ≤ block.allocatedSize) :
    ∃ restored,
      readFrequencyTableFromBlock block
        = .ok (restored, advanceBytes block (1 + (tableBytes frequencyTable).length)) ∧
      leafList restored = leafList frequencyTable ∧
      buildHuffmanTree restored = buildHuffmanTree frequencyTable ∧
      (∀ index, index < (presentSymbols frequencyTable).length →
        (restored index).symbol = (presentSymbols frequencyTable).getD index 0) ∧
      (∀ index, (presentSymbols frequencyTable).length ≤ index →
        restored index = initFrequencyTable index) := by
  obtain ⟨hcount, hentries⟩ := (holds_append _ _ _ _).mp hheld
  have hfirst : block.address block.nextByteToRead = (presentSymbols frequencyTable).length - 1 := by
    have := hcount 0 (by simp)
    simpa using this
  have hlength : (tableEntries frequencyTable).length = (presentSymbols frequencyTable).length := by
    simp [tableEntries]
  have hvalid : ∀ entry ∈ tableEntries frequencyTable,
      entry.1 < 256 ∧ entry.2 < 2 ^ 32 ∧ entry.2 ≠ 0 := by
    intro entry hmem
    obtain ⟨symbol, hsymbol, hentry⟩ := List.mem_map.mp hmem
    rw [← hentry]
    exact ⟨presentSymbols_lt _ symbol hsymbol, hsmall symbol,
      ((mem_presentSymbols _ _).mp hsymbol).2⟩
  rw [tableBytes_eq] at hentries hroom ⊢
  obtain ⟨restored, hfold, hread, hrest⟩ := readEntries_ok (tableEntries frequencyTable)
    (advanceBytes block 1)
    (fun entry hmem => ⟨(hvalid entry hmem).1, (hvalid entry hmem).2.1⟩)
    (by simpa using hentries) (by simp only [advanceBytes]; omega)
  have hleaves : leafList restored = leafList frequencyTable := by
    rw [leafList_tableEntries frequencyTable hindex hsmall]
    apply leafList_packed restored (tableEntries frequencyTable)
      (by rw [hlength]; exact presentSymbols_length_le _)
      (fun entry hmem => ⟨(hvalid entry hmem).2.2, (hvalid entry hmem).2.1⟩) hread hrest
  refine ⟨restored, ?_, hleaves, buildHuffmanTree_congr _ _ hleaves, ?_, ?_⟩
  rotate_left
  · intro index hlt
    rw [(hread index (by omega)).1]
    unfold tableEntries
    rw [List.getD_eq_getElem _ _ (by simpa using hlt), List.getD_eq_getElem _ _ hlt]
    simp
  · intro index hge
    exact hrest index (by omega)
  rw [readFrequencyTableFromBlock_eq, readFromBlock_ok block (by omega)]
  simp only [bind, Except.bind, hfirst]
  rw [show (presentSymbols frequencyTable).length - 1 + 1
      = (tableEntries frequencyTable).length by rw [hlength]; omega, hfold]
  congr 2
  simp only [advanceBytes]
  congr 1
  omega

/-- A file of fewer than 2^32 bytes is mapped whole. -/
theorem contents_mapUncompressedFile (file : List Nat) (behind : Nat → Nat)
    (hfit : file.length < 2 ^ 32) :
    contents (mapUncompressedFile file behind) = file := by
  have hsize : (mapUncompressedFile file behind).usedSize = file.length :=
    Nat.mod_eq_of_lt hfit
  apply List.ext_getElem
  · rw [contents_length, hsize]
  · intro offset h1 h2
    rw [contents_getElem]
    show mappedMemory file behind offset = file[offset]
    unfold mappedMemory
    rw [if_pos h2, List.getD_eq_getElem _ _ h2]

/-- Writing a frequency table whose frequencies are below 2^32 to a fresh block
and reading it back: neither function fails, and `buildHuffmanTree` builds from
the table read what it builds from the table written. -/
theorem table_round_trip (frequencyTable : FrequencyTable) (heap : Nat → Nat) (size : Nat)
    (hindex : ∀ index, (frequencyTable index).symbol = index)
    (hsmall : ∀ index, (frequencyTable index).frequency < 2 ^ 32)
    (hpresent : 1 ≤ (presentSymbols frequencyTable).length) (hsize : 1 ≤ size) :
    ∃ written restored after,
      writeFrequencyTableToBlock frequencyTable (makeMemoryBlock heap size) = .ok written ∧
      readFrequencyTableFromBlock written = .ok (restored, after) ∧
      leafList restored = leafList frequencyTable ∧
      buildHuffmanTree restored = buildHuffmanTree frequencyTable ∧
      (∀ index, index < (presentSymbols frequencyTable).length →
        (restored index).symbol = (presentSymbols frequencyTable).getD index 0) ∧
      (∀ index, (presentSymbols frequencyTable).length ≤ index →
        restored index = initFrequencyTable index) := by
  have happ : Appending (makeMemoryBlock heap size) := ⟨rfl, rfl⟩
  have hunread : Unread (makeMemoryBlock heap size) := ⟨Nat.zero_le _, hsize, rfl, rfl⟩
  obtain ⟨written, heq, hwrittenApp, hwrittenUnread, hcontents⟩ :=
    writeFrequencyTableToBlock_ok frequencyTable hindex
      (fun index => lt_of_lt_of_le (hsmall index) (by norm_num)) _ happ hunread
  have hstart : (makeMemoryBlock heap size).usedSize = 0 := rfl
  have hempty : contents (makeMemoryBlock heap size) = [] := rfl
  rw [hstart] at heq
  rw [hempty, List.nil_append] at hcontents
  have hmany := presentSymbols_length_le frequencyTable
  have hstored : ((presentSymbols frequencyTable).length + 2 ^ 32 - 1) % 2 ^ 32 % 256
      = (presentSymbols frequencyTable).length - 1 := by omega
  have hused : written.usedSize = 1 + (tableBytes frequencyTable).length := by
    rw [← contents_length, hcontents]
    simp
    omega
  obtain ⟨hfit, _, hread, _⟩ := hwrittenUnread
  have hheld : Holds
      { written with
        address := store written.address 0
          (((presentSymbols frequencyTable).length + 2 ^ 32 - 1) % 2 ^ 32) } 0
      ([(presentSymbols frequencyTable).length - 1] ++ tableBytes frequencyTable) := by
    intro index hlt
    simp only [List.length_append, List.length_singleton] at hlt
    simp only [store, Nat.zero_add]
    by_cases hzero : index = 0
    · rw [if_pos hzero, hstored, hzero]
      rfl
    · rw [if_neg hzero, contents_getD written index (by omega), hcontents]
      have hpos : 1 ≤ index := by omega
      rw [List.getD_append_right _ _ _ _ (by simpa using hpos),
        List.getD_append_right _ _ _ _ (by simpa using hpos)]
      rfl
  obtain ⟨restored, hreadBack, hleaves, hbuild, hfront, hrest⟩ :=
    readFrequencyTableFromBlock_ok frequencyTable
      { written with
        address := store written.address 0
          (((presentSymbols frequencyTable).length + 2 ^ 32 - 1) % 2 ^ 32) }
      hindex hsmall hpresent (by rw [show ({ written with
        address := store written.address 0
          (((presentSymbols frequencyTable).length + 2 ^ 32 - 1) % 2 ^ 32) } :
          BlockDescriptor).nextByteToRead = 0 from hread]; exact hheld)
      (by
        show written.nextByteToRead + (1 + (tableBytes frequencyTable).length)
          ≤ written.allocatedSize
        omega)
  exact ⟨_, restored, _, heq, hreadBack, hleaves, hbuild, hfront, hrest⟩

/-- For an input in which every byte value occurs fewer than 2^32 times, the
table that `readFrequencyTableFromBlock` reads back from what
`writeFrequencyTableToBlock` wrote gives `buildHuffmanTree` the same tree as
the table of `populateFrequencyTable`. -/
theorem tree_rebuilt (heap : Nat → Nat) (size : Nat) (inputBlock : BlockDescriptor)
    (hbytes : ∀ byte ∈ contents inputBlock, byte < 256)
    (hnonempty : contents inputBlock ≠ [])
    (hcounts : ∀ symbol, (contents inputBlock).count symbol < 2 ^ 32) (hsize : 1 ≤ size) :
    ∃ written restored after tree,
      writeFrequencyTableToBlock (populateFrequencyTable inputBlock) (makeMemoryBlock heap size)
        = .ok written ∧
      readFrequencyTableFromBlock written = .ok (restored, after) ∧
      buildHuffmanTree (populateFrequencyTable inputBlock) = .ok tree ∧
      buildHuffmanTree restored = .ok tree ∧
      (∀ index, index < (distinctValues (contents inputBlock)).length →
        (restored index).symbol = (distinctValues (contents inputBlock)).getD index 0) ∧
      (∀ index, (distinctValues (contents inputBlock)).length ≤ index →
        (restored index).symbol = index) := by
  rw [populateFrequencyTable_eq inputBlock hbytes]
  have hpresentEq := presentSymbols_eq_distinctValues (countTable (contents inputBlock))
    (contents inputBlock) (fun _ => rfl)
  have hpresent : presentSymbols (countTable (contents inputBlock)) ≠ [] := by
    intro hnil
    obtain ⟨byte, rest, hcons⟩ := List.exists_cons_of_ne_nil hnonempty
    have hmem : byte ∈ presentSymbols (countTable (contents inputBlock)) := by
      rw [mem_presentSymbols_countTable _ hbytes, hcons]
      exact List.mem_cons_self _ _
    rw [hnil] at hmem
    cases hmem
  have hlength : 1 ≤ (presentSymbols (countTable (contents inputBlock))).length :=
    List.length_pos.mpr hpresent
  obtain ⟨written, restored, after, hwrite, hread, _, hbuild, hfront, hrest⟩ :=
    table_round_trip (countTable (contents inputBlock)) heap size (fun _ => rfl) hcounts
      hlength hsize
  obtain ⟨tree, htree, _, _⟩ :=
    buildHuffmanTree_ok (countTable (contents inputBlock)) (fun _ => rfl) hpresent
  rw [hpresentEq] at hfront hrest
  refine ⟨written, restored, after, tree, hwrite, hread, htree, by rw [hbuild, htree], hfront, ?_⟩
  intro index hge
  rw [hrest index hge]
  rfl

theorem walkHuffmanTree_symbol :
    ∀ (tree : HuffmanNode) (frequencyTable walked : FrequencyTable)
      (pattern patternLength : Nat),
      walkHuffmanTree tree frequencyTable pattern patternLength = .ok walked →
      ∀ index, (walked index).symbol = (frequencyTable index).symbol ∧
        (walked index).frequency = (frequencyTable index).frequency := by
  intro tree
  induction tree with
  | leaf symbol frequency =>
    intro frequencyTable walked pattern patternLength h index
    unfold walkHuffmanTree at h
    simp only at h
    repeat' split at h
    all_goals try cases h
    unfold setEntry
    by_cases hsame : index = symbol % 256
    · rw [if_pos hsame, hsame]
      exact ⟨rfl, rfl⟩
    · rw [if_neg hsame]
      exact ⟨rfl, rfl⟩
  | node left right frequency ihLeft ihRight =>
    intro frequencyTable walked pattern patternLength h index
    unfold walkHuffmanTree at h
    obtain ⟨afterLeft, hleft, hright⟩ := bind_eq_ok h
    have h1 := ihLeft _ _ _ _ hleft index
    have h2 := ihRight _ _ _ _ hright index
    exact ⟨h2.1.trans h1.1, h2.2.trans h1.2⟩

theorem populateFrequencyTable_symbol (inputBlock : BlockDescriptor) (index : Nat) :
    (populateFrequencyTable inputBlock index).symbol = index := by
  unfold populateFrequencyTable
  rw [populateFrequencyTable_upTo]
  rfl

/-- The symbol fields of the three tables: the table that
`populateFrequencyTable` produces and the one that `walkHuffmanTree` leaves
(from a table with that property) have the symbol i at index i, for every i;
the table that `readFrequencyTableFromBlock` reads back from what
`writeFrequencyTableToBlock` wrote for an input (in which every byte value
occurs fewer than 2^32 times) holds the entries in the order read: at index j
below the number m of distinct byte values of the input the symbol is the j-th
of these values in ascending order, and at every index from m on the symbol is
the index. -/
theorem table_index_invariant (heap : Nat → Nat) (size : Nat) (inputBlock : BlockDescriptor)
    (tree : HuffmanNode) (frequencyTable walked : FrequencyTable) (pattern patternLength : Nat)
    (hindex : ∀ index, (frequencyTable index).symbol = index)
    (hwalk : walkHuffmanTree tree frequencyTable pattern patternLength = .ok walked)
    (hbytes : ∀ byte ∈ contents inputBlock, byte < 256)
    (hnonempty : contents inputBlock ≠ [])
    (hcounts : ∀ symbol, (contents inputBlock).count symbol < 2 ^ 32) (hsize : 1 ≤ size) :
    (∀ index, (populateFrequencyTable inputBlock index).symbol = index) ∧
    (∀ index, (walked index).symbol = index) ∧
    ∃ written restored after,
      writeFrequencyTableToBlock (populateFrequencyTable inputBlock) (makeMemoryBlock heap size)
        = .ok written ∧
      readFrequencyTableFromBlock written = .ok (restored, after) ∧
      (∀ index, index < (distinctValues (contents inputBlock)).length →
        (restored index).symbol = (distinctValues (contents inputBlock)).getD index 0) ∧
      (∀ index, (distinctValues (contents inputBlock)).length ≤ index →
        (restored index).symbol = index) := by
  obtain ⟨written, restored, after, _, hwrite, hread, _, _, hfront, hrest⟩ :=
    tree_rebuilt heap size inputBlock hbytes hnonempty hcounts hsize
  exact ⟨populateFrequencyTable_symbol inputBlock,
    fun index => ((walkHuffmanTree_symbol tree frequencyTable walked pattern patternLength hwalk
      index).1).trans (hindex index),
    written, restored, after, hwrite, hread, hfront, hrest⟩

theorem table_index_invariant_witness :
    (∀ index, (initFrequencyTable index).symbol = index) ∧
    walkHuffmanTree (.leaf 0x41 1) initFrequencyTable 1 1
      = .ok (setEntry initFrequencyTable 0x41
          { initFrequencyTable 0x41 with huffmanBits := 1, huffmanBitCount := 1 }) ∧
    (∀ byte ∈ contents sampleTwoSymbolBlock, byte < 256) ∧
    contents sampleTwoSymbolBlock ≠ [] ∧
    (∀ symbol, (contents sampleTwoSymbolBlock).count symbol < 2 ^ 32) ∧ 1 ≤ 1 ∧
    distinctValues (contents sampleTwoSymbolBlock) = [0x41, 0x42] ∧
    ((∀ index, (populateFrequencyTable sampleTwoSymbolBlock index).symbol = index) ∧
    (∀ index, (setEntry initFrequencyTable 0x41
        { initFrequencyTable 0x41 with huffmanBits := 1, huffmanBitCount := 1 } index).symbol
      = index) ∧
    ∃ written restored after,
      writeFrequencyTableToBlock (populateFrequencyTable sampleTwoSymbolBlock)
          (makeMemoryBlock (fun _ => 0) 1) = .ok written ∧
      readFrequencyTableFromBlock written = .ok (restored, after) ∧
      (∀ index, index < (distinctValues (contents sampleTwoSymbolBlock)).length →
        (restored index).symbol = (distinctValues (contents sampleTwoSymbolBlock)).getD index 0) ∧
      (∀ index, (distinctValues (contents sampleTwoSymbolBlock)).length ≤ index →
        (restored index).symbol = index)) :=
  ⟨fun _ => rfl, rfl, by decide, by decide,
    fun symbol => lt_of_le_of_lt (List.count_le_length _ _) (by decide), by decide, by decide,
    table_index_invariant (fun _ => 0) 1 sampleTwoSymbolBlock (.leaf 0x41 1) initFrequencyTable
      (setEntry initFrequencyTable 0x41
        { initFrequencyTable 0x41 with huffmanBits := 1, huffmanBitCount := 1 }) 1 1
      (fun _ => rfl) rfl (by decide) (by decide)
      (fun symbol => lt_of_le_of_lt (List.count_le_length _ _) (by decide)) (by decide)⟩

theorem readBitFromBlock_ok {source block : BlockDescriptor} {start position : Nat}
    (h : ReadingAt source start position block)
    (hroom : start + position / 8 < source.allocatedSize) :
    ∃ after,
      readBitFromBlock block
        = .ok ((source.address (start + position / 8)).testBit (position % 8), after) ∧
      ReadingAt source start (position + 1) after := by
  obtain ⟨haddress, hcapacity, hencoding, hbyte, hbit⟩ := h
  have hnot : ¬ block.nextByteToRead ≥ block.allocatedSize := by omega
  have hlt : position % 8 < 8 := Nat.mod_lt _ (by norm_num)
  unfold readBitFromBlock
  rw [if_neg hnot, hbit, hbyte, haddress, getBit_eq_testBit hlt]
  by_cases hlast : position % 8 = 7
  · have hwrap : (position % 8 + 1) % 256 > 7 := by omega
    rw [if_pos hwrap]
    refine ⟨_, rfl, ⟨rfl, hcapacity, hencoding, ?_, ?_⟩⟩
    · show start + position / 8 + 1 = start + (position + 1) / 8
      omega
    · show 0 = (position + 1) % 8
      omega
  · have hwrap : ¬ (position % 8 + 1) % 256 > 7 := by omega
    rw [if_neg hwrap]
    refine ⟨_, rfl, ⟨rfl, hcapacity, hencoding, ?_, ?_⟩⟩
    · show start + position / 8 = start + (position + 1) / 8
      omega
    · show (position % 8 + 1) % 256 = (position + 1) % 8
      omega

/-- One pass of the loop of `huffmanDecompress` at an internal node. -/
theorem huffmanDecodeLoop_step (rootNode : HuffmanNode) (fuel remaining : Nat)
    (state : Option HuffmanNode) (block output after : BlockDescriptor) (bit : Bool)
    (left right : HuffmanNode) (frequency : Nat)
    (hread : readBitFromBlock block = .ok (bit, after))
    (hnode : currentNode state rootNode = .node left right frequency) :
    huffmanDecodeLoop rootNode (fuel + 1) (remaining + 1) state block output
      = match (if bit then right else left) with
        | .leaf symbol _ =>
            huffmanDecodeLoop rootNode fuel remaining none after (writeToBlock output symbol).1
        | .node nextLeft nextRight nextFrequency =>
            huffmanDecodeLoop rootNode fuel (remaining + 1)
              (some (.node nextLeft nextRight nextFrequency)) after output := by
  have hchar : getHuffmanChar state bit rootNode
      = match (if bit then right else left) with
        | .leaf symbol _ => .ok (none, some symbol)
        | .node nextLeft nextRight nextFrequency =>
            .ok (some (.node nextLeft nextRight nextFrequency), none) := by
    cases state with
    | none =>
      have hroot : rootNode = .node left right frequency := hnode
      subst hroot
      rfl
    | some inner =>
      have hinner : inner = .node left right frequency := hnode
      subst hinner
      rfl
  rw [huffmanDecodeLoop, hread]
  simp only [bind, Except.bind]
  rw [hchar]
  cases (if bit then right else left) <;> rfl

theorem huffmanDecodeLoop_done (rootNode : HuffmanNode) (fuel : Nat)
    (state : Option HuffmanNode) (block output : BlockDescriptor) :
    huffmanDecodeLoop rootNode fuel 0 state block output = .ok (state, block, output) := by
  cases fuel <;> rfl

/-- Reading the bits of the path from an internal node to a leaf makes the loop
of `huffmanDecompress` write the symbol of that leaf and return to the root. -/
theorem decode_symbol (rootNode : HuffmanNode) (source : BlockDescriptor) (start : Nat)
    (symbol fuel remaining : Nat) (output : BlockDescriptor) :
    ∀ (path : List Bool) (state : Option HuffmanNode) (position : Nat)
      (block : BlockDescriptor),
      isInternal (currentNode state rootNode) = true →
      (symbol, path) ∈ treePaths (currentNode state rootNode) →
      ReadingAt source start position block →
      (∀ index, index < path.length →
        path[index]? = some ((source.address (start + (position + index) / 8)).testBit
          ((position + index) % 8))) →
      (∀ index, index < path.length → start + (position + index) / 8 < source.allocatedSize) →
      ∃ after, ReadingAt source start (position + path.length) after ∧
        huffmanDecodeLoop rootNode (path.length + fuel) (remaining + 1) state block output
          = huffmanDecodeLoop rootNode fuel remaining none after
              (writeToBlock output symbol).1 := by
  intro path
  induction path with
  | nil =>
    intro state position block hinternal hmem
    have := treePaths_nonempty hinternal _ hmem
    simp at this
  | cons bit rest ih =>
    intro state position block hinternal hmem hreading hbits hroom
    cases hnode : currentNode state rootNode with
    | leaf leafSymbol leafFrequency =>
      rw [hnode] at hinternal
      cases hinternal
    | node left right frequency =>
      rw [hnode] at hmem
      obtain ⟨after, hread, hafter⟩ := readBitFromBlock_ok hreading
        (by simpa using hroom 0 (by simp))
      have hbit : bit = (source.address (start + position / 8)).testBit (position % 8) := by
        have := hbits 0 (by simp)
        simpa using this
      rw [← hbit] at hread
      have hchild : (symbol, rest) ∈ treePaths (if bit then right else left) := by
        simp only [treePaths, List.mem_append, List.mem_map, Prod.mk.injEq, List.cons.injEq]
          at hmem
        rcases hmem with ⟨entry, hentry, hsymbol, hfalse, hrest⟩ | ⟨entry, hentry, hsymbol, htrue, hrest⟩
        · subst hfalse
          have : entry = (symbol, rest) := Prod.ext hsymbol hrest
          rw [← this]
          exact hentry
        · subst htrue
          have : entry = (symbol, rest) := Prod.ext hsymbol hrest
          rw [← this]
          exact hentry
      have hfuel : (bit :: rest).length + fuel = (rest.length + fuel) + 1 := by
        simp only [List.length_cons]
        omega
      rw [hfuel, huffmanDecodeLoop_step rootNode _ remaining state block output after bit left
        right frequency hread hnode]
      cases hkind : (if bit then right else left) with
      | leaf leafSymbol leafFrequency =>
        rw [hkind] at hchild
        simp only [treePaths, List.mem_singleton, Prod.mk.injEq] at hchild
        obtain ⟨hsymbol, hrest⟩ := hchild
        subst hrest
        subst hsymbol
        refine ⟨after, hafter, ?_⟩
        simp only [List.length_nil, Nat.zero_add]
      | node nextLeft nextRight nextFrequency =>
        rw [hkind] at hchild
        have hnext := ih (some (.node nextLeft nextRight nextFrequency)) (position + 1) after
          rfl hchild hafter
          (fun index hlt => by
            have := hbits (index + 1) (by simp only [List.length_cons]; omega)
            rw [List.getElem?_cons_succ] at this
            rw [this]
            congr 3 <;> omega)
          (fun index hlt => by
            have := hroom (index + 1) (by simp only [List.length_cons]; omega)
            have hsame : position + 1 + index = position + (index + 1) := by omega
            rw [hsame]
            exact this)
        obtain ⟨final, hfinal, hloop⟩ := hnext
        refine ⟨final, ?_, hloop⟩
        have hsame : position + (bit :: rest).length = position + 1 + rest.length := by
          simp only [List.length_cons]
          omega
        rw [hsame]
        exact hfinal

/-- Reading the paths of a list of symbols one after the other makes the loop of
`huffmanDecompress` write those symbols. -/
theorem decode_symbols (rootNode : HuffmanNode) (source : BlockDescriptor) (start : Nat)
    (pathOf : Nat → List Bool) (hinternal : isInternal rootNode = true) :
    ∀ (symbols : List Nat) (position fuel : Nat) (block output : BlockDescriptor),
      (∀ symbol ∈ symbols, (symbol, pathOf symbol) ∈ treePaths rootNode) →
      ReadingAt source start position block →
      (∀ index, index < (symbols.flatMap pathOf).length →
        (symbols.flatMap pathOf)[index]?
          = some ((source.address (start + (position + index) / 8)).testBit
            ((position + index) % 8))) →
      (∀ index, index < (symbols.flatMap pathOf).length →
        start + (position + index) / 8 < source.allocatedSize) →
      (symbols.flatMap pathOf).length ≤ fuel →
      ∃ after, ReadingAt source start (position + (symbols.flatMap pathOf).length) after ∧
        huffmanDecodeLoop rootNode fuel symbols.length none block output
          = .ok (none, after, writeBytes output symbols) := by
  intro symbols
  induction symbols with
  | nil =>
    intro position fuel block output _ hreading _ _ _
    exact ⟨block, hreading, huffmanDecodeLoop_done _ _ _ _ _⟩
  | cons symbol rest ih =>
    intro position fuel block output hpaths hreading hbits hroom hfuel
    have hflat : (symbol :: rest).flatMap pathOf = pathOf symbol ++ rest.flatMap pathOf := by
      simp [List.flatMap_cons]
    rw [hflat] at hbits hroom hfuel ⊢
    rw [List.length_append] at hbits hroom hfuel ⊢
    obtain ⟨middle, hmiddle, hloop⟩ :=
      decode_symbol rootNode source start symbol (fuel - (pathOf symbol).length) rest.length
        output (pathOf symbol) none position block hinternal
        (hpaths symbol (List.mem_cons_self _ _)) hreading
        (fun index hlt => by
          rw [← hbits index (by omega), List.getElem?_append_left hlt])
        (fun index hlt => hroom index (by omega))
    obtain ⟨after, hafter, hrest⟩ :=
      ih (position + (pathOf symbol).length) (fuel - (pathOf symbol).length) middle
        (writeToBlock output symbol).1
        (fun other hother => hpaths other (List.mem_cons_of_mem _ hother)) hmiddle
        (fun index hlt => by
          have := hbits ((pathOf symbol).length + index) (by omega)
          rw [List.getElem?_append_right (by omega)] at this
          have hsame : (pathOf symbol).length + index - (pathOf symbol).length = index := by
            omega
          rw [hsame] at this
          rw [this]
          congr 3 <;> omega)
        (fun index hlt => by
          have := hroom ((pathOf symbol).length + index) (by omega)
          have hsame : position + (pathOf symbol).length + index
              = position + ((pathOf symbol).length + index) := by omega
          rw [hsame]
          exact this)
        (by omega)
    refine ⟨after, ?_, ?_⟩
    · rw [← Nat.add_assoc]
      exact hafter
    · have hsplit : fuel = (pathOf symbol).length + (fuel - (pathOf symbol).length) := by omega
      rw [← hsplit] at hloop
      rw [List.length_cons, hloop, hrest]
      rfl

theorem readBytesInFile_upTo (block : BlockDescriptor) :
    ∀ count : Nat, block.nextByteToRead + count ≤ block.allocatedSize →
      (List.range count).foldlM
        (fun (state : Nat × BlockDescriptor) offset => do
          let (byte, afterRead) ← readFromBlock state.2
          pure (state.1 + (byte % 256) <<< (8 * offset), afterRead))
        (0, block)
      = .ok (assembledSize block.address block.nextByteToRead count,
          advanceBytes block count) := by
  intro count
  induction count with
  | zero => intro _; rfl
  | succ count ih =>
    intro hroom
    rw [List.range_succ, List.foldlM_append, ih (by omega)]
    have hread := readFromBlock_ok (advanceBytes block count)
      (by simp only [advanceBytes]; omega)
    simp only [bind, Except.bind, List.foldlM_cons, List.foldlM_nil, hread, pure, Except.pure]
    rfl

theorem readBytesInFile_ok (block : BlockDescriptor)
    (hroom : block.nextByteToRead + 8 ≤ block.allocatedSize) :
    readBytesInFile block
      = .ok (assembledSize block.address block.nextByteToRead 8, advanceBytes block 8) :=
  readBytesInFile_upTo block 8 hroom

theorem assembledSize_sizeBytes (memory : Nat → Nat) (cursor bytesInFile : Nat)
    (hheld : ∀ offset, offset < 8 → memory (cursor + offset) = bytesInFileByte bytesInFile offset) :
    ∀ count, count ≤ 8 → assembledSize memory cursor count = bytesInFile % 256 ^ count := by
  intro count
  induction count with
  | zero => intro _; simp [assembledSize, Nat.mod_one]
  | succ count ih =>
    intro hcount
    rw [assembledSize, ih (by omega), hheld count (by omega), Nat.mod_pow_succ]
    unfold bytesInFileByte
    rw [Nat.mod_mod, Nat.shiftLeft_eq, Nat.shiftRight_eq_div_pow, Nat.pow_mul]
    norm_num
    rw [Nat.mul_comm]

theorem clearFlag_huffman :
    ∀ encoding, encoding < 256 → encoding.testBit 2 = false →
      clearFlag ((encoding ||| ENCODING_HUFFMAN) % 256) ENCODING_HUFFMAN = encoding := by
  decide

theorem map_mod_of_lt :
    ∀ bytes : List Nat, (∀ byte ∈ bytes, byte < 256) →
      bytes.map (fun character => character % 256) = bytes := by
  intro bytes
  induction bytes with
  | nil => intro _; rfl
  | cons byte rest ih =>
    intro hbytes
    rw [List.map_cons, ih (fun other hother => hbytes other (List.mem_cons_of_mem _ hother)),
      Nat.mod_eq_of_lt (hbytes byte (List.mem_cons_self _ _))]

theorem sizeBytes_length (bytesInFile : Nat) : (sizeBytes bytesInFile).length = 8 := by
  simp [sizeBytes]

/-- The blocks that `huffmanCompress` returns for an input in which every byte
value occurs fewer than 2^32 times: `huffmanDecompress` returns the bytes of the
input. -/
theorem huffmanDecompress_compressed (heap heapAgain : Nat → Nat)
    (inputBlock outputBlock : BlockDescriptor)
    (hbytes : ∀ byte ∈ contents inputBlock, byte < 256)
    (hsize : inputBlock.usedSize < 2 ^ 64)
    (hcounts : ∀ symbol, (contents inputBlock).count symbol < 2 ^ 32)
    (hcompress : huffmanCompress heap inputBlock = .ok outputBlock) :
    ∃ restored, huffmanDecompress none heapAgain outputBlock = .ok (some restored, none) ∧
      contents restored = contents inputBlock ∧
      restored.encoding = clearFlag outputBlock.encoding ENCODING_HUFFMAN := by
  obtain ⟨hclear, first, second, hfirst, hsecond, hdistinct⟩ :=
    huffmanCompress_distinct hbytes hcompress
  obtain ⟨tree, frequencyTable, hbuild, hwalk, hinternal, hleaves, hcodes, _, hfields, hlong,
    hshort⟩ :=
    huffmanCompress_result heap inputBlock first second hbytes hsize hclear hfirst hsecond
      hdistinct
  have hall : ∀ symbol ∈ contents inputBlock, (frequencyTable symbol).huffmanBitCount ≤ 32 := by
    by_contra hnot
    rw [hlong hnot] at hcompress
    cases hcompress
  obtain ⟨other, hok, hlayout⟩ := hshort hall
  rw [hcompress] at hok
  cases hok
  -- the flag
  have hflag : isHuffmanCompressed outputBlock = true := by
    rw [isHuffmanCompressed_eq_testBit, hlayout.encoding]
    have htwo : ENCODING_HUFFMAN = 2 ^ 2 := rfl
    rw [htwo, testBit_setFlag _ 2 2 (by norm_num)]
    simp
  -- the header
  have hheader : Holds outputBlock 0 (headerBytes frequencyTable inputBlock.usedSize) := by
    intro index hlt
    rw [Nat.zero_add]
    exact hlayout.header index hlt
  unfold headerBytes at hheader
  rw [List.append_assoc] at hheader
  obtain ⟨hsizeHeld, htableHeld⟩ := (holds_append _ _ _ _).mp hheader
  rw [sizeBytes_length, Nat.zero_add] at htableHeld
  have hlength : (headerBytes frequencyTable inputBlock.usedSize).length
      = 8 + (1 + (tableBytes frequencyTable).length) := by
    unfold headerBytes
    rw [List.append_assoc, List.length_append, sizeBytes_length, List.length_append]
    rfl
  have hused := hlayout.used
  have hcapacity := hlayout.capacity
  have hreadByte := hlayout.readByte
  have hreadBit := hlayout.readBit
  rw [hlength] at hused
  -- the size
  have hsizeRead : readBytesInFile outputBlock
      = .ok (inputBlock.usedSize, advanceBytes outputBlock 8) := by
    rw [readBytesInFile_ok outputBlock (by omega), hreadByte,
      assembledSize_sizeBytes outputBlock.address 0 inputBlock.usedSize
        (fun offset hlt => by
          have := hsizeHeld offset (by rw [sizeBytes_length]; exact hlt)
          rw [this, List.getD_eq_getElem _ _ (by rw [sizeBytes_length]; exact hlt)]
          simp [sizeBytes]) 8 (le_refl _)]
    congr 2
    apply Nat.mod_eq_of_lt
    norm_num at hsize ⊢
    exact hsize
  -- the table
  have hpresentEq : presentSymbols frequencyTable
      = presentSymbols (countTable (contents inputBlock)) :=
    presentSymbols_congr _ _ (fun index => (hfields index).2)
  have hpresent : 1 ≤ (presentSymbols frequencyTable).length := by
    apply List.length_pos.mpr
    intro hnil
    have hmem : first ∈ presentSymbols frequencyTable := by
      rw [hpresentEq, mem_presentSymbols_countTable _ hbytes]
      exact hfirst
    rw [hnil] at hmem
    cases hmem
  obtain ⟨restored, hread, _, hrebuilt, _, _⟩ :=
    readFrequencyTableFromBlock_ok frequencyTable (advanceBytes outputBlock 8)
      (fun index => (hfields index).1)
      (fun index => by rw [(hfields index).2]; exact hcounts index)
      hpresent
      (by
        show Holds (advanceBytes outputBlock 8) (outputBlock.nextByteToRead + 8) _
        rw [hreadByte, Nat.zero_add]
        exact (holds_advance _ _ _ _).mpr htableHeld)
      (by
        show outputBlock.nextByteToRead + 8 + _ ≤ outputBlock.allocatedSize
        omega)
  have hsameLeaves : leafList frequencyTable = leafList (populateFrequencyTable inputBlock) := by
    rw [populateFrequencyTable_eq inputBlock hbytes, leafList_eq, leafList_eq, hpresentEq]
    apply List.map_congr_left
    intro symbol _
    rw [(hfields symbol).1, (hfields symbol).2]
    rfl
  have htree : buildHuffmanTree restored = .ok tree := by
    rw [hrebuilt, buildHuffmanTree_congr _ _ hsameLeaves, hbuild]
  -- the payload
  have hpaths : ∀ symbol ∈ contents inputBlock,
      (symbol, patternBits (frequencyTable symbol).huffmanBits
        (frequencyTable symbol).huffmanBitCount) ∈ treePaths tree := by
    intro symbol hmem
    have hleaf : symbol ∈ leafSymbols tree := by
      rw [hleaves.mem_iff, mem_presentSymbols_countTable _ hbytes]
      exact hmem
    rw [← treePaths_symbols] at hleaf
    obtain ⟨entry, hentry, hsame⟩ := List.mem_map.mp hleaf
    have hcode := hcodes entry hentry
    rw [hsame] at hcode
    have hshortPath : entry.2.length ≤ 32 := by
      have := hall symbol hmem
      rw [hcode] at this
      exact this
    rw [hcode]
    show (symbol, patternBits (extendPattern 0 entry.2) entry.2.length) ∈ treePaths tree
    rw [patternBits_extendPattern entry.2 0 hshortPath, ← hsame]
    exact hentry
  have hstart : ReadingAt outputBlock (headerBytes frequencyTable inputBlock.usedSize).length 0
      (advanceBytes (advanceBytes outputBlock 8) (1 + (tableBytes frequencyTable).length)) := by
    refine ⟨rfl, rfl, rfl, ?_, ?_⟩
    · show outputBlock.nextByteToRead + 8 + (1 + (tableBytes frequencyTable).length) = _
      rw [hlength, hreadByte]
      omega
    · exact hreadBit
  obtain ⟨after, hafter, hloop⟩ :=
    decode_symbols tree outputBlock (headerBytes frequencyTable inputBlock.usedSize).length
      (fun symbol => patternBits (frequencyTable symbol).huffmanBits
        (frequencyTable symbol).huffmanBitCount) hinternal (contents inputBlock) 0
      (8 * outputBlock.allocatedSize + 1)
      (advanceBytes (advanceBytes outputBlock 8) (1 + (tableBytes frequencyTable).length))
      (makeMemoryBlock heapAgain inputBlock.usedSize) hpaths hstart
      (fun index hlt => by
        rw [Nat.zero_add]
        exact hlayout.payload index hlt)
      (fun index hlt => by
        have hbits : index < (codeBits frequencyTable (contents inputBlock)).length := hlt
        rw [Nat.zero_add, hlength]
        omega)
      (by
        show (codeBits frequencyTable (contents inputBlock)).length ≤ _
        omega)
  rw [contents_length] at hloop
  have hpositive : 1 ≤ inputBlock.usedSize := by
    rw [← contents_length]
    exact List.length_pos.mpr (List.ne_nil_of_mem hfirst)
  obtain ⟨_, hwrittenUsed, _, _, _, _, _, _, hwritten⟩ :=
    writeBytes_state heapAgain inputBlock.usedSize hpositive (contents inputBlock)
  refine ⟨{ writeBytes (makeMemoryBlock heapAgain inputBlock.usedSize) (contents inputBlock) with
      encoding := clearFlag after.encoding ENCODING_HUFFMAN }, ?_, ?_, ?_⟩
  · unfold huffmanDecompress
    rw [hflag, hsizeRead]
    simp only [Bool.not_true, Bool.false_eq_true, if_false, bind, Except.bind, hread, htree]
    have hsame : (advanceBytes (advanceBytes outputBlock 8)
        (1 + (tableBytes frequencyTable).length)).allocatedSize = outputBlock.allocatedSize := rfl
    rw [hsame, hloop]
    rfl
  · have hsame : contents { writeBytes (makeMemoryBlock heapAgain inputBlock.usedSize)
          (contents inputBlock) with encoding := clearFlag after.encoding ENCODING_HUFFMAN }
        = contents (writeBytes (makeMemoryBlock heapAgain inputBlock.usedSize)
          (contents inputBlock)) := rfl
    rw [hsame, hwritten]
    exact map_mod_of_lt _ hbytes
  · show clearFlag after.encoding ENCODING_HUFFMAN = _
    rw [hafter.encoding]

theorem tableBytes_congr (first second : FrequencyTable)
    (h : ∀ index, (first index).frequency = (second index).frequency) :
    tableBytes first = tableBytes second := by
  unfold tableBytes
  rw [presentSymbols_congr first second h]
  apply List.flatMap_congr
  intro symbol _
  rw [h symbol]

theorem tableBytes_of_counts (bytes : List Nat) (frequencyTable : FrequencyTable)
    (h : ∀ symbol, (frequencyTable symbol).frequency = bytes.count symbol) :
    tableBytes frequencyTable = tableBytes (countTable bytes) :=
  tableBytes_congr frequencyTable (countTable bytes) h

theorem isHuffmanCompressed_of_layout {inputBlock outputBlock : BlockDescriptor}
    {frequencyTable : FrequencyTable}
    (hlayout : CompressedLayout inputBlock frequencyTable outputBlock) :
    isHuffmanCompressed outputBlock = true := by
  rw [isHuffmanCompressed_eq_testBit, hlayout.encoding]
  have hpower : ENCODING_HUFFMAN = 2 ^ 2 := rfl
  rw [hpower, testBit_setFlag _ 2 2 (by norm_num)]
  simp

/-- The round trip of `huffmanDecompress_compressed` on the two bytes 0x41, 0x42. -/
theorem huffman_round_trip_sample :
    ∃ outputBlock restored,
      huffmanCompress (fun _ => 0) sampleTwoSymbolBlock = .ok outputBlock ∧
      huffmanDecompress none (fun _ => 0) outputBlock = .ok (some restored, none) ∧
      contents restored = contents sampleTwoSymbolBlock ∧
      restored.encoding = clearFlag outputBlock.encoding ENCODING_HUFFMAN := by
  have hcompress : huffmanCompress (fun _ => 0) sampleTwoSymbolBlock
      = .ok (resultOr sampleTwoSymbolBlock (huffmanCompress (fun _ => 0) sampleTwoSymbolBlock)) :=
    rfl
  obtain ⟨restored, hrestored⟩ :=
    huffmanDecompress_compressed (fun _ => 0) (fun _ => 0) sampleTwoSymbolBlock _ (by decide)
      (by decide) (by
        intro symbol
        have hlength : (contents sampleTwoSymbolBlock).length < 2 ^ 32 := by decide
        exact lt_of_le_of_lt (List.count_le_length _ _) hlength) hcompress
  exact ⟨_, restored, hcompress, hrestored⟩

/-- C32. Frequency analysis: for every block (of bytes, i.e. cells below 256) and
every byte value `symbol`, the entry at index `symbol` of the table that
`populateFrequencyTable` leaves has `symbol` as symbol, the number of
occurrences of `symbol` among the first `usedSize` bytes as frequency, pattern
0 and pattern length 0; the frequencies of the 256 entries sum to `usedSize`. -/
theorem frequency_analysis (inputBlock : BlockDescriptor)
    (hbytes : ∀ byte ∈ contents inputBlock, byte < 256) :
    (∀ symbol, symbol < 256 →
      populateFrequencyTable inputBlock symbol
        = { symbol := symbol
            frequency := (contents inputBlock).count symbol
            huffmanBits := 0
            huffmanBitCount := 0 }) ∧
    ((List.range FREQUENCY_TABLE_SIZE).map
      (fun symbol => (populateFrequencyTable inputBlock symbol).frequency)).sum
        = inputBlock.usedSize := by
  rw [populateFrequencyTable_eq inputBlock hbytes]
  refine ⟨fun symbol _ => rfl, ?_⟩
  have hsum := sum_map_count (fun _ => 1) (contents inputBlock) hbytes
  simp only [List.map_const', List.sum_replicate, smul_eq_mul, Nat.mul_one, Nat.one_mul,
    contents_length] at hsum
  rw [hsum]
  rfl

theorem frequency_analysis_witness :
    (∀ byte ∈ contents sampleTwoSymbolBlock, byte < 256) ∧
    contents sampleTwoSymbolBlock = [0x41, 0x42] ∧
    ((∀ symbol, symbol < 256 →
      populateFrequencyTable sampleTwoSymbolBlock symbol
        = { symbol := symbol
            frequency := (contents sampleTwoSymbolBlock).count symbol
            huffmanBits := 0
            huffmanBitCount := 0 }) ∧
    ((List.range FREQUENCY_TABLE_SIZE).map
      (fun symbol => (populateFrequencyTable sampleTwoSymbolBlock symbol).frequency)).sum
        = sampleTwoSymbolBlock.usedSize) :=
  ⟨by decide, rfl, frequency_analysis sampleTwoSymbolBlock (by decide)⟩

/-- The loop of `huffmanDecompress` ends with the static `state` of
`getHuffmanChar` at `NULL`, unless it makes no pass and `state` was not `NULL`
before. -/
theorem huffmanDecodeLoop_state (huffmanNode : HuffmanNode) :
    ∀ (fuel bytesInFile : Nat) (state : Option HuffmanNode)
      (inputBlock outputBlock : BlockDescriptor)
      (final : Option HuffmanNode × BlockDescriptor × BlockDescriptor),
      huffmanDecodeLoop huffmanNode fuel bytesInFile state inputBlock outputBlock = .ok final →
      (bytesInFile = 0 → state = none) → final.1 = none := by
  intro fuel
  induction fuel with
  | zero =>
    intro bytesInFile state inputBlock outputBlock final h hstart
    cases bytesInFile with
    | zero =>
      rw [huffmanDecodeLoop_done] at h
      cases h
      exact hstart rfl
    | succ remaining => cases h
  | succ fuel ih =>
    intro bytesInFile state inputBlock outputBlock final h hstart
    cases bytesInFile with
    | zero =>
      rw [huffmanDecodeLoop_done] at h
      cases h
      exact hstart rfl
    | succ remaining =>
      rw [huffmanDecodeLoop] at h
      cases hread : readBitFromBlock inputBlock with
      | error failure =>
        rw [hread] at h
        cases h
      | ok read =>
        rw [hread] at h
        simp only [bind, Except.bind] at h
        cases hchar : getHuffmanChar state read.1 huffmanNode with
        | error failure =>
          rw [hchar] at h
          cases h
        | ok stepped =>
          rw [hchar] at h
          obtain ⟨nextState, character⟩ := stepped
          cases character with
          | none =>
            exact ih (remaining + 1) nextState read.2 outputBlock final h
              (fun hzero => by cases hzero)
          | some symbol =>
            have hnone : nextState = none := by
              unfold getHuffmanChar at hchar
              simp only at hchar
              repeat' split at hchar
              all_goals cases hchar
              all_goals rfl
            exact ih remaining nextState read.2 (writeToBlock outputBlock symbol).1 final h
              (fun _ => hnone)

/-- C38. Hidden decode state: whenever `huffmanDecompress`, entered with the
static `state` of `getHuffmanChar` at `NULL` (its initial value), returns, that
`state` is `NULL` again; so a second call, on any block, entered with the state
the first call left, gives what the same call gives when entered with `NULL`,
that is, when its stream is decoded alone. -/
theorem decode_state_reset (heap heapAgain : Nat → Nat) (inputBlock second : BlockDescriptor)
    (output : Option BlockDescriptor) (finalState : Option HuffmanNode)
    (h : huffmanDecompress none heap inputBlock = .ok (output, finalState)) :
    finalState = none ∧
    huffmanDecompress finalState heapAgain second = huffmanDecompress none heapAgain second := by
  have hnone : finalState = none := by
    unfold huffmanDecompress at h
    split at h
    · cases h
      rfl
    · cases hsize : readBytesInFile inputBlock with
      | error failure => simp [hsize, bind, Except.bind] at h
      | ok sized =>
        cases htable : readFrequencyTableFromBlock sized.2 with
        | error failure => simp [hsize, htable, bind, Except.bind] at h
        | ok read =>
          cases htree : buildHuffmanTree read.1 with
          | error failure => simp [hsize, htable, htree, bind, Except.bind] at h
          | ok tree =>
            cases hloop : huffmanDecodeLoop tree (8 * read.2.allocatedSize + 1) sized.1 none
                read.2 (makeMemoryBlock heap sized.1) with
            | error failure => simp [hsize, htable, htree, hloop, bind, Except.bind] at h
            | ok final =>
              simp only [hsize, htable, htree, hloop, bind, Except.bind, pure, Except.pure,
                Except.ok.injEq, Prod.mk.injEq] at h
              rw [← h.2]
              exact huffmanDecodeLoop_state tree _ _ _ _ _ final hloop (fun _ => rfl)
  exact ⟨hnone, by rw [hnone]⟩

theorem decode_state_reset_witness :
    huffmanDecompress none (fun _ => 0) sampleHuffmanBlock
      = .ok (some { writeBytes (makeMemoryBlock (fun _ => 0) 2) [0x41, 0x42] with encoding := 0 },
          none) ∧
    ((none : Option HuffmanNode) = none ∧
      huffmanDecompress none (fun _ => 0) sampleHuffmanBlock
        = huffmanDecompress none (fun _ => 0) sampleHuffmanBlock) :=
  ⟨rfl,
    decode_state_reset (fun _ => 0) (fun _ => 0) sampleHuffmanBlock sampleHuffmanBlock
      (some { writeBytes (makeMemoryBlock (fun _ => 0) 2) [0x41, 0x42] with encoding := 0 })
      none rfl⟩

theorem readBits_ok (source : BlockDescriptor) (start : Nat) :
    ∀ (count position : Nat) (block : BlockDescriptor),
      ReadingAt source start position block →
      (∀ index, index < count → start + (position + index) / 8 < source.allocatedSize) →
      ∃ final,
        readBits count block
          = .ok ((List.range count).map
              (fun index => (source.address (start + (position + index) / 8)).testBit
                ((position + index) % 8)), final) ∧
        ReadingAt source start (position + count) final := by
  intro count
  induction count with
  | zero =>
    intro position block hreading _
    exact ⟨block, rfl, hreading⟩
  | succ count ih =>
    intro position block hreading hroom
    obtain ⟨after, hread, hafter⟩ := readBitFromBlock_ok hreading
      (by simpa using hroom 0 (by omega))
    obtain ⟨final, hrest, hfinal⟩ := ih (position + 1) after hafter
      (fun index hlt => by
        have := hroom (index + 1) (by omega)
        have hsame : position + 1 + index = position + (index + 1) := by omega
        rw [hsame]
        exact this)
    refine ⟨final, ?_, ?_⟩
    · rw [readBits, hread]
      simp only [bind, Except.bind, hrest, pure, Except.pure]
      rw [List.range_succ_eq_map, List.map_cons, List.map_map]
      congr 3
      apply List.map_congr_left
      intro index _
      show (source.address (start + (position + 1 + index) / 8)).testBit
          ((position + 1 + index) % 8)
        = (source.address (start + (position + (index + 1)) / 8)).testBit
          ((position + (index + 1)) % 8)
      have hsame : position + 1 + index = position + (index + 1) := by omega
      rw [hsame]
    · have hsame : position + (count + 1) = position + 1 + count := by omega
      rw [hsame]
      exact hfinal

/-- C39. Bit write/read round trip: for every capacity of 1 or more and every
finite sequence of bits, after the bits are written with `writeBitToBlock` to
`makeMemoryBlock(capacity)`, as many calls of `readBitFromBlock` return the
bits in order; bit `position % 8` of byte `position / 8` of the buffer is the
bit written at `position`, and `usedSize` is the number of bits divided by 8,
rounded up. -/
theorem bit_round_trip (heap : Nat → Nat) (capacity : Nat) (bits : List Bool)
    (hcapacity : 1 ≤ capacity) :
    (∃ final,
      readBits bits.length (writeBits (makeMemoryBlock heap capacity) bits)
        = .ok (bits, final)) ∧
    (∀ position, position < bits.length →
      bits[position]?
        = some (getBit (position % 8)
            ((writeBits (makeMemoryBlock heap capacity) bits).address (position / 8)))) ∧
    (writeBits (makeMemoryBlock heap capacity) bits).usedSize = (bits.length + 7) / 8 := by
  have happ : Appending (makeMemoryBlock heap capacity) := ⟨rfl, rfl⟩
  have hunread : Unread (makeMemoryBlock heap capacity) :=
    ⟨Nat.zero_le _, hcapacity, rfl, rfl⟩
  have hstart : PackedBits 0 heap [] (makeMemoryBlock heap capacity) :=
    packedBits_start happ hunread
  have hpacked : PackedBits 0 heap ([] ++ bits) (writeBits (makeMemoryBlock heap capacity) bits) :=
    packedBits_foldl bits [] _ hstart
  rw [List.nil_append] at hpacked
  obtain ⟨_, _, hused, hcap, _, hreadByte, hreadBit, _, hpayload⟩ := hpacked
  rw [Nat.zero_add] at hused
  have hbit : ∀ position, position < bits.length →
      bits[position]?
        = some (((writeBits (makeMemoryBlock heap capacity) bits).address
            (position / 8)).testBit (position % 8)) := by
    intro position hlt
    have := hpayload position hlt
    rw [Nat.zero_add] at this
    exact this
  refine ⟨?_, ?_, hused⟩
  · obtain ⟨final, hread, _⟩ :=
      readBits_ok (writeBits (makeMemoryBlock heap capacity) bits) 0 bits.length 0
        (writeBits (makeMemoryBlock heap capacity) bits)
        ⟨rfl, rfl, rfl, by simpa using hreadByte, by simpa using hreadBit⟩
        (fun index hlt => by
          show 0 + (0 + index) / 8 < (writeBits (makeMemoryBlock heap capacity) bits).allocatedSize
          omega)
    refine ⟨final, ?_⟩
    rw [hread]
    congr 2
    apply List.ext_getElem?
    intro position
    by_cases hlt : position < bits.length
    · rw [hbit position hlt, List.getElem?_map, List.getElem?_range hlt]
      simp
    · rw [List.getElem?_eq_none (by simpa using hlt), List.getElem?_eq_none (by simpa using hlt)]
  · intro position hlt
    rw [getBit_eq_testBit (Nat.mod_lt _ (by norm_num))]
    exact hbit position hlt

theorem bit_round_trip_witness :
    1 ≤ 1 ∧
    ((∃ final,
      readBits [true, false, true, true, false, false, true, false, true, true].length
          (writeBits (makeMemoryBlock (fun _ => 0) 1)
            [true, false, true, true, false, false, true, false, true, true])
        = .ok ([true, false, true, true, false, false, true, false, true, true], final)) ∧
    (∀ position,
      position < [true, false, true, true, false, false, true, false, true, true].length →
      [true, false, true, true, false, false, true, false, true, true][position]?
        = some (getBit (position % 8)
            ((writeBits (makeMemoryBlock (fun _ => 0) 1)
              [true, false, true, true, false, false, true, false, true, true]).address
                (position / 8)))) ∧
    (writeBits (makeMemoryBlock (fun _ => 0) 1)
        [true, false, true, true, false, false, true, false, true, true]).usedSize
      = ([true, false, true, true, false, false, true, false, true, true].length + 7) / 8) :=
  ⟨by decide,
    bit_round_trip (fun _ => 0) 1
      [true, false, true, true, false, false, true, false, true, true] (by decide)⟩

/-- What `runLengthCompress` writes for a run of a reserved byte: ESCAPE and the
byte for a single copy, REPEAT, `length - 1` and the byte for 2 to 256 copies,
inside the input and at its end; the single copy at the end of the input is
written as REPEAT, 0, byte instead when the cell behind the buffer holds the
same byte. -/
theorem reserved_run_groups (character length beyond : Nat)
    (hreserved : character = REPEAT_SYMBOL ∨ character = ESCAPE_SYMBOL) :
    runGroup character 1 = [ESCAPE_SYMBOL, character] ∧
    (2 ≤ length → length ≤ 256 →
      runGroup character length = [REPEAT_SYMBOL, length - 1, character]) ∧
    (2 ≤ length → length ≤ 256 →
      lastRunGroup beyond character length = [REPEAT_SYMBOL, length - 1, character]) ∧
    (beyond ≠ character → lastRunGroup beyond character 1 = [ESCAPE_SYMBOL, character]) ∧
    lastRunGroup character character 1 = [REPEAT_SYMBOL, 0, character] := by
  have hnot : ¬ (character ≠ ESCAPE_SYMBOL ∧ character ≠ REPEAT_SYMBOL) := by
    rintro ⟨hescape, hrepeat⟩
    rcases hreserved with h | h
    · exact hrepeat h
    · exact hescape h
  have hrepeatBytes : ∀ repeatCount, repeatCount < 256 →
      writeRepeatBytes repeatCount character = [REPEAT_SYMBOL, repeatCount, character] := by
    intro repeatCount hlt
    unfold writeRepeatBytes
    rw [if_neg (fun h => hnot h.2), Nat.mod_eq_of_lt hlt]
  have hsingle : runTail character 0 = [ESCAPE_SYMBOL, character] := by
    unfold runTail writeByteBytes
    simp [hreserved]
  have hmany : ∀ count, 2 ≤ count → count ≤ 256 →
      (count - 1) / 256 = 0 ∧ (count - 1) % 256 = count - 1 ∧ count - 1 ≠ 0 := by
    intro count hlow hhigh
    omega
  refine ⟨?_, ?_, ?_, ?_, ?_⟩
  · unfold runGroup overflowGroups
    simpa using hsingle
  · intro hlow hhigh
    obtain ⟨hgroups, hrest, hpending⟩ := hmany length hlow hhigh
    unfold runGroup overflowGroups runTail
    rw [hgroups, hrest, if_pos hpending, hrepeatBytes _ (by omega)]
    rfl
  · intro hlow hhigh
    obtain ⟨hgroups, hrest, hpending⟩ := hmany length hlow hhigh
    unfold lastRunGroup overflowGroups runTail
    rw [hgroups, hrest, if_pos hpending, hrepeatBytes _ (by omega)]
    simp
  · intro hother
    unfold lastRunGroup overflowGroups
    rw [if_neg hother]
    simpa using hsingle
  · unfold lastRunGroup overflowGroups
    rw [if_pos rfl]
    simpa using hrepeatBytes 0 (by norm_num)

/-- C33 (the code breaks the claim). The one-byte input [235], a maximal run of
k = 1 copy of the reserved byte 235, is encoded as REPEAT, 0, 235 and not as
ESCAPE, 235 when the cell behind the buffer holds 235 too: after its loop
`runLengthCompress` compares the cell one past the buffer with the last byte and
calls `writeRepeat` with a count of 0.  With another value behind the buffer the
same input is encoded as ESCAPE, 235. -/
theorem reserved_single_at_end_fails :
    contents (reservedByteBlock 235) = [235] ∧
    (reservedByteBlock 235).allocatedSize = 1 ∧
    isRleCompressed (reservedByteBlock 235) = false ∧
    (reservedByteBlock 235).address 1 = 235 ∧
    (runLengthCompress (fun _ => 0) (reservedByteBlock 235)).map contents
      = .ok [REPEAT_SYMBOL, 0, 235] ∧
    contents (reservedByteBlock 0) = [235] ∧
    (runLengthCompress (fun _ => 0) (reservedByteBlock 0)).map contents
      = .ok [ESCAPE_SYMBOL, 235] :=
  ⟨rfl, rfl, rfl, rfl, rfl, rfl, rfl⟩

/-- The write cursor of the block that `unflipBitOrder` returns is at offset 0,
whatever the size of the block, and a `writeToBlock` on it stores its byte at
offset 0 and sets `usedSize` to 1. -/
theorem unflipBitOrder_cursor (heap : Nat → Nat) (source : BlockDescriptor) (character : Nat)
    (hflipped : isFlipped source = true)
    (hsize : source.usedSize ≤ source.allocatedSize)
    (hbyte : source.nextByteToRead = 0) (hbit : source.nextBitToRead = 0) :
    ∃ outputBlock, unflipBitOrder heap source = .ok (some outputBlock) ∧
      outputBlock.usedSize = source.usedSize ∧
      outputBlock.nextFreeByte = 0 ∧ outputBlock.nextFreeBit = 0 ∧
      (writeToBlock outputBlock character).2 = 0 ∧
      (writeToBlock outputBlock character).1.usedSize = 1 ∧
      (writeToBlock outputBlock character).1.address 0 = character % 256 := by
  obtain ⟨outputBlock, hok, hused, _, hfree, hfreeBit, _, _, _, _, _⟩ :=
    unflipBitOrder_ok heap source hflipped hsize hbyte hbit
  refine ⟨outputBlock, hok, hused, hfree, hfreeBit, ?_, ?_, ?_⟩
  · unfold writeToBlock
    simp only
    split <;> exact hfree
  · unfold writeToBlock
    simp only
    split <;> simp [hfree]
  · unfold writeToBlock store
    simp only
    split <;> simp [hfree]

/-- C34, as the claim states it, fails: `unflipBitOrder` on the flipped form of the
two bytes 0x41, 0x42 returns a block that holds these bytes with `usedSize` 2,
but `unflipBlock` stored them with `setBit` and set `usedSize` directly, so the
write cursor `nextFreeByte` is still 0, not 2; a `writeToBlock(result, 0x43)`
then returns offset 0, overwrites the first byte and leaves `usedSize` 1, the
block holding [0x43] instead of [0x41, 0x42, 0x43]. -/
theorem unflip_cursor_fails :
    (flipBitOrder (fun _ => 0) sampleTwoSymbolBlock).map contents
      = .ok (contents sampleFlippedPair) ∧
    isFlipped sampleFlippedPair = true ∧
    (unflipBitOrder (fun _ => 0) sampleFlippedPair).map
      (Option.map (fun block =>
        (contents block, block.usedSize, block.nextFreeByte, block.nextFreeBit)))
      = .ok (some ([0x41, 0x42], 2, 0, 0)) ∧
    (unflipBitOrder (fun _ => 0) sampleFlippedPair).map
      (Option.map (fun block =>
        ((writeToBlock block 0x43).2, contents (writeToBlock block 0x43).1,
          (writeToBlock block 0x43).1.usedSize)))
      = .ok (some (0, [0x43], 1)) :=
  ⟨rfl, rfl, rfl, rfl⟩

/-- C35 (the code breaks the claim). Two blocks that hold the one byte 235 in a
buffer of capacity 1 and differ only in the cell one past the buffer (235 or 0)
are encoded differently, as REPEAT, 0, 235 and as ESCAPE, 235; and of two
blocks with the same memory and `usedSize` 1, the one with `allocatedSize` 2
has the byte after its content encoded too, since the loop of
`runLengthCompress` runs over `allocatedSize`. -/
theorem runLength_reads_past_content :
    (reservedByteBlock 235).usedSize = (reservedByteBlock 0).usedSize ∧
    (reservedByteBlock 235).allocatedSize = (reservedByteBlock 0).allocatedSize ∧
    contents (reservedByteBlock 235) = contents (reservedByteBlock 0) ∧
    (reservedByteBlock 235).address 1 = 235 ∧ (reservedByteBlock 0).address 1 = 0 ∧
    (runLengthCompress (fun _ => 0) (reservedByteBlock 235)).map contents
      = .ok [235, 0, 235] ∧
    (runLengthCompress (fun _ => 0) (reservedByteBlock 0)).map contents = .ok [236, 235] ∧
    partlyUsedBlock.usedSize = fullyUsedBlock.usedSize ∧
    contents partlyUsedBlock = contents fullyUsedBlock ∧
    (∀ offset, partlyUsedBlock.address offset = fullyUsedBlock.address offset) ∧
    partlyUsedBlock.allocatedSize = 2 ∧ fullyUsedBlock.allocatedSize = 1 ∧
    (runLengthCompress (fun _ => 0) partlyUsedBlock).map contents = .ok [0x41, 0x42] ∧
    (runLengthCompress (fun _ => 0) fullyUsedBlock).map contents = .ok [0x41] := by
  refine ⟨rfl, rfl, rfl, rfl, rfl, rfl, rfl, rfl, rfl, ?_, rfl, rfl, rfl, rfl⟩
  intro offset
  match offset with
  | 0 => rfl
  | 1 => rfl
  | offset + 2 =>
    show mappedMemory [0x41, 0x42] (fun _ => 0) (offset + 2)
      = mappedMemory [0x41] (fun offset => if offset = 0 then 0x42 else 0) (offset + 2)
    unfold mappedMemory
    simp

/-- The `pqueueAdd` of a node to a queue in ascending order of frequency leaves
the queue in ascending order. -/
theorem pqueueAdd_ascending (node : HuffmanNode) :
    ∀ queue : List HuffmanNode, AscendingQueue queue → AscendingQueue (pqueueAdd node queue) := by
  intro queue
  induction queue with
  | nil =>
    intro _
    exact List.pairwise_singleton _ _
  | cons entry rest ih =>
    intro hsorted
    obtain ⟨hentry, hrest⟩ := List.pairwise_cons.mp hsorted
    unfold pqueueAdd
    split
    · rename_i hless
      apply List.pairwise_cons.mpr
      refine ⟨?_, ih hrest⟩
      intro later hmem
      rcases List.mem_cons.mp ((pqueueAdd_perm node rest).subset hmem) with hnode | hrestMem
      · rw [hnode]
        exact Nat.le_of_lt hless
      · exact hentry later hrestMem
    · rename_i hnotLess
      apply List.pairwise_cons.mpr
      refine ⟨?_, hsorted⟩
      intro later hmem
      rcases List.mem_cons.mp hmem with hsame | hrestMem
      · rw [hsame]
        exact Nat.le_of_not_lt hnotLess
      · exact Nat.le_trans (Nat.le_of_not_lt hnotLess) (hentry later hrestMem)

theorem queueOf_ascending : ∀ nodes : List HuffmanNode, AscendingQueue (queueOf nodes) := by
  intro nodes
  induction nodes using List.reverseRecOn with
  | nil => exact List.Pairwise.nil
  | append_singleton nodes node ih =>
    unfold queueOf at ih ⊢
    rw [List.foldl_append]
    exact pqueueAdd_ascending node _ ih

/-- The queue that the first loop of `buildHuffmanTree` leaves is in ascending
order of frequency. -/
theorem buildHuffmanQueue_ascending (frequencyTable : FrequencyTable) :
    AscendingQueue (buildHuffmanQueue frequencyTable) := by
  rw [buildHuffmanQueue_eq]
  exact queueOf_ascending _

/-- One pass of the loop of `buildHuffmanTree`: the two nodes at the front of
the queue are popped, the first as right child, and a node with the sum of
their frequencies, as an `unsigned`, is added to the rest of the queue. -/
theorem buildHuffmanLoop_merge (fuel : Nat) (first second : HuffmanNode)
    (rest : List HuffmanNode) :
    buildHuffmanLoop (fuel + 1) (first :: second :: rest)
      = buildHuffmanLoop fuel
          (pqueueAdd (.node second first ((second.frequency + first.frequency) % 2 ^ 32))
            rest) := rfl

/-- The loop of `buildHuffmanTree` on a queue in ascending order of nodes with
frequencies below 2^32: every queue it goes through is in ascending order, so
that the two nodes popped are the two of lowest frequency; it returns a tree
whose frequency is the sum of the frequencies in the queue modulo 2^32. -/
theorem buildHuffmanLoop_frequency :
    ∀ (fuel : Nat) (queue : List HuffmanNode), queue ≠ [] → queue.length ≤ fuel + 1 →
      AscendingQueue queue →
      (∀ node ∈ queue, node.frequency < 2 ^ 32 ∧ mergedBySum node = true) →
      ∃ tree, buildHuffmanLoop fuel queue = .ok tree ∧
        tree.frequency = (queue.map HuffmanNode.frequency).sum % 2 ^ 32 ∧
        mergedBySum tree = true := by
  intro fuel
  induction fuel with
  | zero =>
    intro queue hne hlen _ hnodes
    match queue, hne, hlen, hnodes with
    | [node], _, _, hnodes =>
      obtain ⟨hsmall, hmerged⟩ := hnodes node (List.mem_singleton.mpr rfl)
      exact ⟨node, rfl, by
        simp only [List.map_cons, List.map_nil, List.sum_cons, List.sum_nil, Nat.add_zero]
        exact (Nat.mod_eq_of_lt hsmall).symm, hmerged⟩
    | _ :: _ :: _, _, hlen, _ => simp at hlen
  | succ fuel ih =>
    intro queue hne hlen hsorted hnodes
    match queue, hne, hlen, hsorted, hnodes with
    | [node], _, _, _, hnodes =>
      obtain ⟨hsmall, hmerged⟩ := hnodes node (List.mem_singleton.mpr rfl)
      exact ⟨node, rfl, by
        simp only [List.map_cons, List.map_nil, List.sum_cons, List.sum_nil, Nat.add_zero]
        exact (Nat.mod_eq_of_lt hsmall).symm, hmerged⟩
    | first :: second :: rest, _, hlen, hsorted, hnodes =>
      obtain ⟨hfirst, hlater⟩ := List.pairwise_cons.mp hsorted
      obtain ⟨_, hrest⟩ := List.pairwise_cons.mp hlater
      have horder : first.frequency ≤ second.frequency :=
        hfirst second (List.mem_cons_self _ _)
      have hperm := pqueueAdd_perm
        (HuffmanNode.node second first ((second.frequency + first.frequency) % 2 ^ 32)) rest
      have hnext : pqueueAdd
          (HuffmanNode.node second first ((second.frequency + first.frequency) % 2 ^ 32)) rest
          ≠ [] := by
        intro hnil
        rw [hnil] at hperm
        exact List.cons_ne_nil _ _ hperm.symm.eq_nil
      have hlength : (pqueueAdd
          (HuffmanNode.node second first ((second.frequency + first.frequency) % 2 ^ 32))
          rest).length ≤ fuel + 1 := by
        rw [hperm.length_eq]
        simp only [List.length_cons] at hlen ⊢
        omega
      have hmergedFirst := (hnodes first (List.mem_cons_self _ _)).2
      have hmergedSecond := (hnodes second (List.mem_cons_of_mem _ (List.mem_cons_self _ _))).2
      obtain ⟨tree, hok, hfrequency, hmerged⟩ :=
        ih _ hnext hlength (pqueueAdd_ascending _ rest hrest)
          (fun node hmem => by
            rcases List.mem_cons.mp (hperm.subset hmem) with hnew | hold
            · rw [hnew]
              refine ⟨Nat.mod_lt _ (by norm_num), ?_⟩
              simp [mergedBySum, horder, hmergedFirst, hmergedSecond]
            · exact hnodes node (List.mem_cons_of_mem _ (List.mem_cons_of_mem _ hold)))
      refine ⟨tree, ?_, ?_, hmerged⟩
      · rw [buildHuffmanLoop_merge]
        exact hok
      · rw [hfrequency, (hperm.map HuffmanNode.frequency).sum_eq]
        simp only [List.map_cons, List.sum_cons, HuffmanNode.frequency]
        omega

theorem sum_leafList (frequencyTable : FrequencyTable) :
    ((leafList frequencyTable).map HuffmanNode.frequency).sum % 2 ^ 32
      = ((List.range FREQUENCY_TABLE_SIZE).map
          (fun index => (frequencyTable index).frequency)).sum % 2 ^ 32 := by
  unfold leafList
  generalize List.range FREQUENCY_TABLE_SIZE = indices
  induction indices with
  | nil => rfl
  | cons index rest ih =>
    by_cases hzero : (frequencyTable index).frequency = 0
    · have hdrop : ¬ decide ((frequencyTable index).frequency ≠ 0) = true := by simp [hzero]
      have hfilter : List.filter (fun index => decide ((frequencyTable index).frequency ≠ 0))
          (index :: rest)
          = List.filter (fun index => decide ((frequencyTable index).frequency ≠ 0)) rest :=
        List.filter_cons_of_neg hdrop
      rw [hfilter, List.map_cons, List.sum_cons, hzero, Nat.zero_add]
      exact ih
    · have hkeep : decide ((frequencyTable index).frequency ≠ 0) = true := by simp [hzero]
      have hfilter : List.filter (fun index => decide ((frequencyTable index).frequency ≠ 0))
          (index :: rest)
          = index :: List.filter (fun index => decide ((frequencyTable index).frequency ≠ 0))
              rest :=
        List.filter_cons_of_pos hkeep
      rw [hfilter, List.map_cons, List.map_cons, List.sum_cons, List.map_cons, List.sum_cons]
      show ((frequencyTable index).frequency % 2 ^ 32 + _) % 2 ^ 32 = _
      rw [Nat.add_mod, Nat.mod_mod, ih, ← Nat.add_mod]

/-- The tree of `buildHuffmanTree` for a table with an entry in use: every
internal node has the sum of the frequencies of its children modulo 2^32 as
frequency, and the frequency of the root is the sum of the frequencies of the
table modulo 2^32. -/
theorem buildHuffmanTree_frequency (frequencyTable : FrequencyTable)
    (hpresent : presentSymbols frequencyTable ≠ []) :
    ∃ tree, buildHuffmanTree frequencyTable = .ok tree ∧
      mergedBySum tree = true ∧
      tree.frequency
        = ((List.range FREQUENCY_TABLE_SIZE).map
            (fun index => (frequencyTable index).frequency)).sum % 2 ^ 32 := by
  have hqueue := queueOf_perm (leafList frequencyTable)
  have hne : queueOf (leafList frequencyTable) ≠ [] := by
    intro hnil
    rw [hnil] at hqueue
    have hempty := hqueue.symm.eq_nil
    have hlength : (presentSymbols frequencyTable).length = 0 := by
      have : (leafList frequencyTable).length = (presentSymbols frequencyTable).length := by
        rw [leafList_eq, List.length_map]
      rw [← this, hempty]
      rfl
    exact hpresent (List.length_eq_zero.mp hlength)
  obtain ⟨tree, hok, hfrequency, hmerged⟩ :=
    buildHuffmanLoop_frequency (queueOf (leafList frequencyTable)).length
      (queueOf (leafList frequencyTable)) hne (Nat.le_succ _) (queueOf_ascending _)
      (fun node hmem => by
        have hleaf := hqueue.subset hmem
        unfold leafList at hleaf
        obtain ⟨index, _, hsame⟩ := List.mem_map.mp hleaf
        rw [← hsame]
        exact ⟨Nat.mod_lt _ (by norm_num), rfl⟩)
  refine ⟨tree, ?_, hmerged, ?_⟩
  · unfold buildHuffmanTree
    rw [buildHuffmanQueue_eq]
    exact hok
  · rw [hfrequency, (hqueue.map HuffmanNode.frequency).sum_eq, sum_leafList]

/-- C37 (the code breaks the claim). In the table of 34 symbols with the
Fibonacci frequencies 1, 1, 2, 3, 5, ..., 5702887, every frequency fits in 32
bits and the sum is 14930351, below 2^32; yet `buildHuffmanTree` builds a tree
of depth 33 and `walkHuffmanTree` gives the symbols 0 and 1 patterns of length
33, longer than the 32 bits of the `unsigned` pattern, and for such a pattern
the loop of `huffmanCompress` starts with the shift `1 << 32`, which C leaves
undefined. -/
theorem code_length_exceeds_width :
    fibonacciFrequencies = (List.range 34).map (fun index => Nat.fib (index + 1)) ∧
    (∀ symbol, (fibonacciTable symbol).frequency < 2 ^ 32) ∧
    ((List.range FREQUENCY_TABLE_SIZE).map
      (fun symbol => (fibonacciTable symbol).frequency)).sum = 14930351 ∧
    (buildHuffmanTree fibonacciTable >>= fun tree =>
      walkHuffmanTree tree fibonacciTable 0 0).map
        (fun frequencyTable =>
          ((frequencyTable 0).huffmanBits, (frequencyTable 0).huffmanBitCount,
            (frequencyTable 1).huffmanBits, (frequencyTable 1).huffmanBitCount))
      = .ok (2, 33, 3, 33) ∧
    writePattern 2 33 (makeMemoryBlock (fun _ => 0) 1) = .error .undefinedShift := by
  refine ⟨by decide, ?_, rfl, rfl, rfl⟩
  intro symbol
  show fibonacciFrequencies.getD symbol 0 < 2 ^ 32
  by_cases hlt : symbol < fibonacciFrequencies.length
  · rw [List.getD_eq_getElem _ _ hlt]
    have hall : ∀ frequency ∈ fibonacciFrequencies, frequency < 2 ^ 32 := by decide
    exact hall _ (List.getElem_mem _)
  · rw [List.getD_eq_default _ _ (by omega)]
    norm_num

/-- C36 (the code breaks the claim). The table `skewedTable` has 34 entries in
use.  In the tree of `buildHuffmanTree` the leaf of the symbol 33 is the left
child of the root and the leaf of the symbol 0 lies 33 steps below the root,
the first step to the right; `walkHuffmanTree` keeps only 32 bits of the
pattern, so the symbol 0 gets the pattern 2 with length 33, whose first bit is
0.  The code of the symbol 33, the single bit 0, is a prefix of it, and
`getHuffmanChar`, fed with the bits of the code of the symbol 0, returns the
symbol 33 at the first bit. -/
theorem codes_not_prefix_free :
    2 ≤ (presentSymbols skewedTable).length ∧
    (buildHuffmanTree skewedTable).map
        (fun tree => (treePaths tree).filter (fun entry => entry.1 == 0 || entry.1 == 33))
      = .ok [(33, [false]),
          (0, true :: (List.replicate 30 false ++ [true, false]))] ∧
    (buildHuffmanTree skewedTable >>= fun tree =>
      walkHuffmanTree tree skewedTable 0 0).map
        (fun frequencyTable =>
          ((frequencyTable 33).huffmanBits, (frequencyTable 33).huffmanBitCount,
            (frequencyTable 0).huffmanBits, (frequencyTable 0).huffmanBitCount))
      = .ok (0, 1, 2, 33) ∧
    patternBits 0 1 = [false] ∧
    patternBits 2 33 = List.replicate 31 false ++ [true, false] ∧
    patternBits 0 1 <+: patternBits 2 33 ∧
    (buildHuffmanTree skewedTable >>= fun tree =>
      followBits tree none (patternBits 2 33)).map (fun followed => followed.1.head?)
      = .ok (some 33) := by
  refine ⟨by decide, rfl, rfl, rfl, rfl, ?_, rfl⟩
  exact ⟨List.replicate 30 false ++ [true, false], rfl⟩

theorem getHuffmanChar_node (state : Option HuffmanNode) (bitRead : Bool)
    (rootNode left right : HuffmanNode) (frequency : Nat)
    (hnode : currentNode state rootNode = .node left right frequency) :
    getHuffmanChar state bitRead rootNode
      = match (if bitRead then right else left) with
        | .leaf symbol _ => .ok (none, some symbol)
        | .node nextLeft nextRight nextFrequency =>
            .ok (some (.node nextLeft nextRight nextFrequency), none) := by
  cases state with
  | none =>
    have hroot : rootNode = .node left right frequency := hnode
    subst hroot
    rfl
  | some inner =>
    have hinner : inner = .node left right frequency := hnode
    subst hinner
    rfl

/-- Fed with the bits of the path from an internal node to a leaf,
`getHuffmanChar` returns the symbol of that leaf at the last bit, and nothing
before, and is back at the root afterwards. -/
theorem followBits_path (rootNode : HuffmanNode) (symbol : Nat) :
    ∀ (path : List Bool) (state : Option HuffmanNode),
      isInternal (currentNode state rootNode) = true →
      (symbol, path) ∈ treePaths (currentNode state rootNode) →
      followBits rootNode state path = .ok ([symbol], none) := by
  intro path
  induction path with
  | nil =>
    intro state hinternal hmem
    have := treePaths_nonempty hinternal _ hmem
    simp at this
  | cons bit rest ih =>
    intro state hinternal hmem
    cases hnode : currentNode state rootNode with
    | leaf leafSymbol leafFrequency =>
      rw [hnode] at hinternal
      cases hinternal
    | node left right frequency =>
      rw [hnode] at hmem
      have hchild : (symbol, rest) ∈ treePaths (if bit then right else left) := by
        simp only [treePaths, List.mem_append, List.mem_map, Prod.mk.injEq, List.cons.injEq]
          at hmem
        rcases hmem with ⟨entry, hentry, hsymbol, hfalse, hrest⟩ |
          ⟨entry, hentry, hsymbol, htrue, hrest⟩
        · subst hfalse
          have : entry = (symbol, rest) := Prod.ext hsymbol hrest
          rw [← this]
          exact hentry
        · subst htrue
          have : entry = (symbol, rest) := Prod.ext hsymbol hrest
          rw [← this]
          exact hentry
      rw [followBits, getHuffmanChar_node state bit rootNode left right frequency hnode]
      cases hkind : (if bit then right else left) with
      | leaf leafSymbol leafFrequency =>
        rw [hkind] at hchild
        simp only [treePaths, List.mem_singleton, Prod.mk.injEq] at hchild
        obtain ⟨hsymbol, hrest⟩ := hchild
        subst hrest
        subst hsymbol
        rfl
      | node nextLeft nextRight nextFrequency =>
        rw [hkind] at hchild
        have hnext := ih (some (.node nextLeft nextRight nextFrequency)) rfl hchild
        simp only [bind, Except.bind, hnext, pure, Except.pure]
        rfl

/-- No path from the root to a leaf is the start of the path to another leaf. -/
theorem treePaths_prefix_free :
    ∀ (tree : HuffmanNode) (first second : Nat × List Bool),
      first ∈ treePaths tree → second ∈ treePaths tree → first.2 <+: second.2 →
      first = second := by
  intro tree
  induction tree with
  | leaf symbol frequency =>
    intro first second hfirst hsecond _
    simp only [treePaths, List.mem_singleton] at hfirst hsecond
    rw [hfirst, hsecond]
  | node left right frequency ihLeft ihRight =>
    intro first second hfirst hsecond hprefix
    simp only [treePaths, List.mem_append, List.mem_map] at hfirst hsecond
    rcases hfirst with ⟨inner, hinner, hsame⟩ | ⟨inner, hinner, hsame⟩ <;>
      rcases hsecond with ⟨other, hother, hsameOther⟩ | ⟨other, hother, hsameOther⟩ <;>
      subst hsame <;> subst hsameOther <;>
      simp only [List.cons_prefix_cons] at hprefix
    · have := ihLeft inner other hinner hother hprefix.2
      rw [this]
    · simp at hprefix
    · simp at hprefix
    · have := ihRight inner other hinner hother hprefix.2
      rw [this]

/-- Every path from the root to a leaf is shorter than the number of leaves, so
a table with at most 33 entries in use gets patterns of at most 32 bits. -/
theorem code_length_lt_symbols (tree : HuffmanNode) (entry : Nat × List Bool)
    (hmem : entry ∈ treePaths tree) : entry.2.length < (leafSymbols tree).length :=
  treePaths_length tree entry hmem

/-- The codes of a table with two entries in use or more, when none is longer
than the 32 bits of the pattern: `getHuffmanChar`, fed with the bits of the
code of a symbol, most significant first, returns that symbol at the last bit;
and the code of a symbol is the start of the code of no other symbol. -/
theorem codes_prefix_free (frequencyTable : FrequencyTable)
    (hindex : ∀ index, (frequencyTable index).symbol = index)
    (hfresh : ∀ index, (frequencyTable index).huffmanBits = 0 ∧
      (frequencyTable index).huffmanBitCount = 0)
    (htwo : 2 ≤ (presentSymbols frequencyTable).length) :
    ∃ tree walked,
      buildHuffmanTree frequencyTable = .ok tree ∧
      walkHuffmanTree tree frequencyTable 0 0 = .ok walked ∧
      ((∀ symbol ∈ presentSymbols frequencyTable, (walked symbol).huffmanBitCount ≤ 32) →
        (∀ symbol ∈ presentSymbols frequencyTable,
          followBits tree none
              (patternBits (walked symbol).huffmanBits (walked symbol).huffmanBitCount)
            = .ok ([symbol], none)) ∧
        (∀ first ∈ presentSymbols frequencyTable, ∀ second ∈ presentSymbols frequencyTable,
          patternBits (walked first).huffmanBits (walked first).huffmanBitCount
            <+: patternBits (walked second).huffmanBits (walked second).huffmanBitCount →
          first = second)) := by
  have hne : presentSymbols frequencyTable ≠ [] := by
    intro hnil
    rw [hnil] at htwo
    simp at htwo
  obtain ⟨tree, hbuild, hleaves, hinternal⟩ := buildHuffmanTree_ok frequencyTable hindex hne
  have hwalk := walkHuffmanTree_ok tree frequencyTable 0 0
    (hleaves.nodup_iff.mpr (presentSymbols_nodup _))
    (fun symbol hmem =>
      ⟨presentSymbols_lt _ symbol (hleaves.subset hmem), hindex symbol, (hfresh symbol).1,
        (hfresh symbol).2⟩)
  obtain ⟨hcodes, _⟩ := applyCodes_treeCodes frequencyTable tree hleaves
  refine ⟨tree, _, hbuild, hwalk, ?_⟩
  intro hshort
  have hpath : ∀ symbol ∈ presentSymbols frequencyTable,
      ∃ entry ∈ treePaths tree, entry.1 = symbol ∧
        patternBits (applyCodes frequencyTable (treeCodes tree 0 0) symbol).huffmanBits
          (applyCodes frequencyTable (treeCodes tree 0 0) symbol).huffmanBitCount = entry.2 := by
    intro symbol hmem
    have hleaf : symbol ∈ leafSymbols tree := hleaves.symm.subset hmem
    rw [← treePaths_symbols] at hleaf
    obtain ⟨entry, hentry, hsame⟩ := List.mem_map.mp hleaf
    have hcode := hcodes entry hentry
    rw [hsame] at hcode
    have hlength : entry.2.length ≤ 32 := by
      have := hshort symbol hmem
      rw [hcode] at this
      exact this
    refine ⟨entry, hentry, hsame, ?_⟩
    rw [hcode]
    exact patternBits_extendPattern entry.2 0 hlength
  constructor
  · intro symbol hmem
    obtain ⟨entry, hentry, hsame, hbits⟩ := hpath symbol hmem
    rw [hbits]
    apply followBits_path tree symbol entry.2 none (hinternal htwo)
    rw [← hsame]
    exact hentry
  · intro first hfirst second hsecond hprefix
    obtain ⟨entryFirst, hentryFirst, hsameFirst, hbitsFirst⟩ := hpath first hfirst
    obtain ⟨entrySecond, hentrySecond, hsameSecond, hbitsSecond⟩ := hpath second hsecond
    rw [hbitsFirst, hbitsSecond] at hprefix
    have := treePaths_prefix_free tree entryFirst entrySecond hentryFirst hentrySecond hprefix
    rw [← hsameFirst, ← hsameSecond, this]

/-- The codes of `codes_prefix_free` for the table of the two bytes 0x41,
0x42. -/
theorem codes_prefix_free_sample :
    (buildHuffmanTree (populateFrequencyTable sampleTwoSymbolBlock) >>= fun tree =>
      walkHuffmanTree tree (populateFrequencyTable sampleTwoSymbolBlock) 0 0).map
        (fun walked =>
          (patternBits (walked 0x41).huffmanBits (walked 0x41).huffmanBitCount,
            patternBits (walked 0x42).huffmanBits (walked 0x42).huffmanBitCount))
      = .ok ([false], [true]) := rfl

theorem reservedPairsFile_succ (pairs : Nat) :
    reservedPairsFile (pairs + 1) = 235 :: 236 :: reservedPairsFile pairs := by
  unfold reservedPairsFile
  rw [List.replicate_succ, List.flatten_cons]
  rfl

theorem reservedPairsRuns_succ (pairs : Nat) :
    reservedPairsRuns (pairs + 1) = (235, 1) :: (236, 1) :: reservedPairsRuns pairs := by
  unfold reservedPairsRuns
  rw [List.replicate_succ, List.flatten_cons]
  rfl

theorem escapedPairs_succ (pairs : Nat) :
    escapedPairs (pairs + 1) = 236 :: 235 :: 236 :: 236 :: escapedPairs pairs := by
  unfold escapedPairs
  rw [List.replicate_succ, List.flatten_cons]
  rfl

theorem reservedPairsFile_length (pairs : Nat) :
    (reservedPairsFile pairs).length = 2 * pairs := by
  induction pairs with
  | zero => rfl
  | succ pairs ih =>
    rw [reservedPairsFile_succ, List.length_cons, List.length_cons, ih]
    omega

theorem escapedPairs_length (pairs : Nat) : (escapedPairs pairs).length = 4 * pairs := by
  induction pairs with
  | zero => rfl
  | succ pairs ih =>
    rw [escapedPairs_succ]
    simp only [List.length_cons, ih]
    omega

theorem expandRuns_reservedPairsRuns (pairs : Nat) :
    expandRuns (reservedPairsRuns pairs) = reservedPairsFile pairs := by
  induction pairs with
  | zero => rfl
  | succ pairs ih =>
    rw [reservedPairsRuns_succ, reservedPairsFile_succ, ← ih]
    simp [expandRuns]

theorem distinctNeighbours_reservedPairsRuns (pairs : Nat) :
    distinctNeighbours (reservedPairsRuns pairs) = true ∧
      distinctNeighbours ((236, 1) :: reservedPairsRuns pairs) = true := by
  induction pairs with
  | zero => exact ⟨rfl, rfl⟩
  | succ pairs ih =>
    rw [reservedPairsRuns_succ]
    have hfirst : distinctNeighbours ((235, 1) :: (236, 1) :: reservedPairsRuns pairs) = true := by
      rw [distinctNeighbours, ih.2]
      rfl
    refine ⟨hfirst, ?_⟩
    rw [distinctNeighbours, hfirst]
    rfl

theorem reservedPairsRuns_mem (pairs : Nat) :
    ∀ run ∈ reservedPairsRuns pairs, run.2 = 1 ∧ (run.1 = 235 ∨ run.1 = 236) := by
  induction pairs with
  | zero =>
    intro run hmem
    cases hmem
  | succ pairs ih =>
    intro run hmem
    rw [reservedPairsRuns_succ] at hmem
    rcases List.mem_cons.mp hmem with hsame | hrest
    · rw [hsame]
      exact ⟨rfl, Or.inl rfl⟩
    · rcases List.mem_cons.mp hrest with hsame | hlater
      · rw [hsame]
        exact ⟨rfl, Or.inr rfl⟩
      · exact ih run hlater

theorem maximalRuns_reservedPairsRuns (pairs : Nat) : MaximalRuns (reservedPairsRuns pairs) := by
  refine ⟨(distinctNeighbours_reservedPairsRuns pairs).1, ?_⟩
  intro run hmem
  obtain ⟨hlength, hbyte⟩ := reservedPairsRuns_mem pairs run hmem
  rw [hlength]
  rcases hbyte with h | h <;> rw [h] <;> norm_num

/-- What `runLengthCompress` writes for runs that are single reserved bytes, when
the cell behind the buffer holds no reserved byte: ESCAPE_SYMBOL and the byte,
run after run. -/
theorem encodeRuns_single_reserved (beyond : Nat) (hrepeat : beyond ≠ 235)
    (hescape : beyond ≠ 236) :
    ∀ runs : List (Nat × Nat), (∀ run ∈ runs, run.2 = 1 ∧ (run.1 = 235 ∨ run.1 = 236)) →
      encodeRuns beyond runs = runs.flatMap (fun run => [236, run.1]) := by
  intro runs
  induction runs with
  | nil => intro _; rfl
  | cons run rest ih =>
    intro hruns
    obtain ⟨hlength, hbyte⟩ := hruns run (List.mem_cons_self _ _)
    have hreserved : run.1 = REPEAT_SYMBOL ∨ run.1 = ESCAPE_SYMBOL := hbyte
    have hgroups := reserved_run_groups run.1 1 beyond hreserved
    have hother : beyond ≠ run.1 := by
      rcases hbyte with h | h <;> rw [h] <;> assumption
    cases rest with
    | nil =>
      rw [encodeRuns, hlength, hgroups.2.2.2.1 hother]
      rfl
    | cons next later =>
      rw [encodeRuns, hlength, hgroups.1,
        ih (fun other hmem => hruns other (List.mem_cons_of_mem _ hmem))]
      rfl

theorem flatMap_reservedPairsRuns (pairs : Nat) :
    (reservedPairsRuns pairs).flatMap (fun run => [236, run.1]) = escapedPairs pairs := by
  induction pairs with
  | zero => rfl
  | succ pairs ih =>
    rw [reservedPairsRuns_succ, escapedPairs_succ, List.flatMap_cons, List.flatMap_cons, ih]
    rfl

theorem escapedPairs_lt (pairs : Nat) : ∀ byte ∈ escapedPairs pairs, byte < 256 := by
  induction pairs with
  | zero =>
    intro byte hmem
    cases hmem
  | succ pairs ih =>
    intro byte hmem
    rw [escapedPairs_succ] at hmem
    simp only [List.mem_cons] at hmem
    rcases hmem with h | h | h | h | h
    · rw [h]; norm_num
    · rw [h]; norm_num
    · rw [h]; norm_num
    · rw [h]; norm_num
    · exact ih byte h

theorem countTable_escapedPairs (pairs : Nat) :
    countTable (escapedPairs pairs) = escapedPairsTable pairs := by
  funext symbol
  unfold countTable escapedPairsTable
  congr 1
  induction pairs with
  | zero => simp [escapedPairs]
  | succ pairs ih =>
    rw [escapedPairs_succ]
    simp only [List.count_cons, ih]
    by_cases h235 : symbol = 235
    · subst h235
      simp
      try omega
    · by_cases h236 : symbol = 236
      · subst h236
        simp
        try omega
      · have hne1 : ¬ 235 = symbol := fun h => h235 h.symm
        have hne2 : ¬ 236 = symbol := fun h => h236 h.symm
        simp [h235, h236, hne1, hne2]

/-- The run-length stage on the file of `pairs` times 235, 236, which is shorter
than 2^32 bytes: it returns a block twice as long, in which the byte 236 occurs
3 * `pairs` times and the byte 235 `pairs` times. -/
theorem runLengthCompress_reservedPairs (heap : Nat → Nat) (pairs : Nat)
    (hfit : 2 * pairs < 2 ^ 32) :
    ∃ outputBlock, runLengthCompress heap (reservedPairsBlock pairs) = .ok outputBlock ∧
      contents outputBlock = escapedPairs pairs ∧
      outputBlock.usedSize = 4 * pairs ∧
      outputBlock.encoding = ENCODING_RUN_LENGTH ∧
      populateFrequencyTable outputBlock = escapedPairsTable pairs := by
  have hlength : (reservedPairsFile pairs).length < 2 ^ 32 := by
    rw [reservedPairsFile_length]
    exact hfit
  have hheld : contents (reservedPairsBlock pairs) = expandRuns (reservedPairsRuns pairs) := by
    rw [expandRuns_reservedPairsRuns]
    exact contents_mapUncompressedFile _ _ hlength
  have hsize : (reservedPairsBlock pairs).allocatedSize = (reservedPairsBlock pairs).usedSize :=
    rfl
  have hencoding : (reservedPairsBlock pairs).encoding = 0 := rfl
  have hclear : isRleCompressed (reservedPairsBlock pairs) = false := by
    rw [isRleCompressed_eq_testBit, hencoding]
    rfl
  obtain ⟨outputBlock, hok, hcontents⟩ :=
    runLengthCompress_runs heap (reservedPairsBlock pairs) (reservedPairsRuns pairs)
      (maximalRuns_reservedPairsRuns pairs) hheld hsize hclear
  have hbeyond : (reservedPairsBlock pairs).address (reservedPairsBlock pairs).allocatedSize
      = 0 := by
    have hcapacity : (reservedPairsBlock pairs).allocatedSize = (reservedPairsFile pairs).length :=
      Nat.mod_eq_of_lt hlength
    rw [hcapacity]
    show mappedMemory (reservedPairsFile pairs) (fun _ => 0) (reservedPairsFile pairs).length = 0
    unfold mappedMemory
    rw [if_neg (Nat.lt_irrefl _)]
  rw [hbeyond, encodeRuns_single_reserved 0 (by norm_num) (by norm_num) _
    (reservedPairsRuns_mem pairs), flatMap_reservedPairsRuns] at hcontents
  refine ⟨outputBlock, hok, hcontents, ?_, ?_, ?_⟩
  · rw [← contents_length, hcontents, escapedPairs_length]
  · rw [runLengthCompress_encoding hok, hencoding]
    rfl
  · rw [populateFrequencyTable_eq outputBlock (by rw [hcontents]; exact escapedPairs_lt pairs),
      hcontents, countTable_escapedPairs]

/-- C24 (the code breaks the claim). The file of 3 * 2^29 times the two bytes
235, 236 has 3 * 2^30 bytes, fewer than 2^32.  `runLengthCompress` writes each
of its bytes behind an ESCAPE_SYMBOL, so the block that it returns, the input of
the Huffman stage, is not empty and holds the byte 236 2^32 + 2^29 times.
`populateFrequencyTable` counts that, `writeFrequencyTableToBlock` writes the
count in 5 bytes, and `readFrequencyTableFromBlock` then shifts the fifth byte,
an `int`, by 32 bits, which C leaves undefined: no table comes back from which
the tree could be rebuilt. -/
theorem tree_rebuild_fails (heap : Nat → Nat) :
    (reservedPairsFile (3 * 2 ^ 29)).length = 3 * 2 ^ 30 ∧
    ∃ rleBlock,
      runLengthCompress heap (reservedPairsBlock (3 * 2 ^ 29)) = .ok rleBlock ∧
      rleBlock.usedSize = 3 * 2 ^ 31 ∧
      (populateFrequencyTable rleBlock 235).frequency = 3 * 2 ^ 29 ∧
      (populateFrequencyTable rleBlock 236).frequency = 2 ^ 32 + 2 ^ 29 ∧
      buildHuffmanTree (populateFrequencyTable rleBlock)
        = .ok (.node (.leaf 235 (3 * 2 ^ 29)) (.leaf 236 (2 ^ 29)) (2 ^ 31)) ∧
      (writeFrequencyTableToBlock (populateFrequencyTable rleBlock)
          (makeMemoryBlock (fun _ => 0) 1)).map contents
        = .ok [1, 235, 4, 0, 0, 0, 96, 236, 5, 0, 0, 0, 32, 1] ∧
      (writeFrequencyTableToBlock (populateFrequencyTable rleBlock)
        (makeMemoryBlock (fun _ => 0) 1) >>= readFrequencyTableFromBlock)
        = .error .undefinedShift := by
  obtain ⟨rleBlock, hok, _, hused, _, htable⟩ :=
    runLengthCompress_reservedPairs heap (3 * 2 ^ 29) (by norm_num)
  refine ⟨?_, rleBlock, hok, ?_, ?_⟩
  · rw [reservedPairsFile_length]
    norm_num
  · rw [hused]
    norm_num
  · rw [htable]
    exact ⟨rfl, rfl, rfl, rfl, rfl⟩

/-- C31 (the code breaks the claim). The frequency of a tree node is an
`unsigned`, while the table counts in a `size_t`.  The file of 2^30 times the
two bytes 235, 236 has 2^31 bytes; `runLengthCompress` turns it into a block of
2^32 bytes, in which 235 occurs 2^30 times and 236 3 * 2^30 times.  The
frequencies of the table of that block sum to 2^32, its length, but the node
that `buildHuffmanTree` makes of the two leaves, the root, has the frequency 0,
not the sum 2^32 of the frequencies of its children. -/
theorem tree_frequency_wraps (heap : Nat → Nat) :
    (reservedPairsFile (2 ^ 30)).length = 2 ^ 31 ∧
    ∃ rleBlock,
      runLengthCompress heap (reservedPairsBlock (2 ^ 30)) = .ok rleBlock ∧
      rleBlock.usedSize = 2 ^ 32 ∧
      ((List.range FREQUENCY_TABLE_SIZE).map
        (fun index => (populateFrequencyTable rleBlock index).frequency)).sum = 2 ^ 32 ∧
      buildHuffmanQueue (populateFrequencyTable rleBlock)
        = [.leaf 235 (2 ^ 30), .leaf 236 (3 * 2 ^ 30)] ∧
      buildHuffmanTree (populateFrequencyTable rleBlock)
        = .ok (.node (.leaf 236 (3 * 2 ^ 30)) (.leaf 235 (2 ^ 30)) 0) := by
  obtain ⟨rleBlock, hok, _, hused, _, htable⟩ :=
    runLengthCompress_reservedPairs heap (2 ^ 30) (by norm_num)
  refine ⟨?_, rleBlock, hok, ?_, ?_⟩
  · rw [reservedPairsFile_length]
    norm_num
  · rw [hused]
    norm_num
  · rw [htable]
    exact ⟨rfl, rfl, rfl⟩

/-- C30 (the code breaks the claim). The file of 3 * 2^29 times the two bytes
235, 236 has 3 * 2^30 bytes, fewer than 2^32.  The block that
`runLengthCompress` returns for it has the two distinct byte values 235 and
236, the codes assigned to them are at most 32 bits long, and `huffmanCompress`
returns a block for it; but the byte 236 occurs 2^32 + 2^29 times, that block
holds the count in 5 bytes, `readFrequencyTableFromBlock` shifts the fifth
byte, an `int`, by 32 bits, which C leaves undefined, and `huffmanDecompress`
does not return the block that was compressed. -/
theorem huffman_round_trip_large_fails (heap heapHuffman heapAgain : Nat → Nat) :
    (reservedPairsFile (3 * 2 ^ 29)).length = 3 * 2 ^ 30 ∧
    ∃ rleBlock tree frequencyTable outputBlock,
      runLengthCompress heap (reservedPairsBlock (3 * 2 ^ 29)) = .ok rleBlock ∧
      235 ∈ contents rleBlock ∧ 236 ∈ contents rleBlock ∧
      isHuffmanCompressed rleBlock = false ∧
      buildHuffmanTree (populateFrequencyTable rleBlock) = .ok tree ∧
      walkHuffmanTree tree (populateFrequencyTable rleBlock) 0 0 = .ok frequencyTable ∧
      (∀ symbol ∈ contents rleBlock, (frequencyTable symbol).huffmanBitCount ≤ 32) ∧
      huffmanCompress heapHuffman rleBlock = .ok outputBlock ∧
      huffmanDecompress none heapAgain outputBlock = .error .undefinedShift := by
  obtain ⟨rleBlock, hrle, hcontents, hrleUsed, hencoding, _⟩ :=
    runLengthCompress_reservedPairs heap (3 * 2 ^ 29) (by norm_num)
  have hbytes : ∀ byte ∈ contents rleBlock, byte < 256 := by
    rw [hcontents]
    exact escapedPairs_lt _
  have hsize : rleBlock.usedSize < 2 ^ 64 := by
    rw [hrleUsed]
    norm_num
  have hclear : isHuffmanCompressed rleBlock = false := by
    rw [isHuffmanCompressed_eq_testBit, hencoding]
    rfl
  have hpresent : presentSymbols (countTable (contents rleBlock)) = [235, 236] := by
    rw [hcontents, countTable_escapedPairs]
    rfl
  have hfirst : 235 ∈ contents rleBlock := by
    rw [← mem_presentSymbols_countTable _ hbytes, hpresent]
    exact List.mem_cons_self _ _
  have hsecond : 236 ∈ contents rleBlock := by
    rw [← mem_presentSymbols_countTable _ hbytes, hpresent]
    exact List.mem_cons_of_mem _ (List.mem_cons_self _ _)
  obtain ⟨tree, frequencyTable, hbuild, hwalk, hinternal, hleaves, hcodes, _, hfields, _,
    hshort⟩ :=
    huffmanCompress_result heapHuffman rleBlock 235 236 hbytes hsize hclear hfirst hsecond
      (by norm_num)
  have htwo : (presentSymbols (countTable (contents rleBlock))).length = 2 := by
    rw [hpresent]
    rfl
  have hall : ∀ symbol ∈ contents rleBlock, (frequencyTable symbol).huffmanBitCount ≤ 32 := by
    intro symbol hmem
    have hleaf : symbol ∈ leafSymbols tree := by
      rw [hleaves.mem_iff, mem_presentSymbols_countTable _ hbytes]
      exact hmem
    rw [← treePaths_symbols] at hleaf
    obtain ⟨entry, hentry, hsame⟩ := List.mem_map.mp hleaf
    have hcode := hcodes entry hentry
    rw [hsame] at hcode
    have hlength := treePaths_length tree entry hentry
    rw [hleaves.length_eq, htwo] at hlength
    rw [hcode]
    show entry.2.length ≤ 32
    omega
  obtain ⟨outputBlock, hok, hlayout⟩ := hshort hall
  refine ⟨?_, rleBlock, tree, frequencyTable, outputBlock, hrle, hfirst, hsecond, hclear, hbuild,
    hwalk, hall, hok, ?_⟩
  · rw [reservedPairsFile_length]
    norm_num
  have hflag : isHuffmanCompressed outputBlock = true := isHuffmanCompressed_of_layout hlayout
  have hcount : (presentSymbols frequencyTable).length - 1 = 1 := by
    rw [presentSymbols_congr frequencyTable (countTable (contents rleBlock))
      (fun index => (hfields index).2), hpresent]
    rfl
  have htable : tableBytes frequencyTable = [235, 4, 0, 0, 0, 96, 236, 5, 0, 0, 0, 32, 1] := by
    rw [tableBytes_of_counts (contents rleBlock) frequencyTable
      (fun index => (hfields index).2), hcontents, countTable_escapedPairs]
    rfl
  have hheader : Holds outputBlock 0 (headerBytes frequencyTable rleBlock.usedSize) := by
    intro index hlt
    rw [Nat.zero_add]
    exact hlayout.header index hlt
  unfold headerBytes at hheader
  rw [List.append_assoc] at hheader
  obtain ⟨_, htableHeld⟩ := (holds_append _ _ _ _).mp hheader
  rw [sizeBytes_length, Nat.zero_add, htable, hcount] at htableHeld
  have hcell : ∀ index, index < 14 →
      outputBlock.address (8 + index)
        = [1, 235, 4, 0, 0, 0, 96, 236, 5, 0, 0, 0, 32, 1].getD index 0 :=
    fun index hlt => htableHeld index hlt
  have hlength : (headerBytes frequencyTable rleBlock.usedSize).length = 22 := by
    unfold headerBytes
    rw [List.append_assoc, List.length_append, sizeBytes_length, List.length_append, htable]
    rfl
  have hused := hlayout.used
  have hcapacity := hlayout.capacity
  have hreadByte := hlayout.readByte
  rw [hlength] at hused
  have hsizeRead := readBytesInFile_ok outputBlock (by omega)
  have hcountRead := readFromBlock_ok (advanceBytes outputBlock 8)
    (by show outputBlock.nextByteToRead + 8 < outputBlock.allocatedSize; omega)
  have hcountByte : (advanceBytes outputBlock 8).address (advanceBytes outputBlock 8).nextByteToRead
      = 1 := by
    show outputBlock.address (outputBlock.nextByteToRead + 8) = 1
    rw [hreadByte, Nat.zero_add]
    exact hcell 0 (by norm_num)
  have hentryBytes : entryBytes 235 (3 * 2 ^ 29) = [235, 4, 0, 0, 0, 96] := rfl
  obtain ⟨value, _, hfirstEntry⟩ :=
    readEntry_ok initFrequencyTable (advanceBytes (advanceBytes outputBlock 8) 1) 0 235
      (3 * 2 ^ 29) (by norm_num) (by norm_num)
      (by
        rw [hentryBytes]
        intro index hlt
        show outputBlock.address (outputBlock.nextByteToRead + 8 + 1 + index) = _
        rw [hreadByte]
        have hlt6 : index < 6 := hlt
        have hmoved : 0 + 8 + 1 + index = 8 + (index + 1) := by omega
        rw [hmoved, hcell (index + 1) (by omega)]
        interval_cases index <;> rfl)
      (by
        rw [hentryBytes]
        show outputBlock.nextByteToRead + 8 + 1 + 6 ≤ outputBlock.allocatedSize
        omega)
  rw [hentryBytes] at hfirstEntry
  have hsecondEntry := readEntry_long
    (setEntry initFrequencyTable 0
      { initFrequencyTable 0 with symbol := 235, frequency := value })
    (advanceBytes (advanceBytes (advanceBytes outputBlock 8) 1) [235, 4, 0, 0, 0, 96].length) 1
    (by
      show 5 ≤ outputBlock.address (outputBlock.nextByteToRead + 8 + 1 + 6 + 1)
      rw [hreadByte]
      have hmoved : 0 + 8 + 1 + 6 + 1 = 8 + 8 := by norm_num
      rw [hmoved, hcell 8 (by norm_num)]
      decide)
    (by
      show outputBlock.nextByteToRead + 8 + 1 + 6 + 7 ≤ outputBlock.allocatedSize
      omega)
  have hread : readFrequencyTableFromBlock (advanceBytes outputBlock 8)
      = .error .undefinedShift := by
    rw [readFrequencyTableFromBlock_eq, hcountRead]
    simp only [bind, Except.bind]
    rw [hcountByte]
    have hrange : List.range (1 + 1) = [0, 1] := rfl
    rw [hrange, List.foldlM_cons, hfirstEntry]
    simp only [bind, Except.bind]
    rw [List.foldlM_cons, hsecondEntry]
    rfl
  unfold huffmanDecompress
  rw [hflag, hsizeRead]
  simp only [Bool.not_true, Bool.false_eq_true, if_false, bind, Except.bind, hread]

/-- C21 (the code breaks the claim). On the one-byte input [0x41], which is not
empty, the table left by `populateFrequencyTable`, `buildHuffmanTree` and
`walkHuffmanTree` has frequency 1 and pattern length 0 for the symbol 0x41: the
tree is the single leaf, which the walk reaches with an empty pattern.  The
check inside `huffmanCompress` fires, and `huffmanCompress` stops with "Not all
characters in file have patterns". -/
theorem code_length_agreement_fails :
    contents singleSymbolBlock = [0x41] ∧
    buildHuffmanTree (populateFrequencyTable singleSymbolBlock) = .ok (.leaf 0x41 1) ∧
    (walkHuffmanTree (.leaf 0x41 1) (populateFrequencyTable singleSymbolBlock) 0 0).map
      (fun frequencyTable =>
        ((frequencyTable 0x41).frequency, (frequencyTable 0x41).huffmanBitCount)) = .ok (1, 0) ∧
    (walkHuffmanTree (.leaf 0x41 1) (populateFrequencyTable singleSymbolBlock) 0 0
      >>= checkFrequencyTable) = .error .notAllCharactersHavePatterns ∧
    huffmanCompress (fun _ => 0) singleSymbolBlock = .error .notAllCharactersHavePatterns :=
  ⟨rfl, rfl, rfl, rfl, rfl⟩

/-- C25 (the code breaks the claim). The encoding of [0x41, 0x42] that
`huffmanCompress` returns holds the entries of 0x41 and 0x42, and
`readFrequencyTableFromBlock` stores them at the indices 0 and 1: the table
read back has the symbol 0x41 at index 0 and the symbol 0x42 at index 1.  The
check that `writeFrequencyTableToBlock` makes of a table, "Frequency table out
of order", fires on that table. -/
theorem table_index_invariant_fails :
    (huffmanCompress (fun _ => 0) sampleTwoSymbolBlock).map contents
      = .ok (contents sampleHuffmanBlock) ∧
    (readBytesInFile sampleHuffmanBlock >>= fun sized =>
      readFrequencyTableFromBlock sized.2).map
        (fun restored =>
          ((restored.1 0).symbol, (restored.1 0).frequency,
            (restored.1 1).symbol, (restored.1 1).frequency)) = .ok (0x41, 1, 0x42, 1) ∧
    (readBytesInFile sampleHuffmanBlock >>= fun sized =>
      readFrequencyTableFromBlock sized.2 >>= fun restored =>
        writeFrequencyTableToBlock restored.1 (makeMemoryBlock (fun _ => 0) 1))
      = .error .frequencyTableOutOfOrder :=
  ⟨rfl, rfl, rfl⟩

/-- C34, amended. Cursor state after unflip: for every flipped block of n bytes
(at most its capacity, read cursor at its start), `unflipBitOrder` returns a
block with `usedSize` n whose write cursor is still at the start
(`nextFreeByte` 0, `nextFreeBit` 0), since `unflipBlock` stores the bytes by
direct indexing; a `writeToBlock(result, x)` after it returns the offset 0,
stores x at offset 0, whatever was there, and leaves `usedSize` 1. -/
theorem unflip_cursor (heap : Nat → Nat) (source : BlockDescriptor) (character : Nat)
    (hflipped : isFlipped source = true)
    (hsize : source.usedSize ≤ source.allocatedSize)
    (hbyte : source.nextByteToRead = 0) (hbit : source.nextBitToRead = 0) :
    ∃ outputBlock, unflipBitOrder heap source = .ok (some outputBlock) ∧
      outputBlock.usedSize = source.usedSize ∧
      outputBlock.nextFreeByte = 0 ∧ outputBlock.nextFreeBit = 0 ∧
      (writeToBlock outputBlock character).2 = 0 ∧
      (writeToBlock outputBlock character).1.usedSize = 1 ∧
      (writeToBlock outputBlock character).1.address 0 = character % 256 :=
  unflipBitOrder_cursor heap source character hflipped hsize hbyte hbit

theorem unflip_cursor_witness :
    isFlipped sampleFlippedPair = true ∧
    sampleFlippedPair.usedSize ≤ sampleFlippedPair.allocatedSize ∧
    sampleFlippedPair.nextByteToRead = 0 ∧ sampleFlippedPair.nextBitToRead = 0 ∧
    ∃ outputBlock, unflipBitOrder (fun _ => 0) sampleFlippedPair = .ok (some outputBlock) ∧
      outputBlock.usedSize = sampleFlippedPair.usedSize ∧
      outputBlock.nextFreeByte = 0 ∧ outputBlock.nextFreeBit = 0 ∧
      (writeToBlock outputBlock 0x43).2 = 0 ∧
      (writeToBlock outputBlock 0x43).1.usedSize = 1 ∧
      (writeToBlock outputBlock 0x43).1.address 0 = 0x43 % 256 :=
  ⟨rfl, by decide, rfl, rfl,
    unflip_cursor (fun _ => 0) sampleFlippedPair 0x43 rfl (by decide) rfl rfl⟩

end JLCompress
